import Mathlib

/-!
# Verification of the FBP parser (`package fbp`)

A shallow embedding of `parser.go` (the semantic builder `BaseFbp`) and of
`grammar.peg.go` (the generated packrat engine, the FBP productions and the
replay `Execute`), followed by the theorems settled about them.

Conventions of the embedding.

* A Go `string` is an immutable byte sequence: `GoString := List UInt8`.
  `str "abc"` is the Go constant `"abc"` (the UTF-8 bytes of the text).
* A Go pointer that may be `nil` (`*Endpoint`) is an `Option`; no pointee is
  mutated after it has been stored, so sharing is not observable.
* A Go `map[string]V` is an association list with one entry per key
  (`GoMap V`); a `nil` map is `none`.
* A method with receiver `self *BaseFbp` is a function `BaseFbp → BaseFbp`
  (or `→ Except Fault BaseFbp` when the Go code can panic).
* Go `int` values that stay small and non-negative (cursor, record count,
  depth) are `Nat`; the fields of a record (`int16`, `int32`) are `Int`
  wrapped explicitly to their width.
-/

namespace fbp

/-! ## Go strings and the `strings` functions used by the builder -/

/-- Go `string`: a sequence of bytes. -/
abbrev GoString := List UInt8

/-- The Go string constant with the given text: its UTF-8 bytes. -/
def str (s : String) : GoString := s.data.flatMap String.utf8EncodeChar

/-- What can stop a run: the Go run-time panics the code can raise, and the
step bound of the model (loops and recursion are unrolled up to a bound). -/
inductive Fault where
  | indexOutOfRange
  | sliceOutOfRange
  | nilDereference
  | outOfFuel
deriving DecidableEq, Repr

deriving instance DecidableEq for Except

/-- Go slice expression `s[lo:hi]` on a string, with `int` operands: panics
unless `0 ≤ lo ≤ hi ≤ len(s)`. -/
def slice (s : GoString) (lo hi : Int) : Except Fault GoString :=
  if 0 ≤ lo ∧ lo ≤ hi ∧ hi ≤ (s.length : Int) then
    .ok ((s.drop lo.toNat).take (hi.toNat - lo.toNat))
  else .error .sliceOutOfRange

/-- Go index expression `xs[i]` on a slice: panics when `i` is out of range. -/
def indexAt {α : Type} (xs : List α) (i : Nat) : Except Fault α :=
  match xs.get? i with
  | some x => .ok x
  | none => .error .indexOutOfRange

/-- Function `strings.SplitN(s, sep, n)` for a one-byte separator and `n ≥ 0`: at most
`n` pieces, the last one being the unsplit remainder. -/
def strings.SplitN (s : GoString) (sep : UInt8) : Nat → List GoString
  | 0 => []
  | 1 => [s]
  | n + 2 =>
    match s.span (fun b => b != sep) with
    | (a, []) => [a]
    | (a, _ :: rest) => a :: strings.SplitN rest sep (n + 1)

/-- Function `strings.Split(s, sep)` for a one-byte separator: all the pieces, that is
`SplitN` with `Count(s, sep) + 1` pieces. -/
def strings.Split (s : GoString) (sep : UInt8) : List GoString :=
  strings.SplitN s sep (s.count sep + 1)

/-- The code points for which `unicode.IsSpace` holds. -/
def unicode.spaces : List Char :=
  ['\t', '\n', Char.ofNat 0x0B, Char.ofNat 0x0C, '\r', ' ', Char.ofNat 0x85, Char.ofNat 0xA0,
   Char.ofNat 0x1680, Char.ofNat 0x2000, Char.ofNat 0x2001, Char.ofNat 0x2002,
   Char.ofNat 0x2003, Char.ofNat 0x2004, Char.ofNat 0x2005, Char.ofNat 0x2006,
   Char.ofNat 0x2007, Char.ofNat 0x2008, Char.ofNat 0x2009, Char.ofNat 0x200A,
   Char.ofNat 0x2028, Char.ofNat 0x2029, Char.ofNat 0x202F, Char.ofNat 0x205F,
   Char.ofNat 0x3000]

/-- The UTF-8 encodings of the white space code points. -/
def unicode.spaceBytes : List GoString := unicode.spaces.map String.utf8EncodeChar

/-- Drop one leading white space character, if the string starts with one:
the first rune decoded from `s` is a space exactly when `s` starts with the
encoding of a space. -/
def strings.dropSpace (s : GoString) : Option GoString :=
  (unicode.spaceBytes.find? (fun e => e.isPrefixOf s)).map (fun e => s.drop e.length)

/-- Function `strings.TrimLeftFunc(s, unicode.IsSpace)`; the bound is the length of `s`. -/
def strings.trimLeft : Nat → GoString → GoString
  | 0, s => s
  | n + 1, s =>
    match strings.dropSpace s with
    | some t => strings.trimLeft n t
    | none => s

/-- Drop one trailing white space character, if the string ends with one. -/
def strings.dropLastSpace (s : GoString) : Option GoString :=
  (unicode.spaceBytes.find? (fun e => e.isSuffixOf s)).map
    (fun e => s.take (s.length - e.length))

/-- Function `strings.TrimRightFunc(s, unicode.IsSpace)`; the bound is the length of `s`. -/
def strings.trimRight : Nat → GoString → GoString
  | 0, s => s
  | n + 1, s =>
    match strings.dropLastSpace s with
    | some t => strings.trimRight n t
    | none => s

/-- Function `strings.TrimSpace(s)`: `s` without leading and trailing white space. -/
def strings.TrimSpace (s : GoString) : GoString :=
  let t := strings.trimLeft s.length s
  strings.trimRight t.length t

/-! ## Go maps -/

/-- Go `map[string]V` as an association list holding each key at most once. -/
abbrev GoMap (V : Type) := List (GoString × V)

/-- Map read `m[k]` with the comma-ok form: the value stored under `k`, if any. -/
def GoMap.get {V : Type} (m : GoMap V) (k : GoString) : Option V :=
  match m with
  | [] => none
  | (k0, v0) :: rest => if k0 = k then some v0 else GoMap.get rest k

/-- Map assignment `m[k] = v`: overwrite the entry of `k`, or add one. -/
def GoMap.set {V : Type} (m : GoMap V) (k : GoString) (v : V) : GoMap V :=
  match m with
  | [] => [(k, v)]
  | (k0, v0) :: rest => if k0 = k then (k, v) :: rest else (k0, v0) :: GoMap.set rest k v

/-! ## The graph model and the builder (`parser.go`) -/

/-- Process of FBP flow. -/
structure Process where
  Name : GoString
  Component : GoString
  Metadata : Option (GoMap GoString)
deriving DecidableEq, Repr

/-- Endpoint (in/out port of a Process). -/
structure Endpoint where
  Process : GoString
  Port : GoString
deriving DecidableEq, Repr

/-- Connection (arc) between endpoints. -/
structure Connection where
  Data : GoString
  Source : Option Endpoint
  Target : Option Endpoint
deriving DecidableEq, Repr

/-- Base structure for FBP parser to inherit.

Modelled from the spec: the scratch fields `index`, `inPortIndex` and
`outPortIndex`, which `Execute` assigns but whose declaration is not part of
`parser.go`; the spec lists them as the index scratch of the builder. -/
structure BaseFbp where
  iip : GoString
  port : GoString
  inPort : GoString
  outPort : GoString
  nodeProcessName : GoString
  nodeComponentName : GoString
  nodeMeta : GoString
  srcEndpoint : Option Endpoint
  tgtEndpoint : Option Endpoint
  index : GoString
  inPortIndex : GoString
  outPortIndex : GoString
  Subgraph : GoString
  Processes : List Process
  Connections : List Connection
  Inports : Option (GoMap Endpoint)
  Outports : Option (GoMap Endpoint)
deriving DecidableEq, Repr

/-- The zero value of `BaseFbp` with the given `Subgraph`: what `&Fbp{...}`
holds before anything is replayed. -/
def BaseFbp.empty (subgraph : GoString) : BaseFbp :=
  { iip := [], port := [], inPort := [], outPort := [], nodeProcessName := [],
    nodeComponentName := [], nodeMeta := [], srcEndpoint := none, tgtEndpoint := none,
    index := [], inPortIndex := [], outPortIndex := [], Subgraph := subgraph,
    Processes := [], Connections := [], Inports := none, Outports := none }

def BaseFbp.createProcessName (self : BaseFbp) (name : GoString) : GoString :=
  if self.Subgraph ≠ [] then self.Subgraph ++ str "_" ++ name else name

def BaseFbp.createLeftlet (self : BaseFbp) : BaseFbp :=
  { self with
    srcEndpoint := some { Process := self.createProcessName self.nodeProcessName,
                          Port := self.port }
    nodeProcessName := []
    port := [] }

def BaseFbp.createRightlet (self : BaseFbp) : BaseFbp :=
  let tgtEndpoint : Option Endpoint :=
    some { Process := self.createProcessName self.nodeProcessName, Port := self.port }
  let connection : Connection :=
    if self.srcEndpoint ≠ none then
      { Data := [], Source := self.srcEndpoint, Target := tgtEndpoint }
    else
      { Data := self.iip, Source := none, Target := tgtEndpoint }
  { self with
    Connections := self.Connections ++ [connection]
    nodeProcessName := []
    port := []
    srcEndpoint := none
    tgtEndpoint := none
    iip := [] }

def BaseFbp.createMiddlet (self : BaseFbp) : BaseFbp :=
  let tgtEndpoint : Option Endpoint :=
    some { Process := self.createProcessName self.nodeProcessName, Port := self.inPort }
  let connection : Connection :=
    if self.srcEndpoint ≠ none then
      { Data := [], Source := self.srcEndpoint, Target := tgtEndpoint }
    else
      { Data := self.iip, Source := none, Target := tgtEndpoint }
  BaseFbp.createLeftlet
    { self with
      tgtEndpoint := tgtEndpoint
      Connections := self.Connections ++ [connection]
      port := self.outPort
      inPort := []
      outPort := [] }

def BaseFbp.processExists (self : BaseFbp) (name : GoString) : Bool :=
  self.Processes.any (fun ps => ps.Name = self.createProcessName name)

/-- The loop `for _, v := range pairs` of `createNode`, filling the map `m`. -/
def BaseFbp.metaPairs (m : GoMap GoString) : List GoString → GoMap GoString
  | [] => m
  | v :: pairs =>
    let kv := strings.SplitN v (61 : UInt8) 2
    if kv.length < 2 then
      BaseFbp.metaPairs (m.set (strings.TrimSpace (kv.getD 0 [])) []) pairs
    else
      BaseFbp.metaPairs
        (m.set (strings.TrimSpace (kv.getD 0 [])) (strings.TrimSpace (kv.getD 1 []))) pairs

def BaseFbp.createNode (self : BaseFbp) : BaseFbp :=
  if self.nodeComponentName ≠ [] ∧ self.processExists self.nodeProcessName = false then
    let process : Process :=
      { Name := self.createProcessName self.nodeProcessName
        Component := self.nodeComponentName
        Metadata :=
          if self.nodeMeta ≠ [] then
            some (BaseFbp.metaPairs [] (strings.Split self.nodeMeta (44 : UInt8)))
          else none }
    { self with nodeMeta := [], Processes := self.Processes ++ [process] }
  else self

/-- Returns the exported name and the endpoint; `(_, none)` is the Go result
`"", nil`. Indexing `parts[1]` panics when the text before `:` has no `.`. -/
def BaseFbp.parseExportedPort (self : BaseFbp) (s : GoString) :
    Except Fault (GoString × Option Endpoint) :=
  let parts := strings.Split s (58 : UInt8)
  if parts.length ≠ 2 then .ok ([], none)
  else do
    let name := strings.TrimSpace (parts.getD 1 [])
    let parts := strings.Split (parts.getD 0 []) (46 : UInt8)
    let port ← indexAt parts 1
    let process ← indexAt parts 0
    .ok (name, some { Port := strings.TrimSpace port,
                      Process := self.createProcessName (strings.TrimSpace process) })

def BaseFbp.createInport (self : BaseFbp) (s : GoString) : Except Fault BaseFbp := do
  let (port, endpoint) ← self.parseExportedPort s
  match endpoint with
  | none => .ok self
  | some e => .ok { self with Inports := some (((self.Inports).getD []).set port e) }

def BaseFbp.createOutport (self : BaseFbp) (s : GoString) : Except Fault BaseFbp := do
  let (port, endpoint) ← self.parseExportedPort s
  match endpoint with
  | none => .ok self
  | some e => .ok { self with Outports := some (((self.Outports).getD []).set port e) }


/-! ## Records and the record store (`grammar.peg.go`) -/

/-- The rule types inferred from the grammar. -/
inductive pegRule where
  | ruleUnknown | rulestart | ruleline | ruleLineTerminator | rulecomment
  | ruleconnection | rulebridge | ruleleftlet | ruleiip | rulerightlet | rulenode
  | rulecomponent | rulecompMeta | ruleport | ruleportWithIndex | ruleanychar
  | ruleiipchar | rule_ | rule__ | rulePegText
  | ruleAction0 | ruleAction1 | ruleAction2 | ruleAction3 | ruleAction4
  | ruleAction5 | ruleAction6 | ruleAction7 | ruleAction8 | ruleAction9
  | ruleAction10 | ruleAction11 | ruleAction12 | ruleAction13 | ruleAction14
  | rulePre_ | rule_In_ | rule_Suf
deriving DecidableEq, Repr

/-- Go conversion `int16(n)`: the value wrapped to 16 bits, two's complement. -/
def int16 (n : Int) : Int := (n + 32768) % 65536 - 32768

/-- Go conversion `int32(n)`: the value wrapped to 32 bits, two's complement. -/
def int32 (n : Int) : Int := (n + 2147483648) % 4294967296 - 2147483648

/-- Record of the compact store; `next` holds the nesting depth. The fields
`begin`, `end_`, `next` are `int16` values. -/
structure token16 where
  pegRule : pegRule
  begin : Int
  end_ : Int
  next : Int
deriving DecidableEq, Repr

/-- Record of the wide store; `next` holds the nesting depth. The fields
`begin`, `end_`, `next` are `int32` values. -/
structure token32 where
  pegRule : pegRule
  begin : Int
  end_ : Int
  next : Int
deriving DecidableEq, Repr

def token16.getToken32 (t : token16) : token32 :=
  { pegRule := t.pegRule, begin := int32 t.begin, end_ := int32 t.end_, next := int32 t.next }

def token32.getToken32 (t : token32) : token32 :=
  { pegRule := t.pegRule, begin := int32 t.begin, end_ := int32 t.end_, next := int32 t.next }

/-- The zero value of `token16`, which `make` fills a fresh slice with. -/
def token16.zero : token16 := { pegRule := .ruleUnknown, begin := 0, end_ := 0, next := 0 }

/-- The zero value of `token32`, which `make` fills a fresh slice with. -/
def token32.zero : token32 := { pegRule := .ruleUnknown, begin := 0, end_ := 0, next := 0 }

/-- Assignment `xs[i] = x` on a slice of length `len` whose slots from
`xs.length` on still hold the zero value `z`: only the written front of the
slice is kept. -/
def setSlot {α : Type} (z : α) (xs : List α) (i : Nat) (x : α) : List α :=
  if i < xs.length then xs.set i x else xs ++ List.replicate (i - xs.length) z ++ [x]

/-- The compact store. The Go slice `tree` has length `len`; its slots are
those of the list `tree`, followed by zero records up to `len`. -/
structure tokens16 where
  len : Nat
  tree : List token16
deriving DecidableEq, Repr

/-- The wide store, represented like the compact one. -/
structure tokens32 where
  len : Nat
  tree : List token32
deriving DecidableEq, Repr

/-- The slots of the Go slice `t.tree`, all `len` of them. -/
def tokens16.slots (t : tokens16) : List token16 :=
  (t.tree ++ List.replicate (t.len - t.tree.length) token16.zero).take t.len

/-- The slots of the Go slice `t.tree`, all `len` of them. -/
def tokens32.slots (t : tokens32) : List token32 :=
  (t.tree ++ List.replicate (t.len - t.tree.length) token32.zero).take t.len

def tokens16.trim (t : tokens16) (length : Nat) : tokens16 :=
  { len := length, tree := t.tree.take length }

def tokens32.trim (t : tokens32) (length : Nat) : tokens32 :=
  { len := length, tree := t.tree.take length }

def tokens16.Add (t : tokens16) (rule : pegRule) (begin end_ depth index : Nat) :
    Except Fault tokens16 :=
  if index < t.len then
    .ok { t with
          tree := setSlot token16.zero t.tree index
            (token16.mk rule (int16 begin) (int16 end_) (int16 depth)) }
  else .error .indexOutOfRange

def tokens32.Add (t : tokens32) (rule : pegRule) (begin end_ depth index : Nat) :
    Except Fault tokens32 :=
  if index < t.len then
    .ok { t with
          tree := setSlot token32.zero t.tree index
            (token32.mk rule (int32 begin) (int32 end_) (int32 depth)) }
  else .error .indexOutOfRange

/-- The records sent on the channel returned by `Tokens()`, in order. -/
def tokens16.Tokens (t : tokens16) : List token32 := t.slots.map token16.getToken32

/-- The records sent on the channel returned by `Tokens()`, in order. -/
def tokens32.Tokens (t : tokens32) : List token32 := t.slots.map token32.getToken32

/-- Growth of the compact store: the wide store it returns, or `none` for the
Go result `nil`. -/
def tokens16.Expand (t : tokens16) (index : Nat) : Option tokens32 :=
  if index ≥ t.len then
    some { len := 2 * t.len, tree := t.tree.map token16.getToken32 }
  else none

/-- Growth of the wide store, in place: the receiver after the call (the Go
result is always `nil`). -/
def tokens32.Expand (t : tokens32) (index : Nat) : tokens32 :=
  if index ≥ t.len then { t with len := 2 * t.len } else t

/-- The interface `tokenTree`, implemented by the two stores. -/
inductive tokenTree where
  | compact (t : tokens16)
  | wide (t : tokens32)
deriving DecidableEq, Repr

/-- Method `Expand` through the interface: the receiver after the call and the
returned store (`none` for `nil`). -/
def tokenTree.Expand (t : tokenTree) (index : Nat) : tokenTree × Option tokenTree :=
  match t with
  | .compact t16 => (.compact t16, (t16.Expand index).map tokenTree.wide)
  | .wide t32 => (.wide (t32.Expand index), none)

def tokenTree.Add (t : tokenTree) (rule : pegRule) (begin end_ depth index : Nat) :
    Except Fault tokenTree :=
  match t with
  | .compact t16 => (t16.Add rule begin end_ depth index).map tokenTree.compact
  | .wide t32 => (t32.Add rule begin end_ depth index).map tokenTree.wide

def tokenTree.Tokens (t : tokenTree) : List token32 :=
  match t with
  | .compact t16 => t16.Tokens
  | .wide t32 => t32.Tokens

def tokenTree.trim (t : tokenTree) (length : Nat) : tokenTree :=
  match t with
  | .compact t16 => .compact (t16.trim length)
  | .wide t32 => .wide (t32.trim length)

/-! ## The matching engine: the closures created by `Init` -/

def end_symbol : Nat := 4

/-- The variables shared by the closures of `Init`: the cursor, the nesting
depth, the record count and the store. -/
structure Engine where
  position : Nat
  tokenIndex : Nat
  depth : Nat
  tree : tokenTree
deriving DecidableEq, Repr

/-- A fragment of a rule body: run from an engine state, it either falls
through (`true`) or jumps to the failure label in force (`false`), leaving the
state it has reached; a panic or the step bound ends the run. -/
abbrev Code := Engine → Except Fault (Bool × Engine)

/-- The assignment `position, tokenIndex, depth = position0, tokenIndex0, depth0`
found at every failure label: `s0` is the state the snapshot was taken in. -/
def restore (s0 s : Engine) : Engine :=
  { s with position := s0.position, tokenIndex := s0.tokenIndex, depth := s0.depth }

/-- The closure `add` of `Init`. -/
def add (rule : pegRule) (begin : Nat) : Code := fun s =>
  let (recv, t) := s.tree.Expand s.tokenIndex
  let tree := match t with
    | some t => t
    | none => recv
  match tree.Add rule begin s.position s.depth s.tokenIndex with
  | .error f => .error f
  | .ok tree => .ok (true, { s with tree := tree, tokenIndex := s.tokenIndex + 1 })

/-- The closure `matchDot` of `Init`. -/
def matchDot (buffer : List Nat) : Code := fun s =>
  match indexAt buffer s.position with
  | .error f => .error f
  | .ok c =>
    if c ≠ end_symbol then .ok (true, { s with position := s.position + 1 })
    else .ok (false, s)

/-- The test `if buffer[position] != rune(c) { goto fail }; position++`. -/
def matchChar (buffer : List Nat) (c : Char) : Code := fun s =>
  match indexAt buffer s.position with
  | .error f => .error f
  | .ok r =>
    if r ≠ c.toNat then .ok (false, s)
    else .ok (true, { s with position := s.position + 1 })

/-- The test `if c := buffer[position]; c < rune(lo) || c > rune(hi) { goto fail }; position++`. -/
def matchRange (buffer : List Nat) (lo hi : Char) : Code := fun s =>
  match indexAt buffer s.position with
  | .error f => .error f
  | .ok r =>
    if r < lo.toNat ∨ r > hi.toNat then .ok (false, s)
    else .ok (true, { s with position := s.position + 1 })

/-- Statements in sequence: the first jump to the failure label ends them. -/
def seq : List Code → Code
  | [] => fun s => .ok (true, s)
  | c :: cs => fun s =>
    match c s with
    | .error f => .error f
    | .ok (true, s1) => seq cs s1
    | .ok (false, s1) => .ok (false, s1)

/-- Ordered choice: a snapshot is taken; each alternative but the last jumps,
on failure, to a label that restores the snapshot and tries the next one; the
last alternative fails to the enclosing failure label. -/
def choice : List Code → Code
  | [] => fun s => .ok (false, s)
  | [c] => c
  | c :: d :: cs => fun s =>
    match c s with
    | .error f => .error f
    | .ok (true, s1) => .ok (true, s1)
    | .ok (false, s1) => choice (d :: cs) (restore s s1)

/-- Repetition `e*`: the loop `l: snapshot; e; goto l` left through the label
that restores the snapshot of the failed round. At most `fuel` rounds are run. -/
def star : Nat → Code → Code
  | 0, _ => fun _ => .error .outOfFuel
  | fuel + 1, c => fun s =>
    match c s with
    | .error f => .error f
    | .ok (true, s1) => star fuel c s1
    | .ok (false, s1) => .ok (true, restore s s1)

/-- Repetition `e+`: the body once, then the loop of `e*`. -/
def plus (fuel : Nat) (c : Code) : Code := seq [c, star fuel c]

/-- Option `e?`: a failure of the body restores the snapshot and goes on. -/
def opt (c : Code) : Code := fun s =>
  match c s with
  | .error f => .error f
  | .ok (true, s1) => .ok (true, s1)
  | .ok (false, s1) => .ok (true, restore s s1)

/-- Negative lookahead `!e`: when the body matches, jump to the enclosing
failure label; when it fails, restore the snapshot and go on. -/
def notP (c : Code) : Code := fun s =>
  match c s with
  | .error f => .error f
  | .ok (true, s1) => .ok (false, s1)
  | .ok (false, s1) => .ok (true, restore s s1)

/-- The frame `position1 := position; depth++; body; depth--; add(rule, position1)`
of a rule or of a captured text `< >`. -/
def tagged (rule : pegRule) (body : Code) : Code := fun s =>
  match body { s with depth := s.depth + 1 } with
  | .error f => .error f
  | .ok (true, s1) => add rule s.position { s1 with depth := s1.depth - 1 }
  | .ok (false, s1) => .ok (false, s1)

/-- The frame of a rule function: `return true` after the body, and the label
that restores the entry snapshot before `return false`. -/
def ruleFn (body : Code) : Code := fun s =>
  match body s with
  | .error f => .error f
  | .ok (true, s1) => .ok (true, s1)
  | .ok (false, s1) => .ok (false, restore s s1)

/-- An action record: `add(ruleActionN, position)`. -/
def action (rule : pegRule) : Code := fun s => add rule s.position s


/-! ## The FBP productions: the table `rules` built by `Init`

Each rule is written with the frames above, in the order of the generated
code; `buffer` is the rune buffer and `fuel` the bound on the rounds of each
loop. A rule that the generator inlined has no `ruleFn` frame. -/

/-- Rule 16, `_ <- <(' ' / '\t')*>`; its function has no failure label. -/
def rules.rule_ (buffer : List Nat) (fuel : Nat) : Code :=
  tagged .rule_ (star fuel (choice [matchChar buffer ' ', matchChar buffer '\t']))

/-- Rule 17, `__ <- <(' ' / '\t')+>`. -/
def rules.rule__ (buffer : List Nat) (fuel : Nat) : Code :=
  ruleFn (tagged .rule__ (plus fuel (choice [matchChar buffer ' ', matchChar buffer '\t'])))

/-- Rule 14 (inlined), `anychar <- <(!('\n' / '\r') .)>`. -/
def rules.anychar (buffer : List Nat) : Code :=
  tagged .ruleanychar
    (seq [notP (choice [matchChar buffer '\n', matchChar buffer '\r']), matchDot buffer])

/-- Rule 3, `comment <- <(_ '#' anychar*)>`. -/
def rules.comment (buffer : List Nat) (fuel : Nat) : Code :=
  ruleFn (tagged .rulecomment
    (seq [rules.rule_ buffer fuel, matchChar buffer '#', star fuel (rules.anychar buffer)]))

/-- Rule 2, `LineTerminator <- <(_ ','? comment? ('\n' / '\r')?)>`. -/
def rules.LineTerminator (buffer : List Nat) (fuel : Nat) : Code :=
  ruleFn (tagged .ruleLineTerminator
    (seq [rules.rule_ buffer fuel, opt (matchChar buffer ','), opt (rules.comment buffer fuel),
          opt (choice [matchChar buffer '\n', matchChar buffer '\r'])]))

/-- Rule 12, `port <- <(<([A-Z] / '.' / [0-9] / '_')+> __ Action12)>`. -/
def rules.port (buffer : List Nat) (fuel : Nat) : Code :=
  ruleFn (tagged .ruleport
    (seq [tagged .rulePegText
            (plus fuel (choice [matchRange buffer 'A' 'Z', matchChar buffer '.',
                                matchRange buffer '0' '9', matchChar buffer '_'])),
          rules.rule__ buffer fuel, action .ruleAction12]))

/-- Rule 13,
`portWithIndex <- <(<([A-Z] / '.' / [0-9] / '_')+> Action13 '[' <[0-9]+> Action14 ']' __)>`. -/
def rules.portWithIndex (buffer : List Nat) (fuel : Nat) : Code :=
  ruleFn (tagged .ruleportWithIndex
    (seq [tagged .rulePegText
            (plus fuel (choice [matchRange buffer 'A' 'Z', matchChar buffer '.',
                                matchRange buffer '0' '9', matchChar buffer '_'])),
          action .ruleAction13, matchChar buffer '[',
          tagged .rulePegText (plus fuel (matchRange buffer '0' '9')),
          action .ruleAction14, matchChar buffer ']', rules.rule__ buffer fuel]))

/-- Rule 11 (inlined),
`compMeta <- <(':' <([a-z] / [A-Z] / '/' / '=' / '_' / ',' / [0-9])+> Action11)>`. -/
def rules.compMeta (buffer : List Nat) (fuel : Nat) : Code :=
  tagged .rulecompMeta
    (seq [matchChar buffer ':',
          tagged .rulePegText
            (plus fuel (choice [matchRange buffer 'a' 'z', matchRange buffer 'A' 'Z',
                                matchChar buffer '/', matchChar buffer '=', matchChar buffer '_',
                                matchChar buffer ',', matchRange buffer '0' '9'])),
          action .ruleAction11])

/-- Rule 10 (inlined),
`component <- <('(' <([a-z] / [A-Z] / '/' / '-' / [0-9] / '_')*> Action10 compMeta? ')')>`. -/
def rules.component (buffer : List Nat) (fuel : Nat) : Code :=
  tagged .rulecomponent
    (seq [matchChar buffer '(',
          tagged .rulePegText
            (star fuel (choice [matchRange buffer 'a' 'z', matchRange buffer 'A' 'Z',
                                matchChar buffer '/', matchChar buffer '-',
                                matchRange buffer '0' '9', matchChar buffer '_'])),
          action .ruleAction10, opt (rules.compMeta buffer fuel), matchChar buffer ')'])

/-- Rule 9, `node <- <(<([a-z] / [A-Z] / [0-9] / '_')+> Action8 component? Action9)>`. -/
def rules.node (buffer : List Nat) (fuel : Nat) : Code :=
  ruleFn (tagged .rulenode
    (seq [tagged .rulePegText
            (plus fuel (choice [matchRange buffer 'a' 'z', matchRange buffer 'A' 'Z',
                                matchRange buffer '0' '9', matchChar buffer '_'])),
          action .ruleAction8, opt (rules.component buffer fuel), action .ruleAction9]))

/-- Rule 15 (inlined), `iipchar <- <(('\\' '\'') / (!'\'' .))>`. -/
def rules.iipchar (buffer : List Nat) : Code :=
  tagged .ruleiipchar
    (choice [seq [matchChar buffer '\\', matchChar buffer '\''],
             seq [notP (matchChar buffer '\''), matchDot buffer]])

/-- Rule 7 (inlined), `iip <- <('\'' <iipchar*> '\'' Action7)>`. -/
def rules.iip (buffer : List Nat) (fuel : Nat) : Code :=
  tagged .ruleiip
    (seq [matchChar buffer '\'', tagged .rulePegText (star fuel (rules.iipchar buffer)),
          matchChar buffer '\'', action .ruleAction7])

/-- Rule 6 (inlined), `leftlet <- <((node _ portWithIndex) / (node _ port))>`. -/
def rules.leftlet (buffer : List Nat) (fuel : Nat) : Code :=
  tagged .ruleleftlet
    (choice [seq [rules.node buffer fuel, rules.rule_ buffer fuel, rules.portWithIndex buffer fuel],
             seq [rules.node buffer fuel, rules.rule_ buffer fuel, rules.port buffer fuel]])

/-- Rule 8 (inlined), `rightlet <- <((portWithIndex _ node) / (port _ node))>`. -/
def rules.rightlet (buffer : List Nat) (fuel : Nat) : Code :=
  tagged .rulerightlet
    (choice [seq [rules.portWithIndex buffer fuel, rules.rule_ buffer fuel, rules.node buffer fuel],
             seq [rules.port buffer fuel, rules.rule_ buffer fuel, rules.node buffer fuel]])

/-- Rule 5, `bridge <- <((port _ Action2 node _ port Action3 Action4) / iip /
(leftlet Action5) / (rightlet Action6))>`. -/
def rules.bridge (buffer : List Nat) (fuel : Nat) : Code :=
  ruleFn (tagged .rulebridge
    (choice [seq [rules.port buffer fuel, rules.rule_ buffer fuel, action .ruleAction2,
                  rules.node buffer fuel, rules.rule_ buffer fuel, rules.port buffer fuel,
                  action .ruleAction3, action .ruleAction4],
             rules.iip buffer fuel,
             seq [rules.leftlet buffer fuel, action .ruleAction5],
             seq [rules.rightlet buffer fuel, action .ruleAction6]]))

/-- Rule 4, `connection <- <((bridge _ ('-' '>') _ connection) / bridge)>`; the
last argument bounds the depth of the recursion. -/
def rules.connection (buffer : List Nat) (fuel : Nat) : Nat → Code
  | 0 => fun _ => .error .outOfFuel
  | n + 1 =>
    ruleFn (tagged .ruleconnection
      (choice [seq [rules.bridge buffer fuel, rules.rule_ buffer fuel, matchChar buffer '-',
                    matchChar buffer '>', rules.rule_ buffer fuel,
                    rules.connection buffer fuel n],
               rules.bridge buffer fuel]))

/-- The keyword of a header line, each letter in either case, then `=`. -/
def rules.keyword (buffer : List Nat) (letters : List (Char × Char)) : Code :=
  seq (letters.map (fun l => choice [matchChar buffer l.1, matchChar buffer l.2])
        ++ [matchChar buffer '='])

/-- The captured text of an `INPORT=` or `OUTPORT=` line:
`<(([A-Z] / [a-z] / [0-9] / '_')+ '.' ([A-Z] / [0-9] / '_')+ ':' ([A-Z] / [0-9] / '_')+)>`. -/
def rules.exported (buffer : List Nat) (fuel : Nat) : Code :=
  tagged .rulePegText
    (seq [plus fuel (choice [matchRange buffer 'A' 'Z', matchRange buffer 'a' 'z',
                             matchRange buffer '0' '9', matchChar buffer '_']),
          matchChar buffer '.',
          plus fuel (choice [matchRange buffer 'A' 'Z', matchRange buffer '0' '9',
                             matchChar buffer '_']),
          matchChar buffer ':',
          plus fuel (choice [matchRange buffer 'A' 'Z', matchRange buffer '0' '9',
                             matchChar buffer '_'])])

/-- Rule 1 (inlined), `line`, with its six alternatives: an `EXPORT=` line, an
`INPORT=` line (Action0), an `OUTPORT=` line (Action1), a comment line, a blank
line, a connection line. -/
def rules.line (buffer : List Nat) (fuel : Nat) : Code :=
  tagged .ruleline
    (choice
      [seq [rules.rule_ buffer fuel,
            rules.keyword buffer
              [('e', 'E'), ('x', 'X'), ('p', 'P'), ('o', 'O'), ('r', 'R'), ('t', 'T')],
            plus fuel (choice [matchRange buffer 'A' 'Z', matchRange buffer 'a' 'z',
                               matchChar buffer '.', matchRange buffer '0' '9',
                               matchChar buffer '_']),
            matchChar buffer ':',
            plus fuel (choice [matchRange buffer 'A' 'Z', matchRange buffer '0' '9',
                               matchChar buffer '_']),
            rules.rule_ buffer fuel, opt (rules.LineTerminator buffer fuel)],
       seq [rules.rule_ buffer fuel,
            rules.keyword buffer
              [('i', 'I'), ('n', 'N'), ('p', 'P'), ('o', 'O'), ('r', 'R'), ('t', 'T')],
            rules.exported buffer fuel, rules.rule_ buffer fuel,
            opt (rules.LineTerminator buffer fuel), action .ruleAction0],
       seq [rules.rule_ buffer fuel,
            rules.keyword buffer
              [('o', 'O'), ('u', 'U'), ('t', 'T'), ('p', 'P'), ('o', 'O'), ('r', 'R'),
               ('t', 'T')],
            rules.exported buffer fuel, rules.rule_ buffer fuel,
            opt (rules.LineTerminator buffer fuel), action .ruleAction1],
       seq [rules.comment buffer fuel,
            opt (choice [matchChar buffer '\n', matchChar buffer '\r'])],
       seq [rules.rule_ buffer fuel, choice [matchChar buffer '\n', matchChar buffer '\r']],
       seq [rules.rule_ buffer fuel, rules.connection buffer fuel fuel, rules.rule_ buffer fuel,
            opt (rules.LineTerminator buffer fuel)]])

/-- Rule 0, `start <- <(line* _ !.)>`. -/
def rules.start (buffer : List Nat) (fuel : Nat) : Code :=
  ruleFn (tagged .rulestart
    (seq [star fuel (rules.line buffer fuel), rules.rule_ buffer fuel, notP (matchDot buffer)]))

/-! ## `Fbp`: `Init`, `Parse`, `Execute` -/

def utf8.RuneError : Nat := 0xFFFD

/-- The second-byte range and the size announced by a leading byte `b0 ≥ 0x80`
(the tables `first` and `acceptRanges` of `unicode/utf8`); `none` for a byte
that cannot start an encoding. -/
def utf8.first (b0 : Nat) : Option (Nat × Nat × Nat) :=
  if 0xC2 ≤ b0 ∧ b0 ≤ 0xDF then some (2, 0x80, 0xBF)
  else if b0 = 0xE0 then some (3, 0xA0, 0xBF)
  else if b0 = 0xED then some (3, 0x80, 0x9F)
  else if 0xE1 ≤ b0 ∧ b0 ≤ 0xEF then some (3, 0x80, 0xBF)
  else if b0 = 0xF0 then some (4, 0x90, 0xBF)
  else if 0xF1 ≤ b0 ∧ b0 ≤ 0xF3 then some (4, 0x80, 0xBF)
  else if b0 = 0xF4 then some (4, 0x80, 0x8F)
  else none

/-- Function `utf8.DecodeRuneInString` on a non-empty string: the first rune
and its width in bytes; an invalid encoding gives `(RuneError, 1)`. -/
def utf8.DecodeRune (b0 : UInt8) (rest : GoString) : Nat × Nat :=
  if b0.toNat < 0x80 then (b0.toNat, 1)
  else
    match utf8.first b0.toNat with
    | none => (utf8.RuneError, 1)
    | some (sz, lo, hi) =>
      let b1 := (rest.getD 0 0).toNat
      let b2 := (rest.getD 1 0).toNat
      let b3 := (rest.getD 2 0).toNat
      if rest.length + 1 < sz then (utf8.RuneError, 1)
      else if b1 < lo ∨ hi < b1 then (utf8.RuneError, 1)
      else if sz = 2 then ((b0.toNat % 32) * 64 + b1 % 64, 2)
      else if b2 < 0x80 ∨ 0xBF < b2 then (utf8.RuneError, 1)
      else if sz = 3 then ((b0.toNat % 16) * 4096 + (b1 % 64) * 64 + b2 % 64, 3)
      else if b3 < 0x80 ∨ 0xBF < b3 then (utf8.RuneError, 1)
      else ((b0.toNat % 8) * 262144 + (b1 % 64) * 4096 + (b2 % 64) * 64 + b3 % 64, 4)

/-- The loop of the conversion `[]rune(s)`; the bound is the length of `s`. -/
def utf8.runesLoop : Nat → GoString → List Nat
  | 0, _ => []
  | _ + 1, [] => []
  | n + 1, b0 :: rest =>
    let d := utf8.DecodeRune b0 rest
    d.1 :: utf8.runesLoop n (rest.drop (d.2 - 1))

/-- Go conversion `[]rune(s)`. -/
def utf8.runes (s : GoString) : List Nat := utf8.runesLoop s.length s

/-- The parser object. `engine` holds the variables captured by the closures
`Parse`, `Reset` and the rules, which `Init` creates; `tokenTree` is `none`
for the `nil` interface value. -/
structure Fbp extends BaseFbp where
  Buffer : GoString
  buffer : List Nat
  tokenTree : Option tokenTree
  engine : Engine
deriving DecidableEq, Repr

/-- The composite literal `&Fbp{Buffer: graph}`, with `Subgraph` set as well. -/
def Fbp.new (graph : GoString) (subgraph : GoString) : Fbp :=
  { toBaseFbp := BaseFbp.empty subgraph, Buffer := graph, buffer := [], tokenTree := none,
    engine := { position := 0, tokenIndex := 0, depth := 0,
                tree := .compact { len := 0, tree := [] } } }

def Fbp.Init (p : Fbp) : Fbp :=
  let buffer := utf8.runes p.Buffer
  let buffer :=
    if buffer.length = 0 ∨ buffer.getLast? ≠ some end_symbol then buffer ++ [end_symbol]
    else buffer
  { p with
    buffer := buffer
    engine := { position := 0, tokenIndex := 0, depth := 0,
                tree := .compact { len := 32767, tree := [] } } }

/-- The closure `p.Parse` called without argument (rule `start`): the parser
after the call and whether the returned error is `nil`. The loops are run
for at most `len(buffer)` rounds. -/
def Fbp.Parse (p : Fbp) : Except Fault (Fbp × Bool) :=
  match rules.start p.buffer p.buffer.length p.engine with
  | .error f => .error f
  | .ok (true, e) =>
    let tree := e.tree.trim e.tokenIndex
    .ok ({ p with tokenTree := some tree, engine := { e with tree := tree } }, true)
  | .ok (false, e) => .ok ({ p with tokenTree := some e.tree, engine := e }, false)

/-- The closure `p.Reset`. -/
def Fbp.Reset (p : Fbp) : Fbp :=
  { p with engine := { p.engine with position := 0, tokenIndex := 0, depth := 0 } }

/-- The local variables `begin`, `end` of `Execute`, with the builder. -/
structure ExecuteState where
  begin : Int
  end_ : Int
  p : BaseFbp
deriving DecidableEq, Repr

/-- One round of the loop of `Execute`: the `switch` on the rule of the record. -/
def Execute.step (buffer : GoString) (st : ExecuteState) (token : token32) :
    Except Fault ExecuteState :=
  match token.pegRule with
  | .rulePegText => .ok { st with begin := token.begin, end_ := token.end_ }
  | .ruleAction0 => do
    let text ← slice buffer st.begin st.end_
    let p ← st.p.createInport text
    .ok { st with p := p }
  | .ruleAction1 => do
    let text ← slice buffer st.begin st.end_
    let p ← st.p.createOutport text
    .ok { st with p := p }
  | .ruleAction2 => .ok { st with p := { st.p with inPort := st.p.port, inPortIndex := st.p.index } }
  | .ruleAction3 =>
    .ok { st with p := { st.p with outPort := st.p.port, outPortIndex := st.p.index } }
  | .ruleAction4 => .ok { st with p := st.p.createMiddlet }
  | .ruleAction5 => .ok { st with p := st.p.createLeftlet }
  | .ruleAction6 => .ok { st with p := st.p.createRightlet }
  | .ruleAction7 => do
    let text ← slice buffer st.begin st.end_
    .ok { st with p := { st.p with iip := text } }
  | .ruleAction8 => do
    let text ← slice buffer st.begin st.end_
    .ok { st with p := { st.p with nodeProcessName := text } }
  | .ruleAction9 => .ok { st with p := st.p.createNode }
  | .ruleAction10 => do
    let text ← slice buffer st.begin st.end_
    .ok { st with p := { st.p with nodeComponentName := text } }
  | .ruleAction11 => do
    let text ← slice buffer st.begin st.end_
    .ok { st with p := { st.p with nodeMeta := text } }
  | .ruleAction12 => do
    let text ← slice buffer st.begin st.end_
    .ok { st with p := { st.p with port := text } }
  | .ruleAction13 => do
    let text ← slice buffer st.begin st.end_
    .ok { st with p := { st.p with port := text } }
  | .ruleAction14 => do
    let text ← slice buffer st.begin st.end_
    .ok { st with p := { st.p with index := text } }
  | _ => .ok st

/-- The loop `for token := range p.tokenTree.Tokens()` of `Execute`. -/
def Execute.loop (buffer : GoString) : ExecuteState → List token32 → Except Fault ExecuteState
  | st, [] => .ok st
  | st, token :: tokens =>
    match Execute.step buffer st token with
    | .error f => .error f
    | .ok st1 => Execute.loop buffer st1 tokens

def Fbp.Execute (p : Fbp) : Except Fault Fbp :=
  match p.tokenTree with
  | none => .error .nilDereference
  | some tree =>
    match Execute.loop p.Buffer { begin := 0, end_ := 0, p := p.toBaseFbp } tree.Tokens with
    | .error f => .error f
    | .ok st => .ok { p with toBaseFbp := st.p }

/-- The steps of `testGraph` in `parser_test.go`: `Init`, `Parse`, `Execute`
on a parser for `graph`; the result is the parser with whether `Parse`
returned no error. -/
def testGraph (graph : GoString) (subgraph : GoString) : Except Fault (Fbp × Bool) :=
  match (Fbp.new graph subgraph).Init.Parse with
  | .error f => .error f
  | .ok (p, ok) =>
    match p.Execute with
    | .error f => .error f
    | .ok p1 => .ok (p1, ok)

def graphIIP : GoString := str "\n\t'5s'\n\t"

def graphTickLogger : GoString :=
  str "\n\t'5s' -> INTERVAL Ticker(core/ticker) OUT -> IN Forward(core/passthru)\n\tForward OUT -> IN Log(core/console)\n\t"

def graphOneLiner : GoString :=
  str "\n\tDemo OUT -> IN Process RESULT -> INPUT Visualize DISPLAY -> IN Console LOG -> IN D1\n\tConsole ERR -> IN D2\n\t"

def graphDemo : GoString :=
  str "\n\t'somefile.txt' -> SOURCE Read(ReadFile:main)\n\tRead() OUT -> IN Split(SplitStr:main)\n\tSplit() OUT -> IN Count(Counter:main)\n\tCount() COUNT -> IN Display(Output:main)\n\tRead() ERROR -> IN Display()\n\t"

def graphExportedInPort : GoString :=
  str "\n\tINPORT=Read.IN:FILENAME\n\tINPORT=Read.OPTIONS:CONFIG\n\tOUTPORT=Process.OUT:RESULT\n\tRead(ReadFile) OUT -> IN Process(Output)\n\t"

/-! ## Builder actions as a relation -/

/-- The effect on the builder of one round of the loop of `Execute`: one case
of its `switch`, with `text` standing for the slice `buffer[begin:end]`. -/
inductive BuilderAction : BaseFbp → BaseFbp → Prop
  | skip (p : BaseFbp) : BuilderAction p p
  | action0 (p q : BaseFbp) (text : GoString) :
      p.createInport text = .ok q → BuilderAction p q
  | action1 (p q : BaseFbp) (text : GoString) :
      p.createOutport text = .ok q → BuilderAction p q
  | action2 (p : BaseFbp) :
      BuilderAction p { p with inPort := p.port, inPortIndex := p.index }
  | action3 (p : BaseFbp) :
      BuilderAction p { p with outPort := p.port, outPortIndex := p.index }
  | action4 (p : BaseFbp) : BuilderAction p p.createMiddlet
  | action5 (p : BaseFbp) : BuilderAction p p.createLeftlet
  | action6 (p : BaseFbp) : BuilderAction p p.createRightlet
  | action7 (p : BaseFbp) (text : GoString) : BuilderAction p { p with iip := text }
  | action8 (p : BaseFbp) (text : GoString) :
      BuilderAction p { p with nodeProcessName := text }
  | action9 (p : BaseFbp) : BuilderAction p p.createNode
  | action10 (p : BaseFbp) (text : GoString) :
      BuilderAction p { p with nodeComponentName := text }
  | action11 (p : BaseFbp) (text : GoString) : BuilderAction p { p with nodeMeta := text }
  | action12 (p : BaseFbp) (text : GoString) : BuilderAction p { p with port := text }
  | action14 (p : BaseFbp) (text : GoString) : BuilderAction p { p with index := text }

/-! ## The records that matter to the replay, and chains of bridges -/

/-- A captured text: the `begin` and `end` of a `rulePegText` record. -/
structure Span where
  begin : Int
  end_ : Int
deriving DecidableEq, Repr

/-- Whether `buffer[begin:end]` is within the buffer. -/
def Span.valid (buffer : GoString) (sp : Span) : Bool :=
  decide (0 ≤ sp.begin ∧ sp.begin ≤ sp.end_ ∧ sp.end_ ≤ (buffer.length : Int))

/-- The text `buffer[begin:end]` of a span within the buffer. -/
def Span.text (buffer : GoString) (sp : Span) : GoString :=
  (buffer.drop sp.begin.toNat).take (sp.end_.toNat - sp.begin.toNat)

/-- The rules with a case in the `switch` of `Execute`, `rulePegText` apart. -/
def isAction (rule : pegRule) : Bool :=
  match rule with
  | .ruleAction0 | .ruleAction1 | .ruleAction2 | .ruleAction3 | .ruleAction4
  | .ruleAction5 | .ruleAction6 | .ruleAction7 | .ruleAction8 | .ruleAction9
  | .ruleAction10 | .ruleAction11 | .ruleAction12 | .ruleAction13 | .ruleAction14 => true
  | _ => false

/-- What `Execute` reads of a record: the span of a captured text, or the rule
of an action; the other records fall through its `switch`. -/
inductive Event where
  | text (sp : Span)
  | act (rule : pegRule)
deriving DecidableEq, Repr

def event (token : token32) : Option Event :=
  if token.pegRule = .rulePegText then some (.text ⟨token.begin, token.end_⟩)
  else if isAction token.pegRule then some (.act token.pegRule)
  else none

/-- The captured texts and actions of a list of records, in order. -/
def events (tokens : List token32) : List Event := tokens.filterMap event

/-- A record carrying the event. -/
def Event.token : Event → token32
  | .text sp => ⟨.rulePegText, sp.begin, sp.end_, 0⟩
  | .act rule => ⟨rule, 0, 0, 0⟩

/-- A matched `node`: the span of its name and, when it has a parenthesised
component, the span of the component name and of the metadata, if any. -/
structure NodeText where
  name : Span
  component : Option (Span × Option Span)
deriving DecidableEq, Repr

/-- The events of rule `node`: `<name> Action8 component? Action9`, with
`component` giving `<text> Action10` and `compMeta` giving `<text> Action11`. -/
def NodeText.events (n : NodeText) : List Event :=
  [.text n.name, .act .ruleAction8] ++
    (match n.component with
     | none => []
     | some (c, none) => [.text c, .act .ruleAction10]
     | some (c, some m) => [.text c, .act .ruleAction10, .text m, .act .ruleAction11]) ++
    [.act .ruleAction9]

def NodeText.valid (buffer : GoString) (n : NodeText) : Bool :=
  n.name.valid buffer &&
    (match n.component with
     | none => true
     | some (c, none) => c.valid buffer
     | some (c, some m) => c.valid buffer && m.valid buffer)

/-- A matched port of a leftlet or rightlet: rule `port`, or rule
`portWithIndex` with the span of the digits. -/
inductive PortText where
  | plain (name : Span)
  | indexed (name : Span) (idx : Span)
deriving DecidableEq, Repr

def PortText.name : PortText → Span
  | .plain name => name
  | .indexed name _ => name

/-- The events of rule `port` (`<name> __ Action12`) or of rule `portWithIndex`
(`<name> Action13 '[' <digits> Action14 ']' __`). -/
def PortText.events : PortText → List Event
  | .plain name => [.text name, .act .ruleAction12]
  | .indexed name idx => [.text name, .act .ruleAction13, .text idx, .act .ruleAction14]

def PortText.valid (buffer : GoString) : PortText → Bool
  | .plain name => name.valid buffer
  | .indexed name idx => name.valid buffer && idx.valid buffer

/-- The bridge a chain starts with: an IIP literal, or a leftlet. -/
inductive Start where
  | iip (d : Span)
  | leftlet (n : NodeText) (q : PortText)
deriving DecidableEq, Repr

/-- The events of `iip` (`<text> Action7`) or of `leftlet Action5`. -/
def Start.events : Start → List Event
  | .iip d => [.text d, .act .ruleAction7]
  | .leftlet n q => n.events ++ q.events ++ [.act .ruleAction5]

def Start.valid (buffer : GoString) : Start → Bool
  | .iip d => d.valid buffer
  | .leftlet n q => n.valid buffer && q.valid buffer

/-- A middlet `port node port`. -/
structure Middlet where
  p : Span
  n : NodeText
  q : Span
deriving DecidableEq, Repr

/-- The events of the first alternative of `bridge`:
`port _ Action2 node _ port Action3 Action4`. -/
def Middlet.events (m : Middlet) : List Event :=
  [.text m.p, .act .ruleAction12, .act .ruleAction2] ++ m.n.events ++
    [.text m.q, .act .ruleAction12, .act .ruleAction3, .act .ruleAction4]

def Middlet.valid (buffer : GoString) (m : Middlet) : Bool :=
  m.p.valid buffer && m.n.valid buffer && m.q.valid buffer

/-- A rightlet `port node`. -/
structure Rightlet where
  p : PortText
  n : NodeText
deriving DecidableEq, Repr

/-- The events of `rightlet Action6`. -/
def Rightlet.events (r : Rightlet) : List Event :=
  r.p.events ++ r.n.events ++ [.act .ruleAction6]

def Rightlet.valid (buffer : GoString) (r : Rightlet) : Bool :=
  r.p.valid buffer && r.n.valid buffer

/-- A chain: a start bridge, middlets, a final rightlet. -/
structure Chain where
  start : Start
  middlets : List Middlet
  last : Rightlet
deriving DecidableEq, Repr

def Chain.events (c : Chain) : List Event :=
  c.start.events ++ c.middlets.flatMap Middlet.events ++ c.last.events

def Chain.valid (buffer : GoString) (c : Chain) : Bool :=
  c.start.valid buffer && c.middlets.all (Middlet.valid buffer) && c.last.valid buffer

/-- The Connection from a pending source, or without one from the literal
`data`, to `target`. -/
def connect (source : Option Endpoint) (data : GoString) (target : Endpoint) : Connection :=
  match source with
  | some e => { Data := [], Source := some e, Target := some target }
  | none => { Data := data, Source := none, Target := some target }

/-- The Connections of the middlets and the final rightlet of a chain, in chain
order, given the origin of the first one; `name` qualifies a node name. -/
def linkConnections (buffer : GoString) (name : GoString → GoString) :
    Option Endpoint → GoString → List Middlet → Rightlet → List Connection
  | source, data, [], r =>
    [connect source data ⟨name (r.n.name.text buffer), r.p.name.text buffer⟩]
  | source, data, m :: ms, r =>
    connect source data ⟨name (m.n.name.text buffer), m.p.text buffer⟩ ::
      linkConnections buffer name (some ⟨name (m.n.name.text buffer), m.q.text buffer⟩) [] ms r

/-- The Connections of a chain, in chain order: the first one goes from the
literal, or from the endpoint of the leftlet, to the first target. -/
def Chain.connections (buffer : GoString) (name : GoString → GoString) (c : Chain) :
    List Connection :=
  match c.start with
  | .iip d => linkConnections buffer name none (d.text buffer) c.middlets c.last
  | .leftlet n q =>
    linkConnections buffer name (some ⟨name (n.name.text buffer), q.name.text buffer⟩) []
      c.middlets c.last

/-- The records `Execute` replays after `Init` and `Parse` on `graph`, when
`Parse` returns no error (the empty list otherwise). -/
def parsedTokens (graph : GoString) : List token32 :=
  match (Fbp.new graph []).Init.Parse with
  | .ok (p, true) =>
    match p.tokenTree with
    | some tree => tree.Tokens
    | none => []
  | _ => []

/-- What the tests look at after `testGraph`: whether `Parse` returned no
error, and the Processes and Connections; `none` when the run panics. -/
def graphOf (graph subgraph : GoString) : Option (Bool × List Process × List Connection) :=
  match testGraph graph subgraph with
  | .ok (p, ok) => some (ok, p.Processes, p.Connections)
  | .error _ => none

/-- The text of the first connection line of `graphTickLogger`. -/
def tickLoggerLine : GoString :=
  str "'5s' -> INTERVAL Ticker(core/ticker) OUT -> IN Forward(core/passthru)"

/-- The chain matched in `tickLoggerLine`: the literal, the middlet of `Ticker`
and the rightlet of `Forward`, with the spans of their captured texts. -/
def tickLoggerChain : Chain :=
  { start := .iip ⟨1, 3⟩
    middlets := [{ p := ⟨8, 16⟩, n := { name := ⟨17, 23⟩, component := some (⟨24, 35⟩, none) },
                   q := ⟨37, 40⟩ }]
    last := { p := .plain ⟨44, 46⟩,
              n := { name := ⟨47, 54⟩, component := some (⟨55, 68⟩, none) } } }

/-- Whether the record is the action of a middlet (`Action4`) or of a rightlet
(`Action6`), the two bridges whose action emits a Connection. -/
def emitting (token : token32) : Bool :=
  decide (token.pegRule = .ruleAction4) || decide (token.pegRule = .ruleAction6)

/-! ## Metadata, as the specification words it -/

/-- The comma-separated items of a metadata text. -/
def metadataItems (text : GoString) : List GoString := text.splitOn (44 : UInt8)

/-- The key of an item: the white-space-trimmed text before its first `=` (the
whole item when it has none). -/
def itemKey (item : GoString) : GoString :=
  strings.TrimSpace (item.takeWhile (fun b => b != (61 : UInt8)))

/-- The value of an item: the white-space-trimmed text after its first `=`, and
the empty string when the item has no `=`. -/
def itemValue (item : GoString) : GoString :=
  if (61 : UInt8) ∈ item then
    strings.TrimSpace ((item.dropWhile (fun b => b != (61 : UInt8))).drop 1)
  else []

/-- The value the metadata text gives to key `k`: the value of the last item
with that key, a later item overriding an earlier one; `none` when no item has
the key. -/
def metadataSpec (text : GoString) (k : GoString) : Option GoString :=
  ((metadataItems text).reverse.find? (fun item => decide (itemKey item = k))).map itemValue

/-- A builder about to create the node `Foo(Bar:meta)`. -/
def fooBar (nodeMeta : GoString) : BaseFbp :=
  { BaseFbp.empty [] with
    nodeProcessName := str "Foo", nodeComponentName := str "Bar", nodeMeta := nodeMeta }

/-! ## Exported ports: sample states -/

/-- A builder that already exports `FILENAME` (from another endpoint) and
`CONFIG` as inbound ports and `RESULT` as outbound port. -/
def exportingBuilder : BaseFbp :=
  { BaseFbp.empty [] with
    Inports := some [(str "FILENAME", ⟨str "Old", str "X"⟩),
                     (str "CONFIG", ⟨str "Read", str "OPTIONS"⟩)]
    Outports := some [(str "RESULT", ⟨str "Process", str "OUT"⟩)] }

/-! ## Names qualified by the subgraph -/

/-- A stored process name `x` is the qualified form of a name written in the
buffer: a contiguous part `n` of the text, with `x = createProcessName(n)`
under the subgraph `subgraph`. -/
def Qualified (buffer subgraph x : GoString) : Prop :=
  ∃ n : GoString, n <:+: buffer ∧ x = (BaseFbp.empty subgraph).createProcessName n

/-- The invariant of the replay on a buffer with a fixed subgraph: the name
scratch is a part of the text, and every process name stored in the pending
source, in `Processes`, in `Connections` and in the exported ports is
qualified. -/
def QualifiedBuilder (buffer subgraph : GoString) (p : BaseFbp) : Prop :=
  p.Subgraph = subgraph ∧
  p.nodeProcessName <:+: buffer ∧
  (∀ e, p.srcEndpoint = some e → Qualified buffer subgraph e.Process) ∧
  (∀ ps ∈ p.Processes, Qualified buffer subgraph ps.Name) ∧
  (∀ c ∈ p.Connections,
    (∀ e, c.Source = some e → Qualified buffer subgraph e.Process) ∧
    (∀ e, c.Target = some e → Qualified buffer subgraph e.Process)) ∧
  (∀ m, p.Inports = some m → ∀ kv ∈ m, Qualified buffer subgraph kv.2.Process) ∧
  (∀ m, p.Outports = some m → ∀ kv ∈ m, Qualified buffer subgraph kv.2.Process)

/-- A graph with an exported port and a connection, to be parsed in the
subgraph `S`. -/
def graphInSubgraph : GoString :=
  str "INPORT=Read.IN:NAME\nRead(R) OUT -> IN Log(L)"

/-! ## Properties of a run of the engine -/

/-- The capacity `len(t.tree)` of a store. -/
def tokenTree.len : tokenTree → Nat
  | .compact t => t.len
  | .wide t => t.len

/-- The committed records of an engine state: the records of the store below
the record count, in order. -/
def Engine.committed (s : Engine) : List token32 := s.tree.Tokens.take s.tokenIndex

/-- The buffer ends with the sentinel `end_symbol`, as `Init` leaves it. -/
def Sentinel (buffer : List Nat) : Prop := buffer.getLast? = some end_symbol

/-- The states the rules are run in: the cursor is an index of the buffer and
the record count is at most the capacity of the store, which is not zero. -/
def Engine.Inv (buffer : List Nat) (s : Engine) : Prop :=
  s.position < buffer.length ∧ s.tokenIndex ≤ s.tree.len ∧ 0 < s.tree.len

/-- What a fragment run from `s` guarantees of the state `s1` it ends in with
result `b`: the cursor is an index of the buffer, the store has not shrunk and
holds the record count, the records below the record count of `s` are those of
`s`, and on success the cursor and the record count have not gone back and the
depth is that of `s`. -/
def Engine.Post (buffer : List Nat) (s : Engine) (b : Bool) (s1 : Engine) : Prop :=
  s1.position < buffer.length ∧ s.tree.len ≤ s1.tree.len ∧ s1.tokenIndex ≤ s1.tree.len ∧
  s1.tree.Tokens.take s.tokenIndex = s.tree.Tokens.take s.tokenIndex ∧
  (b = true → s.position ≤ s1.position ∧ s.tokenIndex ≤ s1.tokenIndex ∧ s1.depth = s.depth)

/-- The fragment `c` run from `s` ends without panic within the step bound, in
a state as `Engine.Post` describes; when `strict` is set, a success has moved
the cursor forward. -/
def OkAt (buffer : List Nat) (strict : Bool) (c : Code) (s : Engine) : Prop :=
  ∃ b s1, c s = .ok (b, s1) ∧ Engine.Post buffer s b s1 ∧
    (strict = true → b = true → s.position < s1.position)

/-- The fragment `c` is `OkAt` every state of `Engine.Inv`. -/
def Ok (buffer : List Nat) (strict : Bool) (c : Code) : Prop :=
  ∀ s, Engine.Inv buffer s → OkAt buffer strict c s

/-- Whether the store is the compact one. -/
def tokenTree.isCompact : tokenTree → Bool
  | .compact _ => true
  | .wide _ => false

/-- The value that an offset or a depth handed to `Add` is read back as through
`Tokens()`: converted to `int16` by the compact store, to `int32` by the wide one. -/
def tokenTree.wrap (t : tokenTree) (n : Nat) : Int :=
  if t.isCompact then int16 n else int32 n

/-- The rule functions of the engine that have a failure label, for the
recursion bound `n` of `connection`. -/
def ruleFunctions (buffer : List Nat) (fuel n : Nat) : List Code :=
  [rules.start buffer fuel, rules.LineTerminator buffer fuel, rules.comment buffer fuel,
   rules.connection buffer fuel n, rules.bridge buffer fuel, rules.node buffer fuel,
   rules.port buffer fuel, rules.portWithIndex buffer fuel, rules.rule__ buffer fuel]

/-- The bytes of the class `[A-Z] / [a-z] / [0-9] / '_'`, of which the three
parts of the captured text of an `INPORT=` or `OUTPORT=` line are made. -/
def isNameByte (b : UInt8) : Bool :=
  (65 ≤ b ∧ b ≤ 90) ∨ (97 ≤ b ∧ b ≤ 122) ∨ (48 ≤ b ∧ b ≤ 57) ∨ b = 95

/-! ## The character classes of component names and metadata -/

/-- The runes from `lo` to `hi`, both included. -/
def runeRange (lo hi : Char) : List Nat := (List.range (hi.toNat + 1 - lo.toNat)).map (lo.toNat + ·)

/-- The runes of the class `[a-z] / [A-Z] / '/' / '-' / [0-9] / '_'` of rule
`component`. -/
def componentRunes : List Nat :=
  runeRange 'a' 'z' ++ runeRange 'A' 'Z' ++ ['/'.toNat, '-'.toNat] ++ runeRange '0' '9'
    ++ ['_'.toNat]

/-- The runes of the class `[a-z] / [A-Z] / '/' / '=' / '_' / ',' / [0-9]` of rule
`compMeta`. -/
def metaRunes : List Nat :=
  runeRange 'a' 'z' ++ runeRange 'A' 'Z' ++ ['/'.toNat, '='.toNat, '_'.toNat, ','.toNat]
    ++ runeRange '0' '9'

/-- The rune buffer of the node text `Foo(Bar:c)`, for the rune `c`. -/
def fooBarMeta (c : Nat) : List Nat :=
  "Foo(Bar:".data.map Char.toNat ++ [c, ')'.toNat, end_symbol]

/-- Rule `node` run at the start of `Foo(Bar:c)` with an empty store: whether it
matched, where the cursor stopped, and the spans of the `component` and
`compMeta` records among the committed ones. -/
def nodeOnFooBar (c : Nat) : Except Fault (Bool × Nat × List (pegRule × Int × Int)) :=
  (rules.node (fooBarMeta c) (fooBarMeta c).length ⟨0, 0, 0, .compact ⟨64, []⟩⟩).map
    (fun r => (r.1, r.2.position,
      (r.2.committed.filter
        (fun t => t.pegRule = .rulecomponent ∨ t.pegRule = .rulecompMeta)).map
        (fun t => (t.pegRule, t.begin, t.end_))))

/-! ## Nodes written with parentheses -/

/-- A piece of a replay: the events of a node written with parentheses (its
name, the text between the parentheses before the metadata, the metadata if
any), or events that belong to no node. -/
inductive Item where
  | node (name : Span) (component : Span) (md : Option Span)
  | other (evs : List Event)
deriving DecidableEq, Repr

def Item.events : Item → List Event
  | .node name c md => (NodeText.mk name (some (c, md))).events
  | .other evs => evs

/-- The spans of a node are within the buffer; the other events hold none of
the actions of rule `node` (Action8, Action9, Action10). -/
def Item.valid (buffer : GoString) : Item → Bool
  | .node name c md => (NodeText.mk name (some (c, md))).valid buffer
  | .other evs => evs.all (fun e => decide (e ≠ .act .ruleAction8 ∧ e ≠ .act .ruleAction9 ∧
      e ≠ .act .ruleAction10))

/-- The name that an item declares: the name of a node whose parentheses hold
a component. -/
def Item.declares (buffer : GoString) : Item → Option GoString
  | .node name c _ => if c.text buffer ≠ [] then some (name.text buffer) else none
  | .other _ => none

/-- The node item that a list of events starts with, if it starts with the
events of a node written with parentheses, and the events after it. -/
def nodeItem : List Event → Option (Item × List Event)
  | .text name :: .act r8 :: .text c :: .act r10 :: rest =>
    if r8 = .ruleAction8 ∧ r10 = .ruleAction10 then
      match rest with
      | .act r9 :: rest1 =>
        if r9 = .ruleAction9 then some (.node name c none, rest1) else none
      | .text md :: .act r11 :: .act r9 :: rest1 =>
        if r11 = .ruleAction11 ∧ r9 = .ruleAction9 then some (.node name c (some md), rest1)
        else none
      | _ => none
    else none
  | _ => none

/-- The loop of `itemsOf`; the bound is the number of events. -/
def itemsLoop : Nat → List Event → List Item
  | 0, _ => []
  | _ + 1, [] => []
  | n + 1, e :: rest =>
    match nodeItem (e :: rest) with
    | some (it, rest1) => it :: itemsLoop n rest1
    | none => .other [e] :: itemsLoop n rest

/-- The events of a log, grouped: each run of events of the form of a node
with parentheses is a node item, every other event an item of its own. -/
def itemsOf (evs : List Event) : List Item := itemsLoop evs.length evs

/-! ## `Order` and `Error` (`grammar.peg.go`)

The two copies of `Order` and `Error`, for `tokens16` and for `tokens32`,
differ in the record type and in the integer type of the counters only; they
are written once here, over the operations of the record type. The result
`t.ordered` is not kept: the functions are those of a first call. -/

/-- What `Order` and `Error` use of a record type: the rule and the `next`
field of a record, the assignment `token.next = v`, the zero record, the
conversion to the integer type of `next` and of the counters, `getToken32`. -/
structure TokenOps (α : Type) where
  rule : α → pegRule
  next : α → Int
  setNext : α → Int → α
  zero : α
  wrap : Int → Int
  getToken32 : α → token32

def token16.ops : TokenOps token16 :=
  { rule := token16.pegRule, next := token16.next, setNext := fun t v => { t with next := v },
    zero := token16.zero, wrap := int16, getToken32 := token16.getToken32 }

def token32.ops : TokenOps token32 :=
  { rule := token32.pegRule, next := token32.next, setNext := fun t v => { t with next := v },
    zero := token32.zero, wrap := int32, getToken32 := token32.getToken32 }

/-- The statement `if length := len(depths); depth >= length { depths = depths[:depth+1] }`
on the slice `depths` of capacity `math.MaxInt16`, whose backing array holds zeros. -/
def Order.extend (depths : List Int) (depth : Int) : Except Fault (List Int) :=
  if depth ≥ depths.length then
    if depth + 1 ≤ 32767 then
      .ok (depths ++ List.replicate (depth.toNat + 1 - depths.length) 0)
    else .error .sliceOutOfRange
  else .ok depths

/-- The statement `depths[depth]++`, in the integer type of the counters. -/
def Order.bump (wrap : Int → Int) (depths : List Int) (depth : Int) : Except Fault (List Int) :=
  if 0 ≤ depth ∧ depth < depths.length then
    .ok (depths.set depth.toNat (wrap (depths.getD depth.toNat 0 + 1)))
  else .error .indexOutOfRange

/-- The first loop of `Order`: the counters, and the records before the first
one of rule `ruleUnknown`, to which `t.tree` is cut. -/
def Order.count {α : Type} (ops : TokenOps α) :
    List Int → List α → Except Fault (List Int × List α)
  | depths, [] => .ok (depths, [])
  | depths, token :: rest =>
    if ops.rule token = .ruleUnknown then .ok (depths, [])
    else
      match Order.extend depths (ops.next token) with
      | .error f => .error f
      | .ok depths =>
        match Order.bump ops.wrap depths (ops.next token) with
        | .error f => .error f
        | .ok depths =>
          match Order.count ops depths rest with
          | .error f => .error f
          | .ok (depths, kept) => .ok (depths, token :: kept)

/-- The second loop of `Order`,
`depth++; ordered[i], pool, depths[i] = pool[:depth], pool[depth:], 0`: the
groups cut from the pool of zero records, of which `pool` are left. -/
def Order.carve {α : Type} (ops : TokenOps α) : List Int → Nat → Except Fault (List (List α))
  | [], _ => .ok []
  | depth :: depths, pool =>
    if 0 ≤ ops.wrap (depth + 1) ∧ ops.wrap (depth + 1) ≤ pool then
      match Order.carve ops depths (pool - (ops.wrap (depth + 1)).toNat) with
      | .error f => .error f
      | .ok ordered => .ok (List.replicate (ops.wrap (depth + 1)).toNat ops.zero :: ordered)
    else .error .sliceOutOfRange

/-- The third loop of `Order`, from the record of index `i` on:
`depth := token.next; token.next = i; ordered[depth][depths[depth]] = token; depths[depth]++`. -/
def Order.fill {α : Type} (ops : TokenOps α) :
    List (List α) → List Int → Nat → List α → Except Fault (List (List α))
  | ordered, _, _, [] => .ok ordered
  | ordered, depths, i, token :: rest =>
    if 0 ≤ ops.next token ∧ ops.next token < ordered.length ∧
        ops.next token < depths.length ∧
        0 ≤ depths.getD (ops.next token).toNat 0 ∧
        depths.getD (ops.next token).toNat 0 <
          ((ordered.getD (ops.next token).toNat []).length : Int) then
      match Order.bump ops.wrap depths (ops.next token) with
      | .error f => .error f
      | .ok depths1 =>
        Order.fill ops
          (ordered.set (ops.next token).toNat
            ((ordered.getD (ops.next token).toNat []).set
              (depths.getD (ops.next token).toNat 0).toNat (ops.setNext token (ops.wrap i))))
          depths1 (i + 1) rest
    else .error .indexOutOfRange

/-- Function `Order` on the slots of `t.tree`: the records `t.tree` is cut to,
and the groups. -/
def Order.run {α : Type} (ops : TokenOps α) (slots : List α) :
    Except Fault (List α × List (List α)) :=
  match Order.count ops [0] slots with
  | .error f => .error f
  | .ok (depths, kept) =>
    match Order.carve ops (depths ++ [0]) (kept.length + (depths ++ [0]).length) with
    | .error f => .error f
    | .ok ordered =>
      match Order.fill ops ordered ((depths ++ [0]).map (fun _ => 0)) 0 kept with
      | .error f => .error f
      | .ok ordered => .ok (kept, ordered)

/-- Function `Error` on the slots of `t.tree`. The reads `ordered[length-i]`
and `o[len(o)-2]` are within range whatever the groups are. -/
def Error.run {α : Type} (ops : TokenOps α) (slots : List α) : Except Fault (List token32) :=
  match Order.run ops slots with
  | .error f => .error f
  | .ok (_, ordered) =>
    .ok ((List.range ordered.length).map (fun i =>
      if (ordered.getD (ordered.length - 1 - i) []).length > 1 then
        ops.getToken32 ((ordered.getD (ordered.length - 1 - i) []).getD
          ((ordered.getD (ordered.length - 1 - i) []).length - 2) ops.zero)
      else token32.zero))

def tokens16.Order (t : tokens16) : Except Fault (List token16 × List (List token16)) :=
  Order.run token16.ops t.slots

def tokens32.Order (t : tokens32) : Except Fault (List token32 × List (List token32)) :=
  Order.run token32.ops t.slots

def tokens16.Error (t : tokens16) : Except Fault (List token32) := Error.run token16.ops t.slots

def tokens32.Error (t : tokens32) : Except Fault (List token32) := Error.run token32.ops t.slots

/-- The records of `kept` (the first of index `i`) whose depth is `d`, in
order, each with its index in place of its depth. -/
def Order.group {α : Type} (ops : TokenOps α) (d : Nat) : Nat → List α → List α
  | _, [] => []
  | i, token :: rest =>
    if ops.next token = d then ops.setNext token i :: Order.group ops d (i + 1) rest
    else Order.group ops d (i + 1) rest

/-- The number of depths of a list of records: one more than the largest
depth, and at least one. -/
def Order.levels {α : Type} (ops : TokenOps α) : List α → Nat
  | [] => 1
  | token :: rest => max ((ops.next token).toNat + 1) (Order.levels ops rest)

/-- The records before the first one of rule `ruleUnknown`. -/
def Order.kept {α : Type} (ops : TokenOps α) (slots : List α) : List α :=
  slots.takeWhile (fun token => decide (ops.rule token ≠ .ruleUnknown))

/-- The depths of the records are between 0 and 32766, and the counters and
the indices of the records fit the integer type of the store. -/
def Order.inRange {α : Type} (ops : TokenOps α) (slots : List α) : Prop :=
  (∀ t ∈ Order.kept ops slots, 0 ≤ ops.next t ∧ ops.next t ≤ 32766) ∧
  ∀ n : Nat, n ≤ (Order.kept ops slots).length + 1 → ops.wrap n = n

/-- The last record of depth `d`, as `getToken32` returns it with its index in
place of its depth; the zero record when no record has depth `d`. -/
def Order.last {α : Type} (ops : TokenOps α) (d : Nat) (kept : List α) : token32 :=
  match (Order.group ops d 0 kept).getLast? with
  | some token => ops.getToken32 token
  | none => token32.zero

/-! ## `translatePositions` (`grammar.peg.go`) -/

structure textPosition where
  line : Int
  symbol : Int
deriving DecidableEq, Repr

/-- Go `map[int]textPosition`, as an association list holding each key at most
once. -/
abbrev textPositionMap := List (Int × textPosition)

def textPositionMap.get (m : textPositionMap) (k : Int) : Option textPosition :=
  match m with
  | [] => none
  | (k0, v0) :: rest => if k0 = k then some v0 else textPositionMap.get rest k

def textPositionMap.set (m : textPositionMap) (k : Int) (v : textPosition) : textPositionMap :=
  match m with
  | [] => [(k, v)]
  | (k0, v0) :: rest =>
    if k0 = k then (k, v) :: rest else (k0, v0) :: textPositionMap.set rest k v

/-- The pairs `i, c` of `for i, c := range s`, from the byte offset `i` on: the
offset of each rune and the rune; the bound is the length of `s`. -/
def rangeString : Nat → Nat → GoString → List (Nat × Nat)
  | 0, _, _ => []
  | _ + 1, _, [] => []
  | n + 1, i, b0 :: rest =>
    (i, (utf8.DecodeRune b0 rest).1) ::
      rangeString n (i + (utf8.DecodeRune b0 rest).2) (rest.drop ((utf8.DecodeRune b0 rest).2 - 1))

/-- The statement `if c == '\n' { line, symbol = line+1, 0 } else { symbol++ }`. -/
def translatePositions.step (at_ : Int × Int) (c : Nat) : Int × Int :=
  if c = '\n'.toNat then (at_.1 + 1, 0) else (at_.1, at_.2 + 1)

/-- The loop `search` of `translatePositions`. The list `pending` is
`positions[j:]`: the read `positions[j]` panics when it is empty, and the
inner loop `for j++; j < length; j++` drops the positions equal to `i` and
leaves the loop `search` when none is left. -/
def translatePositions.search :
    List (Nat × Nat) → List Int → Int × Int → textPositionMap → Except Fault textPositionMap
  | [], _, _, translations => .ok translations
  | (i, c) :: rest, pending, at_, translations =>
    match pending with
    | [] => .error .indexOutOfRange
    | p :: ps =>
      if (i : Int) = p then
        match ps.dropWhile (fun q => decide ((i : Int) = q)) with
        | [] =>
          .ok (translations.set p
            ⟨(translatePositions.step at_ c).1, (translatePositions.step at_ c).2⟩)
        | q :: qs =>
          translatePositions.search rest (q :: qs) (translatePositions.step at_ c)
            (translations.set p
              ⟨(translatePositions.step at_ c).1, (translatePositions.step at_ c).2⟩)
      else translatePositions.search rest (p :: ps) (translatePositions.step at_ c) translations

/-- Function `translatePositions`; `sort.Ints` is the sort of the positions in
increasing order. -/
def translatePositions (buffer : GoString) (positions : List Int) :
    Except Fault textPositionMap :=
  translatePositions.search (rangeString buffer.length 0 buffer)
    (positions.insertionSort (· ≤ ·)) (1, 0) []

/-- The line of offset `p` as the specification counts it: one more than the
number of `'\n'` among the characters before `p`. -/
def lineOf (buffer : GoString) (p : Nat) : Int :=
  1 + ((((buffer.take p).map UInt8.toNat).count '\n'.toNat : Nat) : Int)

/-- The column of offset `p` as the specification counts it: one more than the
number of characters between the preceding `'\n'`, or the start, and `p`. -/
def columnOf (buffer : GoString) (p : Nat) : Int :=
  1 + (((((buffer.take p).map UInt8.toNat).reverse.takeWhile
    (fun c => decide (c ≠ '\n'.toNat))).length : Nat) : Int)

/-- A fragment that adds no record: whatever it returns, the store and the
record count are those of the state it was run from. -/
def Pure (c : Code) : Prop :=
  ∀ s b s1, c s = .ok (b, s1) → s1.tree = s.tree ∧ s1.tokenIndex = s.tokenIndex

/-! ## `isParentOf` and `AST` (`grammar.peg.go`) -/

def token16.isParentOf (t u : token16) : Bool :=
  decide (t.begin ≤ u.begin) && decide (t.end_ ≥ u.end_) && decide (t.next > u.next)

def token32.isParentOf (t u : token32) : Bool :=
  decide (t.begin ≤ u.begin) && decide (t.end_ ≥ u.end_) && decide (t.next > u.next)

/-- A value of type `*node32`: `nil`, or the node pointed to, with its record
and its fields `up` and `next`. -/
inductive node32 where
  | nil
  | node (token : token32) (up next : node32)
deriving DecidableEq, Repr

/-- A cell of the stack of type `*element`: the fields of the node its `node`
points to, which `AST` has made with `&node32{token32: token}`. The stack is
the list of its cells, the top first. -/
structure element where
  token : token32
  up : node32
  next : node32
deriving DecidableEq, Repr

/-- The inner loop of `AST` for the record `token`, whose node has `up` so far:
`for stack != nil && stack.node.begin >= token.begin && stack.node.end <= token.end
{ stack.node.next = node.up; node.up = stack.node; stack = stack.down }`.
Returns `node.up` and the stack after the loop. -/
def AST.attach (token : token32) : node32 → List element → node32 × List element
  | up, [] => (up, [])
  | up, top :: down =>
    if top.token.begin ≥ token.begin ∧ top.token.end_ ≤ token.end_ then
      AST.attach token (.node top.token top.up up) down
    else (up, top :: down)

/-- One round of the loop `for token := range tokens` of `AST`. -/
def AST.step (stack : List element) (token : token32) : List element :=
  if token.begin = token.end_ then stack
  else
    ⟨token, (AST.attach token .nil stack).1, .nil⟩ :: (AST.attach token .nil stack).2

/-- Function `AST` on the records `Tokens()` sends: the first record received
seeds the stack (the zero record when the channel is closed at once), the
others go through the loop, and the node on top of the stack is returned. -/
def AST.run (tokens : List token32) : Except Fault node32 :=
  match (tokens.drop 1).foldl AST.step [⟨tokens.headD token32.zero, .nil, .nil⟩] with
  | [] => .error .nilDereference
  | top :: _ => .ok (.node top.token top.up top.next)

def tokens16.AST (t : tokens16) : Except Fault node32 := AST.run t.Tokens

def tokens32.AST (t : tokens32) : Except Fault node32 := AST.run t.Tokens

def tokenTree.AST (t : tokenTree) : Except Fault node32 :=
  match t with
  | .compact t16 => t16.AST
  | .wide t32 => t32.AST

/-- The nodes reached from a node by `next`, the node itself first: for each
its record and its `up`. -/
def node32.siblings : node32 → List (token32 × node32)
  | .nil => []
  | .node token up next => (token, up) :: node32.siblings next

/-- The records of all the nodes reached from a node by `up` and `next`, the
way `print` walks them. -/
def node32.records : node32 → List token32
  | .nil => []
  | .node token up next => token :: (node32.records up ++ node32.records next)

/-! ## The captured text of an exported port -/

/-- A fragment that tests one rune: when it succeeds the cursor has moved over
one rune, which is of the class `P`. -/
def CharTest (buffer : List Nat) (P : Nat → Bool) (c : Code) : Prop :=
  ∀ s s1, c s = .ok (true, s1) →
    s1.position = s.position + 1 ∧ ∃ r, buffer[s.position]? = some r ∧ P r = true

/-- The runes of the class `[A-Z] / [a-z] / [0-9] / '_'`. -/
def isNameRune (r : Nat) : Bool :=
  (65 ≤ r ∧ r ≤ 90) ∨ (97 ≤ r ∧ r ≤ 122) ∨ (48 ≤ r ∧ r ≤ 57) ∨ r = 95

/-- The runes of the class `[A-Z] / [0-9] / '_'`. -/
def isPortRune (r : Nat) : Bool :=
  (65 ≤ r ∧ r ≤ 90) ∨ (48 ≤ r ∧ r ≤ 57) ∨ r = 95

/-- The runes of the buffer from cursor `b` to cursor `e`, as the bytes of a
string (each rune here is a single-byte character). -/
def capturedText (buffer : List Nat) (b e : Nat) : GoString :=
  ((buffer.drop b).take (e - b)).map UInt8.ofNat

/-! ## Runs of a fragment at a given cursor -/

/-- The fragment `c`, run with the cursor at `p`, succeeds with the cursor at
`q`, and the records it has committed carry the events `evs`. -/
def Succeeds (buffer : List Nat) (c : Code) (p q : Nat) (evs : List Event) : Prop :=
  ∀ s, Engine.Inv buffer s → s.position = p →
    ∃ s1, c s = .ok (true, s1) ∧ Engine.Post buffer s true s1 ∧ s1.position = q ∧
      events s1.committed = events s.committed ++ evs

/-- The fragment `c`, run with the cursor at `p`, fails. -/
def Fails (buffer : List Nat) (c : Code) (p : Nat) : Prop :=
  ∀ s, Engine.Inv buffer s → s.position = p →
    ∃ s1, c s = .ok (false, s1) ∧ Engine.Post buffer s false s1

/-! ## Literal texts and blank lines -/

/-- The texts that the loop `iipchar*` of rule `iip` reads up to the closing
quote: read from the left, a backslash followed by a quote is one escaped
quote; no other quote and no sentinel character occurs, and the text does not
end with a backslash, which would take the closing quote for an escaped one. -/
def literalText : List Nat → Bool
  | [] => true
  | [r] => decide (r ≠ 39 ∧ r ≠ 92 ∧ r ≠ 4)
  | r :: r1 :: rest =>
    if r = 92 ∧ r1 = 39 then literalText rest
    else decide (r ≠ 39 ∧ r ≠ 4) && literalText (r1 :: rest)

/-- The runes of `seg` stand in the buffer from the cursor `p` on. -/
def Seg (buffer : List Nat) (p : Nat) (seg : List Nat) : Prop :=
  ∀ i, i < seg.length → buffer[p + i]? = seg[i]?

/-- A space or a tab. -/
def isBlank (r : Nat) : Bool := decide (r = 32 ∨ r = 9)

/-- A line feed or a carriage return. -/
def isNewline (r : Nat) : Bool := decide (r = 10 ∨ r = 13)

/-- The runes of a list of blank lines: for each line its blanks and its line
end. -/
def joinLines (lines : List (List Nat × Nat)) : List Nat :=
  lines.flatMap (fun l => l.1 ++ [l.2])

/-! ## The builder actions, one by one -/

/-- The Connection appended by `createMiddlet` and the pending source it leaves. -/
theorem createMiddlet_appends (self : BaseFbp) :
    ∃ c : Connection,
      self.createMiddlet.Connections = self.Connections ++ [c] ∧
      c.Target = some ⟨self.createProcessName self.nodeProcessName, self.inPort⟩ ∧
      (∀ e, self.srcEndpoint = some e → c.Source = some e ∧ c.Data = []) ∧
      (self.srcEndpoint = none → c.Source = none ∧ c.Data = self.iip) ∧
      self.createMiddlet.srcEndpoint =
        some ⟨self.createProcessName self.nodeProcessName, self.outPort⟩ := by
  cases hs : self.srcEndpoint with
  | none =>
    exact ⟨_, by simp [BaseFbp.createMiddlet, BaseFbp.createLeftlet]; rfl, by simp [hs], by simp,
      by simp [hs], by simp [BaseFbp.createMiddlet, BaseFbp.createLeftlet, BaseFbp.createProcessName]⟩
  | some e =>
    exact ⟨_, by simp [BaseFbp.createMiddlet, BaseFbp.createLeftlet]; rfl, by simp [hs], by simp [hs],
      by simp, by simp [BaseFbp.createMiddlet, BaseFbp.createLeftlet, BaseFbp.createProcessName]⟩

/-- C2: whatever the builder state, `createMiddlet` appends exactly one
Connection; its Target is the endpoint (qualified node name, leading port
`inPort`); its Source is the pending source when one is set (Data is then
empty), and otherwise it has no Source and its Data is the current IIP text;
afterwards the pending source is the endpoint (the same qualified node name,
trailing port `outPort`). -/
theorem createMiddlet_spec (self : BaseFbp) :
    ∃ c : Connection,
      self.createMiddlet.Connections = self.Connections ++ [c] ∧
      c.Target = some ⟨self.createProcessName self.nodeProcessName, self.inPort⟩ ∧
      (∀ e, self.srcEndpoint = some e → c.Source = some e ∧ c.Data = []) ∧
      (self.srcEndpoint = none → c.Source = none ∧ c.Data = self.iip) ∧
      self.createMiddlet.srcEndpoint =
        some ⟨self.createProcessName self.nodeProcessName, self.outPort⟩ :=
  createMiddlet_appends self

/-- The Connection appended by `createRightlet` and the scratch fields it clears. -/
theorem createRightlet_appends (self : BaseFbp) :
    (∃ c : Connection,
      self.createRightlet.Connections = self.Connections ++ [c] ∧
      c.Target = some ⟨self.createProcessName self.nodeProcessName, self.port⟩ ∧
      (∀ e, self.srcEndpoint = some e → c.Source = some e ∧ c.Data = []) ∧
      (self.srcEndpoint = none → c.Source = none ∧ c.Data = self.iip)) ∧
    self.createRightlet.srcEndpoint = none ∧
    self.createRightlet.iip = [] ∧
    self.createRightlet.nodeProcessName = [] ∧
    self.createRightlet.port = [] := by
  refine ⟨?_, rfl, rfl, rfl, rfl⟩
  cases hs : self.srcEndpoint with
  | none => exact ⟨_, by simp [BaseFbp.createRightlet]; rfl, by simp [hs], by simp, by simp [hs]⟩
  | some e =>
    exact ⟨_, by simp [BaseFbp.createRightlet]; rfl, by simp [hs], by simp [hs], by simp⟩

/-- C3: whatever the builder state, `createRightlet` appends exactly one
Connection with Target the endpoint (qualified node name, `port`); its Source
is the pending source when one is set (Data is then empty), and otherwise it has
no Source and its Data is the current IIP text; afterwards the pending source,
the current IIP, the node-name scratch and the port scratch are all cleared. -/
theorem createRightlet_spec (self : BaseFbp) :
    (∃ c : Connection,
      self.createRightlet.Connections = self.Connections ++ [c] ∧
      c.Target = some ⟨self.createProcessName self.nodeProcessName, self.port⟩ ∧
      (∀ e, self.srcEndpoint = some e → c.Source = some e ∧ c.Data = []) ∧
      (self.srcEndpoint = none → c.Source = none ∧ c.Data = self.iip)) ∧
    self.createRightlet.srcEndpoint = none ∧
    self.createRightlet.iip = [] ∧
    self.createRightlet.nodeProcessName = [] ∧
    self.createRightlet.port = [] :=
  createRightlet_appends self

/-- C4: whatever the builder state, `createLeftlet` sets the pending source to
the endpoint (qualified node name, `port`), clears the node-name and port
scratch fields, and leaves Processes, Connections, Inports and Outports
unchanged: a leftlet alone emits no connection. -/
theorem createLeftlet_spec (self : BaseFbp) :
    self.createLeftlet.srcEndpoint =
      some ⟨self.createProcessName self.nodeProcessName, self.port⟩ ∧
    self.createLeftlet.nodeProcessName = [] ∧
    self.createLeftlet.port = [] ∧
    self.createLeftlet.Processes = self.Processes ∧
    self.createLeftlet.Connections = self.Connections ∧
    self.createLeftlet.Inports = self.Inports ∧
    self.createLeftlet.Outports = self.Outports :=
  ⟨rfl, rfl, rfl, rfl, rfl, rfl, rfl⟩

/-- The loop of `processExists` finds a process exactly when one has the
qualified name. -/
theorem processExists_iff (self : BaseFbp) (name : GoString) :
    self.processExists name = true ↔
      ∃ ps ∈ self.Processes, ps.Name = self.createProcessName name := by
  simp [BaseFbp.processExists]

/-- When `createNode` appends a Process, and which one. -/
theorem createNode_appends (self : BaseFbp) :
    ((self.nodeComponentName ≠ [] ∧
        ∀ ps ∈ self.Processes, ps.Name ≠ self.createProcessName self.nodeProcessName) →
      ∃ process : Process,
        self.createNode.Processes = self.Processes ++ [process] ∧
        process.Name = self.createProcessName self.nodeProcessName ∧
        process.Component = self.nodeComponentName) ∧
    (¬ (self.nodeComponentName ≠ [] ∧
        ∀ ps ∈ self.Processes, ps.Name ≠ self.createProcessName self.nodeProcessName) →
      self.createNode.Processes = self.Processes) := by
  have hex : self.processExists self.nodeProcessName = false ↔
      ∀ ps ∈ self.Processes, ps.Name ≠ self.createProcessName self.nodeProcessName := by
    rw [← Bool.not_eq_true, processExists_iff]
    simp
  constructor
  · intro h
    have hc : self.nodeComponentName ≠ [] ∧ self.processExists self.nodeProcessName = false :=
      ⟨h.1, hex.2 h.2⟩
    refine ⟨{ Name := self.createProcessName self.nodeProcessName
              Component := self.nodeComponentName
              Metadata :=
                if self.nodeMeta ≠ [] then
                  some (BaseFbp.metaPairs [] (strings.Split self.nodeMeta (44 : UInt8)))
                else none }, ?_, rfl, rfl⟩
    simp only [BaseFbp.createNode, if_pos hc]
  · intro h
    have hc : ¬ (self.nodeComponentName ≠ [] ∧ self.processExists self.nodeProcessName = false) :=
      fun hc => h ⟨hc.1, hex.1 hc.2⟩
    simp only [BaseFbp.createNode, if_neg hc]


/-- C5: whatever the builder state, `createNode` appends exactly one Process,
named by the qualified node name and with Component `nodeComponentName`, when
the component name is non-empty and no Process of that qualified name exists
yet; in every other case (also a declared name given again with another
component) Processes is left unchanged, so the first declaration and its
Component and Metadata stay as they are. -/
theorem createNode_spec (self : BaseFbp) :
    ((self.nodeComponentName ≠ [] ∧
        ∀ ps ∈ self.Processes, ps.Name ≠ self.createProcessName self.nodeProcessName) →
      ∃ process : Process,
        self.createNode.Processes = self.Processes ++ [process] ∧
        process.Name = self.createProcessName self.nodeProcessName ∧
        process.Component = self.nodeComponentName) ∧
    (¬ (self.nodeComponentName ≠ [] ∧
        ∀ ps ∈ self.Processes, ps.Name ≠ self.createProcessName self.nodeProcessName) →
      self.createNode.Processes = self.Processes) :=
  createNode_appends self

/-! ## The replay as a sequence of builder actions -/

/-- Every round of the loop of `Execute` that does not panic is a builder action. -/
theorem step_action (buffer : GoString) (st st1 : ExecuteState) (token : token32)
    (h : Execute.step buffer st token = .ok st1) : BuilderAction st.p st1.p := by
  unfold Execute.step at h
  split at h <;> (try simp only [bind, Except.bind] at h) <;>
    first
    | (cases h
       first
       | exact .skip _
       | exact .action2 _
       | exact .action3 _
       | exact .action4 _
       | exact .action5 _
       | exact .action6 _
       | exact .action9 _)
    | (split at h
       · cases h
       · first
         | (cases h
            first
            | exact .action7 _ _
            | exact .action8 _ _
            | exact .action10 _ _
            | exact .action11 _ _
            | exact .action12 _ _
            | exact .action14 _ _)
         | (split at h
            · cases h
            · cases h
              first
              | exact .action0 _ _ _ (by assumption)
              | exact .action1 _ _ _ (by assumption)))

/-- An invariant of the builder actions holds after every replay that ends. -/
theorem loop_invariant (P : BaseFbp → Prop)
    (hP : ∀ p q, BuilderAction p q → P p → P q) (buffer : GoString) :
    ∀ (tokens : List token32) (st st1 : ExecuteState),
      P st.p → Execute.loop buffer st tokens = .ok st1 → P st1.p := by
  intro tokens
  induction tokens with
  | nil =>
    intro st st1 h0 h
    simp only [Execute.loop] at h
    cases h
    exact h0
  | cons token tokens ih =>
    intro st st1 h0 h
    simp only [Execute.loop] at h
    split at h
    · cases h
    · rename_i st2 hstep
      exact ih st2 st1 (hP _ _ (step_action buffer st st2 token hstep) h0) h


/-- What `createInport` can do: nothing, or an assignment to `Inports`. -/
theorem createInport_frame (p q : BaseFbp) (text : GoString)
    (h : p.createInport text = .ok q) : ∃ m, q = { p with Inports := m } := by
  unfold BaseFbp.createInport at h
  simp only [bind, Except.bind] at h
  split at h
  · cases h
  · split at h
    · cases h
      exact ⟨p.Inports, rfl⟩
    · cases h
      exact ⟨_, rfl⟩

/-- What `createOutport` can do: nothing, or an assignment to `Outports`. -/
theorem createOutport_frame (p q : BaseFbp) (text : GoString)
    (h : p.createOutport text = .ok q) : ∃ m, q = { p with Outports := m } := by
  unfold BaseFbp.createOutport at h
  simp only [bind, Except.bind] at h
  split at h
  · cases h
  · split at h
    · cases h
      exact ⟨p.Outports, rfl⟩
    · cases h
      exact ⟨_, rfl⟩

/-- No builder action changes `Subgraph`. -/
theorem action_Subgraph (p q : BaseFbp) (h : BuilderAction p q) : q.Subgraph = p.Subgraph := by
  cases h with
  | action0 _ text h0 =>
    obtain ⟨m, rfl⟩ := createInport_frame p q text h0
    rfl
  | action1 _ text h1 =>
    obtain ⟨m, rfl⟩ := createOutport_frame p q text h1
    rfl
  | action9 =>
    unfold BaseFbp.createNode
    split <;> rfl
  | _ => rfl

/-- A builder action leaves `Processes` as it is or appends one Process whose
name no earlier Process has. -/
theorem action_Processes (p q : BaseFbp) (h : BuilderAction p q) :
    q.Processes = p.Processes ∨
      ∃ process : Process, q.Processes = p.Processes ++ [process] ∧
        ∀ ps ∈ p.Processes, ps.Name ≠ process.Name := by
  cases h with
  | action0 _ text h0 =>
    obtain ⟨m, rfl⟩ := createInport_frame p q text h0
    exact Or.inl rfl
  | action1 _ text h1 =>
    obtain ⟨m, rfl⟩ := createOutport_frame p q text h1
    exact Or.inl rfl
  | action9 =>
    by_cases hc : p.nodeComponentName ≠ [] ∧
        ∀ ps ∈ p.Processes, ps.Name ≠ p.createProcessName p.nodeProcessName
    · obtain ⟨process, h1, h2, _⟩ := (createNode_appends p).1 hc
      exact Or.inr ⟨process, h1, fun ps hps => h2 ▸ hc.2 ps hps⟩
    · exact Or.inl ((createNode_appends p).2 hc)
  | _ => exact Or.inl rfl

/-- A builder action leaves `Connections` as it is or appends one Connection,
built from the pending source or, without one, from the current IIP. -/
theorem action_Connections (p q : BaseFbp) (h : BuilderAction p q) :
    q.Connections = p.Connections ∨
      ∃ c : Connection, q.Connections = p.Connections ++ [c] ∧ c.Target ≠ none ∧
        ((∃ e, p.srcEndpoint = some e ∧ c.Source = some e ∧ c.Data = []) ∨
         (p.srcEndpoint = none ∧ c.Source = none ∧ c.Data = p.iip)) := by
  cases h with
  | action0 _ text h0 =>
    obtain ⟨m, rfl⟩ := createInport_frame p q text h0
    exact Or.inl rfl
  | action1 _ text h1 =>
    obtain ⟨m, rfl⟩ := createOutport_frame p q text h1
    exact Or.inl rfl
  | action9 =>
    refine Or.inl ?_
    unfold BaseFbp.createNode
    split <;> rfl
  | action4 =>
    obtain ⟨c, h1, h2, h3, h4, _⟩ := createMiddlet_appends p
    refine Or.inr ⟨c, h1, by simp [h2], ?_⟩
    cases hs : p.srcEndpoint with
    | none => exact Or.inr ⟨rfl, h4 hs⟩
    | some e => exact Or.inl ⟨e, rfl, h3 e hs⟩
  | action6 =>
    obtain ⟨⟨c, h1, h2, h3, h4⟩, _⟩ := createRightlet_appends p
    refine Or.inr ⟨c, h1, by simp [h2], ?_⟩
    cases hs : p.srcEndpoint with
    | none => exact Or.inr ⟨rfl, h4 hs⟩
    | some e => exact Or.inl ⟨e, rfl, h3 e hs⟩
  | _ => exact Or.inl rfl

/-- The replay of a list of records in two parts. -/
theorem loop_append (buffer : GoString) (t1 t2 : List token32) (st : ExecuteState) :
    Execute.loop buffer st (t1 ++ t2) =
      match Execute.loop buffer st t1 with
      | .error f => .error f
      | .ok st1 => Execute.loop buffer st1 t2 := by
  induction t1 generalizing st with
  | nil => simp [Execute.loop]
  | cons token t1 ih =>
    simp only [List.cons_append, Execute.loop]
    cases Execute.step buffer st token with
    | error f => rfl
    | ok st2 => exact ih st2

/-- The Processes of a state are kept, in order, at the front of the Processes
after any replay from it. -/
theorem loop_Processes_grow (buffer : GoString) (tokens : List token32)
    (st st1 : ExecuteState) (h : Execute.loop buffer st tokens = .ok st1) :
    ∃ l, st1.p.Processes = st.p.Processes ++ l := by
  refine loop_invariant (fun q => ∃ l, q.Processes = st.p.Processes ++ l) ?_ buffer tokens st st1
    ⟨[], by simp⟩ h
  intro p q hpq ⟨l, hl⟩
  rcases action_Processes p q hpq with h1 | ⟨process, h1, _⟩
  · exact ⟨l, h1 ▸ hl⟩
  · exact ⟨l ++ [process], by rw [h1, hl, List.append_assoc]⟩

/-- C6: from an empty builder with any fixed Subgraph, after the replay of any
list of records (any sequence of builder actions) no two entries of Processes
have the same Name; and the list is in declaration order: the Processes
present after any part of the replay stay, in the same order, at the front of
the final list. -/
theorem processes_nodup (subgraph buffer : GoString) (tokens : List token32)
    (st : ExecuteState)
    (h : Execute.loop buffer ⟨0, 0, BaseFbp.empty subgraph⟩ tokens = .ok st) :
    (st.p.Processes.map Process.Name).Nodup ∧
    ∀ (t1 t2 : List token32) (st1 : ExecuteState), tokens = t1 ++ t2 →
      Execute.loop buffer ⟨0, 0, BaseFbp.empty subgraph⟩ t1 = .ok st1 →
      ∃ l, st.p.Processes = st1.p.Processes ++ l := by
  constructor
  · refine loop_invariant (fun q => (q.Processes.map Process.Name).Nodup) ?_ buffer tokens
      ⟨0, 0, BaseFbp.empty subgraph⟩ st (by simp [BaseFbp.empty]) h
    intro p q hpq hp
    rcases action_Processes p q hpq with h1 | ⟨process, h1, h2⟩
    · rw [h1]
      exact hp
    · rw [h1, List.map_append, List.nodup_append]
      refine ⟨hp, by simp, ?_⟩
      intro a ha hb
      simp only [List.map_cons, List.map_nil, List.mem_singleton] at hb
      obtain ⟨ps, hps, rfl⟩ := List.mem_map.1 ha
      exact h2 ps hps hb
  · intro t1 t2 st1 ht h1
    subst ht
    rw [loop_append, h1] at h
    exact loop_Processes_grow buffer t2 st1 st h

/-! ## Chains -/

/-- A record without event falls through the `switch` of `Execute`. -/
theorem step_of_event_none (buffer : GoString) (st : ExecuteState) (token : token32)
    (h : event token = none) : Execute.step buffer st token = .ok st := by
  obtain ⟨rule, b, e, n⟩ := token
  cases rule <;> simp [event, isAction] at h <;> rfl

/-- A record is replayed like the record of its event. -/
theorem step_of_event_some (buffer : GoString) (st : ExecuteState) (token : token32)
    (ev : Event) (h : event token = some ev) :
    Execute.step buffer st token = Execute.step buffer st ev.token := by
  obtain ⟨rule, b, e, n⟩ := token
  cases rule <;> simp [event, isAction] at h <;> subst h <;> rfl

/-- The replay depends on the events of the records only. -/
theorem loop_events (buffer : GoString) (tokens : List token32) (st : ExecuteState) :
    Execute.loop buffer st tokens = Execute.loop buffer st ((events tokens).map Event.token) := by
  induction tokens generalizing st with
  | nil => rfl
  | cons token tokens ih =>
    cases h : event token with
    | none =>
      simp only [events, List.filterMap_cons, h, Execute.loop,
        step_of_event_none buffer st token h]
      exact ih st
    | some ev =>
      simp only [events, List.filterMap_cons, h, List.map_cons, Execute.loop,
        step_of_event_some buffer st token ev h]
      cases Execute.step buffer st ev.token with
      | error f => rfl
      | ok st1 => exact ih st1

/-- The slice of a span within the buffer is its text. -/
theorem slice_valid (buffer : GoString) (sp : Span) (h : sp.valid buffer = true) :
    slice buffer sp.begin sp.end_ = .ok (sp.text buffer) := by
  simp only [Span.valid, decide_eq_true_eq] at h
  simp only [slice, if_pos h, Span.text]

/-- The replay of a captured text: `begin` and `end` are set to its span. -/
theorem loop_text (buffer : GoString) (st : ExecuteState) (sp : Span) (rest : List token32) :
    Execute.loop buffer st (Event.token (.text sp) :: rest) =
      Execute.loop buffer ⟨sp.begin, sp.end_, st.p⟩ rest := rfl

theorem loop_act2 (buffer : GoString) (b e : Int) (p : BaseFbp) (rest : List token32) :
    Execute.loop buffer ⟨b, e, p⟩ (Event.token (.act .ruleAction2) :: rest) =
      Execute.loop buffer ⟨b, e, { p with inPort := p.port, inPortIndex := p.index }⟩ rest := rfl

theorem loop_act3 (buffer : GoString) (b e : Int) (p : BaseFbp) (rest : List token32) :
    Execute.loop buffer ⟨b, e, p⟩ (Event.token (.act .ruleAction3) :: rest) =
      Execute.loop buffer ⟨b, e, { p with outPort := p.port, outPortIndex := p.index }⟩ rest := rfl

theorem loop_act4 (buffer : GoString) (b e : Int) (p : BaseFbp) (rest : List token32) :
    Execute.loop buffer ⟨b, e, p⟩ (Event.token (.act .ruleAction4) :: rest) =
      Execute.loop buffer ⟨b, e, p.createMiddlet⟩ rest := rfl

theorem loop_act5 (buffer : GoString) (b e : Int) (p : BaseFbp) (rest : List token32) :
    Execute.loop buffer ⟨b, e, p⟩ (Event.token (.act .ruleAction5) :: rest) =
      Execute.loop buffer ⟨b, e, p.createLeftlet⟩ rest := rfl

theorem loop_act6 (buffer : GoString) (b e : Int) (p : BaseFbp) (rest : List token32) :
    Execute.loop buffer ⟨b, e, p⟩ (Event.token (.act .ruleAction6) :: rest) =
      Execute.loop buffer ⟨b, e, p.createRightlet⟩ rest := rfl

theorem loop_act9 (buffer : GoString) (b e : Int) (p : BaseFbp) (rest : List token32) :
    Execute.loop buffer ⟨b, e, p⟩ (Event.token (.act .ruleAction9) :: rest) =
      Execute.loop buffer ⟨b, e, p.createNode⟩ rest := rfl

theorem loop_act7 (buffer : GoString) (sp : Span) (p : BaseFbp) (rest : List token32)
    (h : sp.valid buffer = true) :
    Execute.loop buffer ⟨sp.begin, sp.end_, p⟩ (Event.token (.act .ruleAction7) :: rest) =
      Execute.loop buffer ⟨sp.begin, sp.end_, { p with iip := sp.text buffer }⟩ rest := by
  simp only [Execute.loop, Event.token, Execute.step, slice_valid buffer sp h, bind, Except.bind]

theorem loop_act8 (buffer : GoString) (sp : Span) (p : BaseFbp) (rest : List token32)
    (h : sp.valid buffer = true) :
    Execute.loop buffer ⟨sp.begin, sp.end_, p⟩ (Event.token (.act .ruleAction8) :: rest) =
      Execute.loop buffer ⟨sp.begin, sp.end_, { p with nodeProcessName := sp.text buffer }⟩
        rest := by
  simp only [Execute.loop, Event.token, Execute.step, slice_valid buffer sp h, bind, Except.bind]

theorem loop_act10 (buffer : GoString) (sp : Span) (p : BaseFbp) (rest : List token32)
    (h : sp.valid buffer = true) :
    Execute.loop buffer ⟨sp.begin, sp.end_, p⟩ (Event.token (.act .ruleAction10) :: rest) =
      Execute.loop buffer ⟨sp.begin, sp.end_, { p with nodeComponentName := sp.text buffer }⟩
        rest := by
  simp only [Execute.loop, Event.token, Execute.step, slice_valid buffer sp h, bind, Except.bind]

theorem loop_act11 (buffer : GoString) (sp : Span) (p : BaseFbp) (rest : List token32)
    (h : sp.valid buffer = true) :
    Execute.loop buffer ⟨sp.begin, sp.end_, p⟩ (Event.token (.act .ruleAction11) :: rest) =
      Execute.loop buffer ⟨sp.begin, sp.end_, { p with nodeMeta := sp.text buffer }⟩ rest := by
  simp only [Execute.loop, Event.token, Execute.step, slice_valid buffer sp h, bind, Except.bind]

theorem loop_act12 (buffer : GoString) (sp : Span) (p : BaseFbp) (rest : List token32)
    (h : sp.valid buffer = true) :
    Execute.loop buffer ⟨sp.begin, sp.end_, p⟩ (Event.token (.act .ruleAction12) :: rest) =
      Execute.loop buffer ⟨sp.begin, sp.end_, { p with port := sp.text buffer }⟩ rest := by
  simp only [Execute.loop, Event.token, Execute.step, slice_valid buffer sp h, bind, Except.bind]

theorem loop_act13 (buffer : GoString) (sp : Span) (p : BaseFbp) (rest : List token32)
    (h : sp.valid buffer = true) :
    Execute.loop buffer ⟨sp.begin, sp.end_, p⟩ (Event.token (.act .ruleAction13) :: rest) =
      Execute.loop buffer ⟨sp.begin, sp.end_, { p with port := sp.text buffer }⟩ rest := by
  simp only [Execute.loop, Event.token, Execute.step, slice_valid buffer sp h, bind, Except.bind]

theorem loop_act14 (buffer : GoString) (sp : Span) (p : BaseFbp) (rest : List token32)
    (h : sp.valid buffer = true) :
    Execute.loop buffer ⟨sp.begin, sp.end_, p⟩ (Event.token (.act .ruleAction14) :: rest) =
      Execute.loop buffer ⟨sp.begin, sp.end_, { p with index := sp.text buffer }⟩ rest := by
  simp only [Execute.loop, Event.token, Execute.step, slice_valid buffer sp h, bind, Except.bind]

/-- The action of `createNode` touches `nodeMeta` and `Processes` only. -/
theorem createNode_frame (p : BaseFbp) :
    ∃ m ps, p.createNode = { p with nodeMeta := m, Processes := ps } := by
  unfold BaseFbp.createNode
  split
  · exact ⟨_, _, rfl⟩
  · exact ⟨p.nodeMeta, p.Processes, rfl⟩

/-- The qualified name depends on `Subgraph` only. -/
theorem createProcessName_congr (p q : BaseFbp) (h : q.Subgraph = p.Subgraph) :
    q.createProcessName = p.createProcessName := by
  funext name
  simp only [BaseFbp.createProcessName, h]

/-- The replay of a node: the name scratch holds the node name; apart from it,
only the component and metadata scratch and `Processes` may change. -/
theorem loop_node (buffer : GoString) (n : NodeText) (h : n.valid buffer = true)
    (st : ExecuteState) (rest : List token32) :
    ∃ b e c m ps,
      Execute.loop buffer st (n.events.map Event.token ++ rest) =
        Execute.loop buffer
          ⟨b, e, { st.p with nodeProcessName := n.name.text buffer, nodeComponentName := c,
                             nodeMeta := m, Processes := ps }⟩ rest := by
  obtain ⟨name, component⟩ := n
  match component with
  | none =>
    simp only [NodeText.valid, Bool.and_true] at h
    simp only [NodeText.events, List.append_nil, List.map_cons, List.map_nil, List.cons_append,
      List.nil_append, List.map_append, loop_text, loop_act8 buffer name _ _ h, loop_act9]
    obtain ⟨m, ps, hps⟩ := createNode_frame { st.p with nodeProcessName := name.text buffer }
    exact ⟨_, _, st.p.nodeComponentName, m, ps, by rw [hps]⟩
  | some (c, none) =>
    simp only [NodeText.valid, Bool.and_eq_true] at h
    simp only [NodeText.events, List.map_cons, List.map_nil, List.cons_append,
      List.nil_append, List.map_append, loop_text, loop_act8 buffer name _ _ h.1,
      loop_act10 buffer c _ _ h.2, loop_act9]
    obtain ⟨m, ps, hps⟩ := createNode_frame
      { st.p with nodeProcessName := name.text buffer, nodeComponentName := c.text buffer }
    exact ⟨_, _, c.text buffer, m, ps, by rw [hps]⟩
  | some (c, some mt) =>
    simp only [NodeText.valid, Bool.and_eq_true] at h
    simp only [NodeText.events, List.map_cons, List.map_nil, List.cons_append,
      List.nil_append, List.map_append, loop_text, loop_act8 buffer name _ _ h.1,
      loop_act10 buffer c _ _ h.2.1, loop_act11 buffer mt _ _ h.2.2, loop_act9]
    obtain ⟨m, ps, hps⟩ := createNode_frame
      { st.p with nodeProcessName := name.text buffer, nodeComponentName := c.text buffer,
                  nodeMeta := mt.text buffer }
    exact ⟨_, _, c.text buffer, m, ps, by rw [hps]⟩

/-- The replay of the port of a leftlet or rightlet: the port scratch holds the
bare port name; apart from it only the index scratch may change. -/
theorem loop_port (buffer : GoString) (pt : PortText) (h : pt.valid buffer = true)
    (st : ExecuteState) (rest : List token32) :
    ∃ b e idx,
      Execute.loop buffer st (pt.events.map Event.token ++ rest) =
        Execute.loop buffer ⟨b, e, { st.p with port := pt.name.text buffer, index := idx }⟩
          rest := by
  cases pt with
  | plain name =>
    simp only [PortText.valid] at h
    simp only [PortText.events, List.map_cons, List.map_nil, List.cons_append, List.nil_append,
      loop_text, loop_act12 buffer name _ _ h, PortText.name]
    exact ⟨_, _, st.p.index, rfl⟩
  | indexed name idx =>
    simp only [PortText.valid, Bool.and_eq_true] at h
    simp only [PortText.events, List.map_cons, List.map_nil, List.cons_append, List.nil_append,
      loop_text, loop_act13 buffer name _ _ h.1, loop_act14 buffer idx _ _ h.2, PortText.name]
    exact ⟨_, _, idx.text buffer, rfl⟩

/-- The Connection that `createMiddlet` and `createRightlet` build. -/
theorem connect_eq (p : BaseFbp) (target : Endpoint) :
    (if p.srcEndpoint ≠ none then
        ({ Data := [], Source := p.srcEndpoint, Target := some target } : Connection)
      else { Data := p.iip, Source := none, Target := some target }) =
      connect p.srcEndpoint p.iip target := by
  cases h : p.srcEndpoint <;> simp [connect]

/-- The replay of a middlet: one Connection is appended, from the pending
source (or the current IIP) to the node and leading port, and the pending
source becomes the node with the trailing port. -/
theorem loop_middlet (buffer : GoString) (m : Middlet) (h : m.valid buffer = true)
    (st : ExecuteState) (rest : List token32) :
    ∃ st1 : ExecuteState,
      Execute.loop buffer st (m.events.map Event.token ++ rest) = Execute.loop buffer st1 rest ∧
      st1.p.Connections = st.p.Connections ++
        [connect st.p.srcEndpoint st.p.iip
          ⟨st.p.createProcessName (m.n.name.text buffer), m.p.text buffer⟩] ∧
      st1.p.srcEndpoint =
        some ⟨st.p.createProcessName (m.n.name.text buffer), m.q.text buffer⟩ ∧
      st1.p.Subgraph = st.p.Subgraph := by
  simp only [Middlet.valid, Bool.and_eq_true] at h
  obtain ⟨⟨hp, hn⟩, hq⟩ := h
  simp only [Middlet.events, List.map_append, List.map_cons, List.map_nil, List.cons_append,
    List.nil_append, List.append_assoc, loop_text, loop_act12 buffer m.p _ _ hp, loop_act2]
  obtain ⟨b, e, c, mt, ps, hnode⟩ := loop_node buffer m.n hn
    ⟨m.p.begin, m.p.end_,
      { st.p with port := m.p.text buffer, inPort := m.p.text buffer, inPortIndex := st.p.index }⟩
    (Event.token (.text m.q) :: Event.token (.act .ruleAction12) ::
      Event.token (.act .ruleAction3) :: Event.token (.act .ruleAction4) :: rest)
  rw [hnode]
  simp only [loop_text, loop_act12 buffer m.q _ _ hq, loop_act3, loop_act4]
  refine ⟨_, rfl, ?_, ?_, ?_⟩
  · simp only [BaseFbp.createMiddlet, BaseFbp.createLeftlet]
    rw [connect_eq]
    rfl
  · simp only [BaseFbp.createMiddlet, BaseFbp.createLeftlet]
    rfl
  · rfl

/-- The replay of a rightlet: one Connection is appended, from the pending
source (or the current IIP) to the node and port. -/
theorem loop_rightlet (buffer : GoString) (r : Rightlet) (h : r.valid buffer = true)
    (st : ExecuteState) (rest : List token32) :
    ∃ st1 : ExecuteState,
      Execute.loop buffer st (r.events.map Event.token ++ rest) = Execute.loop buffer st1 rest ∧
      st1.p.Connections = st.p.Connections ++
        [connect st.p.srcEndpoint st.p.iip
          ⟨st.p.createProcessName (r.n.name.text buffer), r.p.name.text buffer⟩] := by
  simp only [Rightlet.valid, Bool.and_eq_true] at h
  obtain ⟨hp, hn⟩ := h
  simp only [Rightlet.events, List.map_append, List.map_cons, List.map_nil, List.append_assoc]
  obtain ⟨b, e, idx, hport⟩ := loop_port buffer r.p hp st
    (r.n.events.map Event.token ++ ([Event.token (.act .ruleAction6)] ++ rest))
  rw [hport]
  obtain ⟨b1, e1, c, mt, ps, hnode⟩ := loop_node buffer r.n hn
    ⟨b, e, { st.p with port := r.p.name.text buffer, index := idx }⟩
    ([Event.token (.act .ruleAction6)] ++ rest)
  rw [hnode]
  simp only [List.cons_append, List.nil_append, loop_act6]
  refine ⟨_, rfl, ?_⟩
  simp only [BaseFbp.createRightlet]
  rw [connect_eq]
  rfl

/-- With a pending source, the literal plays no part in the Connections of the
links. -/
theorem linkConnections_source (buffer : GoString) (name : GoString → GoString)
    (e : Endpoint) (d1 d2 : GoString) (ms : List Middlet) (r : Rightlet) :
    linkConnections buffer name (some e) d1 ms r =
      linkConnections buffer name (some e) d2 ms r := by
  cases ms <;> rfl

/-- A chain of `m` middlets and a rightlet gives `m + 1` Connections. -/
theorem linkConnections_length (buffer : GoString) (name : GoString → GoString)
    (ms : List Middlet) (r : Rightlet) :
    ∀ (source : Option Endpoint) (data : GoString),
      (linkConnections buffer name source data ms r).length = ms.length + 1 := by
  induction ms with
  | nil => intro source data; rfl
  | cons m ms ih =>
    intro source data
    simp only [linkConnections, List.length_cons, ih]

/-- The replay of the middlets and the final rightlet of a chain. -/
theorem loop_links (buffer : GoString) (r : Rightlet) (hr : r.valid buffer = true)
    (ms : List Middlet) :
    (ms.all (Middlet.valid buffer) = true) → ∀ (st : ExecuteState),
    ∃ st1 : ExecuteState,
      Execute.loop buffer st ((ms.flatMap Middlet.events ++ r.events).map Event.token) = .ok st1 ∧
      st1.p.Connections = st.p.Connections ++
        linkConnections buffer st.p.createProcessName st.p.srcEndpoint st.p.iip ms r := by
  induction ms with
  | nil =>
    intro _ st
    obtain ⟨st1, h1, h2⟩ := loop_rightlet buffer r hr st []
    simp only [List.append_nil] at h1
    exact ⟨st1, by simpa [Execute.loop] using h1, h2⟩
  | cons m ms ih =>
    intro hms st
    simp only [List.all_cons, Bool.and_eq_true] at hms
    obtain ⟨st1, h1, h2, h3, h4⟩ := loop_middlet buffer m hms.1 st
      ((ms.flatMap Middlet.events ++ r.events).map Event.token)
    obtain ⟨st2, h5, h6⟩ := ih hms.2 st1
    refine ⟨st2, ?_, ?_⟩
    · simp only [List.flatMap_cons, List.append_assoc, List.map_append] at h1 h5 ⊢
      rw [h1, h5]
    · rw [h6, h2, h3, List.append_assoc, createProcessName_congr st.p st1.p h4]
      simp only [List.singleton_append, linkConnections]
      rw [linkConnections_source buffer _ _ st1.p.iip []]

/-- C1: a chain made of a start bridge (an IIP literal `d`, or a leftlet
`(n0, q0)`), `m ≥ 0` middlets `(p_i, n_i, q_i)` and a final rightlet `(p, n)`,
replayed by the loop of `Execute` from a builder with no pending source, runs
to the end and appends exactly `m + 1` Connections in chain order: the first
from the literal `d` (or from the endpoint `(n0, q0)`) to `(n_1, p_1)`, each
following one from `(n_i, q_i)` to `(n_{i+1}, p_{i+1})`, node names qualified
by `createProcessName`. The records may be any list whose captured texts and
actions are those of the chain, all spans lying within the buffer. -/
theorem chain_replay (buffer : GoString) (st : ExecuteState) (tokens : List token32)
    (c : Chain) (hsrc : st.p.srcEndpoint = none) (hvalid : c.valid buffer = true)
    (hev : events tokens = c.events) :
    ∃ st1 : ExecuteState,
      Execute.loop buffer st tokens = .ok st1 ∧
      st1.p.Connections = st.p.Connections ++ c.connections buffer st.p.createProcessName ∧
      (c.connections buffer st.p.createProcessName).length = c.middlets.length + 1 := by
  obtain ⟨start, ms, r⟩ := c
  simp only [Chain.valid, Bool.and_eq_true] at hvalid
  obtain ⟨⟨hs, hms⟩, hr⟩ := hvalid
  rw [loop_events, hev]
  simp only [Chain.events, List.append_assoc, List.map_append]
  cases start with
  | iip d =>
    simp only [Start.valid] at hs
    simp only [Start.events, List.map_cons, List.map_nil, List.cons_append, List.nil_append,
      loop_text, loop_act7 buffer d _ _ hs, Chain.connections]
    obtain ⟨st1, h1, h2⟩ := loop_links buffer r hr ms hms
      ⟨d.begin, d.end_, { st.p with iip := d.text buffer }⟩
    simp only [List.map_append] at h1
    refine ⟨st1, h1, ?_, linkConnections_length buffer _ ms r _ _⟩
    rw [h2]
    simp only [hsrc]
    rfl
  | leftlet n q =>
    simp only [Start.valid, Bool.and_eq_true] at hs
    simp only [Start.events, List.map_append, List.append_assoc, List.map_cons, List.map_nil,
      Chain.connections]
    obtain ⟨b, e, cn, mt, ps, hnode⟩ := loop_node buffer n hs.1 st
      (q.events.map Event.token ++ ([Event.token (.act .ruleAction5)] ++
        (List.map Event.token (ms.flatMap Middlet.events) ++ List.map Event.token r.events)))
    rw [hnode]
    obtain ⟨b1, e1, idx, hport⟩ := loop_port buffer q hs.2
      ⟨b, e, { st.p with nodeProcessName := n.name.text buffer, nodeComponentName := cn,
                         nodeMeta := mt, Processes := ps }⟩
      ([Event.token (.act .ruleAction5)] ++
        (List.map Event.token (ms.flatMap Middlet.events) ++ List.map Event.token r.events))
    rw [hport]
    simp only [List.cons_append, List.nil_append, loop_act5]
    obtain ⟨st1, h1, h2⟩ := loop_links buffer r hr ms hms
      ⟨b1, e1, BaseFbp.createLeftlet
        { st.p with nodeProcessName := n.name.text buffer, nodeComponentName := cn,
                    nodeMeta := mt, Processes := ps, port := q.name.text buffer,
                    index := idx }⟩
    simp only [List.map_append] at h1
    refine ⟨st1, h1, ?_, linkConnections_length buffer _ ms r _ _⟩
    rw [h2]
    simp only [BaseFbp.createLeftlet]
    rw [linkConnections_source buffer _ _ _ []]
    rfl

/-- C1, witness: the first connection line of `graphTickLogger` is such a chain
(literal `5s`, middlet of `Ticker`, rightlet of `Forward`) and replays to the
two Connections of the chain; and `Init`, `Parse`, `Execute` on the whole
`graphTickLogger` text succeed and give exactly the Processes `Ticker`,
`Forward`, `Log` and the three Connections `5s -> Ticker.INTERVAL`,
`Ticker.OUT -> Forward.IN`, `Forward.OUT -> Log.IN`, in that order. -/
theorem chain_replay_tickLogger :
    (∃ st1 : ExecuteState,
      Execute.loop tickLoggerLine ⟨0, 0, BaseFbp.empty []⟩ (parsedTokens tickLoggerLine)
        = .ok st1 ∧
      st1.p.Connections =
        [⟨str "5s", none, some ⟨str "Ticker", str "INTERVAL"⟩⟩,
         ⟨[], some ⟨str "Ticker", str "OUT"⟩, some ⟨str "Forward", str "IN"⟩⟩]) ∧
    graphOf graphTickLogger [] =
      some (true,
        [⟨str "Ticker", str "core/ticker", none⟩, ⟨str "Forward", str "core/passthru", none⟩,
         ⟨str "Log", str "core/console", none⟩],
        [⟨str "5s", none, some ⟨str "Ticker", str "INTERVAL"⟩⟩,
         ⟨[], some ⟨str "Ticker", str "OUT"⟩, some ⟨str "Forward", str "IN"⟩⟩,
         ⟨[], some ⟨str "Forward", str "OUT"⟩, some ⟨str "Log", str "IN"⟩⟩]) := by
  constructor
  · obtain ⟨st1, h1, h2, _⟩ := chain_replay tickLoggerLine ⟨0, 0, BaseFbp.empty []⟩
      (parsedTokens tickLoggerLine) tickLoggerChain rfl (by decide!) (by decide!)
    refine ⟨st1, h1, ?_⟩
    rw [h2]
    decide!
  · decide!

/-- C6, witness: the replay of `A(Foo)` twice and of `B(Bar)` (name, component,
`createNode`) from the empty builder ends, and leaves the two Processes `A`
and `B`, without duplicate. -/
theorem processes_nodup_witness :
    ∃ st : ExecuteState,
      Execute.loop (str "A(Foo) A(Foo) B(Bar)") ⟨0, 0, BaseFbp.empty []⟩
        [⟨.rulePegText, 0, 1, 0⟩, ⟨.ruleAction8, 1, 1, 0⟩, ⟨.rulePegText, 2, 5, 0⟩,
         ⟨.ruleAction10, 5, 5, 0⟩, ⟨.ruleAction9, 6, 6, 0⟩,
         ⟨.rulePegText, 7, 8, 0⟩, ⟨.ruleAction8, 8, 8, 0⟩, ⟨.rulePegText, 9, 12, 0⟩,
         ⟨.ruleAction10, 12, 12, 0⟩, ⟨.ruleAction9, 13, 13, 0⟩,
         ⟨.rulePegText, 14, 15, 0⟩, ⟨.ruleAction8, 15, 15, 0⟩, ⟨.rulePegText, 16, 19, 0⟩,
         ⟨.ruleAction10, 19, 19, 0⟩, ⟨.ruleAction9, 20, 20, 0⟩] = .ok st ∧
      st.p.Processes.map Process.Name = [str "A", str "B"] ∧
      (st.p.Processes.map Process.Name).Nodup := by
  generalize hl : Execute.loop (str "A(Foo) A(Foo) B(Bar)") ⟨0, 0, BaseFbp.empty []⟩ _ = res
  have hres : res.toOption.map (fun s => s.p.Processes.map Process.Name)
      = some [str "A", str "B"] := by
    subst hl
    decide!
  cases res with
  | error f => simp [Except.toOption] at hres
  | ok st =>
    refine ⟨st, rfl, by simpa [Except.toOption] using hres, ?_⟩
    exact (processes_nodup [] _ _ st hl).1

/-! ## Bare node references, origins of Connections, number of Connections -/

/-- C7, the code at the failing input `A(Foo) OUT -> IN B`: the text is
accepted, its only component is the one of `A` (one `Action10` record), and
the replay of the bare reference `B` appends a Process `B` with the component
`Foo` left in the scratch by `A`, so Processes changes. -/
theorem bare_node_creates_process :
    graphOf (str "A(Foo) OUT -> IN B") [] =
      some (true,
        [⟨str "A", str "Foo", none⟩, ⟨str "B", str "Foo", none⟩],
        [⟨[], some ⟨str "A", str "OUT"⟩, some ⟨str "B", str "IN"⟩⟩]) ∧
    (parsedTokens (str "A(Foo) OUT -> IN B")).countP
      (fun t => decide (t.pegRule = .ruleAction10)) = 1 := by
  decide!

/-- C8, counterexample: the accepted text `IN Foo` (a rightlet alone) gives a
Connection with no Source and empty Data, and so does `'' -> IN Foo`, whose
literal is empty: neither origin field is present. -/
theorem connection_without_origin :
    graphOf (str "IN Foo") [] =
      some (true, [], [⟨[], none, some ⟨str "Foo", str "IN"⟩⟩]) ∧
    graphOf (str "'' -> IN Foo") [] =
      some (true, [], [⟨[], none, some ⟨str "Foo", str "IN"⟩⟩]) := by
  decide!

/-- One round of the loop of `Execute` leaves `Connections` as it is or appends
one Connection, built from the pending source or, without one, from the IIP
text of the builder before the round. -/
theorem step_Connections (buffer : GoString) (st st1 : ExecuteState) (token : token32)
    (h : Execute.step buffer st token = .ok st1) :
    st1.p.Connections = st.p.Connections ∨
      ∃ c : Connection, st1.p.Connections = st.p.Connections ++ [c] ∧ c.Target ≠ none ∧
        ((∃ e, st.p.srcEndpoint = some e ∧ c.Source = some e ∧ c.Data = []) ∨
         (st.p.srcEndpoint = none ∧ c.Source = none ∧ c.Data = st.p.iip)) :=
  action_Connections st.p st1.p (step_action buffer st st1 token h)

/-- C8, amended: after the replay of any list of records from any state, the
Connections are the earlier ones followed by new ones. Every new Connection
has a Target and was appended by one round of the replay, from the builder
state `sk` reached before that round; it has at most one origin field: either
its Source is set, to the source pending in `sk`, and its Data is empty, or it
has no Source, no source being pending in `sk`, and its Data is the IIP text
of `sk`, the one current when the Connection was built (which may be empty). -/
theorem connections_origin (buffer : GoString) (tokens : List token32)
    (st st1 : ExecuteState) (h : Execute.loop buffer st tokens = .ok st1) :
    ∃ new : List Connection,
      st1.p.Connections = st.p.Connections ++ new ∧
      ∀ c ∈ new, c.Target ≠ none ∧
        ∃ (k : Nat) (token : token32) (sk sk1 : ExecuteState),
          tokens[k]? = some token ∧ Execute.loop buffer st (tokens.take k) = .ok sk ∧
          Execute.step buffer sk token = .ok sk1 ∧
          sk1.p.Connections = sk.p.Connections ++ [c] ∧
          ((c.Source ≠ none ∧ c.Source = sk.p.srcEndpoint ∧ c.Data = []) ∨
           (c.Source = none ∧ sk.p.srcEndpoint = none ∧ c.Data = sk.p.iip)) := by
  induction tokens using List.reverseRecOn generalizing st1 with
  | nil =>
    simp only [Execute.loop] at h
    cases h
    exact ⟨[], by simp, by simp⟩
  | append_singleton ts t ih =>
    rw [loop_append] at h
    cases hts : Execute.loop buffer st ts with
    | error f => simp [hts] at h
    | ok sk =>
      simp only [hts, Execute.loop] at h
      cases hst : Execute.step buffer sk t with
      | error f => simp [hst] at h
      | ok sk1 =>
        simp only [hst] at h
        cases h
        obtain ⟨new, hnew, hall⟩ := ih sk hts
        have hold : ∀ c ∈ new, c.Target ≠ none ∧
            ∃ (k : Nat) (token : token32) (sk sk1 : ExecuteState),
              (ts ++ [t])[k]? = some token ∧
              Execute.loop buffer st ((ts ++ [t]).take k) = .ok sk ∧
              Execute.step buffer sk token = .ok sk1 ∧
              sk1.p.Connections = sk.p.Connections ++ [c] ∧
              ((c.Source ≠ none ∧ c.Source = sk.p.srcEndpoint ∧ c.Data = []) ∨
               (c.Source = none ∧ sk.p.srcEndpoint = none ∧ c.Data = sk.p.iip)) := by
          intro c hc
          obtain ⟨h1, k, token, s2, s3, a1, a2, a3, a4, a5⟩ := hall c hc
          have hk : k < ts.length := by
            by_contra hk
            rw [List.getElem?_eq_none (by omega)] at a1
            cases a1
          refine ⟨h1, k, token, s2, s3, ?_, ?_, a3, a4, a5⟩
          · rw [List.getElem?_append_left hk]; exact a1
          · rw [List.take_append_of_le_length (by omega)]; exact a2
        rcases step_Connections buffer sk st1 t hst with h1 | ⟨c, h1, h2, h3⟩
        · exact ⟨new, by rw [h1, hnew], hold⟩
        · refine ⟨new ++ [c], by rw [h1, hnew, List.append_assoc], ?_⟩
          intro c1 hc1
          rcases List.mem_append.1 hc1 with hc1 | hc1
          · exact hold c1 hc1
          · simp only [List.mem_singleton] at hc1
            subst hc1
            refine ⟨h2, ts.length, t, sk, st1, by simp, by simp [hts], hst, h1, ?_⟩
            rcases h3 with ⟨e, he, hs, hd⟩ | ⟨he, hs, hd⟩
            · exact Or.inl ⟨by simp [hs], by rw [hs, he], hd⟩
            · exact Or.inr ⟨hs, he, hd⟩

/-- C8, witness: the replay of `'5s' -> IN A OUT -> IN B` from the empty builder
ends with the two Connections `5s -> A.IN` (no Source, Data `5s`, the IIP text
current when it was built) and `A.OUT -> B.IN` (Source, empty Data). -/
theorem connections_origin_witness :
    ∃ st1 : ExecuteState,
      Execute.loop (str "'5s' -> IN A OUT -> IN B") ⟨0, 0, BaseFbp.empty []⟩
        (parsedTokens (str "'5s' -> IN A OUT -> IN B")) = .ok st1 ∧
      st1.p.Connections =
        [⟨str "5s", none, some ⟨str "A", str "IN"⟩⟩,
         ⟨[], some ⟨str "A", str "OUT"⟩, some ⟨str "B", str "IN"⟩⟩] ∧
      ∃ new : List Connection,
        st1.p.Connections = (BaseFbp.empty []).Connections ++ new ∧
        ∀ c ∈ new, c.Target ≠ none ∧
          ∃ (k : Nat) (token : token32) (sk sk1 : ExecuteState),
            (parsedTokens (str "'5s' -> IN A OUT -> IN B"))[k]? = some token ∧
            Execute.loop (str "'5s' -> IN A OUT -> IN B") ⟨0, 0, BaseFbp.empty []⟩
              ((parsedTokens (str "'5s' -> IN A OUT -> IN B")).take k) = .ok sk ∧
            Execute.step (str "'5s' -> IN A OUT -> IN B") sk token = .ok sk1 ∧
            sk1.p.Connections = sk.p.Connections ++ [c] ∧
            ((c.Source ≠ none ∧ c.Source = sk.p.srcEndpoint ∧ c.Data = []) ∨
             (c.Source = none ∧ sk.p.srcEndpoint = none ∧ c.Data = sk.p.iip)) := by
  generalize hl : Execute.loop (str "'5s' -> IN A OUT -> IN B") ⟨0, 0, BaseFbp.empty []⟩ _ = res
  have hres : res.toOption.map (fun s => s.p.Connections) =
      some [⟨str "5s", none, some ⟨str "A", str "IN"⟩⟩,
            ⟨[], some ⟨str "A", str "OUT"⟩, some ⟨str "B", str "IN"⟩⟩] := by
    subst hl
    decide!
  cases res with
  | error f => simp [Except.toOption] at hres
  | ok st1 =>
    exact ⟨st1, rfl, by simpa [Except.toOption] using hres,
      connections_origin _ _ ⟨0, 0, BaseFbp.empty []⟩ st1 hl⟩

/-- One round of the loop of `Execute` appends one Connection when the record
is `Action4` or `Action6`, and none otherwise. -/
theorem step_count (buffer : GoString) (st st1 : ExecuteState) (token : token32)
    (h : Execute.step buffer st token = .ok st1) :
    st1.p.Connections.length =
      st.p.Connections.length + (if emitting token = true then 1 else 0) := by
  by_cases hem : emitting token = true
  · simp only [hem, if_true]
    simp only [emitting, Bool.or_eq_true, decide_eq_true_eq] at hem
    unfold Execute.step at h
    rcases hem with hem | hem <;> simp only [hem] at h <;> cases h
    · obtain ⟨c, hc, _⟩ := createMiddlet_appends st.p
      simp [hc]
    · obtain ⟨⟨c, hc, _⟩, _⟩ := createRightlet_appends st.p
      simp [hc]
  · simp only [hem, if_false, Nat.add_zero, Bool.false_eq_true]
    simp only [emitting, Bool.or_eq_true, decide_eq_true_eq, not_or] at hem
    unfold Execute.step at h
    split at h <;> (try simp only [bind, Except.bind] at h) <;>
      first
      | (cases h; rfl)
      | (exact absurd (by assumption) hem.1)
      | (exact absurd (by assumption) hem.2)
      | (cases h
         simp only [BaseFbp.createNode]
         split <;> rfl)
      | (split at h
         · cases h
         · first
           | (cases h; rfl)
           | (split at h
              · cases h
              · cases h
                first
                | (obtain ⟨m, hm⟩ := createInport_frame _ _ _ (by assumption); rw [hm])
                | (obtain ⟨m, hm⟩ := createOutport_frame _ _ _ (by assumption); rw [hm])))

/-- The number of Connections after a replay: one more for each `Action4` and
`Action6` record. -/
theorem loop_count (buffer : GoString) (tokens : List token32) :
    ∀ (st st1 : ExecuteState), Execute.loop buffer st tokens = .ok st1 →
      st1.p.Connections.length = st.p.Connections.length + tokens.countP emitting := by
  induction tokens with
  | nil =>
    intro st st1 h
    simp only [Execute.loop] at h
    cases h
    rfl
  | cons token tokens ih =>
    intro st st1 h
    simp only [Execute.loop] at h
    split at h
    · cases h
    · rename_i st2 hstep
      rw [ih st2 st1 h, step_count buffer st st2 token hstep, List.countP_cons]
      omega

/-- What `Execute` returns: the parser with the builder the loop ends in. -/
theorem Execute_ok (p p1 : Fbp) (h : p.Execute = .ok p1) :
    ∃ (tree : tokenTree) (st : ExecuteState),
      p.tokenTree = some tree ∧
      Execute.loop p.Buffer ⟨0, 0, p.toBaseFbp⟩ tree.Tokens = .ok st ∧
      p1 = { p with toBaseFbp := st.p } := by
  unfold Fbp.Execute at h
  split at h
  · cases h
  · rename_i tree htree
    split at h
    · cases h
    · rename_i st hst
      cases h
      exact ⟨tree, st, htree, hst, rfl⟩

/-- The closure `Parse` leaves the builder as it is. -/
theorem Parse_base (p p1 : Fbp) (ok : Bool) (h : p.Parse = .ok (p1, ok)) :
    p1.toBaseFbp = p.toBaseFbp := by
  unfold Fbp.Parse at h
  split at h
  · cases h
  · cases h
    rfl
  · cases h
    rfl

/-- C9, counterexample: the text `IN Foo` is accepted; it is one connection
line made of a single bridge (one `connection` record, one `bridge` record)
and holds no `-`, so no arrow was matched; and `Execute` on a fresh builder
gives one Connection. -/
theorem single_bridge_connection :
    (graphOf (str "IN Foo") []).map (fun r => (r.1, r.2.2.length)) = some (true, 1) ∧
    (parsedTokens (str "IN Foo")).countP (fun t => decide (t.pegRule = .ruleconnection)) = 1 ∧
    (parsedTokens (str "IN Foo")).countP (fun t => decide (t.pegRule = .rulebridge)) = 1 ∧
    (str "IN Foo").count (45 : UInt8) = 0 := by
  decide!

/-- The records of a node hold no `Action4` and no `Action6`. -/
theorem node_emitting (n : NodeText) : (n.events.map Event.token).countP emitting = 0 := by
  obtain ⟨name, component⟩ := n
  match component with
  | none => rfl
  | some (c, none) => rfl
  | some (c, some m) => rfl

/-- The records of a port hold no `Action4` and no `Action6`. -/
theorem port_emitting (q : PortText) : (q.events.map Event.token).countP emitting = 0 := by
  cases q <;> rfl

/-- C9, amended: for every input accepted by `Parse`, the number of Connections
that `Execute` produces on a fresh builder is the number of middlet and
rightlet bridges matched, that is of `Action4` and `Action6` records in the
log. A start bridge (IIP or leftlet) holds no such record, a middlet holds one
and a rightlet holds one, with or without an arrow around them: a connection
line made of a single IIP or leftlet contributes no Connection, one made of a
single rightlet or middlet contributes one. -/
theorem connections_count (graph subgraph : GoString) (p : Fbp) (tree : tokenTree)
    (h : testGraph graph subgraph = .ok (p, true)) (ht : p.tokenTree = some tree) :
    p.Connections.length = tree.Tokens.countP emitting ∧
    (∀ s : Start, (s.events.map Event.token).countP emitting = 0) ∧
    (∀ m : Middlet, (m.events.map Event.token).countP emitting = 1) ∧
    (∀ r : Rightlet, (r.events.map Event.token).countP emitting = 1) := by
  refine ⟨?_, ?_, ?_, ?_⟩
  · unfold testGraph at h
    split at h
    · cases h
    · rename_i p0 ok hparse
      split at h
      · cases h
      · rename_i p1 hexec
        cases h
        obtain ⟨tree1, st, htree, hloop, hp⟩ := Execute_ok p0 p hexec
        have hbase : p0.toBaseFbp = BaseFbp.empty subgraph := by
          rw [Parse_base _ p0 true hparse]
          rfl
        subst hp
        simp only at ht
        rw [htree] at ht
        cases ht
        have := loop_count p0.Buffer tree.Tokens _ st hloop
        simp only [hbase, BaseFbp.empty, List.length_nil, Nat.zero_add] at this
        exact this
  · intro s
    cases s with
    | iip d => rfl
    | leftlet n q =>
      simp only [Start.events, List.map_append, List.countP_append, node_emitting,
        port_emitting]
      rfl
  · intro m
    simp only [Middlet.events, List.map_append, List.countP_append, node_emitting]
    rfl
  · intro r
    simp only [Rightlet.events, List.map_append, List.countP_append, node_emitting,
      port_emitting]
    rfl

/-- C9, witness: `graphOneLiner` is accepted, its log holds five `Action4` or
`Action6` records, and `Execute` gives five Connections. -/
theorem connections_count_oneLiner :
    ∃ (p : Fbp) (tree : tokenTree),
      testGraph graphOneLiner [] = .ok (p, true) ∧ p.tokenTree = some tree ∧
      p.Connections.length = 5 ∧ tree.Tokens.countP emitting = 5 := by
  generalize hl : testGraph graphOneLiner [] = res
  have hres : res.toOption.map (fun r => (r.2, r.1.Connections.length, r.1.tokenTree.isSome))
      = some (true, 5, true) := by
    subst hl
    decide!
  cases res with
  | error f => simp [Except.toOption] at hres
  | ok r =>
    obtain ⟨p, ok⟩ := r
    simp only [Except.toOption, Option.map_some', Option.some.injEq, Prod.mk.injEq] at hres
    obtain ⟨hok, hlen, hsome⟩ := hres
    subst hok
    cases htree : p.tokenTree with
    | none => simp [htree] at hsome
    | some tree =>
      exact ⟨p, tree, rfl, htree, hlen, (connections_count graphOneLiner [] p tree hl htree).1 ▸ hlen⟩

/-! ## Metadata -/

/-- With enough pieces allowed, `SplitN` cuts at every separator. -/
theorem SplitN_eq_splitOnP (sep : UInt8) (n : Nat) :
    ∀ s : GoString, s.count sep < n + 1 →
      strings.SplitN s sep (n + 1) = s.splitOnP (fun b => b == sep) := by
  induction n with
  | zero =>
    intro s hs
    have h0 : s.count sep = 0 := by omega
    rw [List.count_eq_zero] at h0
    rw [List.splitOnP_eq_single]
    · rfl
    · intro x hx hxs
      simp only [beq_iff_eq] at hxs
      exact h0 (hxs ▸ hx)
  | succ n ih =>
    intro s hs
    have hsplit := List.takeWhile_append_dropWhile (fun b => b != sep) s
    have htake : ∀ x ∈ s.takeWhile (fun b => b != sep), ¬ ((fun b => b == sep) x = true) := by
      intro x hx
      have := List.mem_takeWhile_imp hx
      simpa using this
    unfold strings.SplitN
    rw [List.span_eq_take_drop]
    cases hd : s.dropWhile (fun b => b != sep) with
    | nil =>
      simp only
      rw [hd, List.append_nil] at hsplit
      rw [hsplit]
      rw [List.splitOnP_eq_single]
      rw [← hsplit]
      exact htake
    | cons x rest =>
      simp only
      have hx : x = sep := by
        have := List.head_dropWhile_not (fun b => b != sep) s (by rw [hd]; simp)
        simp only [hd, List.head_cons] at this
        simpa using this
      subst hx
      rw [hd] at hsplit
      have hcount : rest.count x < n + 1 := by
        have h1 : s.count x = (s.takeWhile (fun b => b != x)).count x + (rest.count x + 1) := by
          conv_lhs => rw [← hsplit]
          rw [List.count_append, List.count_cons_self]
        omega
      rw [ih rest hcount]
      conv_rhs => rw [← hsplit]
      rw [List.splitOnP_first _ _ htake x (by simp)]

/-- The pieces of `strings.Split` are the separated items. -/
theorem Split_eq_splitOn (s : GoString) (sep : UInt8) :
    strings.Split s sep = s.splitOn sep :=
  SplitN_eq_splitOnP sep (s.count sep) s (Nat.lt_succ_self _)

/-- Reading a map after an assignment. -/
theorem GoMap.get_set {V : Type} (m : GoMap V) (k k1 : GoString) (v : V) :
    (m.set k v).get k1 = if k = k1 then some v else m.get k1 := by
  induction m with
  | nil => simp [GoMap.set, GoMap.get]
  | cons kv m ih =>
    obtain ⟨k0, v0⟩ := kv
    simp only [GoMap.set]
    by_cases h0 : k0 = k
    · subst h0
      by_cases h1 : k0 = k1 <;> simp [GoMap.get, h1]
    · simp only [h0, if_false, GoMap.get, ih]
      by_cases h1 : k0 = k1
      · subst h1
        simp [Ne.symm h0]
      · simp [h1]

/-- One round of the loop over the pairs stores the value of the item under
its key. -/
theorem metaPairs_cons (m : GoMap GoString) (v : GoString) (pairs : List GoString) :
    BaseFbp.metaPairs m (v :: pairs) =
      BaseFbp.metaPairs (m.set (itemKey v) (itemValue v)) pairs := by
  have hsplit := List.takeWhile_append_dropWhile (fun b => b != (61 : UInt8)) v
  simp only [BaseFbp.metaPairs, strings.SplitN, List.span_eq_take_drop, itemKey, itemValue]
  cases hd : v.dropWhile (fun b => b != (61 : UInt8)) with
  | nil =>
    have hno : (61 : UInt8) ∉ v := by
      intro hmem
      have := (List.dropWhile_eq_nil_iff).1 hd 61 hmem
      simp at this
    simp [hno]
  | cons x rest =>
    have hx : x = 61 := by
      have := List.head_dropWhile_not (fun b => b != (61 : UInt8)) v (by rw [hd]; simp)
      simp only [hd, List.head_cons] at this
      simpa using this
    subst hx
    have hmem : (61 : UInt8) ∈ v := by
      rw [← hsplit, hd]
      simp
    simp [hmem]

/-- The map built by the loop over the pairs: each key holds the value of the
last item with that key. -/
theorem metaPairs_get (pairs : List GoString) :
    ∀ (m : GoMap GoString) (k : GoString),
      (BaseFbp.metaPairs m pairs).get k =
        match pairs.reverse.find? (fun item => decide (itemKey item = k)) with
        | some item => some (itemValue item)
        | none => m.get k := by
  induction pairs with
  | nil =>
    intro m k
    simp [BaseFbp.metaPairs]
  | cons v pairs ih =>
    intro m k
    rw [metaPairs_cons, ih, List.reverse_cons, List.find?_append]
    cases hf : pairs.reverse.find? (fun item => decide (itemKey item = k)) with
    | some item => simp
    | none =>
      simp only [Option.none_or, List.find?_singleton, GoMap.get_set]
      by_cases hk : itemKey v = k <;> simp [hk]

/-- C10: for every metadata text, the Process that `createNode` creates has a
Metadata map that gives, to every key, the value of the last comma-separated
item with that key (key: the trimmed text before the first `=`; value: the
trimmed text after it, or the empty string for an item without `=`), and
holds no other key; without metadata text the Process has no Metadata. -/
theorem createNode_metadata (self : BaseFbp) (hc : self.nodeComponentName ≠ [])
    (hne : self.processExists self.nodeProcessName = false) :
    ∃ process : Process,
      self.createNode.Processes = self.Processes ++ [process] ∧
      (self.nodeMeta ≠ [] →
        ∃ m, process.Metadata = some m ∧ ∀ k, m.get k = metadataSpec self.nodeMeta k) ∧
      (self.nodeMeta = [] → process.Metadata = none) := by
  refine ⟨{ Name := self.createProcessName self.nodeProcessName
            Component := self.nodeComponentName
            Metadata :=
              if self.nodeMeta ≠ [] then
                some (BaseFbp.metaPairs [] (strings.Split self.nodeMeta (44 : UInt8)))
              else none }, ?_, ?_, ?_⟩
  · simp only [BaseFbp.createNode, if_pos (And.intro hc hne)]
  · intro hm
    refine ⟨_, if_pos hm, ?_⟩
    intro k
    rw [metaPairs_get, Split_eq_splitOn]
    simp only [metadataSpec, metadataItems]
    cases (List.splitOn (44 : UInt8) self.nodeMeta).reverse.find?
      (fun item => decide (itemKey item = k)) <;> rfl
  · intro hm
    simp [hm]

/-- C10, witness: `x=1,y=2` gives the map with `x` at `1` and `y` at `2`, and
`flag` gives the map with `flag` at the empty string. -/
theorem createNode_metadata_witness :
    (fooBar (str "x=1,y=2")).createNode.Processes =
      [⟨str "Foo", str "Bar", some [(str "x", str "1"), (str "y", str "2")]⟩] ∧
    (fooBar (str "flag")).createNode.Processes =
      [⟨str "Foo", str "Bar", some [(str "flag", [])]⟩] ∧
    metadataSpec (str "x=1,y=2") (str "x") = some (str "1") ∧
    metadataSpec (str "x=1,y=2") (str "y") = some (str "2") ∧
    metadataSpec (str "flag") (str "flag") = some [] ∧
    ∃ process : Process,
      (fooBar (str "x=1,y=2")).createNode.Processes = [] ++ [process] ∧
      ((str "x=1,y=2") ≠ [] →
        ∃ m, process.Metadata = some m ∧ ∀ k, m.get k = metadataSpec (str "x=1,y=2") k) ∧
      ((str "x=1,y=2") = [] → process.Metadata = none) :=
  ⟨by decide!, by decide!, by decide!, by decide!, by decide!,
    createNode_metadata (fooBar (str "x=1,y=2")) (by decide!) (by decide!)⟩

/-! ## Exported ports -/

/-- A text without the separator is one piece. -/
theorem Split_single (a : GoString) (sep : UInt8) (h : sep ∉ a) :
    strings.Split a sep = [a] := by
  rw [Split_eq_splitOn]
  refine List.splitOnP_eq_single _ _ ?_
  intro x hx hxs
  simp only [beq_iff_eq] at hxs
  exact h (hxs ▸ hx)

/-- The first piece ends at the first separator. -/
theorem Split_first (a b : GoString) (sep : UInt8) (h : sep ∉ a) :
    strings.Split (a ++ sep :: b) sep = a :: strings.Split b sep := by
  rw [Split_eq_splitOn, Split_eq_splitOn]
  refine List.splitOnP_first _ _ ?_ sep (by simp) b
  intro x hx hxs
  simp only [beq_iff_eq] at hxs
  exact h (hxs ▸ hx)

/-- The result of `parseExportedPort` on a text `P.X:N`. -/
theorem parseExportedPort_parts (self : BaseFbp) (P X N : GoString)
    (hP : (46 : UInt8) ∉ P ∧ (58 : UInt8) ∉ P) (hX : (46 : UInt8) ∉ X ∧ (58 : UInt8) ∉ X)
    (hN : (58 : UInt8) ∉ N) :
    self.parseExportedPort (P ++ str "." ++ X ++ str ":" ++ N) =
      .ok (strings.TrimSpace N,
        some ⟨self.createProcessName (strings.TrimSpace P), strings.TrimSpace X⟩) := by
  have h1 : P ++ str "." ++ X ++ str ":" ++ N =
      (P ++ (46 : UInt8) :: X) ++ (58 : UInt8) :: N := by
    have hd : str "." = [(46 : UInt8)] := by decide
    have hc : str ":" = [(58 : UInt8)] := by decide
    rw [hd, hc]
    simp
  have hPX : (58 : UInt8) ∉ P ++ (46 : UInt8) :: X := by
    simp only [List.mem_append, List.mem_cons, not_or]
    exact ⟨hP.2, by decide, hX.2⟩
  have hs1 : strings.Split (P ++ str "." ++ X ++ str ":" ++ N) (58 : UInt8) =
      [P ++ (46 : UInt8) :: X, N] := by
    rw [h1, Split_first _ _ _ hPX, Split_single _ _ hN]
  have hs2 : strings.Split (P ++ (46 : UInt8) :: X) (46 : UInt8) = [P, X] := by
    rw [Split_first _ _ _ hP.1, Split_single _ _ hX.1]
  simp only [BaseFbp.parseExportedPort, hs1, List.length_cons, List.length_nil,
    List.getD_cons_zero, List.getD_cons_succ, hs2, indexAt]
  rfl

/-- C11: for every string `P + "." + X + ":" + N` in which `P`, `X` and `N`
hold neither `.` nor `:`, `parseExportedPort` returns the exported name
`trim(N)` and the endpoint with Process `createProcessName(trim(P))` and Port
`trim(X)`. -/
theorem parseExportedPort_spec (self : BaseFbp) (P X N : GoString)
    (hP : (46 : UInt8) ∉ P ∧ (58 : UInt8) ∉ P) (hX : (46 : UInt8) ∉ X ∧ (58 : UInt8) ∉ X)
    (hN : (46 : UInt8) ∉ N ∧ (58 : UInt8) ∉ N) :
    self.parseExportedPort (P ++ str "." ++ X ++ str ":" ++ N) =
      .ok (strings.TrimSpace N,
        some ⟨self.createProcessName (strings.TrimSpace P), strings.TrimSpace X⟩) :=
  parseExportedPort_parts self P X N hP hX hN.2

/-- C11, witness: `Read.IN:FILENAME` with no subgraph gives the name `FILENAME`
and the endpoint `(Read, IN)`. -/
theorem parseExportedPort_spec_witness :
    (BaseFbp.empty []).parseExportedPort (str "Read.IN:FILENAME") =
      .ok (str "FILENAME", some ⟨str "Read", str "IN"⟩) ∧
    (BaseFbp.empty []).parseExportedPort (str "Read" ++ str "." ++ str "IN" ++ str ":" ++
        str "FILENAME") =
      .ok (strings.TrimSpace (str "FILENAME"),
        some ⟨(BaseFbp.empty []).createProcessName (strings.TrimSpace (str "Read")),
          strings.TrimSpace (str "IN")⟩) :=
  ⟨by decide!,
    parseExportedPort_spec (BaseFbp.empty []) (str "Read") (str "IN") (str "FILENAME")
      (by decide) (by decide) (by decide)⟩

/-- C12, the code at the failing inputs: on `Read:FILENAME`, which has its `:`
but no `.` before it, `createInport` and `createOutport` panic (index out of
range) instead of returning; on `A.B.C:N`, with two `.` before the `:`, they
record the entry `N -> (A, B)`. -/
theorem export_without_dot :
    (BaseFbp.empty []).createInport (str "Read:FILENAME") = .error .indexOutOfRange ∧
    (BaseFbp.empty []).createOutport (str "Read:FILENAME") = .error .indexOutOfRange ∧
    (BaseFbp.empty []).createInport (str "A.B.C:N") =
      .ok { BaseFbp.empty [] with Inports := some [(str "N", ⟨str "A", str "B"⟩)] } ∧
    (BaseFbp.empty []).createOutport (str "A.B.C:N") =
      .ok { BaseFbp.empty [] with Outports := some [(str "N", ⟨str "A", str "B"⟩)] } := by
  decide!

/-- What `createInport` does with a text that `parseExportedPort` accepts. -/
theorem createInport_ok (self : BaseFbp) (text name : GoString) (e : Endpoint)
    (h : self.parseExportedPort text = .ok (name, some e)) :
    self.createInport text =
      .ok { self with Inports := some ((self.Inports.getD []).set name e) } := by
  simp only [BaseFbp.createInport, h, bind, Except.bind]

/-- What `createOutport` does with a text that `parseExportedPort` accepts. -/
theorem createOutport_ok (self : BaseFbp) (text name : GoString) (e : Endpoint)
    (h : self.parseExportedPort text = .ok (name, some e)) :
    self.createOutport text =
      .ok { self with Outports := some ((self.Outports.getD []).set name e) } := by
  simp only [BaseFbp.createOutport, h, bind, Except.bind]

/-- C13: for every export text that `parseExportedPort` accepts, with exported
name `N` and endpoint `e`, `createInport` returns with `Inports[N] = e`
(whatever was stored under `N` before), every other key of `Inports` reads as
before, and `Outports`, `Processes` and `Connections` are unchanged;
`createOutport` does the same with `Inports` and `Outports` swapped. -/
theorem export_frame (self : BaseFbp) (text name : GoString) (e : Endpoint)
    (h : self.parseExportedPort text = .ok (name, some e)) :
    (∃ (q : BaseFbp) (m : GoMap Endpoint),
      self.createInport text = .ok q ∧ q.Inports = some m ∧ m.get name = some e ∧
      (∀ k, k ≠ name → m.get k = (self.Inports.getD []).get k) ∧
      q.Outports = self.Outports ∧ q.Processes = self.Processes ∧
      q.Connections = self.Connections) ∧
    (∃ (q : BaseFbp) (m : GoMap Endpoint),
      self.createOutport text = .ok q ∧ q.Outports = some m ∧ m.get name = some e ∧
      (∀ k, k ≠ name → m.get k = (self.Outports.getD []).get k) ∧
      q.Inports = self.Inports ∧ q.Processes = self.Processes ∧
      q.Connections = self.Connections) := by
  constructor
  · refine ⟨_, _, createInport_ok self text name e h, rfl, ?_, ?_, rfl, rfl, rfl⟩
    · simp [GoMap.get_set]
    · intro k hk
      simp [GoMap.get_set, Ne.symm hk]
  · refine ⟨_, _, createOutport_ok self text name e h, rfl, ?_, ?_, rfl, rfl, rfl⟩
    · simp [GoMap.get_set]
    · intro k hk
      simp [GoMap.get_set, Ne.symm hk]

/-- C13, witness: on a builder that exports `FILENAME`, `CONFIG` and `RESULT`,
`createInport` of `Read.IN:FILENAME` overwrites `FILENAME` with `(Read, IN)`
and keeps `CONFIG` and the outbound map; `createOutport` of the same text adds
`FILENAME` to the outbound map and keeps `RESULT` and the inbound map. -/
theorem export_frame_witness :
    exportingBuilder.createInport (str "Read.IN:FILENAME") =
      .ok { exportingBuilder with
            Inports := some [(str "FILENAME", ⟨str "Read", str "IN"⟩),
                             (str "CONFIG", ⟨str "Read", str "OPTIONS"⟩)] } ∧
    exportingBuilder.createOutport (str "Read.IN:FILENAME") =
      .ok { exportingBuilder with
            Outports := some [(str "RESULT", ⟨str "Process", str "OUT"⟩),
                              (str "FILENAME", ⟨str "Read", str "IN"⟩)] } ∧
    ((∃ (q : BaseFbp) (m : GoMap Endpoint),
      exportingBuilder.createInport (str "Read.IN:FILENAME") = .ok q ∧ q.Inports = some m ∧
      m.get (str "FILENAME") = some ⟨str "Read", str "IN"⟩ ∧
      (∀ k, k ≠ str "FILENAME" → m.get k = (exportingBuilder.Inports.getD []).get k) ∧
      q.Outports = exportingBuilder.Outports ∧ q.Processes = exportingBuilder.Processes ∧
      q.Connections = exportingBuilder.Connections) ∧
    (∃ (q : BaseFbp) (m : GoMap Endpoint),
      exportingBuilder.createOutport (str "Read.IN:FILENAME") = .ok q ∧
      q.Outports = some m ∧ m.get (str "FILENAME") = some ⟨str "Read", str "IN"⟩ ∧
      (∀ k, k ≠ str "FILENAME" → m.get k = (exportingBuilder.Outports.getD []).get k) ∧
      q.Inports = exportingBuilder.Inports ∧ q.Processes = exportingBuilder.Processes ∧
      q.Connections = exportingBuilder.Connections)) :=
  ⟨by decide!, by decide!,
    export_frame exportingBuilder (str "Read.IN:FILENAME") (str "FILENAME")
      ⟨str "Read", str "IN"⟩ (by decide!)⟩

/-! ## Frames of one round of the replay -/

/-- A round of the loop of `Execute` on a record other than `Action9` leaves
`Processes` as it is. -/
theorem step_Processes (buffer : GoString) (st st1 : ExecuteState) (token : token32)
    (h : Execute.step buffer st token = .ok st1) (h9 : token.pegRule ≠ .ruleAction9) :
    st1.p.Processes = st.p.Processes := by
  unfold Execute.step at h
  split at h <;> (try simp only [bind, Except.bind] at h) <;>
    first
    | (cases h; rfl)
    | (exact absurd (by assumption) h9)
    | (split at h
       · cases h
       · first
         | (cases h; rfl)
         | (split at h
            · cases h
            · cases h
              first
              | (obtain ⟨m, hm⟩ := createInport_frame _ _ _ (by assumption); rw [hm])
              | (obtain ⟨m, hm⟩ := createOutport_frame _ _ _ (by assumption); rw [hm])))

/-- A round of the loop of `Execute` on a record other than `Action10` leaves
the component scratch as it is. -/
theorem step_nodeComponentName (buffer : GoString) (st st1 : ExecuteState) (token : token32)
    (h : Execute.step buffer st token = .ok st1) (h10 : token.pegRule ≠ .ruleAction10) :
    st1.p.nodeComponentName = st.p.nodeComponentName := by
  unfold Execute.step at h
  split at h <;> (try simp only [bind, Except.bind] at h) <;>
    first
    | (cases h; rfl)
    | (exact absurd (by assumption) h10)
    | (cases h
       simp only [BaseFbp.createNode]
       split <;> rfl)
    | (split at h
       · cases h
       · first
         | (cases h; rfl)
         | (split at h
            · cases h
            · cases h
              first
              | (obtain ⟨m, hm⟩ := createInport_frame _ _ _ (by assumption); rw [hm])
              | (obtain ⟨m, hm⟩ := createOutport_frame _ _ _ (by assumption); rw [hm])))

/-- A round of the loop of `Execute` on an `Action9` record is `createNode`. -/
theorem step_Action9 (buffer : GoString) (st st1 : ExecuteState) (token : token32)
    (h : Execute.step buffer st token = .ok st1) (h9 : token.pegRule = .ruleAction9) :
    st1.p = st.p.createNode := by
  unfold Execute.step at h
  simp only [h9] at h
  cases h
  rfl

/-- Without component in the scratch, `createNode` does nothing. -/
theorem createNode_no_component (self : BaseFbp) (h : self.nodeComponentName = []) :
    self.createNode = self := by
  simp [BaseFbp.createNode, h]

/-! ## Append-only lists -/

/-- The lists `Processes` and `Connections` only grow at the end in a round of
the loop of `Execute`. -/
theorem step_grow (buffer : GoString) (st st1 : ExecuteState) (token : token32)
    (h : Execute.step buffer st token = .ok st1) :
    (∃ l, st1.p.Processes = st.p.Processes ++ l) ∧
    (∃ l, st1.p.Connections = st.p.Connections ++ l) := by
  have hact := step_action buffer st st1 token h
  constructor
  · rcases action_Processes _ _ hact with h1 | ⟨process, h1, _⟩
    · exact ⟨[], by simp [h1]⟩
    · exact ⟨[process], h1⟩
  · rcases action_Connections _ _ hact with h1 | ⟨c, h1, _⟩
    · exact ⟨[], by simp [h1]⟩
    · exact ⟨[c], h1⟩

/-- C17: `Processes` and `Connections` are append-only. After any round of the
loop of `Execute` that returns (each case of its `switch`), and after each of
`createLeftlet`, `createRightlet`, `createMiddlet`, `createNode`,
`createInport`, `createOutport` from any builder state, the two lists are the
lists before the action followed by the new elements, if any: the earlier
elements stay, unchanged and in place. -/
theorem append_only (buffer : GoString) (st st1 : ExecuteState) (token : token32)
    (h : Execute.step buffer st token = .ok st1) :
    ((∃ l, st1.p.Processes = st.p.Processes ++ l) ∧
     (∃ l, st1.p.Connections = st.p.Connections ++ l)) ∧
    (∀ self : BaseFbp,
      (self.createLeftlet.Processes = self.Processes ∧
       self.createLeftlet.Connections = self.Connections) ∧
      (self.createRightlet.Processes = self.Processes ∧
       ∃ c, self.createRightlet.Connections = self.Connections ++ [c]) ∧
      (self.createMiddlet.Processes = self.Processes ∧
       ∃ c, self.createMiddlet.Connections = self.Connections ++ [c]) ∧
      ((∃ l, self.createNode.Processes = self.Processes ++ l) ∧
       self.createNode.Connections = self.Connections) ∧
      (∀ text q, self.createInport text = .ok q →
        q.Processes = self.Processes ∧ q.Connections = self.Connections) ∧
      (∀ text q, self.createOutport text = .ok q →
        q.Processes = self.Processes ∧ q.Connections = self.Connections)) := by
  refine ⟨step_grow buffer st st1 token h, ?_⟩
  intro self
  refine ⟨⟨rfl, rfl⟩, ⟨rfl, ?_⟩, ⟨rfl, ?_⟩, ⟨?_, ?_⟩, ?_, ?_⟩
  · obtain ⟨⟨c, hc, _⟩, _⟩ := createRightlet_appends self
    exact ⟨c, hc⟩
  · obtain ⟨c, hc, _⟩ := createMiddlet_appends self
    exact ⟨c, hc⟩
  · rcases action_Processes _ _ (BuilderAction.action9 self) with h1 | ⟨process, h1, _⟩
    · exact ⟨[], by simp [h1]⟩
    · exact ⟨[process], h1⟩
  · unfold BaseFbp.createNode
    split <;> rfl
  · intro text q hq
    obtain ⟨m, rfl⟩ := createInport_frame self q text hq
    exact ⟨rfl, rfl⟩
  · intro text q hq
    obtain ⟨m, rfl⟩ := createOutport_frame self q text hq
    exact ⟨rfl, rfl⟩

/-- C17, witness: the round of `Action6` on a builder holding the Process `Foo` and
one Connection returns, keeps the Process and appends one Connection. -/
theorem append_only_witness :
    Execute.step [] ⟨0, 0, (fooBar []).createNode.createRightlet⟩ ⟨.ruleAction6, 0, 0, 0⟩ =
      .ok ⟨0, 0, (fooBar []).createNode.createRightlet.createRightlet⟩ ∧
    (fooBar []).createNode.createRightlet.Processes = [⟨str "Foo", str "Bar", none⟩] ∧
    (fooBar []).createNode.createRightlet.createRightlet.Processes =
      [⟨str "Foo", str "Bar", none⟩] ∧
    (fooBar []).createNode.createRightlet.createRightlet.Connections.length = 2 ∧
    ((∃ l, (fooBar []).createNode.createRightlet.createRightlet.Processes =
        (fooBar []).createNode.createRightlet.Processes ++ l) ∧
     (∃ l, (fooBar []).createNode.createRightlet.createRightlet.Connections =
        (fooBar []).createNode.createRightlet.Connections ++ l)) :=
  ⟨rfl, by decide!, by decide!, by decide!,
    (append_only [] ⟨0, 0, (fooBar []).createNode.createRightlet⟩
      ⟨0, 0, (fooBar []).createNode.createRightlet.createRightlet⟩ ⟨.ruleAction6, 0, 0, 0⟩ rfl).1⟩

/-! ## Inputs without component -/

/-- While no `Action10` record is replayed, the component scratch stays empty
and no Process is created. -/
theorem loop_no_component (buffer : GoString) (tokens : List token32) :
    ∀ (st st1 : ExecuteState), Execute.loop buffer st tokens = .ok st1 →
      (∀ t ∈ tokens, t.pegRule ≠ .ruleAction10) →
      st.p.nodeComponentName = [] →
      st1.p.nodeComponentName = [] ∧ st1.p.Processes = st.p.Processes := by
  induction tokens with
  | nil =>
    intro st st1 h _ h0
    simp only [Execute.loop] at h
    cases h
    exact ⟨h0, rfl⟩
  | cons token tokens ih =>
    intro st st1 h hno h0
    simp only [Execute.loop] at h
    split at h
    · cases h
    · rename_i st2 hstep
      have h10 : token.pegRule ≠ .ruleAction10 := hno token (List.mem_cons_self _ _)
      have hc : st2.p.nodeComponentName = [] := by
        rw [step_nodeComponentName buffer st st2 token hstep h10, h0]
      have hp : st2.p.Processes = st.p.Processes := by
        by_cases h9 : token.pegRule = .ruleAction9
        · rw [step_Action9 buffer st st2 token hstep h9, createNode_no_component st.p h0]
        · exact step_Processes buffer st st2 token hstep h9
      obtain ⟨h1, h2⟩ := ih st2 st1 h (fun t ht => hno t (List.mem_cons_of_mem _ ht)) hc
      exact ⟨h1, h2.trans hp⟩

/-- What `testGraph` returns when it returns: the builder that the loop of
`Execute` reaches from the empty builder on the records of the log. -/
theorem testGraph_ok (graph subgraph : GoString) (p : Fbp) (ok : Bool)
    (h : testGraph graph subgraph = .ok (p, ok)) :
    ∃ (tree : tokenTree) (st : ExecuteState),
      p.tokenTree = some tree ∧ p.Buffer = graph ∧
      Execute.loop graph ⟨0, 0, BaseFbp.empty subgraph⟩ tree.Tokens = .ok st ∧
      p.toBaseFbp = st.p := by
  unfold testGraph at h
  split at h
  · cases h
  · rename_i p0 ok0 hparse
    split at h
    · cases h
    · rename_i p1 hexec
      cases h
      obtain ⟨tree1, st, htree, hloop, hp⟩ := Execute_ok p0 p hexec
      have hbase : p0.toBaseFbp = BaseFbp.empty subgraph := by
        rw [Parse_base _ p0 ok hparse]
        rfl
      have hbuf : p0.Buffer = graph := by
        unfold Fbp.Parse at hparse
        split at hparse
        · cases hparse
        · cases hparse
          rfl
        · cases hparse
          rfl
      subst hp
      rw [hbase, hbuf] at hloop
      exact ⟨tree1, st, htree, hbuf, hloop, rfl⟩

/-- C19: for every accepted input in which no node carries a parenthesised
component (the log holds no `Action10` record, the record every component
adds), `Execute` on a fresh builder yields an empty Processes list. -/
theorem no_component_no_process (graph subgraph : GoString) (p : Fbp) (tree : tokenTree)
    (h : testGraph graph subgraph = .ok (p, true)) (ht : p.tokenTree = some tree)
    (hno : ∀ t ∈ tree.Tokens, t.pegRule ≠ .ruleAction10) :
    p.Processes = [] := by
  obtain ⟨tree1, st, htree, _, hloop, hp⟩ := testGraph_ok graph subgraph p true h
  rw [ht] at htree
  cases htree
  have := (loop_no_component graph tree.Tokens _ st hloop hno rfl).2
  rw [show p.Processes = p.toBaseFbp.Processes from rfl, hp, this]
  rfl

/-- C19, witness: `graphOneLiner` is accepted, no record of its log is an
`Action10`, and `Execute` yields 0 Processes and exactly 5 Connections. -/
theorem no_component_oneLiner :
    ∃ (p : Fbp) (tree : tokenTree),
      testGraph graphOneLiner [] = .ok (p, true) ∧ p.tokenTree = some tree ∧
      (∀ t ∈ tree.Tokens, t.pegRule ≠ .ruleAction10) ∧
      p.Processes = [] ∧ p.Connections.length = 5 := by
  generalize hl : testGraph graphOneLiner [] = res
  have hres : res.toOption.map (fun r => (r.2, r.1.Connections.length,
      r.1.tokenTree.map (fun tree =>
        tree.Tokens.all (fun t => decide (t.pegRule ≠ .ruleAction10)))))
      = some (true, 5, some true) := by
    subst hl
    decide!
  cases res with
  | error f => simp [Except.toOption] at hres
  | ok r =>
    obtain ⟨p, ok⟩ := r
    simp only [Except.toOption, Option.map_some', Option.some.injEq, Prod.mk.injEq] at hres
    obtain ⟨hok, hlen, hall⟩ := hres
    subst hok
    cases htree : p.tokenTree with
    | none => simp [htree] at hall
    | some tree =>
      simp only [htree, Option.map_some', Option.some.injEq, List.all_eq_true,
        decide_eq_true_eq] at hall
      exact ⟨p, tree, rfl, htree, hall,
        no_component_no_process graphOneLiner [] p tree hl htree hall, hlen⟩

/-! ## Ports with an index -/

/-- The replay of a leftlet: the pending source becomes the node with the port
name; no Connection is appended. -/
theorem loop_leftlet (buffer : GoString) (n : NodeText) (q : PortText)
    (hn : n.valid buffer = true) (hq : q.valid buffer = true)
    (st : ExecuteState) (rest : List token32) :
    ∃ st1 : ExecuteState,
      Execute.loop buffer st ((Start.leftlet n q).events.map Event.token ++ rest) =
        Execute.loop buffer st1 rest ∧
      st1.p.srcEndpoint =
        some ⟨st.p.createProcessName (n.name.text buffer), q.name.text buffer⟩ ∧
      st1.p.Connections = st.p.Connections ∧ st1.p.Subgraph = st.p.Subgraph := by
  simp only [Start.events, List.map_append, List.append_assoc, List.map_cons, List.map_nil]
  obtain ⟨b, e, cn, mt, ps, hnode⟩ := loop_node buffer n hn st
    (q.events.map Event.token ++ ([Event.token (.act .ruleAction5)] ++ rest))
  rw [hnode]
  obtain ⟨b1, e1, idx, hport⟩ := loop_port buffer q hq
    ⟨b, e, { st.p with nodeProcessName := n.name.text buffer, nodeComponentName := cn,
                       nodeMeta := mt, Processes := ps }⟩
    ([Event.token (.act .ruleAction5)] ++ rest)
  rw [hport]
  simp only [List.cons_append, List.nil_append, loop_act5]
  exact ⟨_, rfl, rfl, rfl, rfl⟩

/-- C16: for every port written with an index (`NAME[digits]`, whose records
are the captured `NAME`, `Action13`, the captured digits, `Action14`), the
replay of `Action13` sets the port scratch to the text captured before `[`
and changes nothing else, the replay of `Action14` changes the index scratch
only, and the Endpoint built from the port has the bare `NAME` as Port: the
Target of the Connection of a rightlet, and the pending source of a leftlet. -/
theorem indexed_port (buffer : GoString) (name idx : Span) (n : NodeText)
    (hname : name.valid buffer = true) (hidx : idx.valid buffer = true)
    (hn : n.valid buffer = true) (st : ExecuteState) :
    Execute.loop buffer st [Event.token (.text name), Event.token (.act .ruleAction13)] =
      .ok ⟨name.begin, name.end_, { st.p with port := name.text buffer }⟩ ∧
    Execute.loop buffer st [Event.token (.text idx), Event.token (.act .ruleAction14)] =
      .ok ⟨idx.begin, idx.end_, { st.p with index := idx.text buffer }⟩ ∧
    (∃ (st1 : ExecuteState) (c : Connection),
      Execute.loop buffer st
        ((Rightlet.mk (.indexed name idx) n).events.map Event.token) = .ok st1 ∧
      st1.p.Connections = st.p.Connections ++ [c] ∧
      c.Target = some ⟨st.p.createProcessName (n.name.text buffer), name.text buffer⟩) ∧
    (∃ st1 : ExecuteState,
      Execute.loop buffer st
        ((Start.leftlet n (.indexed name idx)).events.map Event.token) = .ok st1 ∧
      st1.p.srcEndpoint =
        some ⟨st.p.createProcessName (n.name.text buffer), name.text buffer⟩) := by
  refine ⟨?_, ?_, ?_, ?_⟩
  · rw [loop_text, loop_act13 buffer name _ _ hname]
    rfl
  · rw [loop_text, loop_act14 buffer idx _ _ hidx]
    rfl
  · obtain ⟨st1, h1, h2⟩ := loop_rightlet buffer (Rightlet.mk (.indexed name idx) n)
      (by simp [Rightlet.valid, PortText.valid, hname, hidx, hn]) st []
    rw [List.append_nil] at h1
    refine ⟨st1, _, h1, h2, ?_⟩
    cases st.p.srcEndpoint <;> rfl
  · obtain ⟨st1, h1, h2, _⟩ := loop_leftlet buffer n (.indexed name idx) hn
      (by simp [PortText.valid, hname, hidx]) st []
    rw [List.append_nil] at h1
    exact ⟨st1, h1, h2⟩

/-- C16, witness: `A OUT[1] -> IN[2] B` is accepted; its records are those of a
leftlet and a rightlet with indexed ports; the Connection goes from `(A, OUT)`
to `(B, IN)`, the indices `1` and `2` being no part of the ports. -/
theorem indexed_port_witness :
    graphOf (str "A OUT[1] -> IN[2] B") [] =
      some (true, [], [⟨[], some ⟨str "A", str "OUT"⟩, some ⟨str "B", str "IN"⟩⟩]) ∧
    events (parsedTokens (str "A OUT[1] -> IN[2] B")) =
      (Start.leftlet ⟨⟨0, 1⟩, none⟩ (.indexed ⟨2, 5⟩ ⟨6, 7⟩)).events ++
        (Rightlet.mk (.indexed ⟨12, 14⟩ ⟨15, 16⟩) ⟨⟨18, 19⟩, none⟩).events ∧
    (∃ (st1 : ExecuteState) (c : Connection),
      Execute.loop (str "A OUT[1] -> IN[2] B") ⟨0, 0, BaseFbp.empty []⟩
        ((Rightlet.mk (.indexed ⟨12, 14⟩ ⟨15, 16⟩) ⟨⟨18, 19⟩, none⟩).events.map Event.token)
        = .ok st1 ∧
      st1.p.Connections = (BaseFbp.empty []).Connections ++ [c] ∧
      c.Target = some ⟨str "B", str "IN"⟩) := by
  refine ⟨by decide!, by decide!, ?_⟩
  obtain ⟨_, _, ⟨st1, c, h1, h2, h3⟩, _⟩ := indexed_port (str "A OUT[1] -> IN[2] B")
    ⟨12, 14⟩ ⟨15, 16⟩ ⟨⟨18, 19⟩, none⟩ (by decide!) (by decide!) (by decide!)
    ⟨0, 0, BaseFbp.empty []⟩
  refine ⟨st1, c, h1, h2, ?_⟩
  rw [h3]
  decide!

/-! ## Names qualified by the subgraph -/

/-- A slice of the buffer is a part of it. -/
theorem slice_part (buffer text : GoString) (lo hi : Int)
    (h : slice buffer lo hi = .ok text) : text <:+: buffer := by
  unfold slice at h
  split at h
  · cases h
    exact ( List.take_prefix _ _).isInfix.trans (List.drop_suffix _ _).isInfix
  · cases h

/-- Dropping leading white space leaves an end of the string. -/
theorem trimLeft_suffix (n : Nat) : ∀ s : GoString, strings.trimLeft n s <:+ s := by
  induction n with
  | zero => intro s; exact List.suffix_refl s
  | succ n ih =>
    intro s
    simp only [strings.trimLeft]
    cases hd : strings.dropSpace s with
    | none => exact List.suffix_refl s
    | some t =>
      simp only
      have ht : t <:+ s := by
        simp only [strings.dropSpace, Option.map_eq_some'] at hd
        obtain ⟨e, _, rfl⟩ := hd
        exact List.drop_suffix _ _
      exact (ih t).trans ht

/-- Dropping trailing white space leaves a start of the string. -/
theorem trimRight_initial (n : Nat) : ∀ s : GoString, strings.trimRight n s <+: s := by
  induction n with
  | zero => intro s; exact List.prefix_refl s
  | succ n ih =>
    intro s
    simp only [strings.trimRight]
    cases hd : strings.dropLastSpace s with
    | none => exact List.prefix_refl s
    | some t =>
      simp only
      have ht : t <+: s := by
        simp only [strings.dropLastSpace, Option.map_eq_some'] at hd
        obtain ⟨e, _, rfl⟩ := hd
        exact List.take_prefix _ _
      exact (ih t).trans ht

/-- The trimmed string is a part of the string. -/
theorem TrimSpace_part (s : GoString) : strings.TrimSpace s <:+: s :=
  (trimRight_initial _ _).isInfix.trans (trimLeft_suffix _ _).isInfix

/-- Every piece of `SplitN` is a part of the string. -/
theorem SplitN_part (sep : UInt8) (n : Nat) :
    ∀ s : GoString, ∀ piece ∈ strings.SplitN s sep n, piece <:+: s := by
  induction n using Nat.strong_induction_on with
  | _ n ih =>
    intro s piece hp
    match n with
    | 0 => simp [strings.SplitN] at hp
    | 1 =>
      simp only [strings.SplitN, List.mem_singleton] at hp
      subst hp
      exact List.infix_refl _
    | k + 2 =>
      simp only [strings.SplitN, List.span_eq_take_drop] at hp
      cases hd : s.dropWhile (fun b => b != sep) with
      | nil =>
        simp only [hd, List.mem_singleton] at hp
        subst hp
        exact ( List.takeWhile_prefix _).isInfix
      | cons x rest =>
        simp only [hd, List.mem_cons] at hp
        rcases hp with hp | hp
        · subst hp
          exact ( List.takeWhile_prefix _).isInfix
        · have hrest : rest <:+ s := by
            have h1 : rest <:+ x :: rest := List.suffix_cons x rest
            have h2 : x :: rest <:+ s := hd ▸ List.dropWhile_suffix _
            exact h1.trans h2
          exact (ih (k + 1) (by omega) rest piece hp).trans hrest.isInfix

/-- Every piece of `Split` is a part of the string. -/
theorem Split_part (s : GoString) (sep : UInt8) :
    ∀ piece ∈ strings.Split s sep, piece <:+: s :=
  SplitN_part sep _ s

/-- An element read by index is an element of the list. -/
theorem indexAt_mem {α : Type} (xs : List α) (i : Nat) (x : α) (h : indexAt xs i = .ok x) :
    x ∈ xs := by
  unfold indexAt at h
  split at h
  · cases h
    exact List.get?_mem (by assumption)
  · cases h

/-- The process of an endpoint returned by `parseExportedPort` is the qualified
form of a part of the text. -/
theorem parseExportedPort_part (self : BaseFbp) (text name : GoString) (e : Endpoint)
    (h : self.parseExportedPort text = .ok (name, some e)) :
    ∃ n, n <:+: text ∧ e.Process = self.createProcessName n := by
  unfold BaseFbp.parseExportedPort at h
  simp only [bind, Except.bind] at h
  split at h
  · cases h
  · rename_i hlen
    split at h
    · cases h
    · rename_i port hport
      split at h
      · cases h
      · rename_i process hprocess
        cases h
        refine ⟨strings.TrimSpace process, ?_, rfl⟩
        have h1 : process <:+: (strings.Split text 58).getD 0 [] :=
          Split_part _ _ _ (indexAt_mem _ _ _ hprocess)
        have h2 : (strings.Split text 58).getD 0 [] <:+: text := by
          cases hs : strings.Split text 58 with
          | nil => exact List.nil_infix
          | cons a l =>
            simp only [List.getD_cons_zero]
            exact Split_part text 58 a (by rw [hs]; exact List.mem_cons_self _ _)
        exact (TrimSpace_part _).trans (h1.trans h2)

/-- The entries of a map after an assignment: the new one, or earlier ones. -/
theorem GoMap.mem_set {V : Type} (m : GoMap V) (k : GoString) (v : V) :
    ∀ kv ∈ m.set k v, kv = (k, v) ∨ kv ∈ m := by
  induction m with
  | nil =>
    intro kv hkv
    simp only [GoMap.set, List.mem_singleton] at hkv
    exact Or.inl hkv
  | cons kv0 m ih =>
    obtain ⟨k0, v0⟩ := kv0
    intro kv hkv
    simp only [GoMap.set] at hkv
    split at hkv
    · rcases List.mem_cons.1 hkv with h1 | h1
      · exact Or.inl h1
      · exact Or.inr (List.mem_cons_of_mem _ h1)
    · rcases List.mem_cons.1 hkv with h1 | h1
      · exact Or.inr (h1 ▸ List.mem_cons_self _ _)
      · rcases ih kv h1 with h2 | h2
        · exact Or.inl h2
        · exact Or.inr (List.mem_cons_of_mem _ h2)

/-- A value read from a map is the value of one of its entries. -/
theorem GoMap.mem_of_get {V : Type} (m : GoMap V) (k : GoString) (v : V)
    (h : m.get k = some v) : (k, v) ∈ m := by
  induction m with
  | nil => simp [GoMap.get] at h
  | cons kv0 m ih =>
    obtain ⟨k0, v0⟩ := kv0
    simp only [GoMap.get] at h
    split at h
    · rename_i hk
      cases h
      subst hk
      exact List.mem_cons_self _ _
    · exact List.mem_cons_of_mem _ (ih h)

/-- The qualified name built by a builder with the given subgraph. -/
theorem qualified_createProcessName (buffer subgraph : GoString) (p : BaseFbp)
    (hS : p.Subgraph = subgraph) (n : GoString) (hn : n <:+: buffer) :
    Qualified buffer subgraph (p.createProcessName n) :=
  ⟨n, hn, by rw [createProcessName_congr (BaseFbp.empty subgraph) p (by rw [hS]; rfl)]⟩

theorem qualifiedBuilder_createLeftlet (buffer subgraph : GoString) (p : BaseFbp)
    (h : QualifiedBuilder buffer subgraph p) :
    QualifiedBuilder buffer subgraph p.createLeftlet := by
  obtain ⟨hS, hn, _, hP, hC, hI, hO⟩ := h
  refine ⟨hS, List.nil_infix, ?_, hP, hC, hI, hO⟩
  intro e he
  simp only [BaseFbp.createLeftlet, Option.some.injEq] at he
  subst he
  exact qualified_createProcessName buffer subgraph p hS _ hn

/-- The Connection appended by `createRightlet` and `createMiddlet` has
qualified endpoints. -/
theorem qualified_connect (buffer subgraph : GoString) (p : BaseFbp)
    (h : QualifiedBuilder buffer subgraph p) (port : GoString) :
    ∀ c ∈ p.Connections ++
        [connect p.srcEndpoint p.iip ⟨p.createProcessName p.nodeProcessName, port⟩],
      (∀ e, c.Source = some e → Qualified buffer subgraph e.Process) ∧
      (∀ e, c.Target = some e → Qualified buffer subgraph e.Process) := by
  obtain ⟨hS, hn, hsrc, _, hC, _, _⟩ := h
  intro c hc
  rcases List.mem_append.1 hc with hc | hc
  · exact hC c hc
  · simp only [List.mem_singleton] at hc
    subst hc
    have ht : Qualified buffer subgraph (p.createProcessName p.nodeProcessName) :=
      qualified_createProcessName buffer subgraph p hS _ hn
    cases hs : p.srcEndpoint with
    | none =>
      simp only [connect]
      exact ⟨fun e he => (by cases he), fun e he => (by cases he; exact ht)⟩
    | some e0 =>
      simp only [connect]
      exact ⟨fun e he => (by cases he; exact hsrc e0 hs), fun e he => (by cases he; exact ht)⟩

theorem qualifiedBuilder_createRightlet (buffer subgraph : GoString) (p : BaseFbp)
    (h : QualifiedBuilder buffer subgraph p) :
    QualifiedBuilder buffer subgraph p.createRightlet := by
  have hc := qualified_connect buffer subgraph p h p.port
  obtain ⟨hS, hn, _, hP, hC, hI, hO⟩ := h
  refine ⟨hS, List.nil_infix, fun e he => (by cases he), hP, ?_, hI, hO⟩
  simp only [BaseFbp.createRightlet]
  rw [connect_eq]
  exact hc

theorem qualifiedBuilder_createMiddlet (buffer subgraph : GoString) (p : BaseFbp)
    (h : QualifiedBuilder buffer subgraph p) :
    QualifiedBuilder buffer subgraph p.createMiddlet := by
  have hc := qualified_connect buffer subgraph p h p.inPort
  obtain ⟨hS, hn, _, hP, hC, hI, hO⟩ := h
  refine ⟨hS, List.nil_infix, ?_, hP, ?_, hI, hO⟩
  · intro e he
    simp only [BaseFbp.createMiddlet, BaseFbp.createLeftlet, Option.some.injEq] at he
    subst he
    exact qualified_createProcessName buffer subgraph p hS _ hn
  · simp only [BaseFbp.createMiddlet, BaseFbp.createLeftlet]
    rw [connect_eq]
    exact hc

theorem qualifiedBuilder_createNode (buffer subgraph : GoString) (p : BaseFbp)
    (h : QualifiedBuilder buffer subgraph p) :
    QualifiedBuilder buffer subgraph p.createNode := by
  obtain ⟨hS, hn, hsrc, hP, hC, hI, hO⟩ := h
  unfold BaseFbp.createNode
  split
  · refine ⟨hS, hn, hsrc, ?_, hC, hI, hO⟩
    intro ps hps
    rcases List.mem_append.1 hps with hps | hps
    · exact hP ps hps
    · simp only [List.mem_singleton] at hps
      subst hps
      exact qualified_createProcessName buffer subgraph p hS _ hn
  · exact ⟨hS, hn, hsrc, hP, hC, hI, hO⟩

theorem qualifiedBuilder_createInport (buffer subgraph : GoString) (p q : BaseFbp)
    (text : GoString) (ht : text <:+: buffer) (hq : p.createInport text = .ok q)
    (h : QualifiedBuilder buffer subgraph p) : QualifiedBuilder buffer subgraph q := by
  obtain ⟨hS, hn, hsrc, hP, hC, hI, hO⟩ := h
  unfold BaseFbp.createInport at hq
  simp only [bind, Except.bind] at hq
  split at hq
  · cases hq
  · rename_i r hr
    obtain ⟨name, endpoint⟩ := r
    split at hq
    · cases hq
      exact ⟨hS, hn, hsrc, hP, hC, hI, hO⟩
    · rename_i e he
      simp only at he
      subst he
      cases hq
      refine ⟨hS, hn, hsrc, hP, hC, ?_, hO⟩
      intro m hm kv hkv
      simp only [Option.some.injEq] at hm
      subst hm
      rcases GoMap.mem_set _ _ _ kv hkv with h1 | h1
      · subst h1
        obtain ⟨n, hn1, hn2⟩ := parseExportedPort_part p text name e hr
        rw [hn2]
        exact qualified_createProcessName buffer subgraph p hS n (hn1.trans ht)
      · cases hi : p.Inports with
        | none => simp [hi] at h1
        | some m0 =>
          simp only [hi, Option.getD_some] at h1
          exact hI m0 hi kv h1

theorem qualifiedBuilder_createOutport (buffer subgraph : GoString) (p q : BaseFbp)
    (text : GoString) (ht : text <:+: buffer) (hq : p.createOutport text = .ok q)
    (h : QualifiedBuilder buffer subgraph p) : QualifiedBuilder buffer subgraph q := by
  obtain ⟨hS, hn, hsrc, hP, hC, hI, hO⟩ := h
  unfold BaseFbp.createOutport at hq
  simp only [bind, Except.bind] at hq
  split at hq
  · cases hq
  · rename_i r hr
    obtain ⟨name, endpoint⟩ := r
    split at hq
    · cases hq
      exact ⟨hS, hn, hsrc, hP, hC, hI, hO⟩
    · rename_i e he
      simp only at he
      subst he
      cases hq
      refine ⟨hS, hn, hsrc, hP, hC, hI, ?_⟩
      intro m hm kv hkv
      simp only [Option.some.injEq] at hm
      subst hm
      rcases GoMap.mem_set _ _ _ kv hkv with h1 | h1
      · subst h1
        obtain ⟨n, hn1, hn2⟩ := parseExportedPort_part p text name e hr
        rw [hn2]
        exact qualified_createProcessName buffer subgraph p hS n (hn1.trans ht)
      · cases hi : p.Outports with
        | none => simp [hi] at h1
        | some m0 =>
          simp only [hi, Option.getD_some] at h1
          exact hO m0 hi kv h1

/-- A round of the loop of `Execute` keeps the builder qualified. -/
theorem step_qualified (buffer subgraph : GoString) (st st1 : ExecuteState) (token : token32)
    (h : Execute.step buffer st token = .ok st1)
    (hinv : QualifiedBuilder buffer subgraph st.p) :
    QualifiedBuilder buffer subgraph st1.p := by
  unfold Execute.step at h
  split at h <;> (try simp only [bind, Except.bind] at h) <;>
    first
    | (cases h; exact hinv)
    | (cases h; exact qualifiedBuilder_createMiddlet _ _ _ hinv)
    | (cases h; exact qualifiedBuilder_createLeftlet _ _ _ hinv)
    | (cases h; exact qualifiedBuilder_createRightlet _ _ _ hinv)
    | (cases h; exact qualifiedBuilder_createNode _ _ _ hinv)
    | (split at h
       · cases h
       · rename_i text htext
         have hpart := slice_part _ _ _ _ htext
         first
         | (cases h; exact hinv)
         | (cases h
            exact ⟨hinv.1, hpart, hinv.2.2⟩)
         | (split at h
            · cases h
            · cases h
              first
              | exact qualifiedBuilder_createInport _ _ _ _ _ hpart (by assumption) hinv
              | exact qualifiedBuilder_createOutport _ _ _ _ _ hpart (by assumption) hinv))

/-- The qualification of the stored names: with any subgraph `S`, after the
replay of any list of records from the empty builder every Process name, every
Source and Target process of every Connection and every process of every
Inports and Outports endpoint is `createProcessName(n)` for a text `n` sliced
from the buffer (a contiguous part of it), the same transform for exported
ports as for node references; this is `S + "_" + n` when `S` is non-empty, and
`n` itself when `S` is empty. -/
theorem subgraph_qualified (subgraph buffer : GoString) (tokens : List token32)
    (st : ExecuteState)
    (h : Execute.loop buffer ⟨0, 0, BaseFbp.empty subgraph⟩ tokens = .ok st) :
    (∀ ps ∈ st.p.Processes, Qualified buffer subgraph ps.Name) ∧
    (∀ c ∈ st.p.Connections,
      (∀ e, c.Source = some e → Qualified buffer subgraph e.Process) ∧
      (∀ e, c.Target = some e → Qualified buffer subgraph e.Process)) ∧
    (∀ m k e, st.p.Inports = some m → m.get k = some e →
      Qualified buffer subgraph e.Process) ∧
    (∀ m k e, st.p.Outports = some m → m.get k = some e →
      Qualified buffer subgraph e.Process) ∧
    (∀ n, subgraph ≠ [] →
      (BaseFbp.empty subgraph).createProcessName n = subgraph ++ str "_" ++ n) ∧
    (∀ n, subgraph = [] → (BaseFbp.empty subgraph).createProcessName n = n) := by
  have hinv : QualifiedBuilder buffer subgraph st.p := by
    have hstep : ∀ (tokens : List token32) (s s1 : ExecuteState),
        QualifiedBuilder buffer subgraph s.p → Execute.loop buffer s tokens = .ok s1 →
        QualifiedBuilder buffer subgraph s1.p := by
      intro tokens
      induction tokens with
      | nil =>
        intro s s1 h0 hl
        simp only [Execute.loop] at hl
        cases hl
        exact h0
      | cons token tokens ih =>
        intro s s1 h0 hl
        simp only [Execute.loop] at hl
        split at hl
        · cases hl
        · rename_i s2 hs2
          exact ih s2 s1 (step_qualified buffer subgraph s s2 token hs2 h0) hl
    refine hstep tokens _ st ?_ h
    refine ⟨rfl, List.nil_infix, ?_, ?_, ?_, ?_, ?_⟩ <;> simp [BaseFbp.empty]
  obtain ⟨_, _, _, hP, hC, hI, hO⟩ := hinv
  refine ⟨hP, hC, ?_, ?_, ?_, ?_⟩
  · intro m k e hm hget
    exact hI m hm (k, e) (GoMap.mem_of_get m k e hget)
  · intro m k e hm hget
    exact hO m hm (k, e) (GoMap.mem_of_get m k e hget)
  · intro n hS
    simp [BaseFbp.createProcessName, BaseFbp.empty, hS]
  · intro n hS
    simp [BaseFbp.createProcessName, BaseFbp.empty, hS]

/-- Witness of `subgraph_qualified`: the replay of a graph with an exported port
and a connection, in the subgraph `S`, ends with the Processes `S_Read` and
`S_Log`, the Connection `S_Read.OUT -> S_Log.IN` and the inbound port `NAME` at
`(S_Read, IN)`. -/
theorem subgraph_qualified_witness :
    ∃ st : ExecuteState,
      Execute.loop graphInSubgraph ⟨0, 0, BaseFbp.empty (str "S")⟩
        (parsedTokens graphInSubgraph) = .ok st ∧
      st.p.Processes = [⟨str "S_Read", str "R", none⟩, ⟨str "S_Log", str "L", none⟩] ∧
      st.p.Connections =
        [⟨[], some ⟨str "S_Read", str "OUT"⟩, some ⟨str "S_Log", str "IN"⟩⟩] ∧
      st.p.Inports = some [(str "NAME", ⟨str "S_Read", str "IN"⟩)] ∧
      (∀ ps ∈ st.p.Processes, Qualified graphInSubgraph (str "S") ps.Name) := by
  generalize hl : Execute.loop graphInSubgraph ⟨0, 0, BaseFbp.empty (str "S")⟩ _ = res
  have hres : res.toOption.map (fun s => (s.p.Processes, s.p.Connections)) =
      some ([⟨str "S_Read", str "R", none⟩, ⟨str "S_Log", str "L", none⟩],
        [⟨[], some ⟨str "S_Read", str "OUT"⟩, some ⟨str "S_Log", str "IN"⟩⟩]) := by
    subst hl
    decide!
  have hres2 : res.toOption.map (fun s => s.p.Inports) =
      some (some [(str "NAME", ⟨str "S_Read", str "IN"⟩)]) := by
    subst hl
    decide!
  cases res with
  | error f => simp [Except.toOption] at hres
  | ok st =>
    simp only [Except.toOption, Option.map_some', Option.some.injEq, Prod.mk.injEq] at hres hres2
    exact ⟨st, rfl, hres.1, hres.2, hres2,
      (subgraph_qualified (str "S") graphInSubgraph _ st hl).1⟩

/-! ## The record store: what is read back -/

theorem int32_int32 (n : Int) : int32 (int32 n) = int32 n := by
  unfold int32; omega

theorem int32_small (n : Int) (h1 : -2147483648 ≤ n) (h2 : n < 2147483648) : int32 n = n := by
  unfold int32; omega

theorem int16_small (n : Int) (h1 : -32768 ≤ n) (h2 : n < 32768) : int16 n = n := by
  unfold int16; omega

theorem int32_int16 (n : Int) : int32 (int16 n) = int16 n := by
  unfold int32 int16; omega

theorem setSlot_length {α : Type} (z : α) (xs : List α) (i : Nat) (x : α) :
    (setSlot z xs i x).length = max xs.length (i + 1) := by
  unfold setSlot
  split
  · simp; omega
  · simp; omega

theorem setSlot_getD_self {α : Type} (z : α) (xs : List α) (i : Nat) (x : α) :
    (setSlot z xs i x).getD i z = x := by
  unfold setSlot
  split
  · rename_i h
    simp [List.getD_eq_getElem?_getD, List.getElem?_set, h]
  · rename_i h
    have h1 : xs.length ≤ i := by omega
    simp [List.getD_eq_getElem?_getD, List.getElem?_append_right, h1]

theorem setSlot_getD_ne {α : Type} (z : α) (xs : List α) (i j : Nat) (x : α) (h : j ≠ i) :
    (setSlot z xs i x).getD j z = xs.getD j z := by
  unfold setSlot
  split
  · rename_i h1
    have h2 : ¬ (i = j) := fun e => h e.symm
    simp [List.getD_eq_getElem?_getD, List.getElem?_set, h2]
  · rename_i h1
    simp only [List.getD_eq_getElem?_getD, List.append_assoc]
    by_cases h2 : j < xs.length
    · rw [List.getElem?_append_left h2]
    · have h3 : xs.length ≤ j := by omega
      rw [List.getElem?_append_right h3, List.getElem?_eq_none h3]
      by_cases h4 : j - xs.length < i - xs.length
      · rw [List.getElem?_append_left (by simpa using h4)]
        simp [List.getElem?_replicate, h4]
      · rw [List.getElem?_append_right (by simpa using h4)]
        have h5 : j - xs.length - (List.replicate (i - xs.length) z).length ≠ 0 := by
          simp; omega
        rw [List.getElem?_eq_none]
        simp; omega

theorem tokens16.slots_get16 (t : tokens16) (j : Nat) (h : j < t.len) :
    t.slots[j]? = some (t.tree.getD j token16.zero) := by
  unfold tokens16.slots
  rw [List.getElem?_take_of_lt h]
  simp only [List.getD_eq_getElem?_getD]
  by_cases h2 : j < t.tree.length
  · rw [List.getElem?_append_left h2]
    simp [List.getElem?_eq_getElem h2]
  · have h3 : t.tree.length ≤ j := by omega
    rw [List.getElem?_append_right h3, List.getElem?_eq_none h3]
    simp [List.getElem?_replicate]
    omega

theorem tokens32.slots_get32 (t : tokens32) (j : Nat) (h : j < t.len) :
    t.slots[j]? = some (t.tree.getD j token32.zero) := by
  unfold tokens32.slots
  rw [List.getElem?_take_of_lt h]
  simp only [List.getD_eq_getElem?_getD]
  by_cases h2 : j < t.tree.length
  · rw [List.getElem?_append_left h2]
    simp [List.getElem?_eq_getElem h2]
  · have h3 : t.tree.length ≤ j := by omega
    rw [List.getElem?_append_right h3, List.getElem?_eq_none h3]
    simp [List.getElem?_replicate]
    omega

theorem tokens16.slots_length16 (t : tokens16) : t.slots.length = t.len := by
  unfold tokens16.slots
  simp; omega

theorem tokens32.slots_length32 (t : tokens32) : t.slots.length = t.len := by
  unfold tokens32.slots
  simp; omega

theorem tokens16.Tokens_get16 (t : tokens16) (j : Nat) (h : j < t.len) :
    t.Tokens[j]? = some (t.tree.getD j token16.zero).getToken32 := by
  simp [tokens16.Tokens, tokens16.slots_get16 t j h]

theorem tokens32.Tokens_get32 (t : tokens32) (j : Nat) (h : j < t.len) :
    t.Tokens[j]? = some (t.tree.getD j token32.zero).getToken32 := by
  simp [tokens32.Tokens, tokens32.slots_get32 t j h]

theorem token16_zero_getToken32 : token16.zero.getToken32 = token32.zero := by decide

theorem token32_zero_getToken32 : token32.zero.getToken32 = token32.zero := by decide

theorem token32_getToken32_idem (t : token32) : t.getToken32.getToken32 = t.getToken32 := by
  simp [token32.getToken32, int32_int32]

theorem token16_getToken32_idem (t : token16) :
    t.getToken32.getToken32 = t.getToken32 := by
  simp [token32.getToken32, token16.getToken32, int32_int32]

theorem tokenTree.Tokens_length (t : tokenTree) : t.Tokens.length = t.len := by
  cases t with
  | compact t => simp [tokenTree.Tokens, tokenTree.len, tokens16.Tokens, tokens16.slots_length16]
  | wide t => simp [tokenTree.Tokens, tokenTree.len, tokens32.Tokens, tokens32.slots_length32]

theorem take_eq_of_get {α : Type} (xs ys : List α) (n : Nat)
    (h : ∀ j, j < n → xs[j]? = ys[j]?) : xs.take n = ys.take n := by
  apply List.ext_getElem?
  intro j
  by_cases hj : j < n
  · rw [List.getElem?_take_of_lt hj, List.getElem?_take_of_lt hj]; exact h j hj
  · rw [List.getElem?_take_eq_none (by omega), List.getElem?_take_eq_none (by omega)]

theorem get_of_take_eq {α : Type} (xs ys : List α) (n : Nat) (h : xs.take n = ys.take n)
    (j : Nat) (hj : j < n) : xs[j]? = ys[j]? := by
  rw [← List.getElem?_take_of_lt hj, h, List.getElem?_take_of_lt hj]

theorem take_eq_mono {α : Type} (xs ys : List α) (k n : Nat) (hk : k ≤ n)
    (h : xs.take n = ys.take n) : xs.take k = ys.take k :=
  take_eq_of_get xs ys k (fun j hj => get_of_take_eq xs ys n h j (by omega))

/-- Growth of the compact store keeps every record: the records read through
`Tokens()` below the old capacity are the same. -/
theorem tokens16.Expand_get16 (t : tokens16) (index : Nat) (t1 : tokens32)
    (h : t.Expand index = some t1) :
    t1.len = 2 * t.len ∧ ∀ j, j < t.len → t1.Tokens[j]? = t.Tokens[j]? := by
  unfold tokens16.Expand at h
  split at h
  · injection h with h
    subst h
    refine ⟨rfl, fun j hj => ?_⟩
    rw [tokens32.Tokens_get32 _ j (by simp; omega), tokens16.Tokens_get16 _ j hj]
    simp only [List.getD_eq_getElem?_getD, List.getElem?_map]
    cases t.tree[j]? with
    | none => simp [token16_zero_getToken32, token32_zero_getToken32]
    | some x => simp [token16_getToken32_idem]
  · cases h

theorem tokens32.Expand_get32 (t : tokens32) (index : Nat) :
    (t.Expand index).len = (if index ≥ t.len then 2 * t.len else t.len) ∧
    ∀ j, j < t.len → (t.Expand index).Tokens[j]? = t.Tokens[j]? := by
  unfold tokens32.Expand
  split
  · refine ⟨rfl, fun j hj => ?_⟩
    rw [tokens32.Tokens_get32 _ j (by simp; omega), tokens32.Tokens_get32 _ j hj]
  · exact ⟨rfl, fun j hj => rfl⟩

theorem tokens16.Tokens_get_mk16 (len : Nat) (tree : List token16) (j : Nat) (h : j < len) :
    (tokens16.mk len tree).Tokens[j]? = some (tree.getD j token16.zero).getToken32 :=
  tokens16.Tokens_get16 (tokens16.mk len tree) j h

theorem tokens32.Tokens_get_mk32 (len : Nat) (tree : List token32) (j : Nat) (h : j < len) :
    (tokens32.mk len tree).Tokens[j]? = some (tree.getD j token32.zero).getToken32 :=
  tokens32.Tokens_get32 (tokens32.mk len tree) j h

theorem tokens16.Add_get16 (t : tokens16) (rule : pegRule) (begin end_ depth index : Nat)
    (h : index < t.len) :
    ∃ t1, t.Add rule begin end_ depth index = .ok t1 ∧ t1.len = t.len ∧
      t1.Tokens[index]? =
        some (token16.mk rule (int16 begin) (int16 end_) (int16 depth)).getToken32 ∧
      ∀ j, j < t.len → j ≠ index → t1.Tokens[j]? = t.Tokens[j]? := by
  refine ⟨tokens16.mk t.len (setSlot token16.zero t.tree index
              (token16.mk rule (int16 begin) (int16 end_) (int16 depth))),
    by simp [tokens16.Add, h], rfl, ?_, ?_⟩
  · rw [tokens16.Tokens_get_mk16 _ _ index h]
    simp only [setSlot_getD_self]
  · intro j hj hne
    rw [tokens16.Tokens_get_mk16 _ _ j hj, tokens16.Tokens_get16 t j hj]
    simp only [setSlot_getD_ne _ _ _ _ _ hne]

theorem tokens32.Add_get32 (t : tokens32) (rule : pegRule) (begin end_ depth index : Nat)
    (h : index < t.len) :
    ∃ t1, t.Add rule begin end_ depth index = .ok t1 ∧ t1.len = t.len ∧
      t1.Tokens[index]? =
        some (token32.mk rule (int32 begin) (int32 end_) (int32 depth)).getToken32 ∧
      ∀ j, j < t.len → j ≠ index → t1.Tokens[j]? = t.Tokens[j]? := by
  refine ⟨tokens32.mk t.len (setSlot token32.zero t.tree index
              (token32.mk rule (int32 begin) (int32 end_) (int32 depth))),
    by simp [tokens32.Add, h], rfl, ?_, ?_⟩
  · rw [tokens32.Tokens_get_mk32 _ _ index h]
    simp only [setSlot_getD_self]
  · intro j hj hne
    rw [tokens32.Tokens_get_mk32 _ _ j hj, tokens32.Tokens_get32 t j hj]
    simp only [setSlot_getD_ne _ _ _ _ _ hne]

/-! ## Every rule returns: bounds, progress, and the committed records -/

theorem tokenTree.wrap_small (t : tokenTree) (n : Nat) (h : n < 32768) : t.wrap n = n := by
  unfold tokenTree.wrap
  split
  · exact int16_small _ (by omega) (by omega)
  · exact int32_small _ (by omega) (by omega)

/-- The closure `add` in a state whose record count is within the capacity:
it returns, the record count is one more, the records below the old count are
kept (also when the store grows), and the record at the old count is the one
added, with its values as the store reads them back. -/
theorem add_spec (buffer : List Nat) (rule : pegRule) (begin : Nat) (s : Engine)
    (h : Engine.Inv buffer s) :
    ∃ s1, add rule begin s = .ok (true, s1) ∧ s1.position = s.position ∧
      s1.depth = s.depth ∧ s1.tokenIndex = s.tokenIndex + 1 ∧
      s.tree.len ≤ s1.tree.len ∧ s1.tokenIndex ≤ s1.tree.len ∧
      s1.tree.isCompact = (s.tree.isCompact && decide (s.tokenIndex < s.tree.len)) ∧
      s1.tree.Tokens.take s.tokenIndex = s.tree.Tokens.take s.tokenIndex ∧
      s1.tree.Tokens[s.tokenIndex]? =
        some (token32.mk rule (s1.tree.wrap begin) (s1.tree.wrap s.position)
          (s1.tree.wrap s.depth)) := by
  obtain ⟨h1, h2, h3⟩ := h
  obtain ⟨position, tokenIndex, depth, tree⟩ := s
  simp only at h1 h2 h3
  cases tree with
  | compact t =>
    simp only [tokenTree.len] at h2 h3
    by_cases hlt : tokenIndex < t.len
    · obtain ⟨t1, e1, e2, e3, e4⟩ := tokens16.Add_get16 t rule begin position depth tokenIndex hlt
      have hx : t.Expand tokenIndex = none := by simp [tokens16.Expand, hlt]
      refine ⟨⟨position, tokenIndex + 1, depth, .compact t1⟩, ?_, rfl, rfl, rfl, ?_, ?_, ?_, ?_, ?_⟩
      · simp [add, tokenTree.Expand, hx, tokenTree.Add, e1, Functor.map, Except.map]
      · simp [tokenTree.len, e2]
      · simp only [tokenTree.len, e2]; omega
      · simp [tokenTree.isCompact, tokenTree.len, hlt]
      · simp only [tokenTree.Tokens]
        exact take_eq_of_get _ _ _ (fun j hj => e4 j (by omega) (by omega))
      · simp only [tokenTree.Tokens, e3, tokenTree.wrap, tokenTree.isCompact]
        simp [token16.getToken32, int32_int16]
    · have hge : tokenIndex ≥ t.len := by omega
      have hx : t.Expand tokenIndex =
          some { len := 2 * t.len, tree := t.tree.map token16.getToken32 } := by
        simp [tokens16.Expand, hge]
      obtain ⟨g1, g2⟩ := tokens16.Expand_get16 t tokenIndex _ hx
      obtain ⟨t1, e1, e2, e3, e4⟩ := tokens32.Add_get32
        { len := 2 * t.len, tree := t.tree.map token16.getToken32 } rule begin position depth
        tokenIndex (by simp only; omega)
      refine ⟨⟨position, tokenIndex + 1, depth, .wide t1⟩, ?_, rfl, rfl, rfl, ?_, ?_, ?_, ?_, ?_⟩
      · simp [add, tokenTree.Expand, hx, tokenTree.Add, e1, Functor.map, Except.map]
      · simp only [tokenTree.len, e2]; omega
      · simp only [tokenTree.len, e2]; omega
      · simp [tokenTree.isCompact, tokenTree.len, hlt]
      · simp only [tokenTree.Tokens]
        exact take_eq_of_get _ _ _ (fun j hj => by
          rw [e4 j (by simp only; omega) (by omega)]; exact g2 j (by omega))
      · simp only [tokenTree.Tokens, e3, tokenTree.wrap, tokenTree.isCompact]
        simp [token32.getToken32, int32_int32]
  | wide t =>
    simp only [tokenTree.len] at h2 h3
    obtain ⟨g1, g2⟩ := tokens32.Expand_get32 t tokenIndex
    have hlt : tokenIndex < (t.Expand tokenIndex).len := by
      rw [g1]; split <;> omega
    obtain ⟨t1, e1, e2, e3, e4⟩ := tokens32.Add_get32 (t.Expand tokenIndex) rule begin position
      depth tokenIndex hlt
    refine ⟨⟨position, tokenIndex + 1, depth, .wide t1⟩, ?_, rfl, rfl, rfl, ?_, ?_, ?_, ?_, ?_⟩
    · simp [add, tokenTree.Expand, tokenTree.Add, e1, Functor.map, Except.map]
    · simp only [tokenTree.len, e2, g1]; split <;> omega
    · simp only [tokenTree.len, e2]; omega
    · simp [tokenTree.isCompact]
    · simp only [tokenTree.Tokens]
      exact take_eq_of_get _ _ _ (fun j hj => by
        rw [e4 j (by omega) (by omega)]; exact g2 j (by omega))
    · simp only [tokenTree.Tokens, e3, tokenTree.wrap, tokenTree.isCompact]
      simp [token32.getToken32, int32_int32]

theorem Engine.Post.inv {buffer : List Nat} {s s1 : Engine} {b : Bool}
    (h : Engine.Inv buffer s) (p : Engine.Post buffer s b s1) : Engine.Inv buffer s1 :=
  ⟨p.1, p.2.2.1, by have := h.2.2; have := p.2.1; omega⟩

theorem Engine.Post.refl {buffer : List Nat} {s : Engine} (b : Bool)
    (h : Engine.Inv buffer s) : Engine.Post buffer s b s :=
  ⟨h.1, le_refl _, h.2.1, rfl, fun _ => ⟨le_refl _, le_refl _, rfl⟩⟩

theorem Engine.Post.trans {buffer : List Nat} {s s1 s2 : Engine} {b : Bool}
    (p : Engine.Post buffer s true s1) (q : Engine.Post buffer s1 b s2) :
    Engine.Post buffer s b s2 := by
  obtain ⟨p1, p2, p3, p4, p5⟩ := p
  obtain ⟨q1, q2, q3, q4, q5⟩ := q
  obtain ⟨p6, p7, p8⟩ := p5 rfl
  refine ⟨q1, by omega, q3, ?_, fun hb => ?_⟩
  · rw [take_eq_mono _ _ _ _ p7 q4, p4]
  · obtain ⟨q6, q7, q8⟩ := q5 hb
    exact ⟨by omega, by omega, by rw [q8, p8]⟩

theorem Engine.Post.restore {buffer : List Nat} {s s1 : Engine} {b : Bool}
    (h : Engine.Inv buffer s) (p : Engine.Post buffer s b s1) :
    Engine.Post buffer s true (restore s s1) := by
  obtain ⟨p1, p2, p3, p4, p5⟩ := p
  exact ⟨h.1, p2, by have := h.2.1; show s.tokenIndex ≤ s1.tree.len; omega, p4,
    fun _ => ⟨le_refl _, le_refl _, rfl⟩⟩

theorem Engine.Post.toFail {buffer : List Nat} {s s1 : Engine} {b : Bool}
    (p : Engine.Post buffer s b s1) : Engine.Post buffer s false s1 :=
  ⟨p.1, p.2.1, p.2.2.1, p.2.2.2.1, fun hb => by cases hb⟩

theorem OkAt.relax {buffer : List Nat} {c : Code} {s : Engine} (x : Bool)
    (h : OkAt buffer true c s) : OkAt buffer x c s := by
  obtain ⟨b, s1, e, p, q⟩ := h
  exact ⟨b, s1, e, p, fun _ hb => q rfl hb⟩

theorem Ok.relaxAll {buffer : List Nat} {c : Code} (x : Bool) (h : Ok buffer true c) :
    Ok buffer x c :=
  fun s hs => (h s hs).relax x

/-- What `Ok` says of one run. -/
theorem Ok.run {buffer : List Nat} {x : Bool} {c : Code} (h : Ok buffer x c) {s s1 : Engine}
    {b : Bool} (hs : Engine.Inv buffer s) (e : c s = .ok (b, s1)) :
    Engine.Post buffer s b s1 ∧ (x = true → b = true → s.position < s1.position) := by
  obtain ⟨b1, s2, e1, p, q⟩ := h s hs
  rw [e] at e1
  injection e1 with e1
  injection e1 with e1 e2
  subst e1; subst e2
  exact ⟨p, q⟩

theorem indexAt_get {α : Type} (xs : List α) (i : Nat) (x : α) (h : xs[i]? = some x) :
    indexAt xs i = .ok x := by
  simp [indexAt, h]

theorem indexAt_lt {α : Type} (xs : List α) (i : Nat) (h : i < xs.length) :
    ∃ x, xs[i]? = some x ∧ indexAt xs i = .ok x :=
  ⟨xs[i], List.getElem?_eq_getElem h, indexAt_get _ _ _ (List.getElem?_eq_getElem h)⟩

theorem Sentinel.next {buffer : List Nat} (hs : Sentinel buffer) (i : Nat) (r : Nat)
    (h : buffer[i]? = some r) (hne : r ≠ end_symbol) : i + 1 < buffer.length := by
  have hlt : i < buffer.length := by
    by_contra hc
    rw [List.getElem?_eq_none (by omega)] at h
    cases h
  by_contra hc
  have e : i = buffer.length - 1 := by omega
  unfold Sentinel at hs
  rw [List.getLast?_eq_getElem?, ← e, h] at hs
  injection hs with hs
  exact hne hs

theorem advance_post {buffer : List Nat} (hs : Sentinel buffer) (s : Engine)
    (hi : Engine.Inv buffer s) (r : Nat) (h : buffer[s.position]? = some r)
    (hne : r ≠ end_symbol) (b : Bool) :
    Engine.Post buffer s b { s with position := s.position + 1 } :=
  ⟨hs.next _ r h hne, le_refl _, hi.2.1, rfl, fun _ => ⟨by simp, le_refl _, rfl⟩⟩

theorem matchChar_ok (buffer : List Nat) (hs : Sentinel buffer) (ch : Char)
    (hc : ch.toNat ≠ end_symbol) : Ok buffer true (matchChar buffer ch) := by
  intro s hi
  obtain ⟨r, hr, e⟩ := indexAt_lt buffer s.position hi.1
  unfold OkAt matchChar
  rw [e]
  by_cases h : r = ch.toNat
  · refine ⟨true, _, by simp [h], advance_post hs s hi r hr (by rw [h]; exact hc) true, ?_⟩
    intro _ _; simp
  · exact ⟨false, s, by simp [h], Engine.Post.refl false hi, fun _ hb => by cases hb⟩

theorem matchRange_ok (buffer : List Nat) (hs : Sentinel buffer) (lo hi : Char)
    (hc : end_symbol < lo.toNat) : Ok buffer true (matchRange buffer lo hi) := by
  intro s hi1
  obtain ⟨r, hr, e⟩ := indexAt_lt buffer s.position hi1.1
  unfold OkAt matchRange
  rw [e]
  by_cases h : r < lo.toNat ∨ r > hi.toNat
  · exact ⟨false, s, by simp only [h, if_true], Engine.Post.refl false hi1,
      fun _ hb => by cases hb⟩
  · refine ⟨true, _, by simp only [h, if_false], advance_post hs s hi1 r hr (by omega) true, ?_⟩
    intro _ _; simp

theorem matchDot_ok (buffer : List Nat) (hs : Sentinel buffer) :
    Ok buffer true (matchDot buffer) := by
  intro s hi
  obtain ⟨r, hr, e⟩ := indexAt_lt buffer s.position hi.1
  unfold OkAt matchDot
  rw [e]
  by_cases h : r = end_symbol
  · exact ⟨false, s, by simp [h], Engine.Post.refl false hi, fun _ hb => by cases hb⟩
  · refine ⟨true, _, by simp [h], advance_post hs s hi r hr h true, ?_⟩
    intro _ _; simp

theorem add_post (buffer : List Nat) (rule : pegRule) (begin : Nat) (s : Engine)
    (h : Engine.Inv buffer s) :
    ∃ s1, add rule begin s = .ok (true, s1) ∧ Engine.Post buffer s true s1 ∧
      s1.position = s.position := by
  obtain ⟨s1, e, a1, a2, a3, a4, a5, a6, a7, a8⟩ := add_spec buffer rule begin s h
  exact ⟨s1, e, ⟨by rw [a1]; exact h.1, a4, a5, a7, fun _ => ⟨by omega, by omega, a2⟩⟩, a1⟩

theorem action_ok (buffer : List Nat) (rule : pegRule) : Ok buffer false (action rule) := by
  intro s hi
  obtain ⟨s1, e, p, _⟩ := add_post buffer rule s.position s hi
  exact ⟨true, s1, e, p, fun hx => by cases hx⟩

theorem seq_nil_ok (buffer : List Nat) : Ok buffer false (seq []) :=
  fun s hi => ⟨true, s, rfl, Engine.Post.refl true hi, fun hx => by cases hx⟩

theorem seqAt {buffer : List Nat} {x y : Bool} (z : Bool) {c : Code} {cs : List Code}
    {s : Engine} (hz : z = true → x = true ∨ y = true) (hc : OkAt buffer x c s)
    (hr : ∀ s1, c s = .ok (true, s1) → Engine.Post buffer s true s1 →
      (x = true → s.position < s1.position) → OkAt buffer y (seq cs) s1) :
    OkAt buffer z (seq (c :: cs)) s := by
  obtain ⟨b, s1, e, p, q⟩ := hc
  cases b with
  | false =>
    exact ⟨false, s1, by simp [seq, e], p, fun _ hb => by cases hb⟩
  | true =>
    obtain ⟨b2, s2, e2, p2, q2⟩ := hr s1 e p (fun hx => q hx rfl)
    refine ⟨b2, s2, by simp [seq, e, e2], p.trans p2, fun hzt hb => ?_⟩
    have m1 := (p.2.2.2.2 rfl).1
    have m2 := (p2.2.2.2.2 hb).1
    rcases hz hzt with hx | hy
    · have := q hx rfl; omega
    · have := q2 hy hb; omega

theorem seq_ok {buffer : List Nat} {x y : Bool} (z : Bool) {c : Code} {cs : List Code}
    (hz : z = true → x = true ∨ y = true) (hc : Ok buffer x c) (hr : Ok buffer y (seq cs)) :
    Ok buffer z (seq (c :: cs)) :=
  fun s hi => seqAt z hz (hc s hi) (fun s1 _ p _ => hr s1 (p.inv hi))

theorem choiceAt {buffer : List Nat} {x : Bool} {c d : Code} {cs : List Code} {s : Engine}
    (hi : Engine.Inv buffer s) (hc : OkAt buffer x c s)
    (hr : ∀ s1, c s = .ok (false, s1) → Engine.Inv buffer (restore s s1) →
      OkAt buffer x (choice (d :: cs)) (restore s s1)) :
    OkAt buffer x (choice (c :: d :: cs)) s := by
  obtain ⟨b, s1, e, p, q⟩ := hc
  cases b with
  | true => exact ⟨true, s1, by simp [choice, e], p, q⟩
  | false =>
    obtain ⟨b2, s2, e2, p2, q2⟩ := hr s1 e ((p.restore hi).inv hi)
    exact ⟨b2, s2, by simp [choice, e, e2], (p.restore hi).trans p2, q2⟩

theorem choice_ok {buffer : List Nat} {x : Bool} {c d : Code} {cs : List Code}
    (hc : Ok buffer x c) (hr : Ok buffer x (choice (d :: cs))) :
    Ok buffer x (choice (c :: d :: cs)) :=
  fun s hi => choiceAt hi (hc s hi) (fun _ _ hi1 => hr _ hi1)

theorem seqAtT {buffer : List Nat} {c : Code} {cs : List Code} {s : Engine}
    (hc : OkAt buffer true c s)
    (hr : ∀ s1, c s = .ok (true, s1) → Engine.Post buffer s true s1 →
      s.position < s1.position → OkAt buffer false (seq cs) s1) :
    OkAt buffer true (seq (c :: cs)) s :=
  seqAt true (fun _ => Or.inl rfl) hc (fun s1 e p q => hr s1 e p (q rfl))

theorem seqAtF {buffer : List Nat} {x : Bool} {c : Code} {cs : List Code} {s : Engine}
    (hc : OkAt buffer x c s)
    (hr : ∀ s1, c s = .ok (true, s1) → Engine.Post buffer s true s1 →
      OkAt buffer false (seq cs) s1) :
    OkAt buffer false (seq (c :: cs)) s :=
  seqAt false (fun h => by cases h) hc (fun s1 e p _ => hr s1 e p)

theorem choice_one_ok {buffer : List Nat} {x : Bool} {c : Code} (hc : Ok buffer x c) :
    Ok buffer x (choice [c]) := hc

theorem starAt {buffer : List Nat} {c : Code} (hc : Ok buffer true c) :
    ∀ (fuel : Nat) (s : Engine), Engine.Inv buffer s → buffer.length - s.position ≤ fuel →
      ∃ s1, star fuel c s = .ok (true, s1) ∧ Engine.Post buffer s true s1
  | 0, s, hi, hf => by have := hi.1; omega
  | fuel + 1, s, hi, hf => by
    obtain ⟨b, s1, e, p, q⟩ := hc s hi
    cases b with
    | false => exact ⟨restore s s1, by simp [star, e], p.restore hi⟩
    | true =>
      have hlt := q rfl rfl
      obtain ⟨s2, e2, p2⟩ := starAt hc fuel s1 (p.inv hi) (by omega)
      exact ⟨s2, by simp [star, e, e2], p.trans p2⟩

theorem star_ok {buffer : List Nat} {c : Code} (fuel : Nat) (hf : buffer.length ≤ fuel)
    (hc : Ok buffer true c) : Ok buffer false (star fuel c) := by
  intro s hi
  obtain ⟨s1, e, p⟩ := starAt hc fuel s hi (by omega)
  exact ⟨true, s1, e, p, fun hx => by cases hx⟩

theorem plus_ok {buffer : List Nat} {c : Code} (fuel : Nat) (hf : buffer.length ≤ fuel)
    (hc : Ok buffer true c) : Ok buffer true (plus fuel c) :=
  seq_ok true (fun _ => Or.inl rfl) hc
    (seq_ok false (fun h => by cases h) (star_ok fuel hf hc) (seq_nil_ok buffer))

theorem opt_ok {buffer : List Nat} {x : Bool} {c : Code} (hc : Ok buffer x c) :
    Ok buffer false (opt c) := by
  intro s hi
  obtain ⟨b, s1, e, p, q⟩ := hc s hi
  cases b with
  | true => exact ⟨true, s1, by simp [opt, e], p, fun hx => by cases hx⟩
  | false => exact ⟨true, restore s s1, by simp [opt, e], p.restore hi, fun hx => by cases hx⟩

theorem notP_ok {buffer : List Nat} {x : Bool} {c : Code} (hc : Ok buffer x c) :
    Ok buffer false (notP c) := by
  intro s hi
  obtain ⟨b, s1, e, p, q⟩ := hc s hi
  cases b with
  | true => exact ⟨false, s1, by simp [notP, e], p.toFail, fun hx => by cases hx⟩
  | false => exact ⟨true, restore s s1, by simp [notP, e], p.restore hi, fun hx => by cases hx⟩

theorem taggedAt {buffer : List Nat} {x : Bool} (rule : pegRule) {body : Code} {s : Engine}
    (hi : Engine.Inv buffer s) (hb : OkAt buffer x body { s with depth := s.depth + 1 }) :
    OkAt buffer x (tagged rule body) s := by
  obtain ⟨b, s1, e, p, q⟩ := hb
  have hi1 : Engine.Inv buffer { s with depth := s.depth + 1 } := hi
  cases b with
  | false =>
    exact ⟨false, s1, by simp [tagged, e], ⟨p.1, p.2.1, p.2.2.1, p.2.2.2.1, fun hb => by cases hb⟩,
      fun _ hb => by cases hb⟩
  | true =>
    have hi3 : Engine.Inv buffer s1 := p.inv hi1
    have hi2 : Engine.Inv buffer { s1 with depth := s1.depth - 1 } := hi3
    obtain ⟨s2, e2, p2, a1⟩ := add_post buffer rule s.position _ hi2
    obtain ⟨p1, p3, p4, p5, p6⟩ := p
    obtain ⟨p7, p8, p9⟩ := p6 rfl
    obtain ⟨r1, r2, r3, r4, r5⟩ := p2
    obtain ⟨r6, r7, r8⟩ := r5 rfl
    simp only at p7 p8 p9 r6 r7 r8 a1 p3 p5 r2 r4
    refine ⟨true, s2, by simp [tagged, e, e2], ⟨r1, by omega, r3, ?_, fun _ => ⟨by omega, by omega, ?_⟩⟩,
      fun hx _ => ?_⟩
    · rw [take_eq_mono _ _ _ _ p8 r4, p5]
    · rw [r8, p9]; omega
    · have := q hx rfl
      simp only at this
      omega

theorem tagged_ok {buffer : List Nat} {x : Bool} (rule : pegRule) {body : Code}
    (hb : Ok buffer x body) : Ok buffer x (tagged rule body) :=
  fun _ hi => taggedAt rule hi (hb _ hi)

theorem ruleFnAt {buffer : List Nat} {x : Bool} {body : Code} {s : Engine}
    (hi : Engine.Inv buffer s) (hb : OkAt buffer x body s) : OkAt buffer x (ruleFn body) s := by
  obtain ⟨b, s1, e, p, q⟩ := hb
  cases b with
  | true => exact ⟨true, s1, by simp [ruleFn, e], p, q⟩
  | false =>
    exact ⟨false, restore s s1, by simp [ruleFn, e], (p.restore hi).toFail, fun _ hb => by cases hb⟩

theorem ruleFn_ok {buffer : List Nat} {x : Bool} {body : Code} (hb : Ok buffer x body) :
    Ok buffer x (ruleFn body) :=
  fun s hi => ruleFnAt hi (hb s hi)

theorem Ok.cast {buffer : List Nat} {x : Bool} {c : Code} (h : Ok buffer x c) (hx : x = true) :
    Ok buffer true c := hx ▸ h

theorem Ok.toFalse {buffer : List Nat} {x : Bool} {c : Code} (h : Ok buffer x c) :
    Ok buffer false c :=
  fun s hs => by
    obtain ⟨b, s1, e, p, _⟩ := h s hs
    exact ⟨b, s1, e, p, fun hx => by cases hx⟩

theorem seq_cons_ok {buffer : List Nat} {x y : Bool} {c : Code} {cs : List Code}
    (hc : Ok buffer x c) (hr : Ok buffer y (seq cs)) : Ok buffer (x || y) (seq (c :: cs)) :=
  seq_ok (x || y) (by simp) hc hr

theorem choice_cons_ok {buffer : List Nat} {x y : Bool} {c d : Code} {cs : List Code}
    (hc : Ok buffer x c) (hr : Ok buffer y (choice (d :: cs))) :
    Ok buffer (x && y) (choice (c :: d :: cs)) := by
  cases x <;> cases y
  · exact choice_ok hc hr
  · exact choice_ok hc hr.toFalse
  · exact choice_ok hc.toFalse hr
  · exact choice_ok hc hr

theorem star_flag_ok {buffer : List Nat} {x : Bool} {c : Code} (fuel : Nat)
    (hf : buffer.length ≤ fuel) (hc : Ok buffer x c) (hx : x = true) :
    Ok buffer false (star fuel c) :=
  star_ok fuel hf (hc.cast hx)

theorem plus_flag_ok {buffer : List Nat} {x : Bool} {c : Code} (fuel : Nat)
    (hf : buffer.length ≤ fuel) (hc : Ok buffer x c) (hx : x = true) :
    Ok buffer true (plus fuel c) :=
  plus_ok fuel hf (hc.cast hx)

theorem keyword_ok (buffer : List Nat) (hs : Sentinel buffer) :
    ∀ (letters : List (Char × Char)),
      (∀ l ∈ letters, l.1.toNat ≠ end_symbol ∧ l.2.toNat ≠ end_symbol) →
      Ok buffer true (rules.keyword buffer letters)
  | [], _ => by
    unfold rules.keyword
    exact seq_ok true (fun _ => Or.inl rfl) (matchChar_ok _ hs _ (by decide)) (seq_nil_ok buffer)
  | l :: ls, h => by
    have h1 := h l (List.mem_cons_self _ _)
    have h2 := keyword_ok buffer hs ls (fun l1 hl => h l1 (List.mem_cons_of_mem _ hl))
    unfold rules.keyword at h2 ⊢
    exact seq_ok true (fun _ => Or.inr rfl)
      (choice_ok (matchChar_ok _ hs _ h1.1) (matchChar_ok _ hs _ h1.2)) h2

theorem rule__ok (buffer : List Nat) (fuel : Nat) (hs : Sentinel buffer)
    (hf : buffer.length ≤ fuel) : Ok buffer false (rules.rule_ buffer fuel) := by
  unfold rules.rule_
  repeat' (with_reducible first
    | exact matchChar_ok _ hs _ (by decide)
    | apply tagged_ok
    | apply star_flag_ok fuel hf
    | apply choice_one_ok
    | apply choice_cons_ok)
  all_goals rfl

theorem rule___ok (buffer : List Nat) (fuel : Nat) (hs : Sentinel buffer)
    (hf : buffer.length ≤ fuel) : Ok buffer true (rules.rule__ buffer fuel) := by
  unfold rules.rule__
  apply Ok.cast
  repeat' (with_reducible first
    | exact matchChar_ok _ hs _ (by decide)
    | apply tagged_ok
    | apply ruleFn_ok
    | apply plus_flag_ok fuel hf
    | apply choice_one_ok
    | apply choice_cons_ok)
  all_goals rfl

theorem anychar_ok (buffer : List Nat) (hs : Sentinel buffer) :
    Ok buffer true (rules.anychar buffer) := by
  unfold rules.anychar
  apply Ok.cast
  repeat' (with_reducible first
    | exact matchChar_ok _ hs _ (by decide)
    | exact matchDot_ok _ hs
    | exact seq_nil_ok _
    | apply tagged_ok
    | apply notP_ok
    | apply seq_cons_ok
    | apply choice_one_ok
    | apply choice_cons_ok)
  all_goals rfl

theorem comment_ok (buffer : List Nat) (fuel : Nat) (hs : Sentinel buffer)
    (hf : buffer.length ≤ fuel) : Ok buffer true (rules.comment buffer fuel) := by
  unfold rules.comment
  apply Ok.cast
  repeat' (with_reducible first
    | exact matchChar_ok _ hs _ (by decide)
    | exact rule__ok _ _ hs hf
    | exact anychar_ok _ hs
    | exact seq_nil_ok _
    | apply tagged_ok
    | apply ruleFn_ok
    | apply star_flag_ok fuel hf
    | apply seq_cons_ok)
  all_goals rfl

theorem LineTerminator_ok (buffer : List Nat) (fuel : Nat) (hs : Sentinel buffer)
    (hf : buffer.length ≤ fuel) : Ok buffer false (rules.LineTerminator buffer fuel) := by
  unfold rules.LineTerminator
  apply Ok.toFalse
  repeat' (with_reducible first
    | exact matchChar_ok _ hs _ (by decide)
    | exact rule__ok _ _ hs hf
    | exact comment_ok _ _ hs hf
    | exact seq_nil_ok _
    | apply tagged_ok
    | apply ruleFn_ok
    | apply opt_ok
    | apply seq_cons_ok
    | apply choice_one_ok
    | apply choice_cons_ok)

theorem port_ok (buffer : List Nat) (fuel : Nat) (hs : Sentinel buffer)
    (hf : buffer.length ≤ fuel) : Ok buffer true (rules.port buffer fuel) := by
  unfold rules.port
  apply Ok.cast
  repeat' (with_reducible first
    | exact matchChar_ok _ hs _ (by decide)
    | exact matchRange_ok _ hs _ _ (by decide)
    | exact rule___ok _ _ hs hf
    | exact action_ok _ _
    | exact seq_nil_ok _
    | apply tagged_ok
    | apply ruleFn_ok
    | apply plus_flag_ok fuel hf
    | apply seq_cons_ok
    | apply choice_one_ok
    | apply choice_cons_ok)
  all_goals rfl

theorem portWithIndex_ok (buffer : List Nat) (fuel : Nat) (hs : Sentinel buffer)
    (hf : buffer.length ≤ fuel) : Ok buffer true (rules.portWithIndex buffer fuel) := by
  unfold rules.portWithIndex
  apply Ok.cast
  repeat' (with_reducible first
    | exact matchChar_ok _ hs _ (by decide)
    | exact matchRange_ok _ hs _ _ (by decide)
    | exact rule___ok _ _ hs hf
    | exact action_ok _ _
    | exact seq_nil_ok _
    | apply tagged_ok
    | apply ruleFn_ok
    | apply plus_flag_ok fuel hf
    | apply seq_cons_ok
    | apply choice_one_ok
    | apply choice_cons_ok)
  all_goals rfl

theorem compMeta_ok (buffer : List Nat) (fuel : Nat) (hs : Sentinel buffer)
    (hf : buffer.length ≤ fuel) : Ok buffer true (rules.compMeta buffer fuel) := by
  unfold rules.compMeta
  apply Ok.cast
  repeat' (with_reducible first
    | exact matchChar_ok _ hs _ (by decide)
    | exact matchRange_ok _ hs _ _ (by decide)
    | exact action_ok _ _
    | exact seq_nil_ok _
    | apply tagged_ok
    | apply plus_flag_ok fuel hf
    | apply seq_cons_ok
    | apply choice_one_ok
    | apply choice_cons_ok)
  all_goals rfl

theorem component_ok (buffer : List Nat) (fuel : Nat) (hs : Sentinel buffer)
    (hf : buffer.length ≤ fuel) : Ok buffer true (rules.component buffer fuel) := by
  unfold rules.component
  apply Ok.cast
  repeat' (with_reducible first
    | exact matchChar_ok _ hs _ (by decide)
    | exact matchRange_ok _ hs _ _ (by decide)
    | exact compMeta_ok _ _ hs hf
    | exact action_ok _ _
    | exact seq_nil_ok _
    | apply tagged_ok
    | apply opt_ok
    | apply star_flag_ok fuel hf
    | apply seq_cons_ok
    | apply choice_one_ok
    | apply choice_cons_ok)
  all_goals rfl

theorem node_ok (buffer : List Nat) (fuel : Nat) (hs : Sentinel buffer)
    (hf : buffer.length ≤ fuel) : Ok buffer true (rules.node buffer fuel) := by
  unfold rules.node
  apply Ok.cast
  repeat' (with_reducible first
    | exact matchChar_ok _ hs _ (by decide)
    | exact matchRange_ok _ hs _ _ (by decide)
    | exact component_ok _ _ hs hf
    | exact action_ok _ _
    | exact seq_nil_ok _
    | apply tagged_ok
    | apply ruleFn_ok
    | apply opt_ok
    | apply plus_flag_ok fuel hf
    | apply seq_cons_ok
    | apply choice_one_ok
    | apply choice_cons_ok)
  all_goals rfl

theorem iipchar_ok (buffer : List Nat) (hs : Sentinel buffer) :
    Ok buffer true (rules.iipchar buffer) := by
  unfold rules.iipchar
  apply Ok.cast
  repeat' (with_reducible first
    | exact matchChar_ok _ hs _ (by decide)
    | exact matchDot_ok _ hs
    | exact seq_nil_ok _
    | apply tagged_ok
    | apply notP_ok
    | apply seq_cons_ok
    | apply choice_one_ok
    | apply choice_cons_ok)
  all_goals rfl

theorem iip_ok (buffer : List Nat) (fuel : Nat) (hs : Sentinel buffer)
    (hf : buffer.length ≤ fuel) : Ok buffer true (rules.iip buffer fuel) := by
  unfold rules.iip
  apply Ok.cast
  repeat' (with_reducible first
    | exact matchChar_ok _ hs _ (by decide)
    | exact iipchar_ok _ hs
    | exact action_ok _ _
    | exact seq_nil_ok _
    | apply tagged_ok
    | apply star_flag_ok fuel hf
    | apply seq_cons_ok)
  all_goals rfl

theorem leftlet_ok (buffer : List Nat) (fuel : Nat) (hs : Sentinel buffer)
    (hf : buffer.length ≤ fuel) : Ok buffer true (rules.leftlet buffer fuel) := by
  unfold rules.leftlet
  apply Ok.cast
  repeat' (with_reducible first
    | exact node_ok _ _ hs hf
    | exact rule__ok _ _ hs hf
    | exact port_ok _ _ hs hf
    | exact portWithIndex_ok _ _ hs hf
    | exact seq_nil_ok _
    | apply tagged_ok
    | apply seq_cons_ok
    | apply choice_one_ok
    | apply choice_cons_ok)
  all_goals rfl

theorem rightlet_ok (buffer : List Nat) (fuel : Nat) (hs : Sentinel buffer)
    (hf : buffer.length ≤ fuel) : Ok buffer true (rules.rightlet buffer fuel) := by
  unfold rules.rightlet
  apply Ok.cast
  repeat' (with_reducible first
    | exact node_ok _ _ hs hf
    | exact rule__ok _ _ hs hf
    | exact port_ok _ _ hs hf
    | exact portWithIndex_ok _ _ hs hf
    | exact seq_nil_ok _
    | apply tagged_ok
    | apply seq_cons_ok
    | apply choice_one_ok
    | apply choice_cons_ok)
  all_goals rfl

theorem bridge_ok (buffer : List Nat) (fuel : Nat) (hs : Sentinel buffer)
    (hf : buffer.length ≤ fuel) : Ok buffer true (rules.bridge buffer fuel) := by
  unfold rules.bridge
  apply Ok.cast
  repeat' (with_reducible first
    | exact node_ok _ _ hs hf
    | exact rule__ok _ _ hs hf
    | exact port_ok _ _ hs hf
    | exact iip_ok _ _ hs hf
    | exact leftlet_ok _ _ hs hf
    | exact rightlet_ok _ _ hs hf
    | exact action_ok _ _
    | exact seq_nil_ok _
    | apply tagged_ok
    | apply ruleFn_ok
    | apply seq_cons_ok
    | apply choice_one_ok
    | apply choice_cons_ok)
  all_goals rfl

theorem exported_ok (buffer : List Nat) (fuel : Nat) (hs : Sentinel buffer)
    (hf : buffer.length ≤ fuel) : Ok buffer true (rules.exported buffer fuel) := by
  unfold rules.exported
  apply Ok.cast
  repeat' (with_reducible first
    | exact matchChar_ok _ hs _ (by decide)
    | exact matchRange_ok _ hs _ _ (by decide)
    | exact seq_nil_ok _
    | apply tagged_ok
    | apply plus_flag_ok fuel hf
    | apply seq_cons_ok
    | apply choice_one_ok
    | apply choice_cons_ok)
  all_goals rfl

theorem connection_okAt (buffer : List Nat) (fuel : Nat) (hs : Sentinel buffer)
    (hf : buffer.length ≤ fuel) :
    ∀ (n : Nat) (s : Engine), Engine.Inv buffer s → buffer.length - s.position ≤ n →
      OkAt buffer true (rules.connection buffer fuel n) s
  | 0, s, hi, hn => by have := hi.1; omega
  | n + 1, s, hi, hn => by
    unfold rules.connection
    have hi0 : Engine.Inv buffer { s with depth := s.depth + 1 } := hi
    refine ruleFnAt hi (taggedAt _ hi (choiceAt hi0 ?_ ?_))
    · refine seqAtT (bridge_ok buffer fuel hs hf _ hi0) ?_
      intro s1 _ p1 m1
      have hi1 := p1.inv hi0
      refine seqAtF (rule__ok buffer fuel hs hf _ hi1) ?_
      intro s2 _ p2
      have hi2 := p2.inv hi1
      have m2 := (p2.2.2.2.2 rfl).1
      refine seqAtF (matchChar_ok buffer hs '-' (by decide) _ hi2) ?_
      intro s3 _ p3
      have hi3 := p3.inv hi2
      have m3 := (p3.2.2.2.2 rfl).1
      refine seqAtF (matchChar_ok buffer hs '>' (by decide) _ hi3) ?_
      intro s4 _ p4
      have hi4 := p4.inv hi3
      have m4 := (p4.2.2.2.2 rfl).1
      refine seqAtF (rule__ok buffer fuel hs hf _ hi4) ?_
      intro s5 _ p5
      have hi5 := p5.inv hi4
      have m5 := (p5.2.2.2.2 rfl).1
      simp only at m1
      refine seqAtF (connection_okAt buffer fuel hs hf n s5 hi5 (by omega)) ?_
      intro s6 _ p6
      exact seq_nil_ok buffer s6 (p6.inv hi5)
    · intro s1 _ hi1
      exact bridge_ok buffer fuel hs hf _ hi1

theorem connection_ok (buffer : List Nat) (fuel : Nat) (hs : Sentinel buffer)
    (hf : buffer.length ≤ fuel) : Ok buffer true (rules.connection buffer fuel fuel) :=
  fun s hi => connection_okAt buffer fuel hs hf fuel s hi (by omega)

theorem line_ok (buffer : List Nat) (fuel : Nat) (hs : Sentinel buffer)
    (hf : buffer.length ≤ fuel) : Ok buffer true (rules.line buffer fuel) := by
  unfold rules.line
  apply Ok.cast
  repeat' (with_reducible first
    | exact matchChar_ok _ hs _ (by decide)
    | exact matchRange_ok _ hs _ _ (by decide)
    | exact keyword_ok _ hs _ (by decide)
    | exact rule__ok _ _ hs hf
    | exact comment_ok _ _ hs hf
    | exact LineTerminator_ok _ _ hs hf
    | exact exported_ok _ _ hs hf
    | exact connection_ok _ _ hs hf
    | exact action_ok _ _
    | exact seq_nil_ok _
    | apply tagged_ok
    | apply opt_ok
    | apply plus_flag_ok fuel hf
    | apply seq_cons_ok
    | apply choice_one_ok
    | apply choice_cons_ok)
  all_goals rfl

theorem start_ok (buffer : List Nat) (fuel : Nat) (hs : Sentinel buffer)
    (hf : buffer.length ≤ fuel) : Ok buffer false (rules.start buffer fuel) := by
  unfold rules.start
  apply Ok.toFalse
  repeat' (with_reducible first
    | exact matchDot_ok _ hs
    | exact rule__ok _ _ hs hf
    | exact line_ok _ _ hs hf
    | exact seq_nil_ok _
    | apply tagged_ok
    | apply ruleFn_ok
    | apply notP_ok
    | apply star_flag_ok fuel hf
    | apply seq_cons_ok)
  all_goals rfl

theorem Init_sentinel (p : Fbp) : Sentinel p.Init.buffer := by
  unfold Sentinel Fbp.Init
  simp only
  split
  · simp
  · rename_i h
    simp only [not_or, not_not] at h
    exact h.2

theorem Init_inv (p : Fbp) : Engine.Inv p.Init.buffer p.Init.engine := by
  have h := Init_sentinel p
  refine ⟨?_, by simp [Fbp.Init], by simp [Fbp.Init, tokenTree.len]⟩
  show 0 < p.Init.buffer.length
  unfold Sentinel at h
  cases hb : p.Init.buffer with
  | nil => rw [hb] at h; cases h
  | cons a as => simp

/-- After `Init`, `Parse` returns, whatever the input. -/
theorem Parse_returns (p : Fbp) :
    ∃ b e, rules.start p.Init.buffer p.Init.buffer.length p.Init.engine = .ok (b, e) ∧
      Engine.Post p.Init.buffer p.Init.engine b e := by
  obtain ⟨b, e, h, q, _⟩ :=
    start_ok p.Init.buffer p.Init.buffer.length (Init_sentinel p) (le_refl _) _ (Init_inv p)
  exact ⟨b, e, h, q⟩

/-! ## The store: growth and the compact encoding -/

theorem take_eq_self_of_get {α : Type} (xs ys : List α) (n : Nat) (hlen : ys.length = n)
    (h : ∀ j, j < n → xs[j]? = ys[j]?) : xs.take n = ys := by
  rw [take_eq_of_get xs ys n h]
  exact List.take_of_length_le (by omega)

/-- C29: for an index at or above the capacity, `tokens16.Expand` returns a wide
store of twice the capacity and `tokens32.Expand` doubles the capacity in place;
in both cases the records read through `Tokens()` at the previous indices are
the records before growth, in the same order. For an index below the capacity
`tokens16.Expand` returns `nil` and `tokens32.Expand` leaves the store as it is. -/
theorem Expand_preserves (t16 : tokens16) (t32 : tokens32) (index : Nat) :
    (t16.len ≤ index → ∃ t1, t16.Expand index = some t1 ∧ t1.len = 2 * t16.len ∧
      t1.Tokens.length = 2 * t16.len ∧ t1.Tokens.take t16.len = t16.Tokens) ∧
    (index < t16.len → t16.Expand index = none) ∧
    (t32.len ≤ index → (t32.Expand index).len = 2 * t32.len ∧
      (t32.Expand index).Tokens.length = 2 * t32.len ∧
      (t32.Expand index).Tokens.take t32.len = t32.Tokens) ∧
    (index < t32.len → t32.Expand index = t32) := by
  refine ⟨fun h => ?_, fun h => ?_, fun h => ?_, fun h => ?_⟩
  · have hx : t16.Expand index =
        some { len := 2 * t16.len, tree := t16.tree.map token16.getToken32 } := by
      simp [tokens16.Expand, h]
    obtain ⟨g1, g2⟩ := tokens16.Expand_get16 t16 index _ hx
    refine ⟨_, hx, rfl, ?_, ?_⟩
    · simp [tokens32.Tokens, tokens32.slots_length32]
    · exact take_eq_self_of_get _ _ _ (by simp [tokens16.Tokens, tokens16.slots_length16]) g2
  · simp [tokens16.Expand, h]
  · obtain ⟨g1, g2⟩ := tokens32.Expand_get32 t32 index
    have g3 : (t32.Expand index).len = 2 * t32.len := by rw [g1]; simp [h]
    refine ⟨g3, ?_, ?_⟩
    · simp [tokens32.Tokens, tokens32.slots_length32, g3]
    · exact take_eq_self_of_get _ _ _ (by simp [tokens32.Tokens, tokens32.slots_length32]) g2
  · simp [tokens32.Expand, h]

/-- C30 (fails for the compact store): `Add` of a record with end offset 40000
at index 0 of the compact store that `Init` allocates is read back through
`Tokens()` with end -25536, and one with begin 32768 and end 32770 is read back
with begin -32768 and end -32766; the wide store reads the offsets back as they
were given. -/
theorem compact_add_wraps :
    (∃ t1, (tokens16.mk 32767 []).Add .rule_ 0 40000 0 0 = .ok t1 ∧
      t1.Tokens[0]? = some (token32.mk .rule_ 0 (-25536) 0)) ∧
    (∃ t1, (tokens16.mk 32767 []).Add .rulePegText 32768 32770 3 0 = .ok t1 ∧
      t1.Tokens[0]? = some (token32.mk .rulePegText (-32768) (-32766) 3)) ∧
    (∃ t1, (tokens32.mk 65534 []).Add .rule_ 0 40000 0 0 = .ok t1 ∧
      t1.Tokens[0]? = some (token32.mk .rule_ 0 40000 0)) := by
  refine ⟨?_, ?_, ?_⟩
  · obtain ⟨t1, e1, _, e3, _⟩ :=
      tokens16.Add_get16 (tokens16.mk 32767 []) .rule_ 0 40000 0 0 (by decide)
    exact ⟨t1, e1, by rw [e3]; decide⟩
  · obtain ⟨t1, e1, _, e3, _⟩ :=
      tokens16.Add_get16 (tokens16.mk 32767 []) .rulePegText 32768 32770 3 0 (by decide)
    exact ⟨t1, e1, by rw [e3]; decide⟩
  · obtain ⟨t1, e1, _, e3, _⟩ :=
      tokens32.Add_get32 (tokens32.mk 65534 []) .rule_ 0 40000 0 0 (by decide)
    exact ⟨t1, e1, by rw [e3]; decide⟩

/-! ## The failure label of a rule function -/

theorem ruleFn_fail (body : Code) (s s1 : Engine) (h : ruleFn body s = .ok (false, s1)) :
    s1.position = s.position ∧ s1.tokenIndex = s.tokenIndex ∧ s1.depth = s.depth := by
  unfold ruleFn at h
  split at h
  · cases h
  · cases h
  · injection h with h
    injection h with _ h
    subst h
    exact ⟨rfl, rfl, rfl⟩

/-- C27: when a rule function of the engine (start, LineTerminator, comment,
connection, bridge, node, port, portWithIndex, `__`) returns false, the cursor,
the record count and the nesting depth on return are their values on entry. -/
theorem failure_restores (buffer : List Nat) (fuel n : Nat) (r : Code)
    (hr : r ∈ ruleFunctions buffer fuel n) (s s1 : Engine) (h : r s = .ok (false, s1)) :
    s1.position = s.position ∧ s1.tokenIndex = s.tokenIndex ∧ s1.depth = s.depth := by
  simp only [ruleFunctions, List.mem_cons, List.mem_singleton, List.not_mem_nil, or_false] at hr
  rcases hr with e | e | e | e | e | e | e | e | e <;> subst e
  · exact ruleFn_fail _ s s1 h
  · exact ruleFn_fail _ s s1 h
  · exact ruleFn_fail _ s s1 h
  · cases n with
    | zero => cases h
    | succ n => exact ruleFn_fail _ s s1 h
  · exact ruleFn_fail _ s s1 h
  · exact ruleFn_fail _ s s1 h
  · exact ruleFn_fail _ s s1 h
  · exact ruleFn_fail _ s s1 h
  · exact ruleFn_fail _ s s1 h

/-- Witness of `failure_restores`: rule `port` run on the buffer of `a`, where it
fails after its frame has raised the depth. -/
theorem failure_restores_witness :
    rules.port [97, 4] 2 ⟨0, 0, 0, .compact ⟨32767, []⟩⟩
      = .ok (false, ⟨0, 0, 0, .compact ⟨32767, []⟩⟩) ∧
    ((⟨0, 0, 0, .compact ⟨32767, []⟩⟩ : Engine).position = 0 ∧
      (⟨0, 0, 0, .compact ⟨32767, []⟩⟩ : Engine).tokenIndex = 0 ∧
      (⟨0, 0, 0, .compact ⟨32767, []⟩⟩ : Engine).depth = 0) :=
  ⟨by decide!, failure_restores [97, 4] 2 2 (rules.port [97, 4] 2)
    (by simp [ruleFunctions]) ⟨0, 0, 0, .compact ⟨32767, []⟩⟩ ⟨0, 0, 0, .compact ⟨32767, []⟩⟩
    (by decide!)⟩

/-! ## Termination of `Parse` -/

/-- C23: after `Init`, `Parse` returns for every input within the bound of
`len(buffer)` rounds for each loop and for the recursion of `connection`: no
read is out of range and no loop runs out of rounds. The body of every
repetition moves the cursor forward when it succeeds (a line, an `anychar`, an
`iipchar`, a character or a range), `bridge` does so before `connection`
recurses, and no fragment leaves the cursor beyond the last index of the
buffer, where the sentinel is. -/
theorem Parse_terminates (p : Fbp) :
    (∃ r, p.Init.Parse = .ok r) ∧
    Ok p.Init.buffer true (rules.line p.Init.buffer p.Init.buffer.length) ∧
    Ok p.Init.buffer true (rules.anychar p.Init.buffer) ∧
    Ok p.Init.buffer true (rules.iipchar p.Init.buffer) ∧
    Ok p.Init.buffer true (rules.bridge p.Init.buffer p.Init.buffer.length) ∧
    Ok p.Init.buffer true (matchDot p.Init.buffer) ∧
    (∀ ch : Char, ch.toNat ≠ end_symbol → Ok p.Init.buffer true (matchChar p.Init.buffer ch)) ∧
    (∀ lo hi : Char, end_symbol < lo.toNat →
      Ok p.Init.buffer true (matchRange p.Init.buffer lo hi)) := by
  have hs := Init_sentinel p
  refine ⟨?_, line_ok _ _ hs (le_refl _), anychar_ok _ hs, iipchar_ok _ hs,
    bridge_ok _ _ hs (le_refl _), matchDot_ok _ hs, fun ch h => matchChar_ok _ hs ch h,
    fun lo hi h => matchRange_ok _ hs lo hi h⟩
  obtain ⟨b, e, h, _⟩ := Parse_returns p
  unfold Fbp.Parse
  rw [h]
  cases b <;> exact ⟨_, rfl⟩
theorem nameByte_no_space : ∀ v : Fin 256, isNameByte ⟨⟨v⟩⟩ = true →
    ∀ e ∈ unicode.spaceBytes, e.head? ≠ some ⟨⟨v⟩⟩ ∧ e.getLast? ≠ some ⟨⟨v⟩⟩ := by
  decide!

theorem spaceBytes_ne_nil : ∀ e ∈ unicode.spaceBytes, e ≠ [] := by decide

theorem dropSpace_name (s : GoString) (h : ∀ b ∈ s, isNameByte b = true) :
    strings.dropSpace s = none := by
  unfold strings.dropSpace
  rw [Option.map_eq_none', List.find?_eq_none]
  intro e he hp
  have h1 := spaceBytes_ne_nil e he
  simp only [ List.isPrefixOf_iff_prefix] at hp
  obtain ⟨t, ht⟩ := hp
  cases e with
  | nil => exact h1 rfl
  | cons a as =>
    have ha : a ∈ s := by rw [← ht]; simp
    have hb := h a ha
    obtain ⟨⟨v⟩⟩ := a
    exact (nameByte_no_space v hb _ he).1 rfl

theorem dropLastSpace_name (s : GoString) (h : ∀ b ∈ s, isNameByte b = true) :
    strings.dropLastSpace s = none := by
  unfold strings.dropLastSpace
  rw [Option.map_eq_none', List.find?_eq_none]
  intro e he hp
  have h1 := spaceBytes_ne_nil e he
  simp only [List.isSuffixOf_iff_suffix] at hp
  obtain ⟨t, ht⟩ := hp
  cases hg : e.getLast? with
  | none => simp [List.getLast?_eq_none_iff] at hg; exact h1 hg
  | some b =>
    have hb : b ∈ s := by
      rw [← ht]
      exact List.mem_append_right _ (List.mem_of_getLast?_eq_some hg)
    have hb1 := h b hb
    obtain ⟨⟨v⟩⟩ := b
    exact (nameByte_no_space v hb1 e he).2 hg

theorem TrimSpace_name (s : GoString) (h : ∀ b ∈ s, isNameByte b = true) :
    strings.TrimSpace s = s := by
  unfold strings.TrimSpace
  have h1 : strings.trimLeft s.length s = s := by
    cases hl : s.length with
    | zero => rfl
    | succ n => simp [strings.trimLeft, dropSpace_name s h]
  simp only [h1]
  cases hl : s.length with
  | zero => rfl
  | succ n => simp [strings.trimRight, dropLastSpace_name s h]

theorem nameByte_no_separator : ∀ v : Fin 256, isNameByte ⟨⟨v⟩⟩ = true →
    (⟨⟨v⟩⟩ : UInt8) ≠ 46 ∧ (⟨⟨v⟩⟩ : UInt8) ≠ 58 := by
  decide!

theorem name_no_separator (s : GoString) (h : ∀ b ∈ s, isNameByte b = true) :
    (46 : UInt8) ∉ s ∧ (58 : UInt8) ∉ s := by
  constructor
  · intro hm
    have := h _ hm
    exact (nameByte_no_separator ⟨46, by decide⟩ this).1 rfl
  · intro hm
    have := h _ hm
    exact (nameByte_no_separator ⟨58, by decide⟩ this).2 rfl

/-- The export text `P.X:N` whose parts are made of name bytes is taken apart
into the name `N` and the endpoint `(createProcessName P, X)`. -/
theorem parseExportedPort_names (self : BaseFbp) (P X N : GoString)
    (hP : ∀ b ∈ P, isNameByte b = true) (hX : ∀ b ∈ X, isNameByte b = true)
    (hN : ∀ b ∈ N, isNameByte b = true) :
    self.parseExportedPort (P ++ str "." ++ X ++ str ":" ++ N) =
      .ok (N, some ⟨self.createProcessName P, X⟩) := by
  rw [parseExportedPort_parts self P X N (name_no_separator P hP) (name_no_separator X hX)
    (name_no_separator N hN).2, TrimSpace_name N hN, TrimSpace_name P hP, TrimSpace_name X hX]

theorem GoMap.length_set {V : Type} (m : GoMap V) (k : GoString) (v : V) :
    (m.set k v).length = m.length + (if (m.get k).isSome then 0 else 1) := by
  induction m with
  | nil => simp [GoMap.set, GoMap.get]
  | cons a rest ih =>
    obtain ⟨k0, v0⟩ := a
    by_cases h : k0 = k
    · simp [GoMap.set, GoMap.get, h]
    · simp [GoMap.set, GoMap.get, h, ih]
      omega

/-- The action of a header line on the text it is handed: Action0 replayed on a
sliced text `proc.PORT:NAME`, its three parts made of the characters of the
grammar classes, leaves `Inports` with the entry `NAME -> (proc, PORT)`, every
other key as before and one entry more unless `NAME` was exported already, and
leaves `Outports`, `Processes` and `Connections` as they were; Action1 does the
same to `Outports`. -/
theorem header_line_entry (buffer : GoString) (st : ExecuteState) (token : token32)
    (P X N : GoString) (hP : ∀ b ∈ P, isNameByte b = true) (hX : ∀ b ∈ X, isNameByte b = true)
    (hN : ∀ b ∈ N, isNameByte b = true)
    (ht : slice buffer st.begin st.end_ = .ok (P ++ str "." ++ X ++ str ":" ++ N)) :
    (token.pegRule = .ruleAction0 → ∃ (st1 : ExecuteState) (m : GoMap Endpoint),
      Execute.step buffer st token = .ok st1 ∧ st1.p.Inports = some m ∧
      m.get N = some ⟨st.p.createProcessName P, X⟩ ∧
      (∀ k, k ≠ N → m.get k = (st.p.Inports.getD []).get k) ∧
      m.length = (st.p.Inports.getD []).length +
        (if ((st.p.Inports.getD []).get N).isSome then 0 else 1) ∧
      st1.p.Outports = st.p.Outports ∧ st1.p.Processes = st.p.Processes ∧
      st1.p.Connections = st.p.Connections) ∧
    (token.pegRule = .ruleAction1 → ∃ (st1 : ExecuteState) (m : GoMap Endpoint),
      Execute.step buffer st token = .ok st1 ∧ st1.p.Outports = some m ∧
      m.get N = some ⟨st.p.createProcessName P, X⟩ ∧
      (∀ k, k ≠ N → m.get k = (st.p.Outports.getD []).get k) ∧
      m.length = (st.p.Outports.getD []).length +
        (if ((st.p.Outports.getD []).get N).isSome then 0 else 1) ∧
      st1.p.Inports = st.p.Inports ∧ st1.p.Processes = st.p.Processes ∧
      st1.p.Connections = st.p.Connections) := by
  have hp := parseExportedPort_names st.p P X N hP hX hN
  constructor
  · intro hk
    obtain ⟨m, hm⟩ : ∃ m, m = (st.p.Inports.getD []).set N ⟨st.p.createProcessName P, X⟩ :=
      ⟨_, rfl⟩
    refine ⟨⟨st.begin, st.end_, { st.p with Inports := some m }⟩, m, by
      simp only [Execute.step, hk, ht, bind, Except.bind, createInport_ok st.p _ _ _ hp, hm],
      rfl, ?_, ?_, by rw [hm]; exact GoMap.length_set _ _ _, rfl, rfl, rfl⟩
    · simp [hm, GoMap.get_set]
    · intro k hk1
      simp [hm, GoMap.get_set, Ne.symm hk1]
  · intro hk
    obtain ⟨m, hm⟩ : ∃ m, m = (st.p.Outports.getD []).set N ⟨st.p.createProcessName P, X⟩ :=
      ⟨_, rfl⟩
    refine ⟨⟨st.begin, st.end_, { st.p with Outports := some m }⟩, m, by
      simp only [Execute.step, hk, ht, bind, Except.bind, createOutport_ok st.p _ _ _ hp, hm],
      rfl, ?_, ?_, by rw [hm]; exact GoMap.length_set _ _ _, rfl, rfl, rfl⟩
    · simp [hm, GoMap.get_set]
    · intro k hk1
      simp [hm, GoMap.get_set, Ne.symm hk1]

/-- Witness of `header_line_entry`: the graphExportedInPort text is accepted and
yields 2 Processes, 1 Connection, 2 Inports and 1 Outport, with
`FILENAME -> (Read, IN)`, `CONFIG -> (Read, OPTIONS)` and
`RESULT -> (Process, OUT)`; and Action0 replayed on the text `Read.IN:FILENAME`
from the empty builder leaves that one entry and no Process or Connection. -/
theorem header_line_witness :
    (∃ p : Fbp, testGraph graphExportedInPort [] = .ok (p, true) ∧
      p.Processes.map (fun x => x.Name) = [str "Read", str "Process"] ∧
      p.Connections.length = 1 ∧
      (p.Inports.getD []).length = 2 ∧ (p.Outports.getD []).length = 1 ∧
      (p.Inports.getD []).get (str "FILENAME") = some ⟨str "Read", str "IN"⟩ ∧
      (p.Inports.getD []).get (str "CONFIG") = some ⟨str "Read", str "OPTIONS"⟩ ∧
      (p.Outports.getD []).get (str "RESULT") = some ⟨str "Process", str "OUT"⟩) ∧
    (∃ (st1 : ExecuteState) (m : GoMap Endpoint),
      Execute.step (str "Read.IN:FILENAME") ⟨0, 16, BaseFbp.empty []⟩
        ⟨.ruleAction0, 16, 16, 0⟩ = .ok st1 ∧
      st1.p.Inports = some m ∧ m.get (str "FILENAME") = some ⟨str "Read", str "IN"⟩ ∧
      m.length = 1 ∧ st1.p.Processes = [] ∧ st1.p.Connections = []) := by
  constructor
  · generalize hl : testGraph graphExportedInPort [] = res
    have hres : res.toOption.map (fun r => (r.2, r.1.Processes.map (fun x => x.Name),
        r.1.Connections.length, (r.1.Inports.getD []).length, (r.1.Outports.getD []).length))
        = some (true, [str "Read", str "Process"], 1, 2, 1) := by
      subst hl
      decide!
    have hres2 : res.toOption.map (fun r => ((r.1.Inports.getD []).get (str "FILENAME"),
        (r.1.Inports.getD []).get (str "CONFIG"), (r.1.Outports.getD []).get (str "RESULT")))
        = some (some ⟨str "Read", str "IN"⟩, some ⟨str "Read", str "OPTIONS"⟩,
          some ⟨str "Process", str "OUT"⟩) := by
      subst hl
      decide!
    cases res with
    | error f => cases hres
    | ok r =>
      obtain ⟨p, ok⟩ := r
      simp only [Except.toOption, Option.map_some', Option.some.injEq, Prod.mk.injEq] at hres hres2
      obtain ⟨h0, h1, h2, h3, h4⟩ := hres
      obtain ⟨h5, h6, h7⟩ := hres2
      subst h0
      exact ⟨p, rfl, h1, h2, h3, h4, h5, h6, h7⟩
  · obtain ⟨st1, m, h1, h2, h3, _, h5, _, h7, h8⟩ :=
      (header_line_entry (str "Read.IN:FILENAME") ⟨0, 16, BaseFbp.empty []⟩
        ⟨.ruleAction0, 16, 16, 0⟩ (str "Read") (str "IN") (str "FILENAME")
        (by decide) (by decide) (by decide) (by decide)).1 rfl
    exact ⟨st1, m, h1, h2, h3, h5, h7, h8⟩

/-! ## Component names and metadata: the two character classes -/

/-- C26 (as the grammar has it): for every rune `c` of the metadata class
(letters, digits, `_`, `/`, `=`, `,`) the node `Foo(Bar:c)` is matched by rule
`node` to its end, with its parenthesised component and the metadata in it;
every rune of the class of component names other than `-` is in the metadata
class. -/
theorem meta_class_accepts (c : Nat) (h : c ∈ metaRunes) :
    nodeOnFooBar c =
      .ok (true, 10, [(.rulecompMeta, 7, 9), (.rulecomponent, 3, 10)]) ∧
    (∀ d ∈ componentRunes, d ≠ '-'.toNat → d ∈ metaRunes) := by
  have h1 : ∀ c ∈ metaRunes, nodeOnFooBar c =
      .ok (true, 10, [(.rulecompMeta, 7, 9), (.rulecomponent, 3, 10)]) := by decide!
  exact ⟨h1 c h, by decide⟩

/-- Witness of `meta_class_accepts`: the node `Foo(Bar:=)`. -/
theorem meta_class_accepts_witness :
    '='.toNat ∈ metaRunes ∧
    nodeOnFooBar '='.toNat =
      .ok (true, 10, [(.rulecompMeta, 7, 9), (.rulecomponent, 3, 10)]) :=
  ⟨by decide, (meta_class_accepts '='.toNat (by decide)).1⟩

/-- C26, counterexample: `-` is accepted in a component name and not in
metadata; on `Foo(Bar:-)` rule `node` matches `Foo` alone, the cursor stops
before the parenthesis and no component record is committed, while on
`Foo(Ba-:x)` the `-` is part of the component name. -/
theorem meta_class_rejects_dash :
    '-'.toNat ∈ componentRunes ∧ '-'.toNat ∉ metaRunes ∧
    nodeOnFooBar '-'.toNat = .ok (true, 3, []) ∧
    (rules.node ("Foo(Ba-:x)".data.map Char.toNat ++ [end_symbol]) 11
      ⟨0, 0, 0, .compact ⟨64, []⟩⟩).map (fun r => (r.1, r.2.position)) = .ok (true, 10) := by
  decide!

/-! ## Nodes written with empty parentheses -/

/-- Records other than Action9 leave `Processes` and `Subgraph` as they are. -/
theorem loop_keeps_Processes (buffer : GoString) (tokens : List token32) :
    ∀ (st st1 : ExecuteState), Execute.loop buffer st tokens = .ok st1 →
      (∀ t ∈ tokens, t.pegRule ≠ .ruleAction9) →
      st1.p.Processes = st.p.Processes ∧ st1.p.Subgraph = st.p.Subgraph := by
  induction tokens with
  | nil =>
    intro st st1 h _
    simp only [Execute.loop] at h
    cases h
    exact ⟨rfl, rfl⟩
  | cons token tokens ih =>
    intro st st1 h hno
    simp only [Execute.loop] at h
    split at h
    · cases h
    · rename_i st2 hstep
      have h9 : token.pegRule ≠ .ruleAction9 := hno token (List.mem_cons_self _ _)
      obtain ⟨h1, h2⟩ := ih st2 st1 h (fun t ht => hno t (List.mem_cons_of_mem _ ht))
      exact ⟨h1.trans (step_Processes buffer st st2 token hstep h9),
        h2.trans (action_Subgraph _ _ (step_action buffer st st2 token hstep))⟩

/-- The replay of a node written with parentheses: `createNode` runs with the
name and the text between the parentheses in the scratch. -/
theorem loop_item_node (buffer : GoString) (name c : Span) (md : Option Span)
    (h : (Item.node name c md).valid buffer = true) (st : ExecuteState) (rest : List token32) :
    ∃ (b e : Int) (q : BaseFbp),
      Execute.loop buffer st ((Item.node name c md).events.map Event.token ++ rest) =
        Execute.loop buffer ⟨b, e, q.createNode⟩ rest ∧
      q.Subgraph = st.p.Subgraph ∧ q.Processes = st.p.Processes ∧
      q.nodeProcessName = name.text buffer ∧ q.nodeComponentName = c.text buffer ∧
      q.Connections = st.p.Connections := by
  cases md with
  | none =>
    simp only [Item.valid, NodeText.valid, Bool.and_eq_true] at h
    simp only [Item.events, NodeText.events, List.map_cons, List.map_nil, List.cons_append,
      List.nil_append, List.map_append, loop_text, loop_act8 buffer name _ _ h.1,
      loop_act10 buffer c _ _ h.2, loop_act9]
    exact ⟨_, _, _, rfl, rfl, rfl, rfl, rfl, rfl⟩
  | some mt =>
    simp only [Item.valid, NodeText.valid, Bool.and_eq_true] at h
    simp only [Item.events, NodeText.events, List.map_cons, List.map_nil, List.cons_append,
      List.nil_append, List.map_append, loop_text, loop_act8 buffer name _ _ h.1,
      loop_act10 buffer c _ _ h.2.1, loop_act11 buffer mt _ _ h.2.2, loop_act9]
    exact ⟨_, _, _, rfl, rfl, rfl, rfl, rfl, rfl⟩

/-- The Processes after the replay of a list of items: their names are without
duplicate, and they are the qualified names declared so far. -/
theorem loop_items (subgraph buffer : GoString) :
    ∀ (items : List Item) (seen : List GoString) (st st1 : ExecuteState),
      (∀ it ∈ items, it.valid buffer = true) →
      st.p.Subgraph = subgraph →
      (st.p.Processes.map Process.Name).Nodup →
      (∀ x, x ∈ st.p.Processes.map Process.Name ↔
        x ∈ seen.map (BaseFbp.empty subgraph).createProcessName) →
      Execute.loop buffer st ((items.flatMap Item.events).map Event.token) = .ok st1 →
      (st1.p.Processes.map Process.Name).Nodup ∧
      (∀ x, x ∈ st1.p.Processes.map Process.Name ↔
        x ∈ (seen ++ items.filterMap (Item.declares buffer)).map
          (BaseFbp.empty subgraph).createProcessName) := by
  intro items
  induction items with
  | nil =>
    intro seen st st1 _ _ hn hm h
    simp only [List.flatMap_nil, List.map_nil, Execute.loop] at h
    cases h
    simp only [List.filterMap_nil, List.append_nil]
    exact ⟨hn, hm⟩
  | cons it items ih =>
    intro seen st st1 hv hs hn hm h
    have hv1 := hv it (List.mem_cons_self _ _)
    have hv2 : ∀ it ∈ items, it.valid buffer = true :=
      fun i hi => hv i (List.mem_cons_of_mem _ hi)
    simp only [List.flatMap_cons, List.map_append] at h
    cases it with
    | other evs =>
      rw [loop_append] at h
      split at h
      · cases h
      · rename_i st2 h2
        have hno : ∀ t ∈ (Item.other evs).events.map Event.token, t.pegRule ≠ .ruleAction9 := by
          intro t ht
          obtain ⟨e, he, rfl⟩ := List.mem_map.1 ht
          simp only [Item.valid, List.all_eq_true, decide_eq_true_eq] at hv1
          have := (hv1 e he).2.1
          cases e with
          | text sp => simp [Event.token]
          | act r =>
            simp only [Event.token]
            intro hr
            exact this (by rw [hr])
        obtain ⟨k1, k2⟩ := loop_keeps_Processes buffer _ st st2 h2 hno
        have := ih seen st2 st1 hv2 (k2.trans hs) (by rw [k1]; exact hn)
          (by rw [k1]; exact hm) h
        simpa [Item.declares] using this
    | node name c md =>
      obtain ⟨b, e, q, hl, hqs0, hqp, hqn, hqc, _⟩ := loop_item_node buffer name c md hv1 st
        ((items.flatMap Item.events).map Event.token)
      rw [hl] at h
      have hqs : q.Subgraph = subgraph := hqs0.trans hs
      have hname : q.createProcessName = (BaseFbp.empty subgraph).createProcessName :=
        createProcessName_congr _ _ (by rw [hqs]; rfl)
      have hcs : q.createNode.Subgraph = subgraph := by
        obtain ⟨m1, ps, e1⟩ := createNode_frame q
        rw [e1]; exact hqs
      obtain ⟨a1, a2⟩ := createNode_appends q
      by_cases hc : q.nodeComponentName ≠ [] ∧
          ∀ ps ∈ q.Processes, ps.Name ≠ q.createProcessName q.nodeProcessName
      · obtain ⟨process, e1, e2, _⟩ := a1 hc
        rw [hqn, hname] at e2
        have hnew : (BaseFbp.empty subgraph).createProcessName (name.text buffer) ∉
            st.p.Processes.map Process.Name := by
          intro hx
          obtain ⟨ps, hps, hpn⟩ := List.mem_map.1 hx
          exact hc.2 ps (by rw [hqp]; exact hps) (by rw [hpn, hqn, hname])
        have := ih (seen ++ [name.text buffer]) ⟨b, e, q.createNode⟩ st1 hv2 hcs
          (by
            show (q.createNode.Processes.map Process.Name).Nodup
            rw [e1, hqp, List.map_append, List.nodup_append]
            refine ⟨hn, by simp, ?_⟩
            intro a ha hb
            simp only [List.map_cons, List.map_nil, List.mem_singleton] at hb
            rw [hb, e2] at ha
            exact hnew ha)
          (by
            intro x
            show x ∈ q.createNode.Processes.map Process.Name ↔ _
            rw [e1, hqp, List.map_append, List.mem_append, List.map_append, List.mem_append, hm x]
            simp [e2])
          h
        have hd : Item.declares buffer (Item.node name c md) = some (name.text buffer) := by
          simp only [Item.declares]
          rw [hqc] at hc
          simp [hc.1]
        simpa [List.filterMap_cons, hd, List.append_assoc] using this
      · have e1 := a2 hc
        by_cases hce : c.text buffer = []
        · have := ih seen ⟨b, e, q.createNode⟩ st1 hv2 hcs
            (by show (q.createNode.Processes.map Process.Name).Nodup; rw [e1, hqp]; exact hn)
            (by
              intro x
              show x ∈ q.createNode.Processes.map Process.Name ↔ _
              rw [e1, hqp]; exact hm x)
            h
          have hd : Item.declares buffer (Item.node name c md) = none := by
            simp [Item.declares, hce]
          simpa [List.filterMap_cons, hd] using this
        · have hex : (BaseFbp.empty subgraph).createProcessName (name.text buffer) ∈
              st.p.Processes.map Process.Name := by
            by_contra hx
            apply hc
            refine ⟨by rw [hqc]; exact hce, ?_⟩
            intro ps hps hpn
            apply hx
            rw [hqn, hname] at hpn
            rw [← hpn]
            exact List.mem_map.2 ⟨ps, by rw [← hqp]; exact hps, rfl⟩
          have := ih (seen ++ [name.text buffer]) ⟨b, e, q.createNode⟩ st1 hv2 hcs
            (by show (q.createNode.Processes.map Process.Name).Nodup; rw [e1, hqp]; exact hn)
            (by
              intro x
              show x ∈ q.createNode.Processes.map Process.Name ↔ _
              rw [e1, hqp, List.map_append, List.mem_append, hm x]
              constructor
              · intro hx; exact Or.inl hx
              · intro hx
                rcases hx with hx | hx
                · exact hx
                · simp only [List.map_cons, List.map_nil, List.mem_singleton] at hx
                  rw [hx]
                  exact (hm _).1 hex)
            h
          have hd : Item.declares buffer (Item.node name c md) = some (name.text buffer) := by
            simp [Item.declares, hce]
          simpa [List.filterMap_cons, hd, List.append_assoc] using this

theorem createProcessName_injective (p : BaseFbp) : Function.Injective p.createProcessName := by
  intro a b h
  unfold BaseFbp.createProcessName at h
  split at h
  · exact List.append_cancel_left h
  · exact h

theorem length_eq_dedup_length (names declared : List GoString) (f : GoString → GoString)
    (hf : Function.Injective f) (hn : names.Nodup)
    (hm : ∀ x, x ∈ names ↔ x ∈ declared.map f) : names.length = declared.dedup.length := by
  have h1 : names.Perm (declared.map f).dedup :=
    (List.perm_ext_iff_of_nodup hn (List.nodup_dedup _)).2
      (fun x => by rw [List.mem_dedup]; exact hm x)
  rw [h1.length_eq, List.dedup_map_of_injective hf, List.length_map]

/-- C20: the replay of a node written with empty parentheses (`Name()`: the
name and Action8, the empty text and Action10, Action9) returns and leaves
`Processes` as it was, from every builder state. Hence, when the events of a
log are those of nodes written with parentheses and of events outside any
node, the replay from the empty builder leaves one Process for each distinct
name declared with a non-empty component: the names are without duplicate,
they are exactly the declared names (qualified by the subgraph), and their
number is the number of distinct declared names. -/
theorem empty_parentheses (subgraph buffer : GoString) (tokens : List token32)
    (items : List Item) (st : ExecuteState)
    (he : events tokens = items.flatMap Item.events)
    (hv : ∀ it ∈ items, it.valid buffer = true)
    (h : Execute.loop buffer ⟨0, 0, BaseFbp.empty subgraph⟩ tokens = .ok st) :
    (∀ (st0 : ExecuteState) (name c : Span), name.valid buffer = true →
      c.valid buffer = true → c.text buffer = [] →
      ∃ st1, Execute.loop buffer st0 ((Item.node name c none).events.map Event.token) = .ok st1 ∧
        st1.p.Processes = st0.p.Processes ∧ st1.p.Connections = st0.p.Connections) ∧
    (st.p.Processes.map Process.Name).Nodup ∧
    (∀ x, x ∈ st.p.Processes.map Process.Name ↔
      x ∈ (items.filterMap (Item.declares buffer)).map
        (BaseFbp.empty subgraph).createProcessName) ∧
    st.p.Processes.length = (items.filterMap (Item.declares buffer)).dedup.length := by
  refine ⟨?_, ?_⟩
  · intro st0 name c hn hc hce
    have hv0 : (Item.node name c none).valid buffer = true := by
      simp [Item.valid, NodeText.valid, hn, hc]
    obtain ⟨b, e, q, hl, _, hqp, _, hqc, hqk⟩ := loop_item_node buffer name c none hv0 st0 []
    rw [List.append_nil] at hl
    refine ⟨⟨b, e, q.createNode⟩, by rw [hl]; rfl, ?_, ?_⟩
    · show q.createNode.Processes = _
      rw [createNode_no_component q (by rw [hqc, hce]), hqp]
    · show q.createNode.Connections = _
      rw [createNode_no_component q (by rw [hqc, hce]), hqk]
  · rw [loop_events, he] at h
    have := loop_items subgraph buffer items [] ⟨0, 0, BaseFbp.empty subgraph⟩ st hv rfl
      (by simp [BaseFbp.empty]) (by simp [BaseFbp.empty]) h
    simp only [List.nil_append] at this
    refine ⟨this.1, this.2, ?_⟩
    have hl := length_eq_dedup_length _ _ _
      (createProcessName_injective (BaseFbp.empty subgraph)) this.1 this.2
    simpa using hl

set_option maxRecDepth 1000000 in
set_option maxHeartbeats 4000000 in
/-- What the witness of C20 evaluates on the graphDemo text. -/
theorem demo_facts :
    ((graphOf graphDemo []).map (fun r => (r.1, r.2.1.map Process.Name, r.2.2.length)) =
      some (true, [str "Read", str "Split", str "Count", str "Display"], 5) ∧
    (itemsOf (events (parsedTokens graphDemo))).filterMap (Item.declares graphDemo) =
      [str "Read", str "Split", str "Count", str "Display"]) ∧
    (events (parsedTokens graphDemo) =
      (itemsOf (events (parsedTokens graphDemo))).flatMap Item.events ∧
    (∀ it ∈ itemsOf (events (parsedTokens graphDemo)), it.valid graphDemo = true)) ∧
    (Execute.loop graphDemo ⟨0, 0, BaseFbp.empty []⟩
      (parsedTokens graphDemo)).toOption.isSome = true := by
  decide!

/-- C20, witness: the graphDemo text is accepted and yields the 4 Processes
Read, Split, Count, Display and 5 Connections; the events of its log are those
of nodes written with parentheses and of events outside any node, the names
declared with a component are those four, each once, and the replay leaves as
many Processes. -/
theorem empty_parentheses_demo :
    (graphOf graphDemo []).map (fun r => (r.1, r.2.1.map Process.Name, r.2.2.length)) =
      some (true, [str "Read", str "Split", str "Count", str "Display"], 5) ∧
    (itemsOf (events (parsedTokens graphDemo))).filterMap (Item.declares graphDemo) =
      [str "Read", str "Split", str "Count", str "Display"] ∧
    ∃ st : ExecuteState,
      Execute.loop graphDemo ⟨0, 0, BaseFbp.empty []⟩ (parsedTokens graphDemo) = .ok st ∧
      st.p.Processes.length =
        ((itemsOf (events (parsedTokens graphDemo))).filterMap
          (Item.declares graphDemo)).dedup.length := by
  obtain ⟨⟨h1, h2⟩, ⟨h3, h4⟩, h5⟩ := demo_facts
  refine ⟨h1, h2, ?_⟩
  generalize hl : Execute.loop graphDemo ⟨0, 0, BaseFbp.empty []⟩ (parsedTokens graphDemo) = res
  rw [hl] at h5
  cases res with
  | error f => cases h5
  | ok st =>
    exact ⟨st, rfl, (empty_parentheses [] graphDemo (parsedTokens graphDemo)
      (itemsOf (events (parsedTokens graphDemo))) st h3 h4 hl).2.2.2⟩

/-! ## `Order`: the groups -/

theorem Order.group_length {α : Type} (ops : TokenOps α) (d : Nat) :
    ∀ (rest : List α) (i j : Nat),
      (Order.group ops d i rest).length = (Order.group ops d j rest).length := by
  intro rest
  induction rest with
  | nil => intro i j; rfl
  | cons token rest ih =>
    intro i j
    simp only [Order.group]
    split
    · simp only [List.length_cons, ih (i + 1) (j + 1)]
    · exact ih (i + 1) (j + 1)

theorem Order.group_length_le {α : Type} (ops : TokenOps α) (d : Nat) :
    ∀ (rest : List α) (i : Nat), (Order.group ops d i rest).length ≤ rest.length := by
  intro rest
  induction rest with
  | nil => intro i; simp [Order.group]
  | cons token rest ih =>
    intro i
    simp only [Order.group]
    split
    · simp only [List.length_cons]; have := ih (i + 1); omega
    · simp only [List.length_cons]; have := ih (i + 1); omega

theorem Order.group_nil_of_levels {α : Type} (ops : TokenOps α) (d : Nat) :
    ∀ (rest : List α) (i : Nat), (∀ t ∈ rest, 0 ≤ ops.next t) →
      Order.levels ops rest ≤ d → Order.group ops d i rest = [] := by
  intro rest
  induction rest with
  | nil => intro i _ _; rfl
  | cons token rest ih =>
    intro i h0 hl
    simp only [Order.levels] at hl
    have h1 := h0 token (List.mem_cons_self _ _)
    have hne : ops.next token ≠ d := by omega
    simp only [Order.group, hne, if_false]
    exact ih (i + 1) (fun t ht => h0 t (List.mem_cons_of_mem _ ht)) (by omega)

theorem Order.levels_pos {α : Type} (ops : TokenOps α) (rest : List α) :
    1 ≤ Order.levels ops rest := by
  cases rest with
  | nil => simp [Order.levels]
  | cons token rest => simp only [Order.levels]; omega

theorem getD_append_replicate_zero (depths : List Int) (k d : Nat) :
    (depths ++ List.replicate k 0).getD d 0 = depths.getD d 0 := by
  simp only [List.getD_eq_getElem?_getD]
  by_cases h : d < depths.length
  · rw [List.getElem?_append_left h]
  · have h1 : depths.length ≤ d := by omega
    rw [List.getElem?_append_right h1, List.getElem?_eq_none h1]
    simp only [List.getElem?_replicate]
    split <;> rfl

theorem getD_set_int (depths : List Int) (k d : Nat) (v : Int) (hk : k < depths.length) :
    (depths.set k v).getD d 0 = if d = k then v else depths.getD d 0 := by
  simp only [List.getD_eq_getElem?_getD, List.getElem?_set]
  by_cases h : k = d
  · subst h; simp [hk]
  · have h2 : ¬ d = k := fun e => h e.symm
    simp [h, h2]

/-- The first loop of `Order`: the counters count the records of each depth. -/
theorem Order.count_spec {α : Type} (ops : TokenOps α) (N : Nat)
    (hw : ∀ n : Nat, n ≤ N → ops.wrap n = n) :
    ∀ (slots : List α) (depths : List Int) (c : Nat → Nat),
      1 ≤ depths.length → depths.length ≤ 32767 →
      (∀ d, depths.getD d 0 = (c d : Int)) →
      (∀ t ∈ Order.kept ops slots, 0 ≤ ops.next t ∧ ops.next t ≤ 32766) →
      (∀ d, c d + (Order.group ops d 0 (Order.kept ops slots)).length ≤ N) →
      ∃ depths1, Order.count ops depths slots = .ok (depths1, Order.kept ops slots) ∧
        depths1.length = max depths.length (Order.levels ops (Order.kept ops slots)) ∧
        ∀ d, depths1.getD d 0 =
          ((c d + (Order.group ops d 0 (Order.kept ops slots)).length : Nat) : Int) := by
  intro slots
  induction slots with
  | nil =>
    intro depths c h1 _ hc _ _
    refine ⟨depths, rfl, ?_, ?_⟩
    · simp [Order.kept, Order.levels]; omega
    · intro d
      simp only [Order.kept, List.takeWhile_nil, Order.group, List.length_nil, Nat.add_zero]
      exact hc d
  | cons token rest ih =>
    intro depths c h1 h2 hc hr hN
    by_cases hu : ops.rule token = .ruleUnknown
    · have hk : Order.kept ops (token :: rest) = [] := by simp [Order.kept, hu]
      rw [hk]
      refine ⟨depths, by simp [Order.count, hu], ?_, ?_⟩
      · simp [Order.levels]; omega
      · intro d
        simp only [Order.group, List.length_nil, Nat.add_zero]
        exact hc d
    · have hk : Order.kept ops (token :: rest) = token :: Order.kept ops rest := by
        simp [Order.kept, hu]
      rw [hk] at hr hN ⊢
      obtain ⟨hn0, hn1⟩ := hr token (List.mem_cons_self _ _)
      obtain ⟨n, hn⟩ : ∃ n : Nat, ops.next token = (n : Int) := ⟨(ops.next token).toNat, by omega⟩
      have hnN : n ≤ 32766 := by omega
      -- extend
      obtain ⟨depths1, he, hl1, hg1⟩ : ∃ depths1, Order.extend depths (ops.next token) = .ok depths1 ∧
          depths1.length = max depths.length (n + 1) ∧ ∀ d, depths1.getD d 0 = (c d : Int) := by
        unfold Order.extend
        by_cases hge : ops.next token ≥ depths.length
        · have : ops.next token + 1 ≤ 32767 := by omega
          refine ⟨depths ++ List.replicate ((ops.next token).toNat + 1 - depths.length) 0,
            by simp only [hge, this, if_true], ?_, ?_⟩
          · simp only [List.length_append, List.length_replicate, hn, Int.toNat_ofNat]; omega
          · intro d; rw [getD_append_replicate_zero]; exact hc d
        · exact ⟨depths, by simp only [hge, if_false], by omega, hc⟩
      -- bump
      have hlt : n < depths1.length := by omega
      have hcn : c n + 1 ≤ N := by
        have := hN n
        simp only [Order.group, hn, if_true, List.length_cons] at this
        omega
      obtain ⟨depths2, hb, hl2, hg2⟩ : ∃ depths2,
          Order.bump ops.wrap depths1 (ops.next token) = .ok depths2 ∧
          depths2.length = depths1.length ∧
          ∀ d, depths2.getD d 0 = ((Function.update c n (c n + 1) d : Nat) : Int) := by
        unfold Order.bump
        have hcond : 0 ≤ ops.next token ∧ ops.next token < depths1.length := by omega
        refine ⟨depths1.set (ops.next token).toNat
            (ops.wrap (depths1.getD (ops.next token).toNat 0 + 1)),
          by simp only [hcond, and_self, if_true], by simp, ?_⟩
        intro d
        simp only [hn, Int.toNat_ofNat]
        rw [getD_set_int _ _ _ _ hlt, hg1 n]
        have hwr : ops.wrap ((c n : Int) + 1) = ((c n + 1 : Nat) : Int) := by
          have := hw (c n + 1) hcn
          simpa using this
        by_cases hd : d = n
        · subst hd; simp [hwr]
        · rw [if_neg hd, Function.update_noteq hd]; exact hg1 d
      have hgl : ∀ d, (Order.group ops d (0 + 1) (Order.kept ops rest)).length =
          (Order.group ops d 0 (Order.kept ops rest)).length :=
        fun d => Order.group_length ops d _ _ _
      obtain ⟨depths3, h3, hl3, hg3⟩ := ih depths2 (Function.update c n (c n + 1))
        (by omega) (by omega) hg2 (fun t ht => hr t (List.mem_cons_of_mem _ ht))
        (by
          intro d
          have := hN d
          simp only [Order.group] at this
          by_cases hd : d = n
          · subst hd
            simp only [hn, if_true, List.length_cons, hgl] at this
            simp only [Function.update_same]
            omega
          · have hne : ¬ ops.next token = (d : Int) := by omega
            simp only [hne, if_false, hgl] at this
            rw [Function.update_noteq hd]
            exact this)
      refine ⟨depths3, by simp [Order.count, hu, he, hb, h3], ?_, ?_⟩
      · rw [hl3, hl2, hl1]
        simp only [Order.levels, hn, Int.toNat_ofNat]
        omega
      · intro d
        rw [hg3 d]
        simp only [Order.group]
        by_cases hd : d = n
        · subst hd
          simp only [hn, if_true, List.length_cons, Function.update_same, hgl]
          push_cast
          omega
        · have hne : ¬ ops.next token = (d : Int) := by omega
          simp only [hne, if_false, Function.update_noteq hd, hgl]

theorem getD_set_eq {β : Type} (l : List β) (k d : Nat) (v dflt : β) (hk : k < l.length) :
    (l.set k v).getD d dflt = if d = k then v else l.getD d dflt := by
  simp only [List.getD_eq_getElem?_getD, List.getElem?_set]
  by_cases h : k = d
  · subst h; simp [hk]
  · have h2 : ¬ d = k := fun e => h e.symm
    simp [h, h2]

theorem set_append_replicate {β : Type} (pre : List β) (m : Nat) (z x : β) :
    (pre ++ List.replicate (m + 1) z).set pre.length x = pre ++ x :: List.replicate m z := by
  induction pre with
  | nil => simp [List.replicate_succ]
  | cons a pre ih => simp [ih]

/-- The second loop of `Order`: each group is cut with one slot more than its
counter. -/
theorem Order.carve_spec {α : Type} (ops : TokenOps α) :
    ∀ (depths : List Int) (pool : Nat),
      (∀ x ∈ depths, 0 ≤ x ∧ ops.wrap (x + 1) = x + 1) →
      (depths.map (fun x => (x + 1).toNat)).sum ≤ pool →
      Order.carve ops depths pool =
        .ok (depths.map (fun x => List.replicate (x + 1).toNat ops.zero)) := by
  intro depths
  induction depths with
  | nil => intro pool _ _; rfl
  | cons x depths ih =>
    intro pool h hs
    obtain ⟨h0, hwx⟩ := h x (List.mem_cons_self _ _)
    simp only [List.map_cons, List.sum_cons] at hs
    have hc : 0 ≤ x + 1 ∧ x + 1 ≤ (pool : Int) := by omega
    simp only [Order.carve, hwx, List.map_cons]
    rw [ih (pool - (x + 1).toNat) (fun y hy => h y (List.mem_cons_of_mem _ hy)) (by omega),
      if_pos hc]

/-- The third loop of `Order`: each record is put after the records of its
depth placed before it, with its index in place of its depth. -/
theorem Order.fill_spec {α : Type} (ops : TokenOps α) (L N : Nat)
    (hw : ∀ n : Nat, n ≤ N → ops.wrap n = n) :
    ∀ (rest : List α) (ordered : List (List α)) (depths : List Int) (i : Nat)
      (pre : Nat → List α),
      ordered.length = L → depths.length = L →
      (∀ t ∈ rest, 0 ≤ ops.next t ∧ ops.next t < L) →
      (∀ d, d < L → ordered.getD d [] =
        pre d ++ List.replicate ((Order.group ops d i rest).length + 1) ops.zero) →
      (∀ d, d < L → depths.getD d 0 = ((pre d).length : Int)) →
      (∀ d, (pre d).length + (Order.group ops d i rest).length ≤ N) →
      i + rest.length ≤ N →
      ∃ ordered1, Order.fill ops ordered depths i rest = .ok ordered1 ∧ ordered1.length = L ∧
        ∀ d, d < L → ordered1.getD d [] = pre d ++ Order.group ops d i rest ++ [ops.zero] := by
  intro rest
  induction rest with
  | nil =>
    intro ordered depths i pre hl1 _ _ ho _ _ _
    refine ⟨ordered, rfl, hl1, fun d hd => ?_⟩
    rw [ho d hd]
    simp [Order.group]
  | cons token rest ih =>
    intro ordered depths i pre hl1 hl2 hr ho hd hN hi
    obtain ⟨hn0, hn1⟩ := hr token (List.mem_cons_self _ _)
    obtain ⟨n, hn⟩ : ∃ n : Nat, ops.next token = (n : Int) := ⟨(ops.next token).toNat, by omega⟩
    have hnL : n < L := by omega
    have hgn : Order.group ops n i (token :: rest) =
        ops.setNext token i :: Order.group ops n (i + 1) rest := by
      simp only [Order.group, hn, if_true]
    have hon := ho n hnL
    rw [hgn] at hon
    simp only [List.length_cons] at hon
    have hdn := hd n hnL
    have hNn := hN n
    rw [hgn] at hNn
    simp only [List.length_cons] at hNn
    have hiN : i ≤ N := by
      simp only [List.length_cons] at hi
      omega
    have hwi : ops.wrap (i : Int) = (i : Int) := hw i hiN
    have hcond : 0 ≤ ops.next token ∧ ops.next token < ordered.length ∧
        ops.next token < depths.length ∧
        0 ≤ depths.getD (ops.next token).toNat 0 ∧
        depths.getD (ops.next token).toNat 0 <
          ((ordered.getD (ops.next token).toNat []).length : Int) := by
      simp only [hn, Int.toNat_ofNat, hdn, hon, List.length_append, List.length_replicate]
      omega
    have hb : Order.bump ops.wrap depths (ops.next token) =
        .ok (depths.set n (((pre n).length + 1 : Nat) : Int)) := by
      unfold Order.bump
      have hc2 : 0 ≤ ops.next token ∧ ops.next token < depths.length := ⟨hcond.1, hcond.2.2.1⟩
      rw [if_pos hc2]
      simp only [hn, Int.toNat_ofNat, hdn]
      have := hw ((pre n).length + 1) (by omega)
      rw [show ((pre n).length : Int) + 1 = (((pre n).length + 1 : Nat) : Int) by push_cast; rfl,
        this]
    obtain ⟨ordered1, h1, h2, h3⟩ := ih
      (ordered.set n (pre n ++ ops.setNext token i ::
        List.replicate ((Order.group ops n (i + 1) rest).length + 1) ops.zero))
      (depths.set n (((pre n).length + 1 : Nat) : Int)) (i + 1)
      (Function.update pre n (pre n ++ [ops.setNext token i]))
      (by simp [hl1]) (by simp [hl2]) (fun t ht => hr t (List.mem_cons_of_mem _ ht))
      (by
        intro d hdL
        rw [getD_set_eq _ _ _ _ _ (by omega)]
        by_cases hdn1 : d = n
        · subst hdn1
          simp only [if_true, Function.update_same, List.append_assoc, List.singleton_append]
        · rw [if_neg hdn1, Function.update_noteq hdn1, ho d hdL]
          have hne : ¬ ops.next token = (d : Int) := by omega
          simp only [Order.group, hne, if_false])
      (by
        intro d hdL
        rw [getD_set_eq _ _ _ _ _ (by omega)]
        by_cases hdn1 : d = n
        · subst hdn1
          simp only [if_true, Function.update_same, List.length_append, List.length_singleton]
        · rw [if_neg hdn1, Function.update_noteq hdn1, hd d hdL])
      (by
        intro d
        by_cases hdn1 : d = n
        · subst hdn1
          simp only [Function.update_same, List.length_append, List.length_singleton]
          omega
        · rw [Function.update_noteq hdn1]
          have := hN d
          have hne : ¬ ops.next token = (d : Int) := by omega
          simp only [Order.group, hne, if_false] at this
          exact this)
      (by simp only [List.length_cons] at hi; omega)
    refine ⟨ordered1, ?_, h2, ?_⟩
    · simp only [Order.fill, hcond, and_self, if_true, hb]
      simp only [hn, Int.toNat_ofNat, hdn, hon, hwi]
      rw [set_append_replicate]
      exact h1
    · intro d hdL
      rw [h3 d hdL]
      by_cases hdn1 : d = n
      · subst hdn1
        rw [hgn]
        simp
      · rw [Function.update_noteq hdn1]
        have hne : ¬ ops.next token = (d : Int) := by omega
        simp only [Order.group, hne, if_false]

theorem list_ext_getD {β : Type} (l1 l2 : List β) (dflt : β) (hl : l1.length = l2.length)
    (h : ∀ d, d < l1.length → l1.getD d dflt = l2.getD d dflt) : l1 = l2 := by
  apply List.ext_getElem hl
  intro d h1 h2
  have := h d h1
  simp only [List.getD_eq_getElem?_getD, List.getElem?_eq_getElem h1,
    List.getElem?_eq_getElem h2, Option.getD_some] at this
  exact this

theorem sum_indicator_le_one (n : Int) (D : Nat) :
    ((List.range D).map (fun d : Nat => if n = (d : Int) then 1 else 0)).sum ≤ 1 := by
  have h : ∀ D : Nat, ((List.range D).map (fun d : Nat => if n = (d : Int) then 1 else 0)).sum =
      if 0 ≤ n ∧ n < D then 1 else 0 := by
    intro D
    induction D with
    | zero =>
      simp only [List.range_zero, List.map_nil, List.sum_nil]
      split
      · omega
      · rfl
    | succ D ih =>
      rw [List.range_succ, List.map_append, List.sum_append, ih]
      simp only [List.map_cons, List.map_nil, List.sum_cons, List.sum_nil]
      push_cast
      split_ifs <;> omega
  rw [h D]
  split <;> omega

theorem Order.group_sum_le {α : Type} (ops : TokenOps α) (D : Nat) :
    ∀ (rest : List α) (i : Nat),
      ((List.range D).map (fun d => (Order.group ops d i rest).length)).sum ≤ rest.length := by
  intro rest
  induction rest with
  | nil => intro i; simp [Order.group]
  | cons token rest ih =>
    intro i
    have h1 : (fun d : Nat => (Order.group ops d i (token :: rest)).length) =
        fun d : Nat => (if ops.next token = (d : Int) then 1 else 0) +
          (Order.group ops d (i + 1) rest).length := by
      funext d
      simp only [Order.group]
      split
      · simp only [List.length_cons]; omega
      · simp
    rw [h1, List.sum_map_add]
    have := sum_indicator_le_one (ops.next token) D
    have := ih (i + 1)
    simp only [List.length_cons]
    omega

theorem Order.levels_ge {α : Type} (ops : TokenOps α) :
    ∀ (rest : List α) (t : α), t ∈ rest → (ops.next t).toNat + 1 ≤ Order.levels ops rest := by
  intro rest
  induction rest with
  | nil => intro t ht; cases ht
  | cons token rest ih =>
    intro t ht
    simp only [Order.levels]
    rcases List.mem_cons.1 ht with h | h
    · subst h; omega
    · have := ih t h; omega

/-- What `Order` returns for a store whose depths are in range: the records
it keeps, and for each depth below the number of depths the group of the
records of that depth followed by a zero record, then one group more that
holds a zero record only. -/
theorem Order.run_spec {α : Type} (ops : TokenOps α) (slots : List α)
    (h : Order.inRange ops slots) :
    Order.run ops slots = .ok (Order.kept ops slots,
      (List.range (Order.levels ops (Order.kept ops slots))).map
        (fun d => Order.group ops d 0 (Order.kept ops slots) ++ [ops.zero]) ++ [[ops.zero]]) := by
  obtain ⟨hr, hw⟩ := h
  obtain ⟨kept, hk⟩ : ∃ kept, kept = Order.kept ops slots := ⟨_, rfl⟩
  obtain ⟨D, hD⟩ : ∃ D, D = Order.levels ops kept := ⟨_, rfl⟩
  rw [← hk] at hr hw ⊢
  rw [← hD]
  have hD1 : 1 ≤ D := by rw [hD]; exact Order.levels_pos ops kept
  have hwI : ∀ n : Nat, n ≤ kept.length + 1 → ops.wrap (n : Int) = (n : Int) := hw
  -- first loop
  obtain ⟨depths1, hc, hl, hg⟩ := Order.count_spec ops (kept.length + 1) hwI slots [0]
    (fun _ => 0) (by simp) (by simp) (by intro d; cases d <;> simp)
    (by rw [← hk]; exact hr)
    (by
      intro d
      rw [← hk]
      have := Order.group_length_le ops d kept 0
      show 0 + _ ≤ _
      omega)
  rw [← hk] at hc hl hg
  rw [← hD] at hl
  have hl1 : depths1.length = D := by
    rw [hl]; simp only [List.length_singleton]; omega
  have hd1 : depths1 = (List.range D).map (fun d => ((Order.group ops d 0 kept).length : Int)) := by
    apply list_ext_getD _ _ 0 (by simp [hl1])
    intro d hd
    rw [hg d]
    rw [hl1] at hd
    simp [List.getD_eq_getElem?_getD, List.getElem?_range hd]
  -- second loop
  have hcarve : Order.carve ops (depths1 ++ [0]) (kept.length + (depths1 ++ [0]).length) =
      .ok ((List.range D).map
        (fun d => List.replicate ((Order.group ops d 0 kept).length + 1) ops.zero) ++
        [[ops.zero]]) := by
    rw [Order.carve_spec ops (depths1 ++ [0]) _ ?_ ?_]
    · rw [hd1]
      simp [List.map_append, Function.comp_def]
    · intro x hx
      rw [hd1] at hx
      simp only [List.mem_append, List.mem_map, List.mem_range, List.mem_singleton] at hx
      rcases hx with ⟨d, _, rfl⟩ | rfl
      · have := Order.group_length_le ops d kept 0
        refine ⟨by omega, ?_⟩
        have := hwI ((Order.group ops d 0 kept).length + 1) (by omega)
        push_cast at this
        exact this
      · exact ⟨le_refl _, by have := hwI 1 (by omega); simpa using this⟩
    · have hs := Order.group_sum_le ops D kept 0
      rw [hd1]
      simp only [List.map_append, List.map_map, List.sum_append, List.length_append,
        List.length_map, List.length_range, List.map_cons, List.map_nil, List.sum_cons,
        List.sum_nil, List.length_singleton, Function.comp_def]
      have h2 : ((List.range D).map
          (fun d => (((Order.group ops d 0 kept).length : Int) + 1).toNat)).sum =
          ((List.range D).map (fun d => (Order.group ops d 0 kept).length)).sum + D := by
        have : (fun d : Nat => (((Order.group ops d 0 kept).length : Int) + 1).toNat) =
            fun d : Nat => (Order.group ops d 0 kept).length + 1 := by
          funext d; omega
        rw [this, List.sum_map_add]
        simp
      rw [h2]
      simp
      omega
  -- third loop
  obtain ⟨ordered1, h1, h2, h3⟩ := Order.fill_spec ops (D + 1) (kept.length + 1) hwI kept
    ((List.range D).map
      (fun d => List.replicate ((Order.group ops d 0 kept).length + 1) ops.zero) ++ [[ops.zero]])
    ((depths1 ++ [0]).map (fun _ => 0)) 0 (fun _ => [])
    (by simp) (by simp [hl1])
    (by
      intro t ht
      have h0 := (hr t ht).1
      have := Order.levels_ge ops kept t ht
      rw [← hD] at this
      omega)
    (by
      intro d hd
      simp only [List.nil_append, List.getD_eq_getElem?_getD]
      by_cases hdD : d < D
      · rw [List.getElem?_append_left (by simpa using hdD)]
        simp [List.getElem?_range hdD]
      · have hdD1 : d = D := by omega
        subst hdD1
        rw [List.getElem?_append_right (by simp)]
        rw [Order.group_nil_of_levels ops d kept 0 (fun t ht => (hr t ht).1) (by omega)]
        simp)
    (by
      intro d hd
      rw [List.map_const']
      simp only [List.getD_eq_getElem?_getD, List.length_nil, Nat.cast_zero,
        List.getElem?_replicate]
      split <;> rfl)
    (by
      intro d
      have := Order.group_length_le ops d kept 0
      simp only [List.length_nil]
      omega)
    (by omega)
  unfold Order.run
  rw [hc]
  simp only [hcarve, h1]
  congr 2
  apply list_ext_getD _ _ [] (by simp [h2])
  intro d hd
  rw [h2] at hd
  rw [h3 d hd]
  simp only [List.nil_append, List.getD_eq_getElem?_getD]
  by_cases hdD : d < D
  · rw [List.getElem?_append_left (by simpa using hdD)]
    simp [List.getElem?_range hdD]
  · have hdD1 : d = D := by omega
    subst hdD1
    rw [List.getElem?_append_right (by simp)]
    rw [Order.group_nil_of_levels ops d kept 0 (fun t ht => (hr t ht).1) (by omega)]
    simp

theorem Error.entry_eq {α : Type} (G : List α) (z : α) (f : α → token32) :
    (if (G ++ [z]).length > 1 then f ((G ++ [z]).getD ((G ++ [z]).length - 2) z)
      else token32.zero) =
      match G.getLast? with
      | some t => f t
      | none => token32.zero := by
  rcases List.eq_nil_or_concat G with h | ⟨G1, a, h⟩
  · subst h; simp
  · subst h
    rw [List.concat_eq_append]
    have e : (G1 ++ [a] ++ [z]).getD ((G1 ++ [a] ++ [z]).length - 2) z = a := by
      simp only [List.getD_eq_getElem?_getD, List.length_append, List.length_singleton,
        List.append_assoc]
      rw [List.getElem?_append_right (by omega)]
      simp
    rw [e]
    simp

/-- What `Error` returns for a store whose depths are in range: a zero record,
then for each depth from the deepest down to 0 the last record of that depth
(the zero record when there is none). -/
theorem Error.run_entries {α : Type} (ops : TokenOps α) (slots : List α)
    (h : Order.inRange ops slots) :
    Error.run ops slots = .ok (token32.zero ::
      (List.range (Order.levels ops (Order.kept ops slots))).map
        (fun i => Order.last ops (Order.levels ops (Order.kept ops slots) - 1 - i)
          (Order.kept ops slots))) := by
  obtain ⟨kept, hk⟩ : ∃ kept, kept = Order.kept ops slots := ⟨_, rfl⟩
  obtain ⟨D, hD⟩ : ∃ D, D = Order.levels ops kept := ⟨_, rfl⟩
  unfold Error.run
  rw [Order.run_spec ops slots h, ← hk, ← hD]
  simp only [List.length_append, List.length_map, List.length_range, List.length_singleton]
  rw [List.range_succ_eq_map, List.map_cons, List.map_map]
  congr 2
  · simp [List.getD_eq_getElem?_getD, List.getElem?_append_right]
  · apply List.map_congr_left
    intro i hi
    have hi1 : i < D := List.mem_range.1 hi
    have hlt : D - 1 - i < D := by omega
    have ho : (List.map (fun d => Order.group ops d 0 kept ++ [ops.zero]) (List.range D) ++
        [[ops.zero]]).getD (D + 1 - 1 - (i + 1)) [] =
        Order.group ops (D - 1 - i) 0 kept ++ [ops.zero] := by
      have e : D + 1 - 1 - (i + 1) = D - 1 - i := by omega
      rw [e]
      simp only [List.getD_eq_getElem?_getD]
      rw [List.getElem?_append_left (by simpa using hlt)]
      simp [List.getElem?_range hlt]
    simp only [Function.comp, Nat.succ_eq_add_one, ho]
    exact Error.entry_eq _ _ _

/-! ## `Error`: the diagnostic records -/

theorem inRange16 (slots : List token16)
    (hr : ∀ t ∈ Order.kept token16.ops slots, 0 ≤ t.next ∧ t.next ≤ 32766)
    (hn : (Order.kept token16.ops slots).length ≤ 32766) : Order.inRange token16.ops slots :=
  ⟨hr, fun n h => int16_small _ (by omega) (by omega)⟩

theorem inRange32 (slots : List token32)
    (hr : ∀ t ∈ Order.kept token32.ops slots, 0 ≤ t.next ∧ t.next ≤ 32766)
    (hn : (Order.kept token32.ops slots).length ≤ 2147483646) :
    Order.inRange token32.ops slots :=
  ⟨hr, fun n h => int32_small _ (by omega) (by omega)⟩

/-- C24 (as the code has it): for a store whose records before the first
unknown one have depths from 0 to 32766 and are few enough for the counters,
`Error()` returns a zero record first, and then one entry for each depth from
the deepest down to depth 0: the last-completed record of that depth, with its
index in the store in place of its depth, or a zero record when the store has
no record of that depth. So it has one entry more than there are depths. -/
theorem Error_entries (t16 : tokens16) (t32 : tokens32)
    (hr16 : ∀ t ∈ Order.kept token16.ops t16.slots, 0 ≤ t.next ∧ t.next ≤ 32766)
    (hn16 : (Order.kept token16.ops t16.slots).length ≤ 32766)
    (hr32 : ∀ t ∈ Order.kept token32.ops t32.slots, 0 ≤ t.next ∧ t.next ≤ 32766)
    (hn32 : (Order.kept token32.ops t32.slots).length ≤ 2147483646) :
    t16.Error = .ok (token32.zero ::
      (List.range (Order.levels token16.ops (Order.kept token16.ops t16.slots))).map
        (fun i => Order.last token16.ops
          (Order.levels token16.ops (Order.kept token16.ops t16.slots) - 1 - i)
          (Order.kept token16.ops t16.slots))) ∧
    t32.Error = .ok (token32.zero ::
      (List.range (Order.levels token32.ops (Order.kept token32.ops t32.slots))).map
        (fun i => Order.last token32.ops
          (Order.levels token32.ops (Order.kept token32.ops t32.slots) - 1 - i)
          (Order.kept token32.ops t32.slots))) :=
  ⟨Error.run_entries token16.ops t16.slots (inRange16 _ hr16 hn16),
   Error.run_entries token32.ops t32.slots (inRange32 _ hr32 hn32)⟩

/-- Witness of `Error_entries`: a compact and a wide store of four slots holding
the records of `_` (depth 1) and of `start` (depth 0). -/
theorem Error_entries_witness :
    (tokens16.mk 4 [⟨.rule_, 0, 1, 1⟩, ⟨.rulestart, 0, 1, 0⟩]).Error =
      .ok [token32.zero, ⟨.rule_, 0, 1, 0⟩, ⟨.rulestart, 0, 1, 1⟩] ∧
    (tokens32.mk 4 [⟨.rule_, 0, 1, 1⟩, ⟨.rulestart, 0, 1, 0⟩]).Error =
      .ok [token32.zero, ⟨.rule_, 0, 1, 0⟩, ⟨.rulestart, 0, 1, 1⟩] := by
  have h := Error_entries (tokens16.mk 4 [⟨.rule_, 0, 1, 1⟩, ⟨.rulestart, 0, 1, 0⟩])
    (tokens32.mk 4 [⟨.rule_, 0, 1, 1⟩, ⟨.rulestart, 0, 1, 0⟩])
    (by decide) (by decide) (by decide) (by decide)
  refine ⟨h.1.trans ?_, h.2.trans ?_⟩ <;> decide

/-- C24, counterexample: on the store holding the records of `_` (depth 1) and
of `start` (depth 0), `Error()` returns three entries for the two depths; the
first is the zero record, which is no record of the store, and the others are
not the records of the store either: their last field is the index of the
record, not its depth. -/
theorem Error_leading_zero :
    (tokens32.mk 2 [⟨.rule_, 0, 1, 1⟩, ⟨.rulestart, 0, 1, 0⟩]).Error =
      .ok [token32.zero, ⟨.rule_, 0, 1, 0⟩, ⟨.rulestart, 0, 1, 1⟩] ∧
    (tokens32.mk 2 [⟨.rule_, 0, 1, 1⟩, ⟨.rulestart, 0, 1, 0⟩]).Tokens =
      [⟨.rule_, 0, 1, 1⟩, ⟨.rulestart, 0, 1, 0⟩] ∧
    token32.zero ∉ (tokens32.mk 2 [⟨.rule_, 0, 1, 1⟩, ⟨.rulestart, 0, 1, 0⟩]).Tokens ∧
    (⟨.rule_, 0, 1, 0⟩ : token32) ∉
      (tokens32.mk 2 [⟨.rule_, 0, 1, 1⟩, ⟨.rulestart, 0, 1, 0⟩]).Tokens := by
  decide

/-! ## `translatePositions` -/

theorem textPositionMap.get_set_pos (m : textPositionMap) (k k1 : Int) (v : textPosition) :
    (m.set k v).get k1 = if k = k1 then some v else m.get k1 := by
  induction m with
  | nil => simp [textPositionMap.set, textPositionMap.get]
  | cons a rest ih =>
    obtain ⟨k0, v0⟩ := a
    by_cases h : k0 = k
    · subst h
      by_cases h1 : k0 = k1 <;> simp [textPositionMap.set, textPositionMap.get, h1]
    · by_cases h1 : k0 = k1
      · subst h1
        simp [textPositionMap.set, textPositionMap.get, h, Ne.symm h]
      · simp [textPositionMap.set, textPositionMap.get, h, h1, ih]

/-- On a string of single-byte characters, `range` gives each byte with its
index. -/
theorem rangeString_ascii :
    ∀ (buffer : GoString) (fuel off : Nat), (∀ b ∈ buffer, b.toNat < 128) →
      buffer.length ≤ fuel →
      rangeString fuel off buffer = (buffer.map UInt8.toNat).enumFrom off := by
  intro buffer
  induction buffer with
  | nil => intro fuel off _ _; cases fuel <;> rfl
  | cons b rest ih =>
    intro fuel off h hf
    cases fuel with
    | zero => simp at hf
    | succ fuel =>
      have hb := h b (List.mem_cons_self _ _)
      have hd : utf8.DecodeRune b rest = (b.toNat, 1) := by
        simp [utf8.DecodeRune, hb]
      simp only [rangeString, hd, Nat.sub_self, List.drop_zero, List.map_cons, List.enumFrom_cons]
      rw [ih fuel (off + 1) (fun x hx => h x (List.mem_cons_of_mem _ hx))
        (by simp only [List.length_cons] at hf; omega)]

/-- The loop `search` on sorted positions within the characters still to be
read: it returns, every pending position is mapped to the line and symbol
reached at its character, and no other key is touched. -/
theorem translatePositions.search_spec :
    ∀ (rs : List Nat) (i : Nat) (pending : List Int) (st : Int × Int) (tr : textPositionMap),
      pending ≠ [] → pending.Sorted (· ≤ ·) →
      (∀ p ∈ pending, (i : Int) ≤ p ∧ p < (i : Int) + rs.length) →
      ∃ m, translatePositions.search (rs.enumFrom i) pending st tr = .ok m ∧
        (∀ p ∈ pending, m.get p = some
          ⟨((rs.take ((p - i).toNat + 1)).foldl translatePositions.step st).1,
           ((rs.take ((p - i).toNat + 1)).foldl translatePositions.step st).2⟩) ∧
        (∀ q, q ∉ pending → m.get q = tr.get q) := by
  intro rs
  induction rs with
  | nil =>
    intro i pending st tr hne _ hp
    cases pending with
    | nil => exact absurd rfl hne
    | cons p ps =>
      have := hp p (List.mem_cons_self _ _)
      simp only [List.length_nil] at this
      omega
  | cons c rs ih =>
    intro i pending st tr hne hs hp
    cases pending with
    | nil => exact absurd rfl hne
    | cons p ps =>
      have hp0 := hp p (List.mem_cons_self _ _)
      have hsp : ∀ q ∈ ps, p ≤ q := (List.sorted_cons.1 hs).1
      have hss : ps.Sorted (· ≤ ·) := (List.sorted_cons.1 hs).2
      simp only [List.enumFrom_cons, translatePositions.search]
      by_cases hip : (i : Int) = p
      · rw [if_pos hip]
        have htw : ∀ q ∈ ps.takeWhile (fun q => decide ((i : Int) = q)), q = p := by
          intro q hq
          have := List.mem_takeWhile_imp hq
          simp only [decide_eq_true_eq] at this
          rw [← this, hip]
        have hsplit : ps = ps.takeWhile (fun q => decide ((i : Int) = q)) ++
            ps.dropWhile (fun q => decide ((i : Int) = q)) :=
          (List.takeWhile_append_dropWhile _ _).symm
        have hval : (List.take ((p - (i : Int)).toNat + 1) (c :: rs)).foldl
            translatePositions.step st = translatePositions.step st c := by
          rw [← hip]; simp
        cases hdw : ps.dropWhile (fun q => decide ((i : Int) = q)) with
        | nil =>
          refine ⟨_, rfl, ?_, ?_⟩
          · intro q hq
            have hqp : q = p := by
              rcases List.mem_cons.1 hq with h | h
              · exact h
              · rw [hsplit, hdw, List.append_nil] at h
                exact htw q h
            subst hqp
            rw [textPositionMap.get_set_pos, if_pos rfl, hval]
          · intro q hq
            have hqp : p ≠ q := fun e => hq (by rw [← e]; exact List.mem_cons_self _ _)
            rw [textPositionMap.get_set_pos, if_neg hqp]
        | cons q qs =>
          have hmem : ∀ x ∈ q :: qs, x ∈ ps := by
            intro x hx
            rw [hsplit, hdw]
            exact List.mem_append_right _ hx
          have hq0 : (i : Int) ≠ q := by
            have := List.head_dropWhile_not (fun q => decide ((i : Int) = q)) ps
              (by rw [hdw]; exact List.cons_ne_nil _ _)
            simp only [hdw, List.head_cons, decide_eq_true_eq] at this
            simpa using this
          have hsq : (q :: qs).Sorted (· ≤ ·) := by
            have hsub : (q :: qs).Sublist ps := by
              rw [← hdw]; exact List.dropWhile_sublist _
            exact hss.sublist hsub
          have hgt : ∀ x ∈ q :: qs, (i : Int) + 1 ≤ x := by
            intro x hx
            have h1 : q ≤ x := by
              rcases List.mem_cons.1 hx with h | h
              · rw [h]
              · exact (List.sorted_cons.1 hsq).1 x h
            have h2 := hsp q (hmem q (List.mem_cons_self _ _))
            omega
          obtain ⟨m, hm, hm1, hm2⟩ := ih (i + 1) (q :: qs) (translatePositions.step st c)
            (tr.set p ⟨(translatePositions.step st c).1, (translatePositions.step st c).2⟩)
            (List.cons_ne_nil _ _) hsq
            (by
              intro x hx
              have := hp x (List.mem_cons_of_mem _ (hmem x hx))
              have := hgt x hx
              simp only [List.length_cons] at *
              push_cast at *
              omega)
          refine ⟨m, hm, ?_, ?_⟩
          · intro x hx
            by_cases hxq : x ∈ q :: qs
            · rw [hm1 x hxq]
              have := hgt x hxq
              have e : (x - (i : Int)).toNat + 1 =
                  ((x - ((i + 1 : Nat) : Int)).toNat + 1) + 1 := by
                push_cast; omega
              rw [e, List.take_succ_cons, List.foldl_cons]
            · have hxp : x = p := by
                rcases List.mem_cons.1 hx with h | h
                · exact h
                · rw [hsplit, hdw] at h
                  rcases List.mem_append.1 h with h1 | h1
                  · exact htw x h1
                  · exact absurd h1 hxq
              subst hxp
              rw [hm2 x hxq, textPositionMap.get_set_pos, if_pos rfl, hval]
          · intro x hx
            have hxq : x ∉ q :: qs := fun h => hx (List.mem_cons_of_mem _ (hmem x h))
            have hxp : p ≠ x := fun e => hx (by rw [← e]; exact List.mem_cons_self _ _)
            rw [hm2 x hxq, textPositionMap.get_set_pos, if_neg hxp]
      · rw [if_neg hip]
        obtain ⟨m, hm, hm1, hm2⟩ := ih (i + 1) (p :: ps) (translatePositions.step st c) tr
          (List.cons_ne_nil _ _) hs
          (by
            intro x hx
            have h1 := hp x hx
            have h2 : p ≤ x := by
              rcases List.mem_cons.1 hx with h | h
              · rw [h]
              · exact hsp x h
            simp only [List.length_cons] at *
            push_cast at *
            omega)
        refine ⟨m, hm, ?_, hm2⟩
        intro x hx
        rw [hm1 x hx]
        have h1 := hp x hx
        have h2 : p ≤ x := by
          rcases List.mem_cons.1 hx with h | h
          · rw [h]
          · exact hsp x h
        have e : (x - (i : Int)).toNat + 1 = ((x - ((i + 1 : Nat) : Int)).toNat + 1) + 1 := by
          push_cast; omega
        rw [e, List.take_succ_cons, List.foldl_cons]

/-- The line and symbol reached after a list of characters: one more than the
number of `'\n'` read, and the number of characters read since the last one. -/
theorem translatePositions.scan (cs : List Nat) :
    cs.foldl translatePositions.step (1, 0) =
      (1 + ((cs.count '\n'.toNat : Nat) : Int),
       (((cs.reverse.takeWhile (fun c => decide (c ≠ '\n'.toNat))).length : Nat) : Int)) := by
  have hnl : '\n'.toNat = 10 := rfl
  simp only [hnl]
  induction cs using List.reverseRecOn with
  | nil => rfl
  | append_singleton cs c ih =>
    rw [List.foldl_append, ih]
    simp only [List.foldl_cons, List.foldl_nil, translatePositions.step, List.reverse_append,
      List.reverse_cons, List.reverse_nil, List.nil_append, List.singleton_append,
      List.count_append, hnl]
    by_cases hc : c = 10
    · subst hc
      simp
      omega
    · simp only [hc, if_false]
      have h1 : List.count 10 [c] = 0 := by
        simp [List.count_cons, List.count_nil, Ne.symm hc]
      simp [h1, List.takeWhile_cons, hc]

/-- C25 (as the code has it): for a buffer of single-byte characters and a
non-empty list of positions, each an offset within the buffer,
`translatePositions` returns a map that holds every listed position
(duplicates included). A position whose character is not `'\n'` is mapped to
the 1-based line and column of that character: the line is one more than the
number of `'\n'` before it, the symbol one more than the number of characters
between the preceding `'\n'` (or the start) and it. The position of a `'\n'`
is mapped to the line after it and to symbol 0. -/
theorem translatePositions_spec (buffer : GoString) (positions : List Int)
    (hascii : ∀ b ∈ buffer, b.toNat < 128) (hne : positions ≠ [])
    (hpos : ∀ p ∈ positions, 0 ≤ p ∧ p < buffer.length) :
    ∃ m, translatePositions buffer positions = .ok m ∧
      ∀ p ∈ positions, ∀ b, buffer[p.toNat]? = some b →
        m.get p = some
          (if b.toNat = '\n'.toNat then ⟨lineOf buffer p.toNat + 1, 0⟩
           else ⟨lineOf buffer p.toNat, columnOf buffer p.toNat⟩) := by
  have hperm := List.perm_insertionSort (· ≤ ·) positions
  have hsorted := List.sorted_insertionSort (· ≤ ·) positions
  have hne1 : positions.insertionSort (· ≤ ·) ≠ [] := by
    intro h
    rw [h] at hperm
    exact hne hperm.symm.eq_nil
  obtain ⟨m, hm, hm1, _⟩ := translatePositions.search_spec (buffer.map UInt8.toNat) 0
    (positions.insertionSort (· ≤ ·)) (1, 0) [] hne1 hsorted
    (by
      intro p hp
      have := hpos p (hperm.mem_iff.1 hp)
      simp only [List.length_map, Nat.cast_zero]
      omega)
  refine ⟨m, ?_, ?_⟩
  · unfold translatePositions
    rw [rangeString_ascii buffer _ 0 hascii (le_refl _)]
    exact hm
  · intro p hp b hb
    have hp1 := hpos p hp
    rw [hm1 p (hperm.mem_iff.2 hp), translatePositions.scan]
    have e : (p - ((0 : Nat) : Int)).toNat + 1 = p.toNat + 1 := by simp
    rw [e]
    have hlt : p.toNat < buffer.length := by omega
    have htake : List.take (p.toNat + 1) (buffer.map UInt8.toNat) =
        (buffer.take p.toNat).map UInt8.toNat ++ [b.toNat] := by
      rw [← List.map_take, List.take_succ, hb]
      simp
    rw [htake]
    have hnl : '\n'.toNat = 10 := rfl
    simp only [List.count_append, List.reverse_append, List.reverse_cons, List.reverse_nil,
      List.nil_append, List.singleton_append, lineOf, columnOf, hnl]
    by_cases hc : b.toNat = 10
    · simp only [hc, if_true]
      simp
      omega
    · simp only [hc, if_false]
      have h1 : List.count 10 [b.toNat] = 0 := by
        simp [List.count_cons, List.count_nil, Ne.symm hc]
      simp [h1, List.takeWhile_cons, hc]
      omega

/-- Witness of `translatePositions_spec`: the buffer `ab`, newline, `cd` with
the positions 3, 1, 2, 3. -/
theorem translatePositions_spec_witness :
    translatePositions (str "ab\ncd") [3, 1, 2, 3] =
      .ok [(1, ⟨1, 2⟩), (2, ⟨2, 0⟩), (3, ⟨2, 1⟩)] ∧
    ∃ m, translatePositions (str "ab\ncd") [3, 1, 2, 3] = .ok m ∧
      ∀ p ∈ ([3, 1, 2, 3] : List Int), ∀ b, (str "ab\ncd")[p.toNat]? = some b →
        m.get p = some
          (if b.toNat = '\n'.toNat then ⟨lineOf (str "ab\ncd") p.toNat + 1, 0⟩
           else ⟨lineOf (str "ab\ncd") p.toNat, columnOf (str "ab\ncd") p.toNat⟩) :=
  ⟨by decide, translatePositions_spec (str "ab\ncd") [3, 1, 2, 3] (by decide) (by decide)
    (by decide)⟩

/-- C25, counterexample: the position of a `'\n'` is mapped to the next line
and to symbol 0, not to its own line and column (line 1, column 3 here). -/
theorem translatePositions_newline :
    translatePositions (str "ab\ncd") [2] = .ok [(2, ⟨2, 0⟩)] ∧
    (str "ab\ncd")[2]? = some 10 ∧
    lineOf (str "ab\ncd") 2 = 1 ∧ columnOf (str "ab\ncd") 2 = 3 := by
  decide

/-! ## The last record after a successful `Parse` -/

theorem tokens16.trim_Tokens16 (t : tokens16) (n : Nat) (h : n ≤ t.len) :
    (t.trim n).Tokens = t.Tokens.take n := by
  apply List.ext_getElem?
  intro j
  by_cases hj : j < n
  · rw [List.getElem?_take_of_lt hj, tokens16.Tokens_get16 _ j (by simpa [tokens16.trim] using hj),
      tokens16.Tokens_get16 _ j (by omega)]
    simp [tokens16.trim, List.getD_eq_getElem?_getD, List.getElem?_take_of_lt hj]
  · rw [List.getElem?_take_eq_none (by omega), List.getElem?_eq_none]
    simp [tokens16.Tokens, tokens16.slots_length16, tokens16.trim]
    omega

theorem tokens32.trim_Tokens32 (t : tokens32) (n : Nat) (h : n ≤ t.len) :
    (t.trim n).Tokens = t.Tokens.take n := by
  apply List.ext_getElem?
  intro j
  by_cases hj : j < n
  · rw [List.getElem?_take_of_lt hj, tokens32.Tokens_get32 _ j (by simpa [tokens32.trim] using hj),
      tokens32.Tokens_get32 _ j (by omega)]
    simp [tokens32.trim, List.getD_eq_getElem?_getD, List.getElem?_take_of_lt hj]
  · rw [List.getElem?_take_eq_none (by omega), List.getElem?_eq_none]
    simp [tokens32.Tokens, tokens32.slots_length32, tokens32.trim]
    omega

/-- After `trim`, `Tokens()` yields the records below the length the store is
cut to: the committed records. -/
theorem tokenTree.trim_Tokens (t : tokenTree) (n : Nat) (h : n ≤ t.len) :
    (t.trim n).Tokens = t.Tokens.take n := by
  cases t with
  | compact t => exact tokens16.trim_Tokens16 t n h
  | wide t => exact tokens32.trim_Tokens32 t n h

theorem Init_buffer (p : Fbp) (h : end_symbol ∉ utf8.runes p.Buffer) :
    p.Init.buffer = utf8.runes p.Buffer ++ [end_symbol] := by
  simp only [Fbp.Init]
  split
  · rfl
  · rename_i hc
    simp only [not_or, not_not] at hc
    exact absurd (List.mem_of_getLast?_eq_some hc.2) h

theorem seq_cons_true {c : Code} {cs : List Code} {s e : Engine}
    (h : seq (c :: cs) s = .ok (true, e)) :
    ∃ s1, c s = .ok (true, s1) ∧ seq cs s1 = .ok (true, e) := by
  cases hc : c s with
  | error f => simp [seq, hc] at h
  | ok r =>
    obtain ⟨b, s1⟩ := r
    cases b
    · simp [seq, hc] at h
    · exact ⟨s1, rfl, by simpa [seq, hc] using h⟩

theorem seq_nil_true {s e : Engine} (h : seq [] s = .ok (true, e)) : e = s := by
  simp only [seq] at h
  injection h with h
  injection h with _ h
  exact h.symm

theorem notP_true {c : Code} {s e : Engine} (h : notP c s = .ok (true, e)) :
    ∃ s1, c s = .ok (false, s1) ∧ e = restore s s1 := by
  cases hc : c s with
  | error f => simp [notP, hc] at h
  | ok r =>
    obtain ⟨b, s1⟩ := r
    cases b
    · refine ⟨s1, rfl, ?_⟩
      simp only [notP, hc] at h
      injection h with h
      injection h with _ h
      exact h.symm
    · simp [notP, hc] at h

theorem matchDot_false {buffer : List Nat} {s e : Engine}
    (h : matchDot buffer s = .ok (false, e)) :
    e = s ∧ buffer[s.position]? = some end_symbol := by
  unfold matchDot indexAt at h
  rw [List.get?_eq_getElem?] at h
  cases hx : buffer[s.position]? with
  | none => simp [hx] at h
  | some x =>
    simp only [hx] at h
    by_cases hne : x = end_symbol
    · simp only [hne, ne_eq, not_true_eq_false, if_false] at h
      injection h with h
      injection h with _ h
      exact ⟨h.symm, by rw [hne]⟩
    · simp [hne] at h

theorem tagged_true {rule : pegRule} {body : Code} {s e : Engine}
    (h : tagged rule body s = .ok (true, e)) :
    ∃ s1, body { s with depth := s.depth + 1 } = .ok (true, s1) ∧
      add rule s.position { s1 with depth := s1.depth - 1 } = .ok (true, e) := by
  cases hc : body { s with depth := s.depth + 1 } with
  | error f => simp [tagged, hc] at h
  | ok r =>
    obtain ⟨b, s1⟩ := r
    cases b
    · simp [tagged, hc] at h
    · exact ⟨s1, rfl, by simpa [tagged, hc] using h⟩

theorem ruleFn_true {body : Code} {s e : Engine} (h : ruleFn body s = .ok (true, e)) :
    body s = .ok (true, e) := by
  cases hc : body s with
  | error f => simp [ruleFn, hc] at h
  | ok r =>
    obtain ⟨b, s1⟩ := r
    cases b
    · simp [ruleFn, hc] at h
    · simpa [ruleFn, hc] using h

/-- What a successful run of a frame `tagged rule body` leaves, when the body
is a fragment that keeps the invariant: the record of the frame is the last
committed one, from the cursor on entry to the cursor on return. -/
theorem tagged_success {buffer : List Nat} {x : Bool} {rule : pegRule} {body : Code}
    (hb : Ok buffer x body) {s e : Engine} (hi : Engine.Inv buffer s)
    (h : tagged rule body s = .ok (true, e)) :
    ∃ s1, body { s with depth := s.depth + 1 } = .ok (true, s1) ∧
      e.position = s1.position ∧ s.position ≤ e.position ∧
      s.tokenIndex < e.tokenIndex ∧ e.tokenIndex = s1.tokenIndex + 1 ∧
      e.tokenIndex ≤ e.tree.len ∧ e.depth = s.depth ∧
      e.tree.isCompact = (s1.tree.isCompact && decide (s1.tokenIndex < s1.tree.len)) ∧
      e.tree.Tokens.take s1.tokenIndex = s1.tree.Tokens.take s1.tokenIndex ∧
      e.tree.Tokens.take s.tokenIndex = s.tree.Tokens.take s.tokenIndex ∧
      e.tree.Tokens[e.tokenIndex - 1]? =
        some ⟨rule, e.tree.wrap s.position, e.tree.wrap e.position, e.tree.wrap s.depth⟩ := by
  obtain ⟨s1, h1, h2⟩ := tagged_true h
  have hi0 : Engine.Inv buffer { s with depth := s.depth + 1 } := hi
  obtain ⟨p2, _⟩ := hb.run hi0 h1
  have hi2 : Engine.Inv buffer s1 := p2.inv hi0
  obtain ⟨p21, p22, p23, p24, p25⟩ := p2
  obtain ⟨p26, p27, p28⟩ := p25 rfl
  have hi3 : Engine.Inv buffer { s1 with depth := s1.depth - 1 } := hi2
  obtain ⟨s3, e3, a1, a2, a3, a4, a5, a6, a7, a8⟩ :=
    add_spec buffer rule s.position { s1 with depth := s1.depth - 1 } hi3
  rw [e3] at h2
  injection h2 with h2
  injection h2 with _ h2
  subst h2
  simp only at a1 a2 a3 a6 a7 a8 p26 p27 p28
  refine ⟨s1, h1, a1, by omega, by omega, a3, a5, by rw [a2, p28]; omega, a6, a7, ?_, ?_⟩
  · rw [take_eq_mono _ _ _ _ p27 a7, p24]
  · rw [a3, Nat.add_sub_cancel, a8, a1, p28]
    simp

/-- A successful run of rule `start`: the cursor has stopped on a sentinel and
the last committed record is the one of `start`, from the cursor on entry to
that sentinel. -/
theorem start_success (buffer : List Nat) (fuel : Nat) (hs : Sentinel buffer)
    (hf : buffer.length ≤ fuel) (s e : Engine) (hi : Engine.Inv buffer s)
    (h : rules.start buffer fuel s = .ok (true, e)) :
    buffer[e.position]? = some end_symbol ∧ s.tokenIndex < e.tokenIndex ∧
    e.tokenIndex ≤ e.tree.len ∧ e.depth = s.depth ∧
    e.tree.Tokens.take s.tokenIndex = s.tree.Tokens.take s.tokenIndex ∧
    e.tree.Tokens[e.tokenIndex - 1]? =
      some ⟨.rulestart, e.tree.wrap s.position, e.tree.wrap e.position, e.tree.wrap s.depth⟩ := by
  unfold rules.start at h
  have hok : Ok buffer false (seq [star fuel (rules.line buffer fuel), rules.rule_ buffer fuel,
      notP (matchDot buffer)]) := by
    apply Ok.toFalse
    repeat' (with_reducible first
      | exact matchDot_ok _ hs
      | exact rule__ok _ _ hs hf
      | exact line_ok _ _ hs hf
      | exact seq_nil_ok _
      | apply notP_ok
      | apply star_flag_ok fuel hf
      | apply seq_cons_ok)
    all_goals rfl
  obtain ⟨s1, h1, t1, _, t3, _, t5, t6, _, _, t9, t10⟩ := tagged_success hok hi (ruleFn_true h)
  refine ⟨?_, t3, t5, t6, t9, t10⟩
  obtain ⟨sa, _, h2⟩ := seq_cons_true h1
  obtain ⟨sb, _, h3⟩ := seq_cons_true h2
  obtain ⟨sc, h4, h5⟩ := seq_cons_true h3
  have h6 := seq_nil_true h5
  obtain ⟨sd, h7, h8⟩ := notP_true h4
  obtain ⟨h9, h10⟩ := matchDot_false h7
  rw [t1, h6, h8]
  exact h10

theorem getLast?_take {β : Type} (l : List β) (n : Nat) (h0 : 0 < n) (hn : n ≤ l.length) :
    (l.take n).getLast? = l[n - 1]? := by
  rw [List.getLast?_eq_getElem?, List.length_take, Nat.min_eq_left hn,
    List.getElem?_take_of_lt (by omega)]

theorem sentinel_index (runes : List Nat) (k : Nat) (h : end_symbol ∉ runes)
    (hk : (runes ++ [end_symbol])[k]? = some end_symbol) : k = runes.length := by
  by_cases h1 : k < runes.length
  · rw [List.getElem?_append_left h1] at hk
    exact absurd (List.mem_iff_getElem?.2 ⟨k, hk⟩) h
  · by_contra h2
    have h3 : runes.length < k := by omega
    rw [List.getElem?_append_right (by omega)] at hk
    have : k - runes.length ≠ 0 := by omega
    rw [List.getElem?_eq_none (by simp; omega)] at hk
    cases hk

/-- C22 (as the code has it): for every input string that does not contain the
sentinel U+0004 and has fewer than 32768 characters, if `Parse` returns
success then the whole input was consumed: the last record of the store is
the record of `start`, with begin 0, end the number of characters of the input
and depth 0. -/
theorem Parse_consumes (graph subgraph : GoString) (p : Fbp)
    (hno : end_symbol ∉ utf8.runes graph) (hlen : (utf8.runes graph).length < 32768)
    (h : (Fbp.new graph subgraph).Init.Parse = .ok (p, true)) :
    ∃ tree, p.tokenTree = some tree ∧
      tree.Tokens.getLast? = some ⟨.rulestart, 0, (utf8.runes graph).length, 0⟩ := by
  have hb : (Fbp.new graph subgraph).Init.buffer = utf8.runes graph ++ [end_symbol] :=
    Init_buffer _ hno
  have hs := Init_sentinel (Fbp.new graph subgraph)
  have hi := Init_inv (Fbp.new graph subgraph)
  unfold Fbp.Parse at h
  split at h
  · cases h
  · rename_i e he
    injection h with h
    injection h with h _
    subst h
    obtain ⟨t1, t2, t3, _, _, t6⟩ := start_success _ _ hs (le_refl _) _ e hi he
    have hpos : e.position = (utf8.runes graph).length := by
      rw [hb] at t1
      exact sentinel_index _ _ hno t1
    refine ⟨_, rfl, ?_⟩
    rw [tokenTree.trim_Tokens _ _ t3, getLast?_take _ _ (by omega)
      (by rw [tokenTree.Tokens_length]; exact t3), t6, hpos]
    have h0 : (Fbp.new graph subgraph).Init.engine.position = 0 := rfl
    have h1 : (Fbp.new graph subgraph).Init.engine.depth = 0 := rfl
    rw [h0, h1, tokenTree.wrap_small _ 0 (by omega), tokenTree.wrap_small _ _ hlen]
    rfl
  · cases h

/-- Witness of `Parse_consumes`: the graphIIP text, of 8 characters. -/
theorem Parse_consumes_witness :
    (utf8.runes graphIIP).length = 8 ∧
    ∃ (p : Fbp) (tree : tokenTree), (Fbp.new graphIIP []).Init.Parse = .ok (p, true) ∧
      p.tokenTree = some tree ∧ tree.Tokens.getLast? = some ⟨.rulestart, 0, 8, 0⟩ := by
  refine ⟨by decide, ?_⟩
  generalize hl : (Fbp.new graphIIP []).Init.Parse = res
  have hres : res.toOption.map (fun r => r.2) = some true := by
    subst hl
    decide!
  cases res with
  | error f => cases hres
  | ok r =>
    obtain ⟨p, ok⟩ := r
    simp only [Except.toOption, Option.map_some', Option.some.injEq] at hres
    subst hres
    obtain ⟨tree, h1, h2⟩ := Parse_consumes graphIIP [] p (by decide) (by decide) hl
    exact ⟨p, tree, rfl, h1, h2⟩

/-- C22, counterexample: on the input of the two characters U+0004 and `A`,
`Parse` returns success and the record of `start` ends at 0: the lookahead
`!.` takes the sentinel of the input for the end. -/
theorem Parse_stops_at_sentinel :
    (utf8.runes [4, 65]).length = 2 ∧
    ((Fbp.new [4, 65] []).Init.Parse).toOption.map
      (fun r => (r.2, r.1.tokenTree.map (fun t => t.Tokens.getLast?))) =
      some (true, some (some ⟨.rulestart, 0, 0, 0⟩)) := by
  decide!

/-! ## The record of a rule in the compact store -/

/-- A loop whose body moves the cursor by one `k` times and then fails without
a record. -/
theorem star_run (c : Code) :
    ∀ (k fuel : Nat) (s : Engine), k < fuel →
      (∀ j, j < k → c { s with position := s.position + j } =
        .ok (true, { s with position := s.position + j + 1 })) →
      c { s with position := s.position + k } =
        .ok (false, { s with position := s.position + k }) →
      star fuel c s = .ok (true, { s with position := s.position + k }) := by
  intro k
  induction k with
  | zero =>
    intro fuel s hf _ hr
    cases fuel with
    | zero => omega
    | succ fuel =>
      have hr1 : c s = .ok (false, s) := hr
      simp only [star, hr1, restore]
      rfl
  | succ k ih =>
    intro fuel s hf hsp hr
    cases fuel with
    | zero => omega
    | succ fuel =>
      have h0 : c s = .ok (true, { s with position := s.position + 1 }) := hsp 0 (by omega)
      have := ih fuel { s with position := s.position + 1 } (by omega)
        (by
          intro j hj
          have := hsp (j + 1) (by omega)
          simpa [Nat.add_assoc, Nat.add_comm 1 j] using this)
        (by simpa [Nat.add_assoc, Nat.add_comm 1 k] using hr)
      simp only [star, h0, this]
      simp [Nat.add_assoc, Nat.add_comm 1 k]

theorem blank_step (buffer : List Nat) (s : Engine) (h : buffer[s.position]? = some 32) :
    choice [matchChar buffer ' ', matchChar buffer '\t'] s =
      .ok (true, { s with position := s.position + 1 }) := by
  have e1 : ' '.toNat = 32 := rfl
  simp [choice, matchChar, indexAt_get _ _ _ h, e1]

theorem blank_fail (buffer : List Nat) (s : Engine) (r : Nat) (h : buffer[s.position]? = some r)
    (h1 : r ≠ 32) (h2 : r ≠ 9) :
    choice [matchChar buffer ' ', matchChar buffer '\t'] s = .ok (false, s) := by
  have e1 : ' '.toNat = 32 := rfl
  have e2 : '\t'.toNat = 9 := rfl
  simp [choice, matchChar, indexAt_get _ _ _ h, e1, e2, h1, h2, restore]

/-- The loop of `_` and `__` over `k` spaces followed by a character that is
neither a space nor a tab. -/
theorem star_blank (buffer : List Nat) (k fuel : Nat) (s : Engine) (hf : k < fuel)
    (hsp : ∀ j, j < k → buffer[s.position + j]? = some 32)
    (hr : ∃ r, buffer[s.position + k]? = some r ∧ r ≠ 32 ∧ r ≠ 9) :
    star fuel (choice [matchChar buffer ' ', matchChar buffer '\t']) s =
      .ok (true, { s with position := s.position + k }) := by
  obtain ⟨r, h1, h2, h3⟩ := hr
  exact star_run _ k fuel s hf (fun j hj => blank_step buffer _ (hsp j hj))
    (blank_fail buffer _ r h1 h2 h3)

/-- Rule `_` at the start of `n` spaces, from the state `Init` leaves: the
cursor moves to `n`, and the record appended is read back with the end that
the compact store keeps of `n`. -/
theorem rule__on_spaces (n : Nat) :
    ∃ e, rules.rule_ (List.replicate n 32 ++ [end_symbol]) (n + 1)
        ⟨0, 0, 0, .compact ⟨32767, []⟩⟩ = .ok (true, e) ∧
      e.position = n ∧ e.tokenIndex = 1 ∧ e.depth = 0 ∧
      e.tree.Tokens[0]? = some ⟨.rule_, 0, int16 n, 0⟩ := by
  have hstar := star_blank (List.replicate n 32 ++ [end_symbol]) n (n + 1)
    ⟨0, 0, 0 + 1, .compact ⟨32767, []⟩⟩ (by omega)
    (by
      intro j hj
      simp only [Nat.zero_add]
      rw [List.getElem?_append_left (by simpa using hj)]
      simp only [List.getElem?_replicate, hj, if_true])
    ⟨end_symbol, by
      simp only [Nat.zero_add]
      rw [List.getElem?_append_right (by simp)]
      simp, by decide, by decide⟩
  have hi : Engine.Inv (List.replicate n 32 ++ [end_symbol])
      ⟨0 + n, 0, 0 + 1 - 1, .compact ⟨32767, []⟩⟩ := by
    refine ⟨by simp, by simp [tokenTree.len], by simp [tokenTree.len]⟩
  obtain ⟨e, he, a1, a2, a3, _, _, a6, _, a8⟩ := add_spec _ .rule_ 0 _ hi
  refine ⟨e, ?_, by simpa using a1, a3, a2, ?_⟩
  · simp only [rules.rule_, tagged, hstar]
    exact he
  · have hc : e.tree.isCompact = true := by
      rw [a6]; simp [tokenTree.isCompact, tokenTree.len]
    rw [a8]
    simp only [tokenTree.wrap, hc, if_true]
    simp [int16]

/-- C28 (fails in the compact store): rule `_` applied at the start of 32768
spaces, from the state `Init` leaves, succeeds with the cursor at 32768 and one
record more; the record it appended has end -32768, not the cursor 32768. -/
theorem rule_record_wraps :
    ∃ e, rules.rule_ (List.replicate 32768 32 ++ [end_symbol]) (32768 + 1)
        ⟨0, 0, 0, .compact ⟨32767, []⟩⟩ = .ok (true, e) ∧
      e.position = 32768 ∧ e.tokenIndex = 1 ∧ e.depth = 0 ∧
      e.tree.Tokens[0]? = some ⟨.rule_, 0, -32768, 0⟩ :=
  rule__on_spaces 32768

/-! ## The committed records of a frame, and the text of an IIP -/

theorem matchChar_pure (buffer : List Nat) (ch : Char) : Pure (matchChar buffer ch) := by
  intro s b s1 h
  unfold matchChar at h
  split at h
  · cases h
  · split at h <;> (injection h with h; injection h with _ h; subst h; exact ⟨rfl, rfl⟩)

theorem matchDot_pure (buffer : List Nat) : Pure (matchDot buffer) := by
  intro s b s1 h
  unfold matchDot at h
  split at h
  · cases h
  · split at h <;> (injection h with h; injection h with _ h; subst h; exact ⟨rfl, rfl⟩)

theorem seq_nil_pure : Pure (seq []) := by
  intro s b s1 h
  simp only [seq] at h
  injection h with h; injection h with _ h; subst h; exact ⟨rfl, rfl⟩

theorem seq_cons_pure {c : Code} {cs : List Code} (hc : Pure c) (hr : Pure (seq cs)) :
    Pure (seq (c :: cs)) := by
  intro s b s1 h
  cases hx : c s with
  | error f => simp [seq, hx] at h
  | ok r =>
    obtain ⟨b1, s2⟩ := r
    obtain ⟨h1, h2⟩ := hc s b1 s2 hx
    cases b1
    · simp only [seq, hx] at h
      injection h with h; injection h with _ h; subst h; exact ⟨h1, h2⟩
    · simp only [seq, hx] at h
      obtain ⟨h3, h4⟩ := hr s2 b s1 h
      exact ⟨h3.trans h1, h4.trans h2⟩

theorem choice_cons_pure {c d : Code} {cs : List Code} (hc : Pure c)
    (hr : Pure (choice (d :: cs))) : Pure (choice (c :: d :: cs)) := by
  intro s b s1 h
  cases hx : c s with
  | error f => simp [choice, hx] at h
  | ok r =>
    obtain ⟨b1, s2⟩ := r
    obtain ⟨h1, h2⟩ := hc s b1 s2 hx
    cases b1
    · simp only [choice, hx] at h
      obtain ⟨h3, h4⟩ := hr (restore s s2) b s1 h
      exact ⟨h3.trans h1, h4⟩
    · simp only [choice, hx] at h
      injection h with h; injection h with _ h; subst h; exact ⟨h1, h2⟩

theorem notP_pure {c : Code} (hc : Pure c) : Pure (notP c) := by
  intro s b s1 h
  cases hx : c s with
  | error f => simp [notP, hx] at h
  | ok r =>
    obtain ⟨b1, s2⟩ := r
    obtain ⟨h1, h2⟩ := hc s b1 s2 hx
    cases b1 <;>
      (simp only [notP, hx] at h; injection h with h; injection h with _ h; subst h)
    · exact ⟨h1, rfl⟩
    · exact ⟨h1, h2⟩

theorem events_append (l1 l2 : List token32) : events (l1 ++ l2) = events l1 ++ events l2 := by
  simp [events, List.filterMap_append]

/-- The record that `add` appends is the last committed one. -/
theorem add_committed (buffer : List Nat) (rule : pegRule) (begin : Nat) (s s1 : Engine)
    (hi : Engine.Inv buffer s) (h : add rule begin s = .ok (true, s1)) :
    s1.position = s.position ∧ s1.depth = s.depth ∧ Engine.Inv buffer s1 ∧
    s1.committed = s.committed ++
      [⟨rule, s1.tree.wrap begin, s1.tree.wrap s.position, s1.tree.wrap s.depth⟩] := by
  obtain ⟨s2, e2, a1, a2, a3, a4, a5, _, a7, a8⟩ := add_spec buffer rule begin s hi
  rw [h] at e2
  injection e2 with e2
  injection e2 with _ e2
  subst e2
  refine ⟨a1, a2, ⟨by rw [a1]; exact hi.1, a5, by have := hi.2.2; omega⟩, ?_⟩
  unfold Engine.committed
  rw [a3, List.take_succ, a7, a8]
  rfl

/-- What a successful run commits, whatever the fragment: the records
committed before stay, in front. -/
theorem Engine.Post.committed_grows {buffer : List Nat} {s s1 : Engine}
    (p : Engine.Post buffer s true s1) : ∃ l, s1.committed = s.committed ++ l := by
  obtain ⟨_, _, _, p4, p5⟩ := p
  obtain ⟨_, p7, _⟩ := p5 rfl
  refine ⟨(s1.tree.Tokens.take s1.tokenIndex).drop s.tokenIndex, ?_⟩
  unfold Engine.committed
  rw [← p4]
  have : s1.tree.Tokens.take s.tokenIndex =
      (s1.tree.Tokens.take s1.tokenIndex).take s.tokenIndex := by
    rw [List.take_take, Nat.min_eq_left p7]
  rw [this, List.take_append_drop]

/-- A failed run that is backtracked leaves the committed records as they were. -/
theorem Engine.Post.restore_committed {buffer : List Nat} {s s1 : Engine} {b : Bool}
    (p : Engine.Post buffer s b s1) : (fbp.restore s s1).committed = s.committed :=
  p.2.2.2.1

/-- A successful frame commits the records of its body and then its own. -/
theorem tagged_committed {buffer : List Nat} {x : Bool} {rule : pegRule} {body : Code}
    (hb : Ok buffer x body) {s e : Engine} (hi : Engine.Inv buffer s)
    (h : tagged rule body s = .ok (true, e)) :
    ∃ s1, body { s with depth := s.depth + 1 } = .ok (true, s1) ∧ Engine.Inv buffer s1 ∧
      Engine.Inv buffer e ∧ e.position = s1.position ∧ s.position ≤ e.position ∧
      e.depth = s.depth ∧
      e.committed = s1.committed ++
        [⟨rule, e.tree.wrap s.position, e.tree.wrap e.position, e.tree.wrap s.depth⟩] := by
  obtain ⟨s1, h1, h2⟩ := tagged_true h
  have hi0 : Engine.Inv buffer { s with depth := s.depth + 1 } := hi
  obtain ⟨p2, _⟩ := hb.run hi0 h1
  have hi2 : Engine.Inv buffer s1 := p2.inv hi0
  have hi3 : Engine.Inv buffer { s1 with depth := s1.depth - 1 } := hi2
  obtain ⟨a1, a2, a3, a4⟩ := add_committed buffer rule s.position _ e hi3 h2
  obtain ⟨p6, _, p8⟩ := p2.2.2.2.2 rfl
  simp only at a1 a2 a4 p6 p8
  refine ⟨s1, h1, hi2, a3, a1, by omega, by rw [a2, p8]; omega, ?_⟩
  rw [a4, a1, p8]
  rfl

theorem matchChar_true {buffer : List Nat} {ch : Char} {s e : Engine}
    (h : matchChar buffer ch s = .ok (true, e)) :
    buffer[s.position]? = some ch.toNat ∧ e = { s with position := s.position + 1 } := by
  unfold matchChar indexAt at h
  rw [List.get?_eq_getElem?] at h
  cases hx : buffer[s.position]? with
  | none => simp [hx] at h
  | some r =>
    simp only [hx] at h
    by_cases hr : r = ch.toNat
    · simp only [hr, ne_eq, not_true_eq_false, if_false] at h
      injection h with h
      injection h with _ h
      exact ⟨by rw [hr], h.symm⟩
    · simp [hr] at h

theorem iipchar_body_pure (buffer : List Nat) :
    Pure (choice [seq [matchChar buffer '\\', matchChar buffer '\''],
      seq [notP (matchChar buffer '\''), matchDot buffer]]) :=
  choice_cons_pure
    (seq_cons_pure (matchChar_pure _ _) (seq_cons_pure (matchChar_pure _ _) seq_nil_pure))
    (seq_cons_pure (notP_pure (matchChar_pure _ _)) (seq_cons_pure (matchDot_pure _) seq_nil_pure))

theorem iipchar_body_ok (buffer : List Nat) (hs : Sentinel buffer) :
    Ok buffer true (choice [seq [matchChar buffer '\\', matchChar buffer '\''],
      seq [notP (matchChar buffer '\''), matchDot buffer]]) := by
  apply Ok.cast
  repeat' (with_reducible first
    | exact matchChar_ok _ hs _ (by decide)
    | exact matchDot_ok _ hs
    | exact seq_nil_ok _
    | apply notP_ok
    | apply seq_cons_ok
    | apply choice_one_ok
    | apply choice_cons_ok)
  all_goals rfl

/-- The loop `iipchar*` commits records of rule `iipchar` only: no event. -/
theorem star_iipchar_events (buffer : List Nat) (hs : Sentinel buffer) :
    ∀ (fuel : Nat) (s s2 : Engine), Engine.Inv buffer s →
      star fuel (rules.iipchar buffer) s = .ok (true, s2) →
      Engine.Inv buffer s2 ∧ events s2.committed = events s.committed ∧
      s.position ≤ s2.position ∧ s2.depth = s.depth := by
  intro fuel
  induction fuel with
  | zero => intro s s2 _ h; cases h
  | succ fuel ih =>
    intro s s2 hi h
    cases hx : rules.iipchar buffer s with
    | error f => simp [star, hx] at h
    | ok r =>
      obtain ⟨b, s1⟩ := r
      obtain ⟨p, _⟩ := (iipchar_ok buffer hs).run hi hx
      cases b
      · simp only [star, hx] at h
        injection h with h
        injection h with _ h
        subst h
        exact ⟨(p.restore hi).inv hi, by rw [p.restore_committed], le_refl _, rfl⟩
      · simp only [star, hx] at h
        unfold rules.iipchar at hx
        obtain ⟨s0, h0, _, t2, t3, t4, t5, t6⟩ := tagged_committed (iipchar_body_ok buffer hs) hi hx
        obtain ⟨q1, q2⟩ := iipchar_body_pure buffer _ _ _ h0
        have hc : s0.committed = s.committed := by
          unfold Engine.committed
          rw [q1, q2]
        obtain ⟨r1, r2, r3, r4⟩ := ih s1 s2 t2 h
        refine ⟨r1, ?_, by omega, by rw [r4, t5]⟩
        rw [r2, t6, hc, events_append]
        simp [events, event, isAction]

theorem iip_body_ok (buffer : List Nat) (fuel : Nat) (hs : Sentinel buffer)
    (hf : buffer.length ≤ fuel) :
    Ok buffer true (seq [matchChar buffer '\'',
      tagged .rulePegText (star fuel (rules.iipchar buffer)),
      matchChar buffer '\'', action .ruleAction7]) := by
  apply Ok.cast
  repeat' (with_reducible first
    | exact matchChar_ok _ hs _ (by decide)
    | exact iipchar_ok _ hs
    | exact action_ok _ _
    | exact seq_nil_ok _
    | apply tagged_ok
    | apply star_flag_ok fuel hf
    | apply seq_cons_ok)
  all_goals rfl

/-- The events of a successful run of rule `iip`: the text between the two
quotes, then Action7; the characters at the ends of the match are quotes. -/
theorem iip_events (buffer : List Nat) (fuel : Nat) (hs : Sentinel buffer)
    (hf : buffer.length ≤ fuel) (hlen : buffer.length ≤ 32768) (s e : Engine)
    (hi : Engine.Inv buffer s) (h : rules.iip buffer fuel s = .ok (true, e)) :
    buffer[s.position]? = some '\''.toNat ∧ buffer[e.position - 1]? = some '\''.toNat ∧
    s.position + 2 ≤ e.position ∧ e.position < buffer.length ∧
    events e.committed = events s.committed ++
      [.text ⟨(s.position + 1 : Nat), (e.position - 1 : Nat)⟩, .act .ruleAction7] := by
  unfold rules.iip at h
  obtain ⟨s4, h4, hi4, hie, t3, _, _, t6⟩ := tagged_committed (iip_body_ok buffer fuel hs hf) hi h
  obtain ⟨s1, g1, h5⟩ := seq_cons_true h4
  obtain ⟨s2, g2, h6⟩ := seq_cons_true h5
  obtain ⟨s3, g3, h7⟩ := seq_cons_true h6
  obtain ⟨s5, g4, h8⟩ := seq_cons_true h7
  have h9 := seq_nil_true h8
  subst h9
  obtain ⟨q1, q2⟩ := matchChar_true g1
  have hi0 : Engine.Inv buffer { s with depth := s.depth + 1 } := hi
  have hi1 : Engine.Inv buffer s1 :=
    ((matchChar_ok buffer hs '\'' (by decide)).run hi0 g1).1.inv hi0
  have hc1 : s1.committed = s.committed := by rw [q2]; rfl
  have hp1 : s1.position = s.position + 1 := by rw [q2]
  -- the captured text
  obtain ⟨sb, gb, hib, hi2, u3, _, _, u6⟩ := tagged_committed
    (star_ok fuel hf (iipchar_ok buffer hs)) hi1 g2
  have hi1b : Engine.Inv buffer { s1 with depth := s1.depth + 1 } := hi1
  obtain ⟨_, v2, _, _⟩ := star_iipchar_events buffer hs fuel _ sb hi1b gb
  have hcb : events sb.committed = events s.committed := by
    rw [v2]
    show events s1.committed = _
    rw [hc1]
  -- the closing quote
  obtain ⟨w1, w2⟩ := matchChar_true g3
  have hi3 : Engine.Inv buffer s3 :=
    ((matchChar_ok buffer hs '\'' (by decide)).run hi2 g3).1.inv hi2
  have hc3 : s3.committed = s2.committed := by rw [w2]; rfl
  have hp3 : s3.position = s2.position + 1 := by rw [w2]
  -- Action7
  obtain ⟨x1, _, _, x4⟩ := add_committed buffer .ruleAction7 s3.position s3 s4 hi3 g4
  have hpe : e.position = s2.position + 1 := by rw [t3, x1, hp3]
  have hlt := hie.1
  refine ⟨q1, by rw [hpe, Nat.add_sub_cancel]; exact w1, by omega, hlt, ?_⟩
  rw [t6, x4, hc3, u6, events_append, events_append, events_append, hcb]
  have hw1 : s2.tree.wrap s1.position = ((s.position + 1 : Nat) : Int) := by
    rw [tokenTree.wrap_small _ _ (by omega), hp1]
  have hw2 : s2.tree.wrap s2.position = ((e.position - 1 : Nat) : Int) := by
    rw [tokenTree.wrap_small _ _ (by omega), hpe, Nat.add_sub_cancel]
  rw [hw1, hw2]
  simp [events, event, isAction]

/-- Counterexample to C15 as stated: the literal `'a\'b'` is accepted and the
connection built from it carries the text `a\'b`, the backslash kept, and not
`a'b`. -/
theorem iip_keeps_backslash :
    graphOf (str "'a\\'b' -> IN X") [] =
      some (true, [], [⟨str "a\\'b", none, some ⟨str "X", str "IN"⟩⟩]) ∧
    str "a\\'b" ≠ str "a'b" := by
  decide!

/-! ## `isParentOf` and `AST` -/

/-- C35 (as the code has it): `t.isParentOf(u)` is true exactly when
`t.begin <= u.begin`, `t.end >= u.end` and `t.next > u.next`, for `token16` and
`token32` alike: the fourth field of `t` is strictly greater than that of `u`.
In the groups that `Order` returns, on which `PreOrder` calls it, that field is
the index of the record in the store. -/
theorem isParentOf_spec (t u : token16) (t1 u1 : token32) :
    (t.isParentOf u = true ↔ t.begin ≤ u.begin ∧ t.end_ ≥ u.end_ ∧ t.next > u.next) ∧
    (t1.isParentOf u1 = true ↔ t1.begin ≤ u1.begin ∧ t1.end_ ≥ u1.end_ ∧ t1.next > u1.next) := by
  simp [token16.isParentOf, token32.isParentOf, and_assoc]

/-- Counterexample to C35 as stated: the record of a line from 0 to 10 at depth
1 is not `isParentOf` the record of a node from 2 to 3 at depth 5, though it
spans it and its depth is strictly less. -/
theorem isParentOf_depth :
    (token16.mk .ruleline 0 10 1).isParentOf ⟨.rulenode, 2, 3, 5⟩ = false ∧
    (token32.mk .ruleline 0 10 1).isParentOf ⟨.rulenode, 2, 3, 5⟩ = false ∧
    ((0 : Int) ≤ 2 ∧ (10 : Int) ≥ 3 ∧ (1 : Int) < 5) := by
  decide

/-- The inner loop of `AST`: the cells it pops are those on top of the stack
whose span lies within the span of the record, the stack it leaves starts at
the first cell that does not, and the popped nodes are linked in front of `up`
by `next`, the deepest of the stack first. -/
theorem AST.attach_spec (token : token32) :
    ∀ (stack : List element) (up : node32),
      (AST.attach token up stack).2 = stack.dropWhile
        (fun C => decide (token.begin ≤ C.token.begin ∧ C.token.end_ ≤ token.end_)) ∧
      (AST.attach token up stack).1.siblings =
        ((stack.takeWhile
          (fun C => decide (token.begin ≤ C.token.begin ∧ C.token.end_ ≤ token.end_))).reverse.map
          (fun C => (C.token, C.up))) ++ up.siblings := by
  intro stack
  induction stack with
  | nil => intro up; simp [AST.attach]
  | cons top down ih =>
    intro up
    by_cases h : token.begin ≤ top.token.begin ∧ top.token.end_ ≤ token.end_
    · have h1 : top.token.begin ≥ token.begin ∧ top.token.end_ ≤ token.end_ := h
      obtain ⟨i1, i2⟩ := ih (.node top.token top.up up)
      simp only [AST.attach, if_pos h1, List.dropWhile_cons, List.takeWhile_cons, h,
        decide_True, if_true, and_self]
      refine ⟨i1, ?_⟩
      rw [i2]
      simp [node32.siblings]
    · have h1 : ¬ (top.token.begin ≥ token.begin ∧ top.token.end_ ≤ token.end_) := h
      simp [AST.attach, if_neg h1, List.dropWhile_cons, List.takeWhile_cons, h]

/-- C33 (as the code has it): when `AST()` processes a non-zero-width record
`R`, it pops from the open-node stack exactly the nodes on top of it whose span
lies within the span of `R` (`R.begin <= C.begin` and `C.end <= R.end`; the
nesting depths are not compared), stops at the first open node whose span does
not, attaches the popped nodes as the children of `R` (`up` and then `next`) in
completion order, each with the children it had, and pushes `R`. -/
theorem AST_attaches (stack : List element) (R : token32) (h : R.begin ≠ R.end_) :
    ∃ children,
      AST.step stack R = ⟨R, children, .nil⟩ :: stack.dropWhile
        (fun C => decide (R.begin ≤ C.token.begin ∧ C.token.end_ ≤ R.end_)) ∧
      children.siblings =
        (stack.takeWhile
          (fun C => decide (R.begin ≤ C.token.begin ∧ C.token.end_ ≤ R.end_))).reverse.map
          (fun C => (C.token, C.up)) := by
  obtain ⟨h1, h2⟩ := AST.attach_spec R stack .nil
  refine ⟨(AST.attach R .nil stack).1, ?_, ?_⟩
  · simp only [AST.step, if_neg h, h1]
  · rw [h2]
    simp [node32.siblings]

/-- Witness of `AST_attaches`: the record of a node from 0 to 4 met with three
open nodes within its span above one that is not. -/
theorem AST_attaches_witness :
    (token32.mk .rulenode 0 4 5).begin ≠ (token32.mk .rulenode 0 4 5).end_ ∧
    ∃ children,
      AST.step [element.mk ⟨.rule__, 3, 4, 6⟩ .nil .nil, element.mk ⟨.rulePegText, 0, 3, 6⟩ .nil .nil,
          element.mk ⟨.rule_, 0, 0, 2⟩ .nil .nil, element.mk ⟨.ruleline, -3, -1, 1⟩ .nil .nil]
          (token32.mk .rulenode 0 4 5) =
        element.mk (token32.mk .rulenode 0 4 5) children .nil ::
          ([element.mk ⟨.rule__, 3, 4, 6⟩ .nil .nil, element.mk ⟨.rulePegText, 0, 3, 6⟩ .nil .nil,
            element.mk ⟨.rule_, 0, 0, 2⟩ .nil .nil,
            element.mk ⟨.ruleline, -3, -1, 1⟩ .nil .nil].dropWhile
            (fun C => decide ((token32.mk .rulenode 0 4 5).begin ≤ C.token.begin ∧
              C.token.end_ ≤ (token32.mk .rulenode 0 4 5).end_))) ∧
      children.siblings =
        ([element.mk ⟨.rule__, 3, 4, 6⟩ .nil .nil, element.mk ⟨.rulePegText, 0, 3, 6⟩ .nil .nil,
          element.mk ⟨.rule_, 0, 0, 2⟩ .nil .nil,
          element.mk ⟨.ruleline, -3, -1, 1⟩ .nil .nil].takeWhile
          (fun C => decide ((token32.mk .rulenode 0 4 5).begin ≤ C.token.begin ∧
            C.token.end_ ≤ (token32.mk .rulenode 0 4 5).end_))).reverse.map
          (fun C => (C.token, C.up)) :=
  ⟨by decide, AST_attaches _ _ (by decide)⟩

/-- Counterexample to C33 as stated: the record `R` of a port from 0 to 3 at
depth 5 met with the open node `C` of a node from 1 to 2 at depth 1. `R` is not
an ancestor of `C` under the ancestor rule, its depth being the larger one, and
`AST` attaches `C` as the child of `R` all the same. -/
theorem AST_ignores_depth :
    AST.step [⟨⟨.rulenode, 1, 2, 1⟩, .nil, .nil⟩] ⟨.ruleport, 0, 3, 5⟩ =
      [⟨⟨.ruleport, 0, 3, 5⟩, .node ⟨.rulenode, 1, 2, 1⟩ .nil .nil, .nil⟩] ∧
    AST.run [⟨.rulenode, 1, 2, 1⟩, ⟨.ruleport, 0, 3, 5⟩] =
      .ok (.node ⟨.ruleport, 0, 3, 5⟩ (.node ⟨.rulenode, 1, 2, 1⟩ .nil .nil) .nil) ∧
    ¬ ((⟨.ruleport, 0, 3, 5⟩ : token32).next < (⟨.rulenode, 1, 2, 1⟩ : token32).next) := by
  decide

/-- C34, the code at the failing inputs: on the empty input `Parse` leaves the
records of `_` and `start`, both of zero width, and the tree `AST()` returns
is the node of the first; on `'5'` and on `A B -> C D` the first record, the
zero-width `_` from 0 to 0, is a node of the tree. -/
theorem AST_keeps_first_record :
    parsedTokens [] = [⟨.rule_, 0, 0, 1⟩, ⟨.rulestart, 0, 0, 0⟩] ∧
    ((Fbp.new [] []).Init.Parse).toOption.map
        (fun r => r.1.tokenTree.map tokenTree.AST) =
      some (some (.ok (.node ⟨.rule_, 0, 0, 1⟩ .nil .nil))) ∧
    (parsedTokens (str "'5'")).head? = some ⟨.rule_, 0, 0, 2⟩ ∧
    ((Fbp.new (str "'5'") []).Init.Parse).toOption.map
        (fun r => r.1.tokenTree.map
          (fun t => (t.AST).toOption.map
            (fun n => decide ((⟨.rule_, 0, 0, 2⟩ : token32) ∈ n.records)))) =
      some (some (some true)) ∧
    ((Fbp.new (str "A B -> C D") []).Init.Parse).toOption.map
        (fun r => r.1.tokenTree.map
          (fun t => (t.AST).toOption.map
            (fun n => decide ((⟨.rule_, 0, 0, 2⟩ : token32) ∈ n.records)))) =
      some (some (some true)) := by
  decide!

/-- C40, the code at the failing input: on
`A(C) OUT -> IN A(C:x=y)` followed by the line `A OUT -> IN B(D)`, the node
`B(D)`, declared without metadata, creates the Process `B` with the metadata
`x=y` written at the second mention of `A`, which created no Process. -/
theorem metadata_leaks :
    graphOf (str "A(C) OUT -> IN A(C:x=y)\nA OUT -> IN B(D)") [] =
      some (true,
        [⟨str "A", str "C", none⟩, ⟨str "B", str "D", some [(str "x", str "y")]⟩],
        [⟨[], some ⟨str "A", str "OUT"⟩, some ⟨str "A", str "IN"⟩⟩,
         ⟨[], some ⟨str "A", str "OUT"⟩, some ⟨str "B", str "IN"⟩⟩]) := by
  decide!

/-! ## The store after `Parse`, the reads of the rules, the committed records -/

/-- Every rule function returns, from every state of `Engine.Inv`, in a state
as `Engine.Post` describes. -/
theorem ruleFunctions_ok (buffer : List Nat) (fuel : Nat) (hs : Sentinel buffer)
    (hf : buffer.length ≤ fuel) :
    ∀ r ∈ ruleFunctions buffer fuel fuel, Ok buffer false r := by
  intro r hr
  simp only [ruleFunctions, List.mem_cons, List.mem_singleton, List.not_mem_nil, or_false] at hr
  rcases hr with e | e | e | e | e | e | e | e | e <;> subst e
  · exact start_ok _ _ hs hf
  · exact LineTerminator_ok _ _ hs hf
  · exact (comment_ok _ _ hs hf).toFalse
  · exact (connection_ok _ _ hs hf).toFalse
  · exact (bridge_ok _ _ hs hf).toFalse
  · exact (node_ok _ _ hs hf).toFalse
  · exact (port_ok _ _ hs hf).toFalse
  · exact (portWithIndex_ok _ _ hs hf).toFalse
  · exact (rule___ok _ _ hs hf).toFalse

/-- A rule function that returns false has restored the cursor, the record
count and the depth. -/
theorem ruleFunctions_fail (buffer : List Nat) (fuel n : Nat) (r : Code)
    (hr : r ∈ ruleFunctions buffer fuel n) (s s1 : Engine) (h : r s = .ok (false, s1)) :
    s1.position = s.position ∧ s1.tokenIndex = s.tokenIndex ∧ s1.depth = s.depth := by
  simp only [ruleFunctions, List.mem_cons, List.mem_singleton, List.not_mem_nil, or_false] at hr
  rcases hr with e | e | e | e | e | e | e | e | e <;> subst e
  · exact ruleFn_fail _ s s1 h
  · exact ruleFn_fail _ s s1 h
  · exact ruleFn_fail _ s s1 h
  · cases n with
    | zero => cases h
    | succ n => exact ruleFn_fail _ s s1 h
  · exact ruleFn_fail _ s s1 h
  · exact ruleFn_fail _ s s1 h
  · exact ruleFn_fail _ s s1 h
  · exact ruleFn_fail _ s s1 h
  · exact ruleFn_fail _ s s1 h

/-- C31: after a successful `Parse` the store holds exactly the committed
records. With `e` the state rule `start` has returned in, the length of the
store is the record count of `e`, `Tokens()` yields the records of the store of
`e` below that count, in order, and these are what `Execute` replays. -/
theorem Parse_trims (p q : Fbp) (h : p.Init.Parse = .ok (q, true)) :
    ∃ e tree,
      rules.start p.Init.buffer p.Init.buffer.length p.Init.engine = .ok (true, e) ∧
      q.tokenTree = some tree ∧ q.engine.tokenIndex = e.tokenIndex ∧
      tree.len = e.tokenIndex ∧ tree.Tokens.length = e.tokenIndex ∧
      tree.Tokens = e.committed ∧
      (∀ i, i < e.tokenIndex → tree.Tokens[i]? = e.tree.Tokens[i]?) ∧
      q.Execute =
        match Execute.loop q.Buffer { begin := 0, end_ := 0, p := q.toBaseFbp } e.committed with
        | .error f => .error f
        | .ok st => .ok { q with toBaseFbp := st.p } := by
  unfold Fbp.Parse at h
  split at h
  · cases h
  · rename_i e he
    injection h with h
    injection h with h _
    subst h
    obtain ⟨pe, _⟩ := (start_ok _ _ (Init_sentinel p) (le_refl _)).run (Init_inv p) he
    have hle : e.tokenIndex ≤ e.tree.len := pe.2.2.1
    have ht : (e.tree.trim e.tokenIndex).Tokens = e.committed :=
      tokenTree.trim_Tokens _ _ hle
    refine ⟨e, e.tree.trim e.tokenIndex, he, rfl, rfl, ?_, ?_, ht, ?_, ?_⟩
    · cases e.tree <;> rfl
    · rw [ht, Engine.committed, List.length_take, tokenTree.Tokens_length]
      omega
    · intro i hi
      rw [ht, Engine.committed, List.getElem?_take_of_lt hi]
    · simp only [Fbp.Execute, ht]
  · cases h

/-- Witness of `Parse_trims`: the graphIIP text. -/
theorem Parse_trims_witness :
    ∃ (q : Fbp) (e : Engine) (tree : tokenTree), (Fbp.new graphIIP []).Init.Parse = .ok (q, true) ∧
      q.tokenTree = some tree ∧ tree.len = e.tokenIndex ∧ tree.Tokens = e.committed := by
  generalize hl : (Fbp.new graphIIP []).Init.Parse = res
  have hres : res.toOption.map (fun r => r.2) = some true := by
    subst hl
    decide!
  cases res with
  | error f => cases hres
  | ok r =>
    obtain ⟨q, ok⟩ := r
    simp only [Except.toOption, Option.map_some', Option.some.injEq] at hres
    subst hres
    obtain ⟨e, tree, _, h2, _, h4, _, h6, _⟩ := Parse_trims (Fbp.new graphIIP []) q hl
    exact ⟨q, e, tree, rfl, h2, h4, h6⟩

/-- C36: after `Init`, whatever the input, the buffer is not empty and ends
with the sentinel; `Parse` returns without a read out of range; and every rule
function, run from any state whose cursor is an index of the buffer, returns
without a read out of range, the cursor still at most the index of the final
sentinel. -/
theorem reads_within_buffer (p : Fbp) :
    p.Init.buffer ≠ [] ∧ p.Init.buffer.getLast? = some end_symbol ∧
    p.Init.engine.position ≤ p.Init.buffer.length - 1 ∧
    (∃ r, p.Init.Parse = .ok r ∧ r.1.engine.position ≤ p.Init.buffer.length - 1) ∧
    ∀ r ∈ ruleFunctions p.Init.buffer p.Init.buffer.length p.Init.buffer.length,
      ∀ s, Engine.Inv p.Init.buffer s →
        ∃ b s1, r s = .ok (b, s1) ∧ s1.position ≤ p.Init.buffer.length - 1 := by
  have hs := Init_sentinel p
  have hi := Init_inv p
  have hne : p.Init.buffer ≠ [] := by
    intro h0
    have := hi.1
    rw [h0] at this
    simp at this
  refine ⟨hne, hs, by have := hi.1; omega, ?_, ?_⟩
  · obtain ⟨b, e, h, q, _⟩ := start_ok _ _ hs (le_refl _) _ hi
    have hq := q.1
    have hq' : e.position ≤ p.Init.buffer.length - 1 := by omega
    have hp : ∃ r, p.Init.Parse = .ok r ∧ r.1.engine.position = e.position := by
      cases b
      · simp only [Fbp.Parse, h]
        exact ⟨_, rfl, rfl⟩
      · simp only [Fbp.Parse, h]
        exact ⟨_, rfl, rfl⟩
    obtain ⟨r, hr1, hr2⟩ := hp
    exact ⟨r, hr1, by rw [hr2]; exact hq'⟩
  · intro r hr s hsi
    obtain ⟨b, s1, h, q, _⟩ := ruleFunctions_ok _ _ hs (le_refl _) r hr s hsi
    exact ⟨b, s1, h, by have := q.1; omega⟩

/-- C37: for every application of a rule function, whether it succeeds or
fails, the records of the store at indices below the record count on entry are
on return what they were on entry, also when the store has grown. -/
theorem committed_kept (buffer : List Nat) (fuel : Nat) (r : Code) (s s1 : Engine) (b : Bool)
    (hs : Sentinel buffer) (hf : buffer.length ≤ fuel)
    (hr : r ∈ ruleFunctions buffer fuel fuel) (hi : Engine.Inv buffer s)
    (h : r s = .ok (b, s1)) :
    s1.tree.Tokens.take s.tokenIndex = s.tree.Tokens.take s.tokenIndex ∧
    (∀ i, i < s.tokenIndex → s1.tree.Tokens[i]? = s.tree.Tokens[i]?) ∧
    s.tree.len ≤ s1.tree.len ∧
    (b = false → s1.tokenIndex = s.tokenIndex ∧ s1.committed = s.committed) ∧
    (b = true → ∃ l, s1.committed = s.committed ++ l) := by
  obtain ⟨q, _⟩ := (ruleFunctions_ok buffer fuel hs hf r hr).run hi h
  refine ⟨q.2.2.2.1, ?_, q.2.1, ?_, ?_⟩
  · intro i hlt
    have := q.2.2.2.1
    have h1 := congrArg (fun l => l[i]?) this
    simpa [List.getElem?_take_of_lt hlt] using h1
  · intro hb
    subst hb
    have ht : s1.tokenIndex = s.tokenIndex := (ruleFunctions_fail buffer fuel fuel r hr s s1 h).2.1
    refine ⟨ht, ?_⟩
    unfold Engine.committed
    rw [ht]
    exact q.2.2.2.1
  · intro hb
    subst hb
    exact q.committed_grows

/-- Witness of `committed_kept`: rule `__` run on the buffer of one blank, from
a state whose store, of one slot, is full: the store grows into the wide one
and the committed record of `_` is kept in front of the new record. -/
theorem committed_kept_witness :
    rules.rule__ [32, 4] 2 ⟨0, 1, 0, .compact ⟨1, [⟨.rule_, 0, 0, 0⟩]⟩⟩ =
      .ok (true, ⟨1, 2, 0, .wide ⟨2, [⟨.rule_, 0, 0, 0⟩, ⟨.rule__, 0, 1, 0⟩]⟩⟩) ∧
    (tokenTree.wide ⟨2, [⟨.rule_, 0, 0, 0⟩, ⟨.rule__, 0, 1, 0⟩]⟩).Tokens.take 1 =
      (tokenTree.compact ⟨1, [⟨.rule_, 0, 0, 0⟩]⟩).Tokens.take 1 :=
  ⟨by decide!, (committed_kept [32, 4] 2 (rules.rule__ [32, 4] 2)
    ⟨0, 1, 0, .compact ⟨1, [⟨.rule_, 0, 0, 0⟩]⟩⟩
    ⟨1, 2, 0, .wide ⟨2, [⟨.rule_, 0, 0, 0⟩, ⟨.rule__, 0, 1, 0⟩]⟩⟩ true rfl (by decide)
    (by simp [ruleFunctions]) ⟨by decide, by decide, by decide⟩ (by decide!)).1⟩

/-! ## Byte offsets and rune offsets -/

theorem utf8.runesLoop_ascii :
    ∀ (s : GoString) (n : Nat), (∀ c ∈ s, c.toNat < 128) → s.length ≤ n →
      utf8.runesLoop n s = s.map UInt8.toNat := by
  intro s
  induction s with
  | nil => intro n _ _; cases n <;> rfl
  | cons c rest ih =>
    intro n h hn
    cases n with
    | zero => simp at hn
    | succ n =>
      have hc : c.toNat < 128 := h c (List.mem_cons_self _ _)
      have hd : utf8.DecodeRune c rest = (c.toNat, 1) := by
        simp [utf8.DecodeRune, hc]
      simp only [utf8.runesLoop, hd, List.map_cons, Nat.sub_self, List.drop_zero]
      rw [ih n (fun x hx => h x (List.mem_cons_of_mem _ hx)) (by simpa using hn)]

/-- The runes of a string of single-byte characters are its bytes. -/
theorem utf8.runes_ascii (s : GoString) (h : ∀ c ∈ s, c.toNat < 128) :
    utf8.runes s = s.map UInt8.toNat :=
  utf8.runesLoop_ascii s s.length h (le_refl _)

/-- The buffer of `Init` starts with the runes of the input. -/
theorem Init_buffer_runes (p : Fbp) :
    p.Init.buffer = utf8.runes p.Buffer ∨ p.Init.buffer = utf8.runes p.Buffer ++ [end_symbol] := by
  simp only [Fbp.Init]
  split
  · exact Or.inr rfl
  · exact Or.inl rfl

/-- C38: for an input made of single-byte characters only, the rune buffer of
`Init` starts with the bytes of `Buffer`, one rune for each byte, and for every
span `begin..end` within the input the text `Buffer[begin:end]` that `Execute`
slices is made of the runes at the cursor positions `begin` to `end - 1` of the
rune buffer. -/
theorem ascii_offsets (p : Fbp) (b e : Int) (hascii : ∀ c ∈ p.Buffer, c.toNat < 128)
    (hb : 0 ≤ b) (hbe : b ≤ e) (he : e ≤ (p.Buffer.length : Int)) :
    utf8.runes p.Buffer = p.Buffer.map UInt8.toNat ∧
    p.Init.buffer.take p.Buffer.length = p.Buffer.map UInt8.toNat ∧
    ∃ text, slice p.Init.Buffer b e = .ok text ∧
      text.map UInt8.toNat = (p.Init.buffer.drop b.toNat).take (e.toNat - b.toNat) ∧
      ∀ i, i < e.toNat - b.toNat →
        (text[i]?).map UInt8.toNat = p.Init.buffer[b.toNat + i]? := by
  have hr := utf8.runes_ascii p.Buffer hascii
  have hB : p.Init.Buffer = p.Buffer := rfl
  have ht : p.Init.buffer.take p.Buffer.length = p.Buffer.map UInt8.toNat := by
    rcases Init_buffer_runes p with h | h
    · rw [h, hr, List.take_of_length_le (by simp)]
    · rw [h, hr, List.take_append_of_le_length (by simp), List.take_of_length_le (by simp)]
  have hd : (p.Buffer.drop b.toNat |>.take (e.toNat - b.toNat)).map UInt8.toNat =
      (p.Init.buffer.drop b.toNat).take (e.toNat - b.toNat) := by
    have h1 : (p.Init.buffer.drop b.toNat).take (e.toNat - b.toNat) =
        ((p.Init.buffer.take p.Buffer.length).drop b.toNat).take (e.toNat - b.toNat) := by
      rw [List.drop_take, List.take_take, Nat.min_eq_left (by omega)]
    rw [h1, ht, List.map_take, List.map_drop]
  refine ⟨hr, ht, (p.Buffer.drop b.toNat).take (e.toNat - b.toNat), ?_, hd, ?_⟩
  · rw [hB, slice, if_pos ⟨hb, hbe, he⟩]
  · intro i hi
    have := congrArg (fun l => l[i]?) hd
    simp only [List.getElem?_map, List.getElem?_take_of_lt hi, List.getElem?_drop] at this
    simpa [List.getElem?_take_of_lt hi] using this

/-- Witness of `ascii_offsets`: the span 2..4 of the graphIIP text, which holds `5s`. -/
theorem ascii_offsets_witness :
    ∃ text, slice (Fbp.new graphIIP []).Init.Buffer 2 4 = .ok text ∧
      text.map UInt8.toNat =
        ((Fbp.new graphIIP []).Init.buffer.drop (2 : Int).toNat).take
          ((4 : Int).toNat - (2 : Int).toNat) :=
  have h := (ascii_offsets (Fbp.new graphIIP []) 2 4 (by decide) (by decide) (by decide)
    (by decide)).2.2
  h.elim (fun text ht => ⟨text, ht.1, ht.2.1⟩)

/-! ## `Order`: the groups -/

/-- The group of depth `d` is made of the records of that depth, in order, each
with its index in place of its depth. -/
theorem Order.group_eq {α : Type} (ops : TokenOps α) (d : Nat) :
    ∀ (kept : List α) (i : Nat),
      Order.group ops d i kept =
        ((kept.enumFrom i).filter (fun q => decide (ops.next q.2 = (d : Int)))).map
          (fun q => ops.setNext q.2 (q.1 : Int)) := by
  intro kept
  induction kept with
  | nil => intro i; rfl
  | cons token rest ih =>
    intro i
    by_cases h : ops.next token = (d : Int)
    · simp [Order.group, h, List.enumFrom_cons, List.filter_cons, ih (i + 1)]
    · simp [Order.group, h, List.enumFrom_cons, List.filter_cons, ih (i + 1)]

theorem Order.levels_gt {α : Type} (ops : TokenOps α) :
    ∀ (kept : List α) (t : α), t ∈ kept → (ops.next t).toNat < Order.levels ops kept := by
  intro kept
  induction kept with
  | nil => intro t h; cases h
  | cons token rest ih =>
    intro t h
    simp only [Order.levels]
    rcases List.mem_cons.1 h with e | e
    · subst e; omega
    · have := ih t e; omega

/-- Every record is in one group: the sizes of the groups of the depths below
`L` add up to the number of records, when every depth is below `L`. -/
theorem Order.group_sum {α : Type} (ops : TokenOps α) (L : Nat) :
    ∀ (kept : List α) (i : Nat), (∀ t ∈ kept, 0 ≤ ops.next t ∧ (ops.next t).toNat < L) →
      (Finset.range L).sum (fun d => (Order.group ops d i kept).length) = kept.length := by
  intro kept
  induction kept with
  | nil => intro i _; simp [Order.group]
  | cons token rest ih =>
    intro i h
    obtain ⟨h0, h1⟩ := h token (List.mem_cons_self _ _)
    have hr := ih (i + 1) (fun t ht => h t (List.mem_cons_of_mem _ ht))
    have hg : ∀ d, (Order.group ops d i (token :: rest)).length =
        (if (ops.next token).toNat = d then 1 else 0) +
          (Order.group ops d (i + 1) rest).length := by
      intro d
      by_cases hd : ops.next token = (d : Int)
      · have : (ops.next token).toNat = d := by omega
        simp [Order.group, hd, this]
        omega
      · have : (ops.next token).toNat ≠ d := by omega
        simp [Order.group, hd, this]
    simp only [hg, Finset.sum_add_distrib, hr, List.length_cons]
    rw [Finset.sum_ite_eq (Finset.range L) (ops.next token).toNat (fun _ => 1)]
    simp [h1]
    omega

/-- The record of index `i` is in the group of its depth, with `i` in place of
the depth. -/
theorem Order.mem_group {α : Type} (ops : TokenOps α) :
    ∀ (kept : List α) (i j : Nat) (t : α), 0 ≤ ops.next t → kept[j]? = some t →
      ops.setNext t ((i + j : Nat) : Int) ∈ Order.group ops (ops.next t).toNat i kept := by
  intro kept
  induction kept with
  | nil => intro i j t _ h; simp at h
  | cons token rest ih =>
    intro i j t h0 h
    cases j with
    | zero =>
      simp only [List.getElem?_cons_zero, Option.some.injEq] at h
      subst h
      have : ops.next token = ((ops.next token).toNat : Int) := by omega
      simp only [Order.group, if_pos this, Nat.add_zero]
      exact List.mem_cons_self _ _
    | succ j =>
      simp only [List.getElem?_cons_succ] at h
      have hm := ih (i + 1) j t h0 h
      have he : i + 1 + j = i + (j + 1) := by omega
      rw [he] at hm
      simp only [Order.group]
      split
      · exact List.mem_cons_of_mem _ hm
      · exact hm

/-- What `Order` returns on the slots of a store within range, for either
encoding. -/
theorem Order.run_groups {α : Type} (ops : TokenOps α) (slots : List α)
    (h : Order.inRange ops slots) :
    Order.run ops slots = .ok (Order.kept ops slots,
      (List.range (Order.levels ops (Order.kept ops slots))).map
        (fun d => Order.group ops d 0 (Order.kept ops slots) ++ [ops.zero]) ++ [[ops.zero]]) ∧
    (∀ d, Order.group ops d 0 (Order.kept ops slots) =
      (((Order.kept ops slots).enum).filter (fun q => decide (ops.next q.2 = (d : Int)))).map
        (fun q => ops.setNext q.2 (q.1 : Int))) ∧
    (∀ (j : Nat) (t : α), (Order.kept ops slots)[j]? = some t →
      (ops.next t).toNat < Order.levels ops (Order.kept ops slots) ∧
      ops.setNext t (j : Int) ∈ Order.group ops (ops.next t).toNat 0 (Order.kept ops slots)) ∧
    (Finset.range (Order.levels ops (Order.kept ops slots))).sum
      (fun d => (Order.group ops d 0 (Order.kept ops slots)).length) =
      (Order.kept ops slots).length := by
  refine ⟨Order.run_spec ops slots h, fun d => Order.group_eq ops d _ 0, ?_, ?_⟩
  · intro j t hj
    have hm : t ∈ Order.kept ops slots := List.mem_iff_getElem?.2 ⟨j, hj⟩
    refine ⟨Order.levels_gt ops _ t hm, ?_⟩
    have := Order.mem_group ops _ 0 j t (h.1 t hm).1 hj
    simpa using this
  · exact Order.group_sum ops _ _ 0
      (fun t ht => ⟨(h.1 t ht).1, Order.levels_gt ops _ t ht⟩)

/-- C32 (as the code has it): for a store, compact or wide, whose records
before the first unknown one have depths from 0 to 32766 and are few enough for
the counters, `Order()` cuts the store to those records and returns, for each
depth `d` from 0 to the largest depth, the group of the records of depth `d`
in their order in the store, each with its index in the store in place of its
depth, followed by one zero record, and then one group more that holds a zero
record only. Every record kept is in the group of its depth, and the sizes of
the groups, the zero records apart, add up to the number of records kept. -/
theorem Order_groups (t16 : tokens16) (t32 : tokens32)
    (hr16 : ∀ t ∈ Order.kept token16.ops t16.slots, 0 ≤ t.next ∧ t.next ≤ 32766)
    (hn16 : (Order.kept token16.ops t16.slots).length ≤ 32766)
    (hr32 : ∀ t ∈ Order.kept token32.ops t32.slots, 0 ≤ t.next ∧ t.next ≤ 32766)
    (hn32 : (Order.kept token32.ops t32.slots).length ≤ 2147483646) :
    (t16.Order = .ok (Order.kept token16.ops t16.slots,
      (List.range (Order.levels token16.ops (Order.kept token16.ops t16.slots))).map
        (fun d => Order.group token16.ops d 0 (Order.kept token16.ops t16.slots) ++
          [token16.zero]) ++ [[token16.zero]]) ∧
     (∀ d, Order.group token16.ops d 0 (Order.kept token16.ops t16.slots) =
      (((Order.kept token16.ops t16.slots).enum).filter
        (fun q => decide (q.2.next = (d : Int)))).map
        (fun q => { q.2 with next := (q.1 : Int) })) ∧
     (∀ (j : Nat) (t : token16), (Order.kept token16.ops t16.slots)[j]? = some t →
      t.next.toNat < Order.levels token16.ops (Order.kept token16.ops t16.slots) ∧
      { t with next := (j : Int) } ∈
        Order.group token16.ops t.next.toNat 0 (Order.kept token16.ops t16.slots)) ∧
     (Finset.range (Order.levels token16.ops (Order.kept token16.ops t16.slots))).sum
        (fun d => (Order.group token16.ops d 0 (Order.kept token16.ops t16.slots)).length) =
      (Order.kept token16.ops t16.slots).length) ∧
    (t32.Order = .ok (Order.kept token32.ops t32.slots,
      (List.range (Order.levels token32.ops (Order.kept token32.ops t32.slots))).map
        (fun d => Order.group token32.ops d 0 (Order.kept token32.ops t32.slots) ++
          [token32.zero]) ++ [[token32.zero]]) ∧
     (∀ d, Order.group token32.ops d 0 (Order.kept token32.ops t32.slots) =
      (((Order.kept token32.ops t32.slots).enum).filter
        (fun q => decide (q.2.next = (d : Int)))).map
        (fun q => { q.2 with next := (q.1 : Int) })) ∧
     (∀ (j : Nat) (t : token32), (Order.kept token32.ops t32.slots)[j]? = some t →
      t.next.toNat < Order.levels token32.ops (Order.kept token32.ops t32.slots) ∧
      { t with next := (j : Int) } ∈
        Order.group token32.ops t.next.toNat 0 (Order.kept token32.ops t32.slots)) ∧
     (Finset.range (Order.levels token32.ops (Order.kept token32.ops t32.slots))).sum
        (fun d => (Order.group token32.ops d 0 (Order.kept token32.ops t32.slots)).length) =
      (Order.kept token32.ops t32.slots).length) :=
  ⟨Order.run_groups token16.ops t16.slots (inRange16 _ hr16 hn16),
   Order.run_groups token32.ops t32.slots (inRange32 _ hr32 hn32)⟩

/-- Witness of `Order_groups`: a compact and a wide store of four slots holding
the records of `_` (depth 1) and of `start` (depth 0). -/
theorem Order_groups_witness :
    (tokens16.mk 4 [⟨.rule_, 0, 1, 1⟩, ⟨.rulestart, 0, 1, 0⟩]).Order =
      .ok ([⟨.rule_, 0, 1, 1⟩, ⟨.rulestart, 0, 1, 0⟩],
        [[⟨.rulestart, 0, 1, 1⟩, token16.zero], [⟨.rule_, 0, 1, 0⟩, token16.zero],
         [token16.zero]]) ∧
    (tokens32.mk 4 [⟨.rule_, 0, 1, 1⟩, ⟨.rulestart, 0, 1, 0⟩]).Order =
      .ok ([⟨.rule_, 0, 1, 1⟩, ⟨.rulestart, 0, 1, 0⟩],
        [[⟨.rulestart, 0, 1, 1⟩, token32.zero], [⟨.rule_, 0, 1, 0⟩, token32.zero],
         [token32.zero]]) := by
  have h := Order_groups (tokens16.mk 4 [⟨.rule_, 0, 1, 1⟩, ⟨.rulestart, 0, 1, 0⟩])
    (tokens32.mk 4 [⟨.rule_, 0, 1, 1⟩, ⟨.rulestart, 0, 1, 0⟩])
    (by decide) (by decide) (by decide) (by decide)
  refine ⟨h.1.1.trans ?_, h.2.1.trans ?_⟩ <;> decide

/-- Counterexample to C32 as stated: on a store that holds a record of depth
32767, `Order()` returns nothing, the slice `depths[:depth+1]` being beyond the
capacity `math.MaxInt16` of `depths`; and a record that stands after a record
of rule `ruleUnknown` is in no group, the store being cut at that record. -/
theorem Order_out_of_range :
    (tokens32.mk 1 [⟨.ruleconnection, 0, 1, 32767⟩]).Order = .error .sliceOutOfRange ∧
    (tokens16.mk 1 [⟨.ruleconnection, 0, 1, 32767⟩]).Order = .error .sliceOutOfRange ∧
    (tokens32.mk 3 [⟨.rule_, 0, 1, 0⟩, ⟨.ruleUnknown, 0, 0, 0⟩, ⟨.rulestart, 0, 1, 0⟩]).Order =
      .ok ([⟨.rule_, 0, 1, 0⟩], [[⟨.rule_, 0, 1, 0⟩, token32.zero], [token32.zero]]) := by
  decide

/-! ## The captured text of an `INPORT=` or `OUTPORT=` line -/

theorem matchChar_test (buffer : List Nat) (ch : Char) :
    CharTest buffer (fun r => decide (r = ch.toNat)) (matchChar buffer ch) := by
  intro s s1 h
  obtain ⟨h1, h2⟩ := matchChar_true h
  exact ⟨by rw [h2], ch.toNat, h1, by simp⟩

theorem matchRange_test (buffer : List Nat) (lo hi : Char) :
    CharTest buffer (fun r => decide (lo.toNat ≤ r ∧ r ≤ hi.toNat)) (matchRange buffer lo hi) := by
  intro s s1 h
  unfold matchRange indexAt at h
  rw [List.get?_eq_getElem?] at h
  cases hx : buffer[s.position]? with
  | none => simp [hx] at h
  | some r =>
    simp only [hx] at h
    by_cases hr : r < lo.toNat ∨ r > hi.toNat
    · simp [hr] at h
    · rw [if_neg hr] at h
      injection h with h
      injection h with _ h
      subst h
      exact ⟨rfl, r, rfl, by simp; omega⟩

theorem CharTest.mono {buffer : List Nat} {P Q : Nat → Bool} {c : Code}
    (h : CharTest buffer P c) (hpq : ∀ r, P r = true → Q r = true) : CharTest buffer Q c := by
  intro s s1 hc
  obtain ⟨h1, r, h2, h3⟩ := h s s1 hc
  exact ⟨h1, r, h2, hpq r h3⟩

theorem choice_cons_test {buffer : List Nat} {P : Nat → Bool} {c d : Code} {cs : List Code}
    (hc : CharTest buffer P c) (hr : CharTest buffer P (choice (d :: cs))) :
    CharTest buffer P (choice (c :: d :: cs)) := by
  intro s s1 h
  cases hx : c s with
  | error f => simp [choice, hx] at h
  | ok r =>
    obtain ⟨b1, s2⟩ := r
    cases b1
    · simp only [choice, hx] at h
      exact hr (restore s s2) s1 h
    · simp only [choice, hx] at h
      injection h with h
      injection h with _ h
      subst h
      exact hc s s2 hx

theorem star_test {buffer : List Nat} {P : Nat → Bool} {c : Code} (hc : CharTest buffer P c) :
    ∀ (fuel : Nat) (s e : Engine), star fuel c s = .ok (true, e) →
      s.position ≤ e.position ∧
      ∀ i, s.position ≤ i → i < e.position → ∃ r, buffer[i]? = some r ∧ P r = true := by
  intro fuel
  induction fuel with
  | zero => intro s e h; cases h
  | succ fuel ih =>
    intro s e h
    cases hx : c s with
    | error f => simp [star, hx] at h
    | ok r =>
      obtain ⟨b1, s1⟩ := r
      cases b1
      · simp only [star, hx] at h
        injection h with h
        injection h with _ h
        subst h
        exact ⟨le_refl _, fun i h1 h2 => by simp only [restore] at h2; omega⟩
      · simp only [star, hx] at h
        obtain ⟨h1, r, h2, h3⟩ := hc s s1 hx
        obtain ⟨h4, h5⟩ := ih s1 e h
        refine ⟨by omega, ?_⟩
        intro i hi1 hi2
        by_cases hi : i = s.position
        · subst hi; exact ⟨r, h2, h3⟩
        · exact h5 i (by omega) hi2

theorem plus_test {buffer : List Nat} {P : Nat → Bool} {c : Code} (hc : CharTest buffer P c)
    (fuel : Nat) (s e : Engine) (h : plus fuel c s = .ok (true, e)) :
    s.position < e.position ∧
    ∀ i, s.position ≤ i → i < e.position → ∃ r, buffer[i]? = some r ∧ P r = true := by
  unfold plus at h
  obtain ⟨s1, h1, h2⟩ := seq_cons_true h
  obtain ⟨s2, h3, h4⟩ := seq_cons_true h2
  have := seq_nil_true h4
  subst this
  obtain ⟨a1, r, a2, a3⟩ := hc s s1 h1
  obtain ⟨b1, b2⟩ := star_test hc fuel s1 _ h3
  refine ⟨by omega, ?_⟩
  intro i hi1 hi2
  by_cases hi : i = s.position
  · subst hi; exact ⟨r, a2, a3⟩
  · exact b2 i (by omega) hi2

theorem nameClass_test (buffer : List Nat) :
    CharTest buffer isNameRune (choice [matchRange buffer 'A' 'Z', matchRange buffer 'a' 'z',
      matchRange buffer '0' '9', matchChar buffer '_']) := by
  have e1 : 'A'.toNat = 65 := rfl
  have e2 : 'Z'.toNat = 90 := rfl
  have e3 : 'a'.toNat = 97 := rfl
  have e4 : 'z'.toNat = 122 := rfl
  have e5 : '0'.toNat = 48 := rfl
  have e6 : '9'.toNat = 57 := rfl
  have e7 : '_'.toNat = 95 := rfl
  refine choice_cons_test ((matchRange_test buffer 'A' 'Z').mono ?_)
    (choice_cons_test ((matchRange_test buffer 'a' 'z').mono ?_)
      (choice_cons_test ((matchRange_test buffer '0' '9').mono ?_)
        ((matchChar_test buffer '_').mono ?_))) <;>
  · intro r hr
    simp only [decide_eq_true_eq, e1, e2, e3, e4, e5, e6, e7] at hr
    simp only [isNameRune, decide_eq_true_eq]
    omega

theorem portClass_test (buffer : List Nat) :
    CharTest buffer isPortRune (choice [matchRange buffer 'A' 'Z', matchRange buffer '0' '9',
      matchChar buffer '_']) := by
  have e1 : 'A'.toNat = 65 := rfl
  have e2 : 'Z'.toNat = 90 := rfl
  have e5 : '0'.toNat = 48 := rfl
  have e6 : '9'.toNat = 57 := rfl
  have e7 : '_'.toNat = 95 := rfl
  refine choice_cons_test ((matchRange_test buffer 'A' 'Z').mono ?_)
    (choice_cons_test ((matchRange_test buffer '0' '9').mono ?_)
      ((matchChar_test buffer '_').mono ?_)) <;>
  · intro r hr
    simp only [decide_eq_true_eq, e1, e2, e5, e6, e7] at hr
    simp only [isPortRune, decide_eq_true_eq]
    omega

theorem add_position {rule : pegRule} {begin : Nat} {s e : Engine} {b : Bool}
    (h : add rule begin s = .ok (b, e)) : e.position = s.position := by
  unfold add at h
  simp only at h
  split at h
  · cases h
  · injection h with h
    injection h with _ h
    subst h
    rfl

/-- What the captured part of an `INPORT=` or `OUTPORT=` line has matched when
it succeeds: runes of the name class, a `.`, runes of the port class, a `:`,
runes of the port class, none of the three runs empty. -/
theorem exported_true (buffer : List Nat) (fuel : Nat) (s e : Engine)
    (h : rules.exported buffer fuel s = .ok (true, e)) :
    ∃ p1 p2, s.position < p1 ∧ p1 + 1 < p2 ∧ p2 + 1 < e.position ∧
      buffer[p1]? = some 46 ∧ buffer[p2]? = some 58 ∧
      (∀ i, s.position ≤ i → i < p1 → ∃ r, buffer[i]? = some r ∧ isNameRune r = true) ∧
      (∀ i, p1 + 1 ≤ i → i < p2 → ∃ r, buffer[i]? = some r ∧ isPortRune r = true) ∧
      (∀ i, p2 + 1 ≤ i → i < e.position → ∃ r, buffer[i]? = some r ∧ isPortRune r = true) := by
  unfold rules.exported at h
  obtain ⟨s0, h0, ha⟩ := tagged_true h
  have hp := add_position ha
  simp only at hp
  obtain ⟨s1, g1, h1⟩ := seq_cons_true h0
  obtain ⟨s2, g2, h2⟩ := seq_cons_true h1
  obtain ⟨s3, g3, h3⟩ := seq_cons_true h2
  obtain ⟨s4, g4, h4⟩ := seq_cons_true h3
  obtain ⟨s5, g5, h5⟩ := seq_cons_true h4
  have := seq_nil_true h5
  subst this
  obtain ⟨a1, a2⟩ := plus_test (nameClass_test buffer) fuel _ s1 g1
  obtain ⟨b1, b2⟩ := matchChar_true g2
  obtain ⟨c1, c2⟩ := plus_test (portClass_test buffer) fuel _ s3 g3
  obtain ⟨d1, d2⟩ := matchChar_true g4
  obtain ⟨e1, e2⟩ := plus_test (portClass_test buffer) fuel _ s0 g5
  have hs2 : s2.position = s1.position + 1 := by rw [b2]
  have hs4 : s4.position = s3.position + 1 := by rw [d2]
  simp only at a1 a2
  refine ⟨s1.position, s3.position, a1, by omega, by omega, b1, d1, a2, ?_, ?_⟩
  · intro i hi1 hi2
    exact c2 i (by omega) hi2
  · intro i hi1 hi2
    exact e2 i (by omega) (by omega)

theorem capturedText_split (buffer : List Nat) (b m e : Nat) (h1 : b ≤ m) (h2 : m ≤ e) :
    capturedText buffer b e = capturedText buffer b m ++ capturedText buffer m e := by
  unfold capturedText
  rw [← List.map_append]
  congr 1
  have he : e - b = (m - b) + (e - m) := by omega
  have hm : m = b + (m - b) := by omega
  rw [he, List.take_add, List.drop_drop]
  congr 3
  omega

theorem capturedText_one (buffer : List Nat) (p r : Nat) (h : buffer[p]? = some r) :
    capturedText buffer p (p + 1) = [UInt8.ofNat r] := by
  unfold capturedText
  have hlt : p < buffer.length := by
    by_contra hc
    rw [List.getElem?_eq_none (by omega)] at h
    cases h
  have hr : buffer[p] = r := by
    rw [List.getElem?_eq_getElem hlt] at h
    exact Option.some.inj h
  rw [Nat.add_sub_cancel_left, List.drop_eq_getElem_cons hlt, hr]
  simp

theorem capturedText_mem (buffer : List Nat) (b e : Nat) (x : UInt8)
    (h : x ∈ capturedText buffer b e) :
    ∃ i r, b ≤ i ∧ i < e ∧ buffer[i]? = some r ∧ x = UInt8.ofNat r := by
  unfold capturedText at h
  obtain ⟨r, hr, hx⟩ := List.mem_map.1 h
  obtain ⟨k, hk⟩ := List.mem_iff_getElem?.1 hr
  have hk1 : k < e - b := by
    by_contra hc
    rw [List.getElem?_take_eq_none (by omega)] at hk
    cases hk
  rw [List.getElem?_take_of_lt hk1, List.getElem?_drop] at hk
  exact ⟨b + k, r, by omega, by omega, hk, hx.symm⟩

theorem capturedText_ne_nil (buffer : List Nat) (b e r : Nat) (h : b < e)
    (hb : buffer[b]? = some r) : capturedText buffer b e ≠ [] := by
  rw [capturedText_split buffer b (b + 1) e (by omega) (by omega), capturedText_one buffer b r hb]
  simp

theorem nameRune_byte : ∀ r, r < 128 → isNameRune r = true → isNameByte (UInt8.ofNat r) = true := by
  decide!

theorem nameRune_lt (r : Nat) (h : isNameRune r = true) : r < 128 := by
  simp only [isNameRune, decide_eq_true_eq] at h
  omega

theorem portRune_name (r : Nat) (h : isPortRune r = true) : isNameRune r = true := by
  simp only [isPortRune, decide_eq_true_eq] at h
  simp only [isNameRune, decide_eq_true_eq]
  omega

theorem capturedText_name (buffer : List Nat) (b e : Nat)
    (h : ∀ i, b ≤ i → i < e → ∃ r, buffer[i]? = some r ∧ isNameRune r = true) :
    ∀ x ∈ capturedText buffer b e, isNameByte x = true := by
  intro x hx
  obtain ⟨i, r, h1, h2, h3, h4⟩ := capturedText_mem buffer b e x hx
  obtain ⟨r1, h5, h6⟩ := h i h1 h2
  rw [h3] at h5
  cases h5
  rw [h4]
  exact nameRune_byte r (nameRune_lt r h6) h6

/-- The runes matched by the captured part of an `INPORT=` or `OUTPORT=` line
are `P.X:N` with `P`, `X` and `N` not empty and made of letters, digits and
`_`: exactly one `:` and exactly one `.`, the `.` before the `:`, and
`parseExportedPort` applied to these runes as a text returns, without indexing
out of range, the name `N` and the endpoint of process `P` (qualified by the
subgraph) and port `X`, none of them empty. -/
theorem exported_text (buffer : List Nat) (fuel : Nat) (s e : Engine) (self : BaseFbp)
    (h : rules.exported buffer fuel s = .ok (true, e)) :
    ∃ P X N : GoString,
      capturedText buffer s.position e.position = P ++ str "." ++ X ++ str ":" ++ N ∧
      P ≠ [] ∧ X ≠ [] ∧ N ≠ [] ∧
      (∀ b ∈ P ++ X ++ N, isNameByte b = true ∧ b ≠ 46 ∧ b ≠ 58) ∧
      (capturedText buffer s.position e.position).count 58 = 1 ∧
      (capturedText buffer s.position e.position).count 46 = 1 ∧
      self.parseExportedPort (capturedText buffer s.position e.position) =
        .ok (N, some ⟨self.createProcessName P, X⟩) ∧
      self.createProcessName P ≠ [] := by
  obtain ⟨p1, p2, h1, h2, h3, h4, h5, h6, h7, h8⟩ := exported_true buffer fuel s e h
  have hd : str "." = [(46 : UInt8)] := by decide
  have hc : str ":" = [(58 : UInt8)] := by decide
  have hsplit : capturedText buffer s.position e.position =
      capturedText buffer s.position p1 ++ str "." ++ capturedText buffer (p1 + 1) p2 ++ str ":" ++
        capturedText buffer (p2 + 1) e.position := by
    rw [capturedText_split buffer s.position p1 e.position (by omega) (by omega),
      capturedText_split buffer p1 (p1 + 1) e.position (by omega) (by omega),
      capturedText_split buffer (p1 + 1) p2 e.position (by omega) (by omega),
      capturedText_split buffer p2 (p2 + 1) e.position (by omega) (by omega),
      capturedText_one buffer p1 46 h4, capturedText_one buffer p2 58 h5, hd, hc]
    simp
  have nP := capturedText_name buffer s.position p1 h6
  have nX := capturedText_name buffer (p1 + 1) p2
    (fun i a b => (h7 i a b).imp (fun r hr => ⟨hr.1, portRune_name r hr.2⟩))
  have nN := capturedText_name buffer (p2 + 1) e.position
    (fun i a b => (h8 i a b).imp (fun r hr => ⟨hr.1, portRune_name r hr.2⟩))
  obtain ⟨r1, hr1, _⟩ := h6 s.position (le_refl _) h1
  obtain ⟨r2, hr2, _⟩ := h7 (p1 + 1) (le_refl _) h2
  obtain ⟨r3, hr3, _⟩ := h8 (p2 + 1) (le_refl _) h3
  have eP := capturedText_ne_nil buffer s.position p1 r1 h1 hr1
  have eX := capturedText_ne_nil buffer (p1 + 1) p2 r2 h2 hr2
  have eN := capturedText_ne_nil buffer (p2 + 1) e.position r3 h3 hr3
  have sP := name_no_separator _ nP
  have sX := name_no_separator _ nX
  have sN := name_no_separator _ nN
  refine ⟨_, _, _, hsplit, eP, eX, eN, ?_, ?_, ?_, ?_, ?_⟩
  · intro b hb
    simp only [List.mem_append] at hb
    rcases hb with (hb | hb) | hb
    · exact ⟨nP b hb, fun h => sP.1 (h ▸ hb), fun h => sP.2 (h ▸ hb)⟩
    · exact ⟨nX b hb, fun h => sX.1 (h ▸ hb), fun h => sX.2 (h ▸ hb)⟩
    · exact ⟨nN b hb, fun h => sN.1 (h ▸ hb), fun h => sN.2 (h ▸ hb)⟩
  · rw [hsplit, hd, hc]
    simp [List.count_append, List.count_eq_zero_of_not_mem sP.2,
      List.count_eq_zero_of_not_mem sX.2, List.count_eq_zero_of_not_mem sN.2]
  · rw [hsplit, hd, hc]
    simp [List.count_append, List.count_eq_zero_of_not_mem sP.1,
      List.count_eq_zero_of_not_mem sX.1, List.count_eq_zero_of_not_mem sN.1]
  · rw [hsplit]
    exact parseExportedPort_names self _ _ _ nP nX nN
  · unfold BaseFbp.createProcessName
    split
    · rename_i hsub
      intro h0
      exact hsub (List.append_eq_nil.1 (List.append_eq_nil.1 h0).1).1
    · exact eP

/-- Witness of `exported_text`: the captured part run on the buffer of `A.B:C`. -/
theorem exported_text_witness :
    rules.exported [65, 46, 66, 58, 67, 4] 6 ⟨0, 0, 0, .compact ⟨4, []⟩⟩ =
      .ok (true, ⟨5, 1, 0, .compact ⟨4, [⟨.rulePegText, 0, 5, 0⟩]⟩⟩) ∧
    capturedText [65, 46, 66, 58, 67, 4] 0 5 = str "A.B:C" ∧
    ∃ P X N : GoString,
      capturedText [65, 46, 66, 58, 67, 4] 0 5 = P ++ str "." ++ X ++ str ":" ++ N ∧
      (BaseFbp.empty []).parseExportedPort (capturedText [65, 46, 66, 58, 67, 4] 0 5) =
        .ok (N, some ⟨(BaseFbp.empty []).createProcessName P, X⟩) :=
  ⟨by decide!, by decide!,
    (exported_text [65, 46, 66, 58, 67, 4] 6 ⟨0, 0, 0, .compact ⟨4, []⟩⟩
      ⟨5, 1, 0, .compact ⟨4, [⟨.rulePegText, 0, 5, 0⟩]⟩⟩ (BaseFbp.empty []) (by decide!)).elim
      (fun P hP => hP.elim (fun X hX => hX.elim (fun N hN =>
        ⟨P, X, N, hN.1, hN.2.2.2.2.2.2.2.1⟩)))⟩

/-! ## Runs of a fragment at a given cursor -/

theorem seq_nil_succ (buffer : List Nat) (p : Nat) : Succeeds buffer (seq []) p p [] := by
  intro s hi hp
  exact ⟨s, rfl, Engine.Post.refl true hi, hp, by simp⟩

theorem seq_cons_succ {buffer : List Nat} {c : Code} {cs : List Code} {p q r : Nat}
    {e1 e2 : List Event} (h1 : Succeeds buffer c p q e1) (h2 : Succeeds buffer (seq cs) q r e2) :
    Succeeds buffer (seq (c :: cs)) p r (e1 ++ e2) := by
  intro s hi hp
  obtain ⟨s1, a1, a2, a3, a4⟩ := h1 s hi hp
  obtain ⟨s2, b1, b2, b3, b4⟩ := h2 s1 (a2.inv hi) a3
  refine ⟨s2, by simp only [seq, a1, b1], a2.trans b2, b3, ?_⟩
  rw [b4, a4, List.append_assoc]

theorem seq_cons_fail_head {buffer : List Nat} {c : Code} {cs : List Code} {p : Nat}
    (h1 : Fails buffer c p) : Fails buffer (seq (c :: cs)) p := by
  intro s hi hp
  obtain ⟨s1, a1, a2⟩ := h1 s hi hp
  exact ⟨s1, by simp only [seq, a1], a2⟩

theorem seq_cons_fail_tail {buffer : List Nat} {c : Code} {cs : List Code} {p q : Nat}
    {e1 : List Event} (h1 : Succeeds buffer c p q e1) (h2 : Fails buffer (seq cs) q) :
    Fails buffer (seq (c :: cs)) p := by
  intro s hi hp
  obtain ⟨s1, a1, a2, a3, _⟩ := h1 s hi hp
  obtain ⟨s2, b1, b2⟩ := h2 s1 (a2.inv hi) a3
  exact ⟨s2, by simp only [seq, a1, b1], a2.trans b2⟩

theorem choice_nil_fail (buffer : List Nat) (p : Nat) : Fails buffer (choice []) p := by
  intro s hi _
  exact ⟨s, rfl, Engine.Post.refl false hi⟩

theorem choice_one_succ {buffer : List Nat} {c : Code} {p q : Nat} {e : List Event}
    (h : Succeeds buffer c p q e) : Succeeds buffer (choice [c]) p q e := h

theorem choice_one_fail {buffer : List Nat} {c : Code} {p : Nat}
    (h : Fails buffer c p) : Fails buffer (choice [c]) p := h

theorem choice_head_succ {buffer : List Nat} {c d : Code} {cs : List Code} {p q : Nat}
    {e : List Event} (h : Succeeds buffer c p q e) :
    Succeeds buffer (choice (c :: d :: cs)) p q e := by
  intro s hi hp
  obtain ⟨s1, a1, a2, a3, a4⟩ := h s hi hp
  exact ⟨s1, by simp only [choice, a1], a2, a3, a4⟩

theorem choice_skip_succ {buffer : List Nat} {c d : Code} {cs : List Code} {p q : Nat}
    {e : List Event} (h1 : Fails buffer c p) (h2 : Succeeds buffer (choice (d :: cs)) p q e) :
    Succeeds buffer (choice (c :: d :: cs)) p q e := by
  intro s hi hp
  obtain ⟨s1, a1, a2⟩ := h1 s hi hp
  have hr := a2.restore hi
  obtain ⟨s2, b1, b2, b3, b4⟩ := h2 (restore s s1) (hr.inv hi) hp
  refine ⟨s2, by simp only [choice, a1, b1], hr.trans b2, b3, ?_⟩
  rw [b4, a2.restore_committed]

theorem choice_skip_fail {buffer : List Nat} {c d : Code} {cs : List Code} {p : Nat}
    (h1 : Fails buffer c p) (h2 : Fails buffer (choice (d :: cs)) p) :
    Fails buffer (choice (c :: d :: cs)) p := by
  intro s hi hp
  obtain ⟨s1, a1, a2⟩ := h1 s hi hp
  have hr := a2.restore hi
  obtain ⟨s2, b1, b2⟩ := h2 (restore s s1) (hr.inv hi) hp
  exact ⟨s2, by simp only [choice, a1, b1], hr.trans b2⟩

theorem star_stop {buffer : List Nat} {c : Code} {p : Nat} (fuel : Nat)
    (h : Fails buffer c p) : Succeeds buffer (star (fuel + 1) c) p p [] := by
  intro s hi hp
  obtain ⟨s1, a1, a2⟩ := h s hi hp
  refine ⟨restore s s1, by simp only [star, a1], a2.restore hi, hp, ?_⟩
  rw [a2.restore_committed, List.append_nil]

theorem star_step {buffer : List Nat} {c : Code} {p q r : Nat} {e1 e2 : List Event} (fuel : Nat)
    (h1 : Succeeds buffer c p q e1) (h2 : Succeeds buffer (star fuel c) q r e2) :
    Succeeds buffer (star (fuel + 1) c) p r (e1 ++ e2) := by
  intro s hi hp
  obtain ⟨s1, a1, a2, a3, a4⟩ := h1 s hi hp
  obtain ⟨s2, b1, b2, b3, b4⟩ := h2 s1 (a2.inv hi) a3
  refine ⟨s2, by simp only [star, a1, b1], a2.trans b2, b3, ?_⟩
  rw [b4, a4, List.append_assoc]

theorem plus_fail {buffer : List Nat} {c : Code} {p : Nat} (fuel : Nat)
    (h : Fails buffer c p) : Fails buffer (plus fuel c) p :=
  seq_cons_fail_head h

theorem opt_succ {buffer : List Nat} {c : Code} {p q : Nat} {e : List Event}
    (h : Succeeds buffer c p q e) : Succeeds buffer (opt c) p q e := by
  intro s hi hp
  obtain ⟨s1, a1, a2, a3, a4⟩ := h s hi hp
  exact ⟨s1, by simp only [opt, a1], a2, a3, a4⟩

theorem opt_skip {buffer : List Nat} {c : Code} {p : Nat}
    (h : Fails buffer c p) : Succeeds buffer (opt c) p p [] := by
  intro s hi hp
  obtain ⟨s1, a1, a2⟩ := h s hi hp
  refine ⟨restore s s1, by simp only [opt, a1], a2.restore hi, hp, ?_⟩
  rw [a2.restore_committed, List.append_nil]

theorem notP_succ {buffer : List Nat} {c : Code} {p : Nat}
    (h : Fails buffer c p) : Succeeds buffer (notP c) p p [] := by
  intro s hi hp
  obtain ⟨s1, a1, a2⟩ := h s hi hp
  refine ⟨restore s s1, by simp only [notP, a1], a2.restore hi, hp, ?_⟩
  rw [a2.restore_committed, List.append_nil]

theorem notP_fail {buffer : List Nat} {c : Code} {p q : Nat} {e : List Event}
    (h : Succeeds buffer c p q e) : Fails buffer (notP c) p := by
  intro s hi hp
  obtain ⟨s1, a1, a2, _, _⟩ := h s hi hp
  exact ⟨s1, by simp only [notP, a1], a2.toFail⟩

theorem ruleFn_succ {buffer : List Nat} {c : Code} {p q : Nat} {e : List Event}
    (h : Succeeds buffer c p q e) : Succeeds buffer (ruleFn c) p q e := by
  intro s hi hp
  obtain ⟨s1, a1, a2, a3, a4⟩ := h s hi hp
  exact ⟨s1, by simp only [ruleFn, a1], a2, a3, a4⟩

theorem ruleFn_fails {buffer : List Nat} {c : Code} {p : Nat}
    (h : Fails buffer c p) : Fails buffer (ruleFn c) p := by
  intro s hi hp
  obtain ⟨s1, a1, a2⟩ := h s hi hp
  exact ⟨restore s s1, by simp only [ruleFn, a1], (a2.restore hi).toFail⟩

theorem tagged_fail {buffer : List Nat} {rule : pegRule} {c : Code} {p : Nat}
    (h : Fails buffer c p) : Fails buffer (tagged rule c) p := by
  intro s hi hp
  have hi0 : Engine.Inv buffer { s with depth := s.depth + 1 } := hi
  obtain ⟨s1, a1, a2⟩ := h { s with depth := s.depth + 1 } hi0 hp
  exact ⟨s1, by simp only [tagged, a1], ⟨a2.1, a2.2.1, a2.2.2.1, a2.2.2.2.1, fun hb => by cases hb⟩⟩

/-- A successful frame: the events of the body, then the event of the record
of the frame. -/
theorem tagged_run {buffer : List Nat} {rule : pegRule} {c : Code} {p q : Nat}
    {e : List Event} (h : Succeeds buffer c p q e) (s : Engine) (hi : Engine.Inv buffer s)
    (hp : s.position = p) :
    ∃ s2, tagged rule c s = .ok (true, s2) ∧ Engine.Post buffer s true s2 ∧ s2.position = q ∧
      events s2.committed = events s.committed ++
        (e ++ events [⟨rule, s2.tree.wrap p, s2.tree.wrap q, s2.tree.wrap s.depth⟩]) := by
  have hi0 : Engine.Inv buffer { s with depth := s.depth + 1 } := hi
  obtain ⟨s1, a1, a2, a3, a4⟩ := h { s with depth := s.depth + 1 } hi0 hp
  have hi1 : Engine.Inv buffer s1 := a2.inv hi0
  have hi2 : Engine.Inv buffer { s1 with depth := s1.depth - 1 } := hi1
  obtain ⟨s2, b1, b2, b3⟩ := add_post buffer rule s.position { s1 with depth := s1.depth - 1 } hi2
  obtain ⟨c1, c2, c3, c4⟩ := add_committed buffer rule s.position _ s2 hi2 b1
  obtain ⟨a5, a6, a7⟩ := a2.2.2.2.2 rfl
  simp only at a5 a6 a7 b3 c1 c2 c4
  refine ⟨s2, by simp only [tagged, a1, b1], ?_, by rw [b3, a3], ?_⟩
  · refine ⟨b2.1, le_trans a2.2.1 b2.2.1, b2.2.2.1, ?_, fun _ => ⟨?_, ?_, ?_⟩⟩
    · have h1 := b2.2.2.2.1
      simp only at h1
      have h2 := a2.2.2.2.1
      simp only at h2
      rw [← h2, ← take_eq_mono _ _ _ _ a6 h1]
    · rw [b3]; exact a5
    · have := (b2.2.2.2.2 rfl).2.1
      simp only at this
      omega
    · rw [c2, a7]; simp
  · have hc : ({ s1 with depth := s1.depth - 1 } : Engine).committed = s1.committed := rfl
    have hc0 : ({ s with depth := s.depth + 1 } : Engine).committed = s.committed := rfl
    have hd : s1.depth - 1 = s.depth := by rw [a7]; simp
    rw [c4, events_append, hc, a4, hc0, List.append_assoc, hp, a3, hd]

/-- A successful frame of a captured text, whose offsets are read back as
written when they are below 32768. -/
theorem tagged_text {buffer : List Nat} {c : Code} {p q : Nat}
    {e : List Event} (h : Succeeds buffer c p q e) (hpq : p ≤ q) (hq : q < 32768) :
    Succeeds buffer (tagged .rulePegText c) p q (e ++ [.text ⟨(p : Int), (q : Int)⟩]) := by
  intro s hi hp
  obtain ⟨s2, h1, h2, h3, h4⟩ := tagged_run h s hi hp
  refine ⟨s2, h1, h2, h3, ?_⟩
  rw [h4, tokenTree.wrap_small _ p (by omega), tokenTree.wrap_small _ q hq]
  rfl

/-- A successful frame of a rule that `Execute` has no case for. -/
theorem tagged_plain {buffer : List Nat} {rule : pegRule} {c : Code} {p q : Nat}
    {e : List Event} (h : Succeeds buffer c p q e) (hr : event ⟨rule, 0, 0, 0⟩ = none) :
    Succeeds buffer (tagged rule c) p q e := by
  intro s hi hp
  obtain ⟨s2, h1, h2, h3, h4⟩ := tagged_run h s hi hp
  refine ⟨s2, h1, h2, h3, ?_⟩
  rw [h4]
  congr 1
  have : events [⟨rule, s2.tree.wrap p, s2.tree.wrap q, s2.tree.wrap s.depth⟩] = [] := by
    cases rule <;> first | rfl | cases hr
  rw [this, List.append_nil]

theorem action_succ (buffer : List Nat) (rule : pegRule) (p : Nat)
    (hr : isAction rule = true) : Succeeds buffer (action rule) p p [.act rule] := by
  intro s hi hp
  obtain ⟨s2, b1, b2, b3⟩ := add_post buffer rule s.position s hi
  obtain ⟨_, _, _, c4⟩ := add_committed buffer rule s.position s s2 hi b1
  refine ⟨s2, b1, b2, by rw [b3, hp], ?_⟩
  rw [c4, events_append]
  congr 1
  cases rule <;> first | rfl | cases hr

theorem matchChar_succ {buffer : List Nat} (hs : Sentinel buffer) (ch : Char) (p : Nat)
    (h : buffer[p]? = some ch.toNat) (hc : ch.toNat ≠ end_symbol) :
    Succeeds buffer (matchChar buffer ch) p (p + 1) [] := by
  intro s hi hp
  subst hp
  refine ⟨{ s with position := s.position + 1 }, ?_, advance_post hs s hi _ h hc true, rfl, ?_⟩
  · simp [matchChar, indexAt_get _ _ _ h]
  · simp [Engine.committed]

theorem matchChar_fail {buffer : List Nat} (ch : Char) (p r : Nat)
    (h : buffer[p]? = some r) (hc : r ≠ ch.toNat) : Fails buffer (matchChar buffer ch) p := by
  intro s hi hp
  subst hp
  exact ⟨s, by simp [matchChar, indexAt_get _ _ _ h, hc], Engine.Post.refl false hi⟩

theorem matchRange_fail {buffer : List Nat} (lo hi : Char) (p r : Nat)
    (h : buffer[p]? = some r) (hc : r < lo.toNat ∨ r > hi.toNat) :
    Fails buffer (matchRange buffer lo hi) p := by
  intro s hi0 hp
  subst hp
  exact ⟨s, by simp [matchRange, indexAt_get _ _ _ h, hc], Engine.Post.refl false hi0⟩

theorem matchDot_succ {buffer : List Nat} (hs : Sentinel buffer) (p r : Nat)
    (h : buffer[p]? = some r) (hc : r ≠ end_symbol) :
    Succeeds buffer (matchDot buffer) p (p + 1) [] := by
  intro s hi hp
  subst hp
  refine ⟨{ s with position := s.position + 1 }, ?_, advance_post hs s hi _ h hc true, rfl, ?_⟩
  · simp [matchDot, indexAt_get _ _ _ h, hc]
  · simp [Engine.committed]

theorem matchDot_fail {buffer : List Nat} (p : Nat) (h : buffer[p]? = some end_symbol) :
    Fails buffer (matchDot buffer) p := by
  intro s hi hp
  subst hp
  exact ⟨s, by simp [matchDot, indexAt_get _ _ _ h], Engine.Post.refl false hi⟩

/-! ## The grammar on an input that is one quoted literal -/

/-- Rule `_` at a rune that is neither a space nor a tab matches the empty text. -/
theorem rule__stop {buffer : List Nat} (fuel p r : Nat) (hf : 0 < fuel)
    (hr : buffer[p]? = some r) (h1 : r ≠ 32) (h2 : r ≠ 9) :
    Succeeds buffer (rules.rule_ buffer fuel) p p [] := by
  obtain ⟨fuel, rfl⟩ : ∃ f, fuel = f + 1 := ⟨fuel - 1, by omega⟩
  unfold rules.rule_
  refine tagged_plain (star_stop fuel ?_) rfl
  exact choice_skip_fail (matchChar_fail _ p r hr (by simpa using h1))
    (choice_one_fail (matchChar_fail _ p r hr (by simpa using h2)))

theorem keyword_fails {buffer : List Nat} (l : Char × Char) (ls : List (Char × Char))
    (p r : Nat) (hr : buffer[p]? = some r) (h1 : r ≠ l.1.toNat) (h2 : r ≠ l.2.toNat) :
    Fails buffer (rules.keyword buffer (l :: ls)) p := by
  unfold rules.keyword
  simp only [List.map_cons, List.cons_append]
  exact seq_cons_fail_head (choice_skip_fail (matchChar_fail _ p r hr h1)
    (choice_one_fail (matchChar_fail _ p r hr h2)))

theorem port_fails {buffer : List Nat} (fuel p r : Nat) (hr : buffer[p]? = some r)
    (h : r = 39 ∨ r = 4) : Fails buffer (rules.port buffer fuel) p := by
  unfold rules.port
  rcases h with h | h <;> subst h <;>
  repeat' (with_reducible first
    | exact matchChar_fail _ p _ hr (by decide)
    | exact matchRange_fail _ _ p _ hr (by decide)
    | apply seq_cons_fail_head
    | apply choice_one_fail
    | apply choice_skip_fail
    | apply tagged_fail
    | apply ruleFn_fails
    | apply plus_fail)

theorem portWithIndex_fails {buffer : List Nat} (fuel p r : Nat) (hr : buffer[p]? = some r)
    (h : r = 39 ∨ r = 4) : Fails buffer (rules.portWithIndex buffer fuel) p := by
  unfold rules.portWithIndex
  rcases h with h | h <;> subst h <;>
  repeat' (with_reducible first
    | exact matchChar_fail _ p _ hr (by decide)
    | exact matchRange_fail _ _ p _ hr (by decide)
    | apply seq_cons_fail_head
    | apply choice_one_fail
    | apply choice_skip_fail
    | apply tagged_fail
    | apply ruleFn_fails
    | apply plus_fail)

theorem node_fails {buffer : List Nat} (fuel p r : Nat) (hr : buffer[p]? = some r)
    (h : r = 39 ∨ r = 4) : Fails buffer (rules.node buffer fuel) p := by
  unfold rules.node
  rcases h with h | h <;> subst h <;>
  repeat' (with_reducible first
    | exact matchChar_fail _ p _ hr (by decide)
    | exact matchRange_fail _ _ p _ hr (by decide)
    | apply seq_cons_fail_head
    | apply choice_one_fail
    | apply choice_skip_fail
    | apply tagged_fail
    | apply ruleFn_fails
    | apply plus_fail)

theorem leftlet_fails {buffer : List Nat} (fuel p r : Nat) (hr : buffer[p]? = some r)
    (h : r = 39 ∨ r = 4) : Fails buffer (rules.leftlet buffer fuel) p := by
  unfold rules.leftlet
  repeat' (with_reducible first
    | exact node_fails fuel p r hr h
    | apply seq_cons_fail_head
    | apply choice_one_fail
    | apply choice_skip_fail
    | apply tagged_fail)

theorem rightlet_fails {buffer : List Nat} (fuel p r : Nat) (hr : buffer[p]? = some r)
    (h : r = 39 ∨ r = 4) : Fails buffer (rules.rightlet buffer fuel) p := by
  unfold rules.rightlet
  repeat' (with_reducible first
    | exact port_fails fuel p r hr h
    | exact portWithIndex_fails fuel p r hr h
    | apply seq_cons_fail_head
    | apply choice_one_fail
    | apply choice_skip_fail
    | apply tagged_fail)

theorem comment_fails {buffer : List Nat} (fuel p r : Nat) (hf : 0 < fuel)
    (hr : buffer[p]? = some r) (h : r = 39 ∨ r = 4) :
    Fails buffer (rules.comment buffer fuel) p := by
  unfold rules.comment
  rcases h with h | h <;> subst h <;>
  exact ruleFn_fails (tagged_fail (seq_cons_fail_tail
    (rule__stop fuel p _ hf hr (by decide) (by decide))
    (seq_cons_fail_head (matchChar_fail _ p _ hr (by decide)))))

theorem iip_fails {buffer : List Nat} (fuel p : Nat) (hr : buffer[p]? = some 4) :
    Fails buffer (rules.iip buffer fuel) p := by
  unfold rules.iip
  exact tagged_fail (seq_cons_fail_head (matchChar_fail _ p _ hr (by decide)))

theorem bridge_fails {buffer : List Nat} (fuel p : Nat) (hr : buffer[p]? = some 4) :
    Fails buffer (rules.bridge buffer fuel) p := by
  unfold rules.bridge
  repeat' (with_reducible first
    | exact port_fails fuel p 4 hr (Or.inr rfl)
    | exact iip_fails fuel p hr
    | exact leftlet_fails fuel p 4 hr (Or.inr rfl)
    | exact rightlet_fails fuel p 4 hr (Or.inr rfl)
    | apply seq_cons_fail_head
    | apply choice_one_fail
    | apply choice_skip_fail
    | apply tagged_fail
    | apply ruleFn_fails)

theorem connection_fails {buffer : List Nat} (fuel n p : Nat) (hr : buffer[p]? = some 4) :
    Fails buffer (rules.connection buffer fuel (n + 1)) p := by
  unfold rules.connection
  exact ruleFn_fails (tagged_fail (choice_skip_fail (seq_cons_fail_head (bridge_fails fuel p hr))
    (choice_one_fail (bridge_fails fuel p hr))))

/-- Rule `LineTerminator` at the sentinel matches the empty text. -/
theorem LineTerminator_empty {buffer : List Nat} (fuel p : Nat) (hf : 0 < fuel)
    (hr : buffer[p]? = some 4) :
    Succeeds buffer (rules.LineTerminator buffer fuel) p p [] := by
  unfold rules.LineTerminator
  exact ruleFn_succ (tagged_plain
    (seq_cons_succ (rule__stop fuel p 4 hf hr (by decide) (by decide))
      (seq_cons_succ (opt_skip (matchChar_fail _ p 4 hr (by decide)))
        (seq_cons_succ (opt_skip (comment_fails fuel p 4 hf hr (Or.inr rfl)))
          (seq_cons_succ (opt_skip (choice_skip_fail (matchChar_fail _ p 4 hr (by decide))
            (choice_one_fail (matchChar_fail _ p 4 hr (by decide))))) (seq_nil_succ _ _)))))
    rfl)

/-- Rule `iipchar` at a rune that is neither a quote, a backslash nor the
sentinel takes that rune. -/
theorem iipchar_succ {buffer : List Nat} (hs : Sentinel buffer) (p r : Nat)
    (hr : buffer[p]? = some r) (h1 : r ≠ 39) (h2 : r ≠ 92) (h3 : r ≠ 4) :
    Succeeds buffer (rules.iipchar buffer) p (p + 1) [] := by
  unfold rules.iipchar
  exact tagged_plain
    (choice_skip_succ (seq_cons_fail_head (matchChar_fail _ p r hr (by simpa using h2)))
      (choice_one_succ (seq_cons_succ (notP_succ (matchChar_fail _ p r hr (by simpa using h1)))
        (seq_cons_succ (matchDot_succ hs p r hr h3) (seq_nil_succ _ _)))))
    rfl

theorem iipchar_fails {buffer : List Nat} (hs : Sentinel buffer) (p : Nat)
    (hr : buffer[p]? = some 39) : Fails buffer (rules.iipchar buffer) p := by
  unfold rules.iipchar
  exact tagged_fail
    (choice_skip_fail (seq_cons_fail_head (matchChar_fail _ p 39 hr (by decide)))
      (choice_one_fail (seq_cons_fail_head
        (notP_fail (matchChar_succ hs (Char.ofNat 39) p hr (by decide))))))

theorem bridge_succ {buffer : List Nat} (fuel p q : Nat) (e : List Event)
    (hp : buffer[p]? = some 39) (hc : Succeeds buffer (rules.iip buffer fuel) p q e) :
    Succeeds buffer (rules.bridge buffer fuel) p q e := by
  unfold rules.bridge
  exact ruleFn_succ (tagged_plain
    (choice_skip_succ (seq_cons_fail_head (port_fails fuel p 39 hp (Or.inl rfl)))
      (choice_head_succ hc)) rfl)

theorem Succeeds.ofEq {buffer : List Nat} {c : Code} {p q : Nat} {e e1 : List Event}
    (h : Succeeds buffer c p q e) (he : e = e1) : Succeeds buffer c p q e1 := he ▸ h

set_option maxRecDepth 1000000 in
set_option maxHeartbeats 4000000 in
/-- Counterexample to C18 as stated: the inputs that are the literal texts
`a`, U+0004, `b`, then `a\` and then `a'b` between quotes are not accepted by
`Parse`. The first holds the sentinel character, at which the literal stops; in
the second the backslash takes the closing quote for an escaped one; in the
third the literal ends at the quote that is not escaped. -/
theorem literal_rejected :
    graphOf (str "'" ++ [97, 4, 98] ++ str "'") [] = some (false, [], []) ∧
    ((Fbp.new (str "'" ++ [97, 4, 98] ++ str "'") []).Init.Parse).toOption.map
      (fun r => r.2) = some false ∧
    graphOf (str "'" ++ str "a\\" ++ str "'") [] = some (false, [], []) ∧
    ((Fbp.new (str "'" ++ str "a\\" ++ str "'") []).Init.Parse).toOption.map
      (fun r => r.2) = some false ∧
    graphOf (str "'a'b'") [] = some (false, [], []) ∧
    ((Fbp.new (str "'a'b'") []).Init.Parse).toOption.map
      (fun r => r.2) = some false := by
  refine ⟨?_, ?_, ?_, ?_, ?_, ?_⟩ <;> decide!

/-! ## Byte offsets used as rune offsets: inputs with multi-byte characters -/

set_option maxRecDepth 1000000 in
set_option maxHeartbeats 4000000 in
/-- C14, the code at the failing input: on the comment line `# café` followed
by `A OUT -> IN B`, with the subgraph `S`, `Parse` and `Execute` succeed and the
Connection stored runs from process `S_` + line feed to process `S_` + space,
not from `S_A` to `S_B`: the offsets of the records count runes and `Execute`
slices the bytes of `Buffer` with them, one byte early after the two-byte `é`.
With `cafe` in place of `café` the names are `S_A` and `S_B`. -/
theorem subgraph_name_missliced :
    graphOf (str "# café\nA OUT -> IN B") (str "S") =
      some (true, [],
        [⟨[], some ⟨str "S_\n", str " OU"⟩, some ⟨str "S_ ", str " I"⟩⟩]) ∧
    graphOf (str "# cafe\nA OUT -> IN B") (str "S") =
      some (true, [],
        [⟨[], some ⟨str "S_A", str "OUT"⟩, some ⟨str "S_B", str "IN"⟩⟩]) := by
  decide!

set_option maxRecDepth 1000000 in
set_option maxHeartbeats 4000000 in
/-- C21, the code at the failing input: on the comment line `#é` followed by
the header line `INPORT=A.B:C`, `Parse` and `Execute` succeed and Inports has
one entry, keyed by the empty name, for the endpoint of process `=A` and port
`B`; no entry is keyed `C`. The captured text runs from rune 10 to rune 15 and
`Execute` slices the bytes 10 to 15 of `Buffer`, which are `=A.B:`. The same
holds of `OUTPORT=`; with `#e` in place of `#é` the entry is `C` for `(A, B)`. -/
theorem header_line_missliced :
    (testGraph (str "#é\nINPORT=A.B:C") []).toOption.map
        (fun r => (r.2, r.1.Inports.getD [], r.1.Outports.getD [])) =
      some (true, [([], ⟨str "=A", str "B"⟩)], []) ∧
    (testGraph (str "#é\nOUTPORT=A.B:C") []).toOption.map
        (fun r => (r.2, r.1.Inports.getD [], r.1.Outports.getD [])) =
      some (true, [], [([], ⟨str "=A", str "B"⟩)]) ∧
    (parsedTokens (str "#é\nINPORT=A.B:C")).filter
        (fun t => decide (t.pegRule = .rulePegText)) = [⟨.rulePegText, 10, 15, 2⟩] ∧
    (slice (str "#é\nINPORT=A.B:C") 10 15).toOption = some (str "=A.B:") ∧
    (testGraph (str "#e\nINPORT=A.B:C") []).toOption.map
        (fun r => (r.2, r.1.Inports.getD [], r.1.Outports.getD [])) =
      some (true, [(str "C", ⟨str "A", str "B"⟩)], []) := by
  refine ⟨?_, ?_, ?_, ?_, ?_⟩ <;> decide!

set_option maxRecDepth 1000000 in
set_option maxHeartbeats 4000000 in
/-- C39, the code at the failing input: on a comment line that holds thirteen
`é` and then ` xx:xx`, followed by the header line `INPORT=A.B:C`, `Parse`
succeeds, the captured text runs from rune 28 to rune 33, and `Execute` hands
the bytes 28 to 33 of `Buffer`, which are `xx:xx`, to `parseExportedPort`,
which panics at `parts[1]`: the text before the `:` has no `.`. -/
theorem exported_slice_panics :
    ((Fbp.new (str "#ééééééééééééé xx:xx\nINPORT=A.B:C") []).Init.Parse).toOption.map
        (fun r => r.2) = some true ∧
    (parsedTokens (str "#ééééééééééééé xx:xx\nINPORT=A.B:C")).filter
        (fun t => decide (t.pegRule = .rulePegText)) = [⟨.rulePegText, 28, 33, 2⟩] ∧
    capturedText (utf8.runes (str "#ééééééééééééé xx:xx\nINPORT=A.B:C")) 28 33 = str "A.B:C" ∧
    (slice (str "#ééééééééééééé xx:xx\nINPORT=A.B:C") 28 33).toOption = some (str "xx:xx") ∧
    (match (BaseFbp.empty []).parseExportedPort (str "xx:xx") with
      | .error f => some f
      | .ok _ => none) = some .indexOutOfRange ∧
    (match testGraph (str "#ééééééééééééé xx:xx\nINPORT=A.B:C") [] with
      | .error f => some f
      | .ok _ => none) = some .indexOutOfRange := by
  refine ⟨?_, ?_, ?_, ?_, ?_, ?_⟩ <;> decide!

/-! ## The text of an IIP, on an input of single-byte characters -/

/-- On an input of single-byte characters the rune buffer of `Init` starts with
the bytes of `Buffer` and has at most one rune more. -/
theorem Init_buffer_ascii (p : Fbp) (hascii : ∀ c ∈ p.Buffer, c.toNat < 128) :
    p.Init.buffer.take p.Buffer.length = p.Buffer.map UInt8.toNat ∧
    p.Init.buffer.length ≤ p.Buffer.length + 1 := by
  have hr := utf8.runes_ascii p.Buffer hascii
  rcases Init_buffer_runes p with h | h
  · rw [h, hr]
    exact ⟨List.take_of_length_le (by simp), by simp⟩
  · rw [h, hr]
    refine ⟨?_, by simp⟩
    rw [List.take_append_of_le_length (by simp), List.take_of_length_le (by simp)]

/-- The rune at a cursor below the length of an input of single-byte characters
is the byte of `Buffer` at that offset. -/
theorem Init_buffer_byte (p : Fbp) (hascii : ∀ c ∈ p.Buffer, c.toNat < 128) (i : Nat)
    (hi : i < p.Buffer.length) : p.Init.buffer[i]? = (p.Buffer[i]?).map UInt8.toNat := by
  have h := congrArg (fun l => l[i]?) (Init_buffer_ascii p hascii).1
  simpa [List.getElem?_take_of_lt hi] using h

/-- The slice of `Buffer` at an in-range span, for an input of single-byte
characters: its bytes are the runes of the buffer at the same offsets. -/
theorem Init_buffer_slice (p : Fbp) (hascii : ∀ c ∈ p.Buffer, c.toNat < 128) (b e : Nat)
    (he : e ≤ p.Buffer.length) :
    ((p.Buffer.drop b).take (e - b)).map UInt8.toNat = (p.Init.buffer.drop b).take (e - b) := by
  have h1 : (p.Init.buffer.drop b).take (e - b) =
      ((p.Init.buffer.take p.Buffer.length).drop b).take (e - b) := by
    rw [List.drop_take, List.take_take, Nat.min_eq_left (by omega)]
  rw [h1, (Init_buffer_ascii p hascii).1, List.map_take, List.map_drop]

/-- C15, amended: on an input of single-byte characters, of at
most 32767 of them, for every IIP literal accepted by the grammar (rule `iip`
succeeding from cursor `b` to cursor `e` of the rune buffer of `Init`), the
bytes of `Buffer` at `b` and at `e - 1` are the enclosing quotes, the events
committed are the captured text from `b + 1` to `e - 1` and Action7, and their
replay leaves the builder's current IIP equal to `Buffer[b+1 : e-1]`, whose
bytes are the runes matched between the quotes: the text between the enclosing
quotes exactly as it is written, an escaped quote `\'` left as the two
characters `\'`. -/
theorem iip_text (p : Fbp) (fuel : Nat) (s e : Engine)
    (hascii : ∀ c ∈ p.Buffer, c.toNat < 128)
    (hf : p.Init.buffer.length ≤ fuel) (hlen : p.Init.buffer.length ≤ 32768)
    (hi : Engine.Inv p.Init.buffer s)
    (h : rules.iip p.Init.buffer fuel s = .ok (true, e)) :
    (p.Buffer[s.position]?).map UInt8.toNat = some '\''.toNat ∧
    (p.Buffer[e.position - 1]?).map UInt8.toNat = some '\''.toNat ∧
    s.position + 2 ≤ e.position ∧ e.position ≤ p.Buffer.length ∧
    events e.committed = events s.committed ++
      [.text ⟨(s.position + 1 : Nat), (e.position - 1 : Nat)⟩, .act .ruleAction7] ∧
    ∃ text : GoString,
      slice p.Buffer (s.position + 1 : Nat) (e.position - 1 : Nat) = .ok text ∧
      text = (p.Buffer.drop (s.position + 1)).take (e.position - 1 - (s.position + 1)) ∧
      text.map UInt8.toNat =
        (p.Init.buffer.drop (s.position + 1)).take (e.position - 1 - (s.position + 1)) ∧
      ∀ (st : ExecuteState) (rest : List token32),
        Execute.loop p.Buffer st
          (([.text ⟨(s.position + 1 : Nat), (e.position - 1 : Nat)⟩, .act .ruleAction7] :
            List Event).map Event.token ++ rest) =
        Execute.loop p.Buffer
          ⟨(s.position + 1 : Nat), (e.position - 1 : Nat), { st.p with iip := text }⟩ rest := by
  obtain ⟨h1, h2, h3, h4, h5⟩ :=
    iip_events p.Init.buffer fuel (Init_sentinel p) hf hlen s e hi h
  have hB := (Init_buffer_ascii p hascii).2
  have hle : e.position ≤ p.Buffer.length := by omega
  have hv : (Span.mk (s.position + 1 : Nat) (e.position - 1 : Nat)).valid p.Buffer = true := by
    simp only [Span.valid, decide_eq_true_eq]
    omega
  refine ⟨?_, ?_, h3, hle, h5, _, slice_valid p.Buffer _ hv, ?_, ?_, ?_⟩
  · rw [← Init_buffer_byte p hascii _ (by omega)]; exact h1
  · rw [← Init_buffer_byte p hascii _ (by omega)]; exact h2
  · simp only [Span.text, Int.toNat_ofNat]
  · simp only [Span.text, Int.toNat_ofNat]
    exact Init_buffer_slice p hascii _ _ (by omega)
  · intro st rest
    simp only [List.map_cons, List.map_nil, List.cons_append, List.nil_append, loop_text,
      loop_act7 p.Buffer _ _ _ hv]

/-- Witness of `iip_text`: rule `iip` on the buffer of the input `'5s'`, from
cursor 0 to cursor 4; the text replayed is `Buffer[1:3]`, which is `5s`. -/
theorem iip_text_witness :
    rules.iip (Fbp.new (str "'5s'") []).Init.buffer 5 ⟨0, 0, 0, .compact ⟨8, []⟩⟩ =
      .ok (true, ⟨4, 5, 0, .compact ⟨8, [⟨.ruleiipchar, 1, 2, 2⟩, ⟨.ruleiipchar, 2, 3, 2⟩,
        ⟨.rulePegText, 1, 3, 1⟩, ⟨.ruleAction7, 4, 4, 1⟩, ⟨.ruleiip, 0, 4, 0⟩]⟩⟩) ∧
    ∃ text : GoString,
      slice (Fbp.new (str "'5s'") []).Buffer ((0 + 1 : Nat) : Int) ((4 - 1 : Nat) : Int) =
        .ok text ∧
      text = ((Fbp.new (str "'5s'") []).Buffer.drop (0 + 1)).take (4 - 1 - (0 + 1)) :=
  ⟨by decide!,
    (iip_text (Fbp.new (str "'5s'") []) 5 ⟨0, 0, 0, .compact ⟨8, []⟩⟩
      ⟨4, 5, 0, .compact ⟨8, [⟨.ruleiipchar, 1, 2, 2⟩, ⟨.ruleiipchar, 2, 3, 2⟩,
        ⟨.rulePegText, 1, 3, 1⟩, ⟨.ruleAction7, 4, 4, 1⟩, ⟨.ruleiip, 0, 4, 0⟩]⟩⟩
      (by decide) (by decide) (by decide) ⟨by decide, by decide, by decide⟩
      (by decide!)).2.2.2.2.2.elim (fun text ht => ⟨text, ht.1, ht.2.1⟩)⟩

/-! ## An input that is one literal, with blank lines and indentation around it -/

theorem Seg.append_iff (buffer : List Nat) (p : Nat) (a b : List Nat) :
    Seg buffer p (a ++ b) ↔ Seg buffer p a ∧ Seg buffer (p + a.length) b := by
  constructor
  · intro h
    constructor
    · intro i hi
      rw [h i (by simp; omega), List.getElem?_append_left hi]
    · intro i hi
      have := h (a.length + i) (by simp; omega)
      rw [List.getElem?_append_right (by omega)] at this
      rw [Nat.add_assoc, this]
      simp
  · rintro ⟨h1, h2⟩ i hi
    by_cases hia : i < a.length
    · rw [h1 i hia, List.getElem?_append_left hia]
    · have := h2 (i - a.length) (by simp at hi; omega)
      rw [List.getElem?_append_right (by omega), ← this]
      congr 1
      omega

theorem Seg.head {buffer : List Nat} {p r : Nat} {rest : List Nat}
    (h : Seg buffer p (r :: rest)) : buffer[p]? = some r := by
  have := h 0 (by simp)
  simpa using this

theorem Seg.tail {buffer : List Nat} {p r : Nat} {rest : List Nat}
    (h : Seg buffer p (r :: rest)) : Seg buffer (p + 1) rest := by
  intro i hi
  have := h (i + 1) (by simp; omega)
  rw [List.getElem?_cons_succ] at this
  rw [← this]
  congr 1
  omega

theorem Seg.whole (buffer : List Nat) : Seg buffer 0 buffer := by
  intro i _
  simp

theorem star_more (c : Code) :
    ∀ (f : Nat) (s s1 : Engine), star f c s = .ok (true, s1) →
      star (f + 1) c s = .ok (true, s1) := by
  intro f
  induction f with
  | zero => intro s s1 h; cases h
  | succ f ih =>
    intro s s1 h
    cases hx : c s with
    | error e => simp [star, hx] at h
    | ok r =>
      obtain ⟨b, s2⟩ := r
      cases b
      · simp only [star, hx] at h ⊢
        exact h
      · simp only [star, hx] at h
        have := ih s2 s1 h
        show star (f + 1 + 1) c s = _
        simp only [star, hx]
        exact this

theorem star_mono {buffer : List Nat} {c : Code} {p q : Nat} {e : List Event} {f : Nat}
    (h : Succeeds buffer (star f c) p q e) : ∀ k, Succeeds buffer (star (f + k) c) p q e := by
  intro k
  induction k with
  | zero => exact h
  | succ k ih =>
    intro s hi hp
    obtain ⟨s1, a1, a2, a3, a4⟩ := ih s hi hp
    exact ⟨s1, star_more c _ s s1 a1, a2, a3, a4⟩

theorem blank_succ {buffer : List Nat} (hs : Sentinel buffer) (p r : Nat)
    (hr : buffer[p]? = some r) (h : isBlank r = true) :
    Succeeds buffer (choice [matchChar buffer ' ', matchChar buffer '\t']) p (p + 1) [] := by
  simp only [isBlank, decide_eq_true_eq] at h
  rcases h with h | h <;> subst h
  · exact choice_head_succ (matchChar_succ hs ' ' p hr (by decide))
  · exact choice_skip_succ (matchChar_fail _ p 9 hr (by decide))
      (choice_one_succ (matchChar_succ hs '\t' p hr (by decide)))

theorem blank_fails {buffer : List Nat} (p r : Nat)
    (hr : buffer[p]? = some r) (h : isBlank r = false) :
    Fails buffer (choice [matchChar buffer ' ', matchChar buffer '\t']) p := by
  simp only [isBlank, decide_eq_false_iff_not, not_or] at h
  exact choice_skip_fail (matchChar_fail _ p r hr (by simpa using h.1))
    (choice_one_fail (matchChar_fail _ p r hr (by simpa using h.2)))

/-- Rule `_` over a run of blanks that a rune other than a blank follows. -/
theorem rule__run {buffer : List Nat} (hs : Sentinel buffer) (fuel p r : Nat) (bl : List Nat)
    (hf : bl.length < fuel) (hb : Seg buffer p bl) (hbl : ∀ x ∈ bl, isBlank x = true)
    (hr : buffer[p + bl.length]? = some r) (hn : isBlank r = false) :
    Succeeds buffer (rules.rule_ buffer fuel) p (p + bl.length) [] := by
  unfold rules.rule_
  refine tagged_plain ?_ rfl
  induction bl generalizing p fuel with
  | nil =>
    obtain ⟨fuel, rfl⟩ : ∃ f, fuel = f + 1 := ⟨fuel - 1, by simp at hf; omega⟩
    exact star_stop fuel (blank_fails p r (by simpa using hr) hn)
  | cons x rest ih =>
    obtain ⟨fuel, rfl⟩ : ∃ f, fuel = f + 1 := ⟨fuel - 1, by omega⟩
    have hrest := ih fuel (p + 1) (by simp at hf; omega) hb.tail
      (fun y hy => hbl y (List.mem_cons_of_mem _ hy))
      (by rw [← hr]; congr 1; simp; omega)
    have he : p + (x :: rest).length = p + 1 + rest.length := by simp; omega
    rw [he]
    exact star_step fuel (blank_succ hs p x hb.head (hbl x (List.mem_cons_self _ _))) hrest

/-- Rule `iipchar` at a backslash that a quote follows takes both. -/
theorem iipchar_pair {buffer : List Nat} (hs : Sentinel buffer) (p : Nat)
    (h1 : buffer[p]? = some 92) (h2 : buffer[p + 1]? = some 39) :
    Succeeds buffer (rules.iipchar buffer) p (p + 1 + 1) [] := by
  unfold rules.iipchar
  exact tagged_plain
    (choice_head_succ (seq_cons_succ (matchChar_succ hs (Char.ofNat 92) p h1 (by decide))
      (seq_cons_succ (matchChar_succ hs (Char.ofNat 39) (p + 1) h2 (by decide))
        (seq_nil_succ _ _))))
    rfl

/-- Rule `iipchar` at a backslash that a rune other than a quote follows takes
the backslash alone. -/
theorem iipchar_backslash {buffer : List Nat} (hs : Sentinel buffer) (p r1 : Nat)
    (h1 : buffer[p]? = some 92) (h2 : buffer[p + 1]? = some r1) (hne : r1 ≠ 39) :
    Succeeds buffer (rules.iipchar buffer) p (p + 1) [] := by
  unfold rules.iipchar
  exact tagged_plain
    (choice_skip_succ
      (seq_cons_fail_tail (matchChar_succ hs (Char.ofNat 92) p h1 (by decide))
        (seq_cons_fail_head (matchChar_fail _ (p + 1) r1 h2 (by simpa using hne))))
      (choice_one_succ (seq_cons_succ (notP_succ (matchChar_fail _ p 92 h1 (by decide)))
        (seq_cons_succ (matchDot_succ hs p 92 h1 (by decide)) (seq_nil_succ _ _)))))
    rfl

/-- The loop `iipchar*` over a literal text that the closing quote follows. -/
theorem star_literal {buffer : List Nat} (hs : Sentinel buffer) :
    ∀ (n : Nat) (T : List Nat) (k fuel : Nat), T.length ≤ n → T.length < fuel →
      literalText T = true → Seg buffer k T → buffer[k + T.length]? = some 39 →
      Succeeds buffer (star fuel (rules.iipchar buffer)) k (k + T.length) [] := by
  intro n
  induction n with
  | zero =>
    intro T k fuel hn hf _ _ hq
    have hT : T = [] := List.length_eq_zero.1 (by omega)
    subst hT
    obtain ⟨fuel, rfl⟩ : ∃ f, fuel = f + 1 := ⟨fuel - 1, by simp at hf; omega⟩
    exact star_stop fuel (iipchar_fails hs k (by simpa using hq))
  | succ n ih =>
    intro T k fuel hn hf hT hseg hq
    obtain ⟨fuel, rfl⟩ : ∃ f, fuel = f + 1 := ⟨fuel - 1, by omega⟩
    match T, hn, hf, hT, hseg, hq with
    | [], _, _, _, _, hq => exact star_stop fuel (iipchar_fails hs k (by simpa using hq))
    | [r], _, hf, hT, hseg, hq =>
      simp only [literalText, decide_eq_true_eq] at hT
      have hq1 : buffer[k + 1]? = some 39 := by simpa using hq
      have hrest := ih [] (k + 1) fuel (by simp) (by simp at hf ⊢; omega) rfl
        (by intro i hi; simp at hi) (by simpa using hq1)
      exact star_step fuel (iipchar_succ hs k r hseg.head hT.1 hT.2.1 hT.2.2)
        (by simpa using hrest)
    | r :: r1 :: rest, hn, hf, hT, hseg, hq =>
      have h0 := hseg.head
      have h1 := hseg.tail.head
      simp only [List.length_cons] at hn hf hq
      by_cases hp : r = 92 ∧ r1 = 39
      · obtain ⟨hp1, hp2⟩ := hp
        subst hp1; subst hp2
        simp only [literalText, and_self, if_true] at hT
        have hrest := ih rest (k + 1 + 1) fuel (by omega) (by omega) hT hseg.tail.tail
          (by rw [← hq]; congr 1; omega)
        have he : k + (rest.length + 1 + 1) = k + 1 + 1 + rest.length := by omega
        simp only [List.length_cons]
        rw [he]
        exact star_step fuel (iipchar_pair hs k h0 h1) hrest
      · simp only [literalText, if_neg hp, Bool.and_eq_true, decide_eq_true_eq] at hT
        obtain ⟨⟨hr39, hr4⟩, hT1⟩ := hT
        have hrest := ih (r1 :: rest) (k + 1) fuel (by simp; omega) (by simp; omega) hT1
          hseg.tail (by rw [← hq]; congr 1; simp; omega)
        have he : k + (rest.length + 1 + 1) = k + 1 + (r1 :: rest).length := by simp; omega
        simp only [List.length_cons]
        rw [he]
        have hone : Succeeds buffer (rules.iipchar buffer) k (k + 1) [] := by
          by_cases hb : r = 92
          · subst hb
            exact iipchar_backslash hs k r1 h0 h1 (fun h => hp ⟨rfl, h⟩)
          · exact iipchar_succ hs k r h0 hr39 hb hr4
        exact star_step fuel hone hrest

/-- Rule `iip` on a literal: a quote at `p`, a literal text, a quote at `q`. -/
theorem iip_literal {buffer : List Nat} (hs : Sentinel buffer) (fuel p : Nat) (T : List Nat)
    (hf : T.length < fuel) (hp : buffer[p]? = some 39) (hT : literalText T = true)
    (hseg : Seg buffer (p + 1) T) (hq : buffer[p + 1 + T.length]? = some 39)
    (hlen : p + 1 + T.length + 1 < 32768) :
    Succeeds buffer (rules.iip buffer fuel) p (p + 1 + T.length + 1)
      [.text ⟨((p + 1 : Nat) : Int), ((p + 1 + T.length : Nat) : Int)⟩, .act .ruleAction7] := by
  unfold rules.iip
  exact tagged_plain
    (seq_cons_succ (matchChar_succ hs (Char.ofNat 39) p hp (by decide))
      (seq_cons_succ (tagged_text (star_literal hs T.length T (p + 1) fuel (le_refl _) hf hT
          hseg hq) (by omega) (by omega))
        (seq_cons_succ (matchChar_succ hs (Char.ofNat 39) (p + 1 + T.length) hq (by decide))
          (seq_cons_succ (action_succ buffer .ruleAction7 _ rfl) (seq_nil_succ _ _)))))
    rfl

theorem comment_fails_at {buffer : List Nat} (fuel p j r : Nat)
    (hb : Succeeds buffer (rules.rule_ buffer fuel) p j [])
    (hr : buffer[j]? = some r) (hne : r ≠ 35) : Fails buffer (rules.comment buffer fuel) p := by
  unfold rules.comment
  exact ruleFn_fails (tagged_fail (seq_cons_fail_tail hb
    (seq_cons_fail_head (matchChar_fail _ j r hr (by simpa using hne)))))

/-- Rule `line` where, after the blanks, a quote, a line end or the sentinel
stands: the header alternatives and the comment alternative fail, so the rule
does what its last two alternatives do. -/
theorem line_skip4_succ {buffer : List Nat} (fuel p j q r : Nat) (e : List Event)
    (hb : Succeeds buffer (rules.rule_ buffer fuel) p j [])
    (hr : buffer[j]? = some r) (h : r = 39 ∨ r = 4 ∨ r = 10 ∨ r = 13)
    (hc : Succeeds buffer
      (choice [seq [rules.rule_ buffer fuel,
                    choice [matchChar buffer '\n', matchChar buffer '\r']],
               seq [rules.rule_ buffer fuel, rules.connection buffer fuel fuel,
                    rules.rule_ buffer fuel, opt (rules.LineTerminator buffer fuel)]]) p q e) :
    Succeeds buffer (rules.line buffer fuel) p q e := by
  unfold rules.line
  refine tagged_plain ?_ rfl
  refine choice_skip_succ (seq_cons_fail_tail hb (seq_cons_fail_head
    (keyword_fails _ _ j r hr ?_ ?_))) ?_
  · rcases h with h | h | h | h <;> subst h <;> decide
  · rcases h with h | h | h | h <;> subst h <;> decide
  refine choice_skip_succ (seq_cons_fail_tail hb (seq_cons_fail_head
    (keyword_fails _ _ j r hr ?_ ?_))) ?_
  · rcases h with h | h | h | h <;> subst h <;> decide
  · rcases h with h | h | h | h <;> subst h <;> decide
  refine choice_skip_succ (seq_cons_fail_tail hb (seq_cons_fail_head
    (keyword_fails _ _ j r hr ?_ ?_))) ?_
  · rcases h with h | h | h | h <;> subst h <;> decide
  · rcases h with h | h | h | h <;> subst h <;> decide
  refine choice_skip_succ (seq_cons_fail_head (comment_fails_at fuel p j r hb hr ?_)) hc
  rcases h with h | h | h | h <;> subst h <;> decide

theorem line_skip4_fails {buffer : List Nat} (fuel p j r : Nat)
    (hb : Succeeds buffer (rules.rule_ buffer fuel) p j [])
    (hr : buffer[j]? = some r) (h : r = 39 ∨ r = 4 ∨ r = 10 ∨ r = 13)
    (hc : Fails buffer
      (choice [seq [rules.rule_ buffer fuel,
                    choice [matchChar buffer '\n', matchChar buffer '\r']],
               seq [rules.rule_ buffer fuel, rules.connection buffer fuel fuel,
                    rules.rule_ buffer fuel, opt (rules.LineTerminator buffer fuel)]]) p) :
    Fails buffer (rules.line buffer fuel) p := by
  unfold rules.line
  refine tagged_fail ?_
  refine choice_skip_fail (seq_cons_fail_tail hb (seq_cons_fail_head
    (keyword_fails _ _ j r hr ?_ ?_))) ?_
  · rcases h with h | h | h | h <;> subst h <;> decide
  · rcases h with h | h | h | h <;> subst h <;> decide
  refine choice_skip_fail (seq_cons_fail_tail hb (seq_cons_fail_head
    (keyword_fails _ _ j r hr ?_ ?_))) ?_
  · rcases h with h | h | h | h <;> subst h <;> decide
  · rcases h with h | h | h | h <;> subst h <;> decide
  refine choice_skip_fail (seq_cons_fail_tail hb (seq_cons_fail_head
    (keyword_fails _ _ j r hr ?_ ?_))) ?_
  · rcases h with h | h | h | h <;> subst h <;> decide
  · rcases h with h | h | h | h <;> subst h <;> decide
  refine choice_skip_fail (seq_cons_fail_head (comment_fails_at fuel p j r hb hr ?_)) hc
  rcases h with h | h | h | h <;> subst h <;> decide

/-- A blank line: blanks from `p` to `j`, where a line end stands. -/
theorem line_blank {buffer : List Nat} (hs : Sentinel buffer) (fuel p j r : Nat)
    (hb : Succeeds buffer (rules.rule_ buffer fuel) p j [])
    (hr : buffer[j]? = some r) (h : isNewline r = true) :
    Succeeds buffer (rules.line buffer fuel) p (j + 1) [] := by
  simp only [isNewline, decide_eq_true_eq] at h
  have hnl : Succeeds buffer (choice [matchChar buffer '\n', matchChar buffer '\r']) j (j + 1)
      [] := by
    rcases h with h | h <;> subst h
    · exact choice_head_succ (matchChar_succ hs '\n' j hr (by decide))
    · exact choice_skip_succ (matchChar_fail _ j 13 hr (by decide))
        (choice_one_succ (matchChar_succ hs '\r' j hr (by decide)))
  exact line_skip4_succ fuel p j (j + 1) r [] hb hr (Or.inr (Or.inr h))
    (choice_head_succ (seq_cons_succ hb (seq_cons_succ hnl (seq_nil_succ _ _))))

/-- Rule `line` at the last blanks of the input, which the sentinel follows,
fails. -/
theorem line_end_fails {buffer : List Nat} (fuel p j : Nat) (hf : 0 < fuel)
    (hb : Succeeds buffer (rules.rule_ buffer fuel) p j [])
    (hr : buffer[j]? = some 4) : Fails buffer (rules.line buffer fuel) p := by
  obtain ⟨n, hn⟩ : ∃ n, fuel = n + 1 := ⟨fuel - 1, by omega⟩
  have hconnF : Fails buffer (rules.connection buffer fuel fuel) j := by
    have := @connection_fails buffer fuel n j hr
    rw [← hn] at this
    exact this
  refine line_skip4_fails fuel p j 4 hb hr (Or.inr (Or.inl rfl)) ?_
  exact choice_skip_fail
    (seq_cons_fail_tail hb (seq_cons_fail_head
      (choice_skip_fail (matchChar_fail _ j 4 hr (by decide))
        (choice_one_fail (matchChar_fail _ j 4 hr (by decide))))))
    (choice_one_fail (seq_cons_fail_tail hb (seq_cons_fail_head hconnF)))

/-- Rule `LineTerminator` at a line end takes it. -/
theorem LineTerminator_newline {buffer : List Nat} (hs : Sentinel buffer) (fuel p r : Nat)
    (hf : 0 < fuel) (hr : buffer[p]? = some r) (h : isNewline r = true) :
    Succeeds buffer (rules.LineTerminator buffer fuel) p (p + 1) [] := by
  simp only [isNewline, decide_eq_true_eq] at h
  have h32 : r ≠ 32 := by rcases h with h | h <;> subst h <;> decide
  have h9 : r ≠ 9 := by rcases h with h | h <;> subst h <;> decide
  have hb := rule__stop fuel p r hf hr h32 h9
  have hnl : Succeeds buffer (choice [matchChar buffer '\n', matchChar buffer '\r']) p (p + 1)
      [] := by
    rcases h with h | h <;> subst h
    · exact choice_head_succ (matchChar_succ hs '\n' p hr (by decide))
    · exact choice_skip_succ (matchChar_fail _ p 13 hr (by decide))
        (choice_one_succ (matchChar_succ hs '\r' p hr (by decide)))
  unfold rules.LineTerminator
  exact ruleFn_succ (tagged_plain
    (seq_cons_succ hb
      (seq_cons_succ (opt_skip (matchChar_fail _ p r hr
          (by rcases h with h | h <;> subst h <;> decide)))
        (seq_cons_succ (opt_skip (comment_fails_at fuel p p r hb hr
            (by rcases h with h | h <;> subst h <;> decide)))
          (seq_cons_succ (opt_succ hnl) (seq_nil_succ _ _)))))
    rfl)

/-- Rule `connection` on a literal after which, blanks apart, no `->` follows. -/
theorem connection_literal {buffer : List Nat} (fuel n p c j r : Nat) (e : List Event)
    (hp : buffer[p]? = some 39) (hc : Succeeds buffer (rules.iip buffer fuel) p c e)
    (hb : Succeeds buffer (rules.rule_ buffer fuel) c j [])
    (hr : buffer[j]? = some r) (hne : r ≠ 45) :
    Succeeds buffer (rules.connection buffer fuel (n + 1)) p c e := by
  have hbr := bridge_succ fuel p c e hp hc
  unfold rules.connection
  exact ruleFn_succ (tagged_plain
    (choice_skip_succ
      (seq_cons_fail_tail hbr (seq_cons_fail_tail hb
        (seq_cons_fail_head (matchChar_fail _ j r hr (by simpa using hne)))))
      (choice_one_succ hbr)) rfl)

/-- The line of the literal: indentation from `p` to the quote at `a`, the
literal up to `c`, blanks up to `j`, and then the end of the line when one
stands there. -/
theorem line_literal {buffer : List Nat} (hs : Sentinel buffer) (fuel p a c j d r : Nat)
    (e : List Event) (hf : 0 < fuel)
    (hind : Succeeds buffer (rules.rule_ buffer fuel) p a [])
    (ha : buffer[a]? = some 39) (hc : Succeeds buffer (rules.iip buffer fuel) a c e)
    (hb : Succeeds buffer (rules.rule_ buffer fuel) c j [])
    (hr : buffer[j]? = some r)
    (hd : (r = 4 ∧ d = j) ∨ (isNewline r = true ∧ d = j + 1)) :
    Succeeds buffer (rules.line buffer fuel) p d e := by
  obtain ⟨n, hn⟩ : ∃ n, fuel = n + 1 := ⟨fuel - 1, by omega⟩
  have hne : r ≠ 45 := by
    rcases hd with ⟨h, _⟩ | ⟨h, _⟩
    · subst h; decide
    · simp only [isNewline, decide_eq_true_eq] at h
      rcases h with h | h <;> subst h <;> decide
  have hconn : Succeeds buffer (rules.connection buffer fuel fuel) a c e := by
    have := connection_literal fuel n a c j r e ha hc hb hr hne
    rw [← hn] at this
    exact this
  have hlt : Succeeds buffer (opt (rules.LineTerminator buffer fuel)) j d [] := by
    rcases hd with ⟨h, h1⟩ | ⟨h, h1⟩
    · subst h; subst h1
      exact opt_succ (LineTerminator_empty fuel d hf hr)
    · subst h1
      exact opt_succ (LineTerminator_newline hs fuel j r hf hr h)
  refine line_skip4_succ fuel p a d 39 e hind ha (Or.inl rfl) ?_
  refine choice_skip_succ (seq_cons_fail_tail hind (seq_cons_fail_head
    (choice_skip_fail (matchChar_fail _ a 39 ha (by decide))
      (choice_one_fail (matchChar_fail _ a 39 ha (by decide)))))) ?_
  exact choice_one_succ ((seq_cons_succ hind (seq_cons_succ hconn (seq_cons_succ hb
    (seq_cons_succ hlt (seq_nil_succ _ _))))).ofEq (by simp))

/-- The loop `line*` over blank lines: it goes on after them as it would from
there. -/
theorem star_blank_lines {buffer : List Nat} (hs : Sentinel buffer) (fuel : Nat) :
    ∀ (lines : List (List Nat × Nat)) (p f r : Nat) (e : List Event),
      Seg buffer p (joinLines lines) →
      (∀ l ∈ lines, (∀ x ∈ l.1, isBlank x = true) ∧ isNewline l.2 = true ∧ l.1.length < fuel) →
      Succeeds buffer (star f (rules.line buffer fuel)) (p + (joinLines lines).length) r e →
      Succeeds buffer (star (f + lines.length) (rules.line buffer fuel)) p r e := by
  intro lines
  induction lines with
  | nil =>
    intro p f r e _ _ h
    simpa [joinLines] using h
  | cons l lines ih =>
    intro p f r e hseg hl h
    have hj : joinLines (l :: lines) = l.1 ++ (l.2 :: joinLines lines) := by
      simp [joinLines]
    rw [hj] at hseg h
    obtain ⟨hs1, hs2⟩ := (Seg.append_iff buffer p _ _).1 hseg
    obtain ⟨hb1, hb2, hb3⟩ := hl l (List.mem_cons_self _ _)
    have hnb : isBlank l.2 = false := by
      simp only [isNewline, decide_eq_true_eq] at hb2
      rcases hb2 with h2 | h2 <;> rw [h2] <;> decide
    have hrun := rule__run hs fuel p l.2 l.1 hb3 hs1 hb1 hs2.head hnb
    have hline := line_blank hs fuel p (p + l.1.length) l.2 hrun hs2.head hb2
    have hrest := ih (p + l.1.length + 1) f r e hs2.tail
      (fun x hx => hl x (List.mem_cons_of_mem _ hx))
      (by
        have he : p + l.1.length + 1 + (joinLines lines).length =
            p + (l.1 ++ l.2 :: joinLines lines).length := by simp; omega
        rw [he]; exact h)
    have := (star_step (f + lines.length) hline hrest).ofEq (List.nil_append e)
    have he : f + (l :: lines).length = f + lines.length + 1 := by simp; omega
    rw [he]
    exact this

/-- A text of blanks and line ends is a list of blank lines followed by blanks. -/
theorem blank_lines_split :
    ∀ (W : List Nat), (∀ x ∈ W, isBlank x = true ∨ isNewline x = true) →
      ∃ (lines : List (List Nat × Nat)) (fin : List Nat),
        W = joinLines lines ++ fin ∧
        (∀ l ∈ lines, (∀ x ∈ l.1, isBlank x = true) ∧ isNewline l.2 = true) ∧
        (∀ x ∈ fin, isBlank x = true) := by
  intro W
  induction W with
  | nil => intro _; exact ⟨[], [], rfl, by simp, by simp⟩
  | cons x W ih =>
    intro h
    obtain ⟨lines, fin, h1, h2, h3⟩ := ih (fun y hy => h y (List.mem_cons_of_mem _ hy))
    by_cases hx : isNewline x = true
    · refine ⟨([], x) :: lines, fin, ?_, ?_, h3⟩
      · rw [h1]; simp [joinLines]
      · intro l hl
        rcases List.mem_cons.1 hl with e | e
        · subst e; exact ⟨by simp, hx⟩
        · exact h2 l e
    · have hb : isBlank x = true := by
        rcases h x (List.mem_cons_self _ _) with hb | hb
        · exact hb
        · exact absurd hb hx
      cases lines with
      | nil =>
        refine ⟨[], x :: fin, ?_, by simp, ?_⟩
        · rw [h1]; simp [joinLines]
        · intro y hy
          rcases List.mem_cons.1 hy with e | e
          · subst e; exact hb
          · exact h3 y e
      | cons l lines =>
        refine ⟨(x :: l.1, l.2) :: lines, fin, ?_, ?_, h3⟩
        · rw [h1]; simp [joinLines]
        · intro l1 hl1
          rcases List.mem_cons.1 hl1 with e | e
          · subst e
            obtain ⟨a1, a2⟩ := h2 l (List.mem_cons_self _ _)
            refine ⟨?_, a2⟩
            intro y hy
            rcases List.mem_cons.1 hy with e | e
            · subst e; exact hb
            · exact a1 y e
          · exact h2 l1 (List.mem_cons_of_mem _ e)

/-- Rule `start` on blank lines, then a line that commits the events `evs`,
then blank lines, then blanks up to the sentinel at `N`. -/
theorem start_lines {buffer : List Nat} (fuel p d q N k1 k3 : Nat) (evs : List Event)
    (hf : k1 + 1 + k3 + 1 ≤ fuel)
    (h1 : ∀ (f r : Nat) (e : List Event),
      Succeeds buffer (star f (rules.line buffer fuel)) p r e →
      Succeeds buffer (star (f + k1) (rules.line buffer fuel)) 0 r e)
    (hline : Succeeds buffer (rules.line buffer fuel) p d evs)
    (h3 : ∀ (f r : Nat) (e : List Event),
      Succeeds buffer (star f (rules.line buffer fuel)) q r e →
      Succeeds buffer (star (f + k3) (rules.line buffer fuel)) d r e)
    (hfin : Succeeds buffer (rules.rule_ buffer fuel) q N [])
    (hN : buffer[N]? = some 4) :
    Succeeds buffer (rules.start buffer fuel) 0 N evs := by
  have hstop := star_stop 0 (line_end_fails fuel q N (by omega) hfin hN)
  have hs3 := h3 _ _ _ hstop
  have hs2 := (star_step _ hline hs3).ofEq (List.append_nil evs)
  have hs1 := h1 _ _ _ hs2
  obtain ⟨k, hk⟩ : ∃ k, fuel = 0 + 1 + k3 + 1 + k1 + k := ⟨fuel - (0 + 1 + k3 + 1 + k1), by omega⟩
  have hstar : Succeeds buffer (star fuel (rules.line buffer fuel)) 0 q evs := by
    have := star_mono hs1 k
    rw [← hk] at this
    exact this
  unfold rules.start
  exact ruleFn_succ (tagged_plain
    ((seq_cons_succ hstar (seq_cons_succ hfin
      (seq_cons_succ (notP_succ (matchDot_fail _ hN)) (seq_nil_succ _ _)))).ofEq (by simp)) rfl)

/-- Rule `start` on an input that is one literal, with blank lines and
indentation before it and blanks, and perhaps a line end and blank lines,
after it. -/
theorem start_literal {buffer : List Nat} (hs : Sentinel buffer) (fuel : Nat)
    (lines1 lines3 : List (List Nat × Nat)) (ind T bl term fin : List Nat)
    (hbuf : buffer = joinLines lines1 ++ (ind ++ (39 :: (T ++ (39 :: (bl ++ (term ++
      (joinLines lines3 ++ (fin ++ [4])))))))))
    (hf : buffer.length ≤ fuel) (hlen : buffer.length ≤ 32768)
    (hl1 : ∀ l ∈ lines1, (∀ x ∈ l.1, isBlank x = true) ∧ isNewline l.2 = true)
    (hl3 : ∀ l ∈ lines3, (∀ x ∈ l.1, isBlank x = true) ∧ isNewline l.2 = true)
    (hind : ∀ x ∈ ind, isBlank x = true) (hbl : ∀ x ∈ bl, isBlank x = true)
    (hfin : ∀ x ∈ fin, isBlank x = true) (hT : literalText T = true)
    (hterm : (term = [] ∧ lines3 = [] ∧ fin = []) ∨ ∃ nl, term = [nl] ∧ isNewline nl = true) :
    Succeeds buffer (rules.start buffer fuel) 0 (buffer.length - 1)
      [.text ⟨(((joinLines lines1).length + ind.length + 1 : Nat) : Int),
          (((joinLines lines1).length + ind.length + 1 + T.length : Nat) : Int)⟩,
        .act .ruleAction7] := by
  have hw := Seg.whole buffer
  have hL : buffer.length = (joinLines lines1).length + ind.length + 1 + T.length + 1 +
      bl.length + term.length + (joinLines lines3).length + fin.length + 1 := by
    rw [hbuf]; simp; omega
  have hlen1 : ∀ l ∈ lines1, l.1.length < fuel := by
    intro l hl
    have : l.1.length ≤ (joinLines lines1).length := by
      simp only [joinLines, List.length_flatMap]
      exact le_trans (by simp) (List.single_le_sum (by simp) _
        (List.mem_map.2 ⟨l, hl, rfl⟩))
    omega
  have hlen3 : ∀ l ∈ lines3, l.1.length < fuel := by
    intro l hl
    have : l.1.length ≤ (joinLines lines3).length := by
      simp only [joinLines, List.length_flatMap]
      exact le_trans (by simp) (List.single_le_sum (by simp) _
        (List.mem_map.2 ⟨l, hl, rfl⟩))
    omega
  nth_rewrite 2 [hbuf] at hw
  obtain ⟨s1, s2⟩ := (Seg.append_iff buffer 0 _ _).1 hw
  obtain ⟨s3, s4⟩ := (Seg.append_iff buffer _ _ _).1 s2
  have s5 := s4.tail
  obtain ⟨s6, s7⟩ := (Seg.append_iff buffer _ _ _).1 s5
  have s8 := s7.tail
  obtain ⟨s9, s10⟩ := (Seg.append_iff buffer _ _ _).1 s8
  obtain ⟨s11, s12⟩ := (Seg.append_iff buffer _ _ _).1 s10
  obtain ⟨s13, s14⟩ := (Seg.append_iff buffer _ _ _).1 s12
  obtain ⟨s15, s16⟩ := (Seg.append_iff buffer _ _ _).1 s14
  have hN := s16.head
  simp only [Nat.zero_add] at s1 s3 s4 s6 s7 s9 s10 s11 s12 s13 s14 s15 s16 hN
  -- the quote, the literal and the blanks after it
  have hrind := rule__run hs fuel (joinLines lines1).length 39 ind (by omega) s3 hind s4.head
    (by decide)
  have hiip := iip_literal hs fuel ((joinLines lines1).length + ind.length) T (by omega)
    s4.head hT s6 s7.head (by omega)
  have hN1 : buffer.length - 1 = (joinLines lines1).length + ind.length + 1 + T.length + 1 +
      bl.length + term.length + (joinLines lines3).length + fin.length := by omega
  rw [hN1]
  have hb1 := fun f r e => star_blank_lines hs fuel lines1 0 f r e
    (by simpa using s1) (fun l hl => ⟨(hl1 l hl).1, (hl1 l hl).2, hlen1 l hl⟩)
  simp only [Nat.zero_add] at hb1
  have hk1 : lines1.length ≤ (joinLines lines1).length := by
    simp only [joinLines, List.length_flatMap]
    calc lines1.length = (lines1.map (fun _ => 1)).sum := by simp
      _ ≤ _ := List.sum_le_sum (fun l _ => by simp)
  have hk3 : lines3.length ≤ (joinLines lines3).length := by
    simp only [joinLines, List.length_flatMap]
    calc lines3.length = (lines3.map (fun _ => 1)).sum := by simp
      _ ≤ _ := List.sum_le_sum (fun l _ => by simp)
  rcases hterm with ⟨ht, hl3e, hfe⟩ | ⟨nl, ht, hnl⟩
  · subst ht; subst hl3e; subst hfe
    simp only [List.length_nil, Nat.add_zero, joinLines, List.flatMap_nil] at s11 s12 hN ⊢
    have hN4 : buffer[(joinLines lines1).length + ind.length + 1 + T.length + 1 + bl.length]? =
        some 4 := by simpa [joinLines] using hN
    have hrbl := rule__run hs fuel _ 4 bl (by omega) s9 hbl hN4 (by decide)
    have hline := line_literal hs fuel _ _ _ _ _ 4 _ (by omega) hrind s4.head hiip hrbl hN4
      (Or.inl ⟨rfl, rfl⟩)
    exact start_lines fuel _ _ _ _ lines1.length 0 _ (by omega) hb1 hline
      (fun f r e h => h) (rule__stop fuel _ 4 (by omega) hN4 (by decide) (by decide)) hN4
  · subst ht
    have hnb : isBlank nl = false := by
      simp only [isNewline, decide_eq_true_eq] at hnl
      rcases hnl with h2 | h2 <;> rw [h2] <;> decide
    have hrbl := rule__run hs fuel _ nl bl (by omega) s9 hbl s11.head hnb
    have hline := line_literal hs fuel _ _ _ _ _ nl _ (by omega) hrind s4.head hiip hrbl
      s11.head (Or.inr ⟨hnl, rfl⟩)
    simp only [List.length_singleton] at s13 s14 s15 s16 hN ⊢
    have hb3 := fun f r e => star_blank_lines hs fuel lines3 _ f r e s13
      (fun l hl => ⟨(hl3 l hl).1, (hl3 l hl).2, hlen3 l hl⟩)
    have hrfin := rule__run hs fuel _ 4 fin (by omega) s15 hfin hN (by decide)
    exact start_lines fuel _ _ _ _ lines1.length lines3.length _ (by omega) hb1 hline
      hb3 hrfin hN

theorem utf8.runesLoop_length_le :
    ∀ (n : Nat) (s : GoString), (utf8.runesLoop n s).length ≤ s.length := by
  intro n
  induction n with
  | zero => intro s; simp [utf8.runesLoop]
  | succ n ih =>
    intro s
    cases s with
    | nil => simp [utf8.runesLoop]
    | cons b0 rest =>
      simp only [utf8.runesLoop, List.length_cons]
      have := ih (rest.drop ((utf8.DecodeRune b0 rest).2 - 1))
      have h2 : (rest.drop ((utf8.DecodeRune b0 rest).2 - 1)).length ≤ rest.length := by
        simp
      omega

/-- A string has at most as many runes as bytes. -/
theorem utf8.runes_length_le (s : GoString) : (utf8.runes s).length ≤ s.length :=
  utf8.runesLoop_length_le s.length s

theorem literalText_no_sentinel :
    ∀ (n : Nat) (T : List Nat), T.length ≤ n → literalText T = true → ∀ x ∈ T, x ≠ 4 := by
  intro n
  induction n with
  | zero =>
    intro T hn _ x hx
    have hT : T = [] := List.length_eq_zero.1 (by omega)
    subst hT
    cases hx
  | succ n ih =>
    intro T hn hT
    match T, hn, hT with
    | [], _, _ => intro x hx; cases hx
    | [r], _, hT =>
      simp only [literalText, decide_eq_true_eq] at hT
      intro x hx
      simp only [List.mem_singleton] at hx
      subst hx
      exact hT.2.2
    | r :: r1 :: rest, hn, hT =>
      simp only [List.length_cons] at hn
      by_cases hp : r = 92 ∧ r1 = 39
      · simp only [literalText, if_pos hp] at hT
        intro x hx
        simp only [List.mem_cons] at hx
        rcases hx with e | e | e
        · rw [e, hp.1]; decide
        · rw [e, hp.2]; decide
        · exact ih rest (by omega) hT x e
      · simp only [literalText, if_neg hp, Bool.and_eq_true, decide_eq_true_eq] at hT
        intro x hx
        rcases List.mem_cons.1 hx with e | e
        · rw [e]; exact hT.1.2
        · exact ih (r1 :: rest) (by simp; omega) hT.2 x e

/-- The run of `Parse` and `Execute` when rule `start` succeeds with the events
of one literal. -/
theorem literal_replay (p0 : Fbp) (a m N : Nat) (hB : a + 1 + m ≤ p0.Buffer.length)
    (hstart : Succeeds p0.Init.buffer (rules.start p0.Init.buffer p0.Init.buffer.length) 0 N
      [.text ⟨((a + 1 : Nat) : Int), ((a + 1 + m : Nat) : Int)⟩, .act .ruleAction7]) :
    ∃ q r, p0.Init.Parse = .ok (q, true) ∧ q.Execute = .ok r ∧
      r.Processes = p0.Processes ∧ r.Connections = p0.Connections ∧
      r.iip = (p0.Buffer.drop (a + 1)).take m := by
  have hi := Init_inv p0
  obtain ⟨e, h1, h2, h3, h4⟩ := hstart p0.Init.engine hi rfl
  have hc0 : events p0.Init.engine.committed = [] := rfl
  rw [hc0, List.nil_append] at h4
  have hle : e.tokenIndex ≤ e.tree.len := h2.2.2.1
  have ht : (e.tree.trim e.tokenIndex).Tokens = e.committed := tokenTree.trim_Tokens _ _ hle
  have hv : (Span.mk ((a + 1 : Nat) : Int) ((a + 1 + m : Nat) : Int)).valid p0.Buffer = true := by
    simp only [Span.valid, decide_eq_true_eq]
    omega
  have hloop : Execute.loop p0.Buffer { begin := 0, end_ := 0, p := p0.toBaseFbp } e.committed =
      .ok ⟨((a + 1 : Nat) : Int), ((a + 1 + m : Nat) : Int),
        { p0.toBaseFbp with iip := (p0.Buffer.drop (a + 1)).take m }⟩ := by
    rw [loop_events, h4]
    simp only [List.map_cons, List.map_nil, loop_text, loop_act7 p0.Buffer _ _ _ hv, Span.text]
    have e1 : ((a + 1 : Nat) : Int).toNat = a + 1 := Int.toNat_ofNat _
    have e2 : ((a + 1 + m : Nat) : Int).toNat - (a + 1) = m := by
      rw [Int.toNat_ofNat]; omega
    rw [e1, e2]
    rfl
  have hparse : ∃ q, p0.Init.Parse = .ok (q, true) ∧ q.Buffer = p0.Buffer ∧
      q.toBaseFbp = p0.toBaseFbp ∧ q.tokenTree = some (e.tree.trim e.tokenIndex) := by
    simp only [Fbp.Parse, h1]
    exact ⟨_, rfl, rfl, rfl, rfl⟩
  obtain ⟨q, g1, g2, g3, g4⟩ := hparse
  have hex : ∃ r, q.Execute = .ok r ∧
      r.toBaseFbp = { p0.toBaseFbp with iip := (p0.Buffer.drop (a + 1)).take m } := by
    simp only [Fbp.Execute, g4, ht, g2, g3, hloop]
    exact ⟨_, rfl, rfl⟩
  obtain ⟨r, k1, k2⟩ := hex
  exact ⟨q, r, g1, k1, by rw [k2], by rw [k2], by rw [k2]⟩

/-- A text in which every quote stands right after a backslash, which holds no
sentinel character and which does not end with a backslash is one that the
loop of rule `iip` reads up to the closing quote. -/
theorem literalText_of (n : Nat) (T : List Nat) (hn : T.length ≤ n)
    (hq : ∀ i < T.length, T[i]? = some 39 → 0 < i ∧ T[i - 1]? = some 92)
    (h4 : 4 ∉ T) (hb : T.getLast? ≠ some 92) : literalText T = true := by
  induction n generalizing T with
  | zero =>
    cases T with
    | nil => rfl
    | cons a t => simp at hn
  | succ n ih =>
    match T, hn, hq, h4, hb with
    | [], _, _, _, _ => rfl
    | [r], _, hq, h4, hb =>
      have h0 : r ≠ 39 := fun h => absurd (hq 0 (by simp) (by simp [h])).1 (by decide)
      simp only [List.mem_singleton] at h4
      simp only [List.getLast?_singleton, ne_eq, Option.some.injEq] at hb
      simp only [literalText, decide_eq_true_eq]
      exact ⟨h0, hb, fun h => h4 h.symm⟩
    | r :: r1 :: rest, hn, hq, h4, hb =>
      have h0 : r ≠ 39 := fun h => absurd (hq 0 (by simp) (by simp [h])).1 (by decide)
      have hr4 : r ≠ 4 := fun h => h4 (by simp [h])
      simp only [List.length_cons] at hn
      simp only [literalText]
      split
      · rename_i hp
        apply ih rest (by omega)
        · intro i hi h
          have h1 := hq (i + 2) (by simp; omega) (by simpa using h)
          cases i with
          | zero =>
            have h2 := h1.2
            simp only [zero_add, Nat.add_one_sub_one, List.getElem?_cons_succ,
              List.getElem?_cons_zero, Option.some.injEq] at h2
            omega
          | succ j =>
            refine ⟨by omega, ?_⟩
            have h2 := h1.2
            simpa using h2
        · intro h
          exact h4 (by simp [h])
        · cases rest with
          | nil => simp
          | cons a t => simpa [List.getLast?_cons_cons] using hb
      · rename_i hp
        have hrest : literalText (r1 :: rest) = true := by
          apply ih (r1 :: rest) (by simp; omega)
          · intro i hi h
            have h1 := hq (i + 1) (by simpa using hi) (by simpa using h)
            cases i with
            | zero =>
              exfalso
              have h2 := h1.2
              simp only [zero_add, Nat.sub_self, List.getElem?_cons_zero,
                Option.some.injEq] at h2
              simp only [List.getElem?_cons_zero, Option.some.injEq] at h
              exact hp ⟨h2, h⟩
            | succ j =>
              refine ⟨by omega, ?_⟩
              have h2 := h1.2
              simpa using h2
          · intro h
            exact h4 (List.mem_cons_of_mem _ h)
          · simpa [List.getLast?_cons_cons] using hb
        simp [h0, hr4, hrest]

/-- C18, amended: an input of fewer than 32768 characters whose only content
is a single quoted literal, optionally surrounded by blank lines and
indentation (spaces, tabs, line feeds and carriage returns), is accepted by
`Parse`, and `Execute` on a fresh builder then yields 0 Processes and 0
Connections, for every literal text `T` in which every quote stands right after
a backslash, which holds no U+0004 and which does not end with a backslash.
The characters may be of any width. -/
theorem literal_alone (Buffer : GoString) (W1 T W2 : List Nat)
    (hr : utf8.runes Buffer = W1 ++ (39 :: (T ++ (39 :: W2))))
    (hW1 : ∀ x ∈ W1, isBlank x = true ∨ isNewline x = true)
    (hW2 : ∀ x ∈ W2, isBlank x = true ∨ isNewline x = true)
    (hq : ∀ i < T.length, T[i]? = some 39 → 0 < i ∧ T[i - 1]? = some 92)
    (h4 : 4 ∉ T) (hb : T.getLast? ≠ some 92)
    (hlen : (utf8.runes Buffer).length < 32768) :
    graphOf Buffer [] = some (true, [], []) := by
  have hT : literalText T = true := literalText_of T.length T (le_refl _) hq h4 hb
  obtain ⟨p0, hp0⟩ : ∃ p0, p0 = Fbp.new Buffer [] := ⟨_, rfl⟩
  have hBuf : p0.Buffer = Buffer := by rw [hp0]; rfl
  have hsp : ∀ x, isBlank x = true ∨ isNewline x = true → x ≠ 4 := by
    intro x hx h4
    subst h4
    rcases hx with h | h <;> exact absurd h (by decide)
  have hno : end_symbol ∉ utf8.runes p0.Buffer := by
    rw [hBuf, hr]
    simp only [List.mem_append, List.mem_cons, not_or]
    exact ⟨fun h => hsp _ (hW1 _ h) rfl, by decide,
      fun h => literalText_no_sentinel T.length T (le_refl _) hT _ h rfl, by decide,
      fun h => hsp _ (hW2 _ h) rfl⟩
  obtain ⟨lines1, ind, e1, a1, a2⟩ := blank_lines_split W1 hW1
  obtain ⟨lines2, fin2, e2, b1, b2⟩ := blank_lines_split W2 hW2
  have hbuf0 : p0.Init.buffer = W1 ++ (39 :: (T ++ (39 :: W2))) ++ [4] := by
    rw [Init_buffer p0 hno, hBuf, hr]
    rfl
  have hL : p0.Init.buffer.length = (utf8.runes Buffer).length + 1 := by
    rw [hbuf0, hr]; simp; omega
  have hrl := utf8.runes_length_le Buffer
  have hWl : W1.length + 1 + T.length + 1 ≤ (utf8.runes Buffer).length := by
    rw [hr]; simp; omega
  have hstart : Succeeds p0.Init.buffer (rules.start p0.Init.buffer p0.Init.buffer.length) 0
      (p0.Init.buffer.length - 1)
      [.text ⟨((W1.length + 1 : Nat) : Int), ((W1.length + 1 + T.length : Nat) : Int)⟩,
        .act .ruleAction7] := by
    have hW1l : W1.length = (joinLines lines1).length + ind.length := by rw [e1]; simp
    rw [hW1l]
    cases lines2 with
    | nil =>
      exact start_literal (Init_sentinel p0) _ lines1 [] ind T fin2 [] []
        (by rw [hbuf0, e1, e2]; simp [joinLines]) (le_refl _) (by omega) a1 (by simp) a2 b2
        (by simp) hT (Or.inl ⟨rfl, rfl, rfl⟩)
    | cons l lines3 =>
      obtain ⟨c1, c2⟩ := b1 l (List.mem_cons_self _ _)
      exact start_literal (Init_sentinel p0) _ lines1 lines3 ind T l.1 [l.2] fin2
        (by rw [hbuf0, e1, e2]; simp [joinLines]) (le_refl _) (by omega) a1
        (fun x hx => b1 x (List.mem_cons_of_mem _ hx)) a2 c1 b2 hT (Or.inr ⟨l.2, rfl, c2⟩)
  obtain ⟨q, r, h1, h2, h3, h4, _⟩ := literal_replay p0 W1.length T.length _
    (by rw [hBuf]; omega) hstart
  rw [hp0] at h1 h3 h4
  simp only [graphOf, testGraph, h1, h2, h3, h4]
  rfl

/-- Witness of `literal_alone`: the graphIIP text, a blank line and a tab
around `'5s'`; the same around `'a\'b'`, whose literal holds an escaped quote;
and the literal `'é'`, whose character takes two bytes. -/
theorem literal_alone_witness :
    utf8.runes graphIIP = [10, 9] ++ (39 :: ([53, 115] ++ (39 :: [10, 9]))) ∧
    graphOf graphIIP [] = some (true, [], []) ∧
    graphOf (str "\n\t'a\\'b'\n\t") [] = some (true, [], []) ∧
    graphOf (str "'é'") [] = some (true, [], []) :=
  ⟨by decide,
    literal_alone graphIIP [10, 9] [53, 115] [10, 9] (by decide) (by decide) (by decide)
      (by decide) (by decide) (by decide) (by decide),
    literal_alone (str "\n\t'a\\'b'\n\t") [10, 9] [97, 92, 39, 98] [10, 9] (by decide)
      (by decide) (by decide) (by decide) (by decide) (by decide) (by decide),
    literal_alone (str "'é'") [] [233] [] (by decide) (by decide) (by decide)
      (by decide) (by decide) (by decide) (by decide)⟩

set_option maxRecDepth 1000000 in
set_option maxHeartbeats 4000000 in
/-- The IIP text on an input with a two-byte character: on `'é' -> IN A` the
captured text of the literal runs from rune 1 to rune 2 and `Execute` slices
the bytes 1 to 2 of `Buffer`, so the Data of the Connection is the single byte
0xC3, the first half of `é`, and its Target is sliced one byte early as well.
With `e` in place of `é` the Data is `e` and the Target is `A.IN`. -/
theorem iip_missliced :
    graphOf (str "'é' -> IN A") [] =
      some (true, [], [⟨[195], none, some ⟨str " ", str " I"⟩⟩]) ∧
    str "é" = [195, 169] ∧
    graphOf (str "'e' -> IN A") [] =
      some (true, [], [⟨str "e", none, some ⟨str "A", str "IN"⟩⟩]) := by
  refine ⟨?_, ?_, ?_⟩ <;> decide!

end fbp
